import Mathlib

/-!
# Ledger core of `mol` (src/ledger.cpp): shallow embedding

The C++ ledger is a state machine over a transactional key/value store.  The
store is embedded as a record of tables (`block_store`); every handler of
`ledger_processor` becomes a pure function from a store to a result and a new
store, and `rollback_visitor` becomes a fuelled function returning `Option`.

Conventions of the embedding

* accounts and block hashes are 256-bit values, embedded as `Nat`; zero is the
  "absent" value exactly as in the source (`is_zero ()`);
* amounts are 128-bit: sums are taken modulo `2 ^ 128`, and `0 - x` is
  `neg128 x`;
* `block_count` is a 64-bit counter moved by `+ 1` and `- 1` only;
* `assert (...)` is a no-op (as under `NDEBUG`); a failed `account_get` leaves
  the default-constructed, all-zero record in place;
* `stats.inc` is not a store table and is left out;
* `mol::seconds_since_epoch ()` is the argument `now`.
-/

namespace mol

/-! ## Data model -/

/-- Record of the accounts table (`mol::account_info`). -/
structure account_info where
  head : Nat
  rep_block : Nat
  open_block : Nat
  balance : Nat
  modified : Nat
  block_count : Nat
deriving DecidableEq, Repr

/-- Key of the pending table: destination account and source block hash. -/
structure pending_key where
  account : Nat
  hash : Nat
deriving DecidableEq, Repr

/-- Value of the pending table: sending account and amount. -/
structure pending_info where
  source : Nat
  amount : Nat
deriving DecidableEq, Repr

/-- Value of the block-info sidecar. -/
structure block_info where
  account : Nat
  balance : Nat
deriving DecidableEq, Repr

/-- Key of the asset-account table. -/
structure asset_account_key where
  account : Nat
  asset : Nat
deriving DecidableEq, Repr

/-- Record of the asset-account table (`mol::asset_account_info`), in the
argument order of its constructor calls in `astate_block`. -/
structure asset_account_info where
  head : Nat
  rep_block : Nat
  open_block : Nat
  balance : Nat
  modified : Nat
  block_count : Nat
deriving DecidableEq, Repr

structure send_hashables where
  previous : Nat
  destination : Nat
  balance : Nat
deriving DecidableEq, Repr

structure send_block where
  hashables : send_hashables
  signature : Nat
deriving DecidableEq, Repr

structure receive_hashables where
  previous : Nat
  source : Nat
deriving DecidableEq, Repr

structure receive_block where
  hashables : receive_hashables
  signature : Nat
deriving DecidableEq, Repr

structure open_hashables where
  source : Nat
  representative : Nat
  account : Nat
deriving DecidableEq, Repr

structure open_block where
  hashables : open_hashables
  signature : Nat
deriving DecidableEq, Repr

structure change_hashables where
  previous : Nat
  representative : Nat
deriving DecidableEq, Repr

structure change_block where
  hashables : change_hashables
  signature : Nat
deriving DecidableEq, Repr

structure state_hashables where
  account : Nat
  previous : Nat
  representative : Nat
  balance : Nat
  link : Nat
deriving DecidableEq, Repr

structure state_block where
  hashables : state_hashables
  signature : Nat
deriving DecidableEq, Repr

structure astate_hashables where
  account : Nat
  previous : Nat
  representative : Nat
  balance : Nat
  link : Nat
  asset : Nat
deriving DecidableEq, Repr

structure astate_block where
  hashables : astate_hashables
  signature : Nat
deriving DecidableEq, Repr

/-- Sum type behind `mol::block` and its visitor (`opening` is the open block:
`open` is a keyword). -/
inductive block where
  | send (b : send_block)
  | receive (b : receive_block)
  | opening (b : open_block)
  | change (b : change_block)
  | state (b : state_block)
  | astate (b : astate_block)
deriving DecidableEq, Repr

/-- Modelled from the spec: `previous ()` of a block, "zero for `open`" (the
method lives in the block model, which is not part of src/). -/
def block.previous : block → Nat
  | .send b => b.hashables.previous
  | .receive b => b.hashables.previous
  | .opening _ => 0
  | .change b => b.hashables.previous
  | .state b => b.hashables.previous
  | .astate b => b.hashables.previous

/-- Modelled from the spec: the declaration order of `mol::block_type`, used
only through `type () < block_type::state` and `type () != block_type::state`;
the legacy variants come before `state`, the later-added `astate` after it. -/
def block.type : block → Nat
  | .send _ => 2
  | .receive _ => 3
  | .opening _ => 4
  | .change _ => 5
  | .state _ => 6
  | .astate _ => 7

/-- Numeric value of `mol::block_type::state`. -/
def block_type_state : Nat := 6

/-- Result tags of `process` (`mol::process_result`). -/
inductive process_result where
  | progress
  | bad_signature
  | old
  | negative_spend
  | fork
  | unreceivable
  | gap_previous
  | gap_source
  | state_block_disabled
  | opened_burn_account
  | balance_mismatch
  | block_position
  | account_not_exist
  | asset_not_exist
  | account_asset_not_exist
  | block_previous_error
deriving DecidableEq, Repr

/-- Value returned by `process` (`mol::process_return`). -/
structure process_return where
  code : process_result
  account : Nat
  amount : Nat
  pending_account : Nat
  state_is_send : Bool
deriving DecidableEq, Repr

/-- A block record of the block table: the block and the hash of its successor
(zero when it has none). -/
structure stored_block where
  contents : block
  successor : Nat
deriving DecidableEq, Repr

/-- The store: one field per logical table. -/
structure block_store where
  blocks : Nat → Option stored_block
  accounts : Nat → Option account_info
  pending : pending_key → Option pending_info
  frontiers : Nat → Option Nat
  representation : Nat → Nat
  block_infos : Nat → Option block_info
  checksum : Nat
  assets : Nat → Option Nat
  asset_accounts : asset_account_key → Option asset_account_info

/-- What the ledger consumes from outside src/ledger.cpp: hashing, signature
checking, the predecessor rule of the block model, configured constants and
the three chain visitors (`balance_visitor`, `amount_visitor`,
`representative_visitor`), which walk the block table. -/
structure ledger_env where
  hash : block → Nat
  validate_message : Nat → Nat → Nat → Bool
  valid_predecessor : block → block → Bool
  burn_account : Nat
  block_info_max : Nat
  state_block_parse_canary : Nat
  balance : (Nat → Option stored_block) → Nat → Nat
  amount : (Nat → Option stored_block) → Nat → Nat
  representative : (Nat → Option stored_block) → Nat → Nat

/-- Default-constructed `account_info`: every field zero. -/
def account_info.zero : account_info := ⟨0, 0, 0, 0, 0, 0⟩

/-- Default-constructed `process_return`. -/
def process_return.init : process_return := ⟨process_result.progress, 0, 0, 0, false⟩

/-- The value `0 - x` of 128-bit unsigned arithmetic. -/
def neg128 (x : Nat) : Nat := (2 ^ 128 - x % 2 ^ 128) % 2 ^ 128

/-! ## Store contract

Modelled from the spec (section 4.1): per table `get`, `put`, `del`, `exists`. -/

namespace block_store

/-- Modelled from the spec: `block_exists`. -/
@[simp] def block_exists (s : block_store) (hash : Nat) : Bool := (s.blocks hash).isSome

/-- Modelled from the spec: `block_get`, `none` for the null pointer. -/
@[simp] def block_get (s : block_store) (hash : Nat) : Option block :=
  (s.blocks hash).map stored_block.contents

/-- Modelled from the spec: `block_successor(prev_hash) → hash_or_zero`. -/
def block_successor (s : block_store) (hash : Nat) : Nat :=
  match s.blocks hash with
  | some r => r.successor
  | none => 0

/-- Table with the successor field of the record under `hash` set to `succ`. -/
def set_successor (t : Nat → Option stored_block) (hash succ : Nat) : Nat → Option stored_block :=
  match t hash with
  | some r => Function.update t hash (some ⟨r.contents, succ⟩)
  | none => t

/-- Block table after `block_put`: the new record has no successor, and the
record of `previous` (when there is one) gets the new block as successor. -/
def blocks_put (t : Nat → Option stored_block) (hash : Nat) (b : block) :
    Nat → Option stored_block :=
  let t1 := Function.update t hash (some ⟨b, 0⟩)
  if b.previous = 0 then t1 else set_successor t1 b.previous hash

/-- Modelled from the spec: `block_put` stores the block without successor and
records it as the successor of its `previous` (the pointer that
`block_successor` reads and `block_successor_clear` resets). -/
@[simp] def block_put (s : block_store) (hash : Nat) (b : block) : block_store :=
  { s with blocks := blocks_put s.blocks hash b }

/-- Modelled from the spec: `block_del`. -/
@[simp] def block_del (s : block_store) (hash : Nat) : block_store :=
  { s with blocks := Function.update s.blocks hash none }

/-- Modelled from the spec: `block_successor_clear(prev_hash)`. -/
@[simp] def block_successor_clear (s : block_store) (hash : Nat) : block_store :=
  { s with blocks := set_successor s.blocks hash 0 }

/-- Modelled from the spec: `account_get`; `none` is the error return. -/
@[simp] def account_get (s : block_store) (account : Nat) : Option account_info := s.accounts account

/-- Modelled from the spec: `account_exists`. -/
@[simp] def account_exists (s : block_store) (account : Nat) : Bool := (s.accounts account).isSome

/-- Modelled from the spec: `account_put`. -/
@[simp] def account_put (s : block_store) (account : Nat) (info : account_info) : block_store :=
  { s with accounts := Function.update s.accounts account (some info) }

/-- Modelled from the spec: `account_del`. -/
@[simp] def account_del (s : block_store) (account : Nat) : block_store :=
  { s with accounts := Function.update s.accounts account none }

/-- Modelled from the spec: `pending_get`; `none` is the error return. -/
@[simp] def pending_get (s : block_store) (key : pending_key) : Option pending_info := s.pending key

/-- Modelled from the spec: `pending_exists`. -/
@[simp] def pending_exists (s : block_store) (key : pending_key) : Bool := (s.pending key).isSome

/-- Modelled from the spec: `pending_put`. -/
@[simp] def pending_put (s : block_store) (key : pending_key) (info : pending_info) : block_store :=
  { s with pending := Function.update s.pending key (some info) }

/-- Modelled from the spec: `pending_del`. -/
@[simp] def pending_del (s : block_store) (key : pending_key) : block_store :=
  { s with pending := Function.update s.pending key none }

/-- Modelled from the spec: `frontier_get`, zero when there is no entry. -/
@[simp] def frontier_get (s : block_store) (hash : Nat) : Nat := (s.frontiers hash).getD 0

/-- Modelled from the spec: `frontier_put`. -/
@[simp] def frontier_put (s : block_store) (hash account : Nat) : block_store :=
  { s with frontiers := Function.update s.frontiers hash (some account) }

/-- Modelled from the spec: `frontier_del`. -/
@[simp] def frontier_del (s : block_store) (hash : Nat) : block_store :=
  { s with frontiers := Function.update s.frontiers hash none }

/-- Modelled from the spec: `representation_get`. -/
@[simp] def representation_get (s : block_store) (key : Nat) : Nat := s.representation key

/-- Modelled from the spec: `representation_add(hash, signed_delta)`, a 128-bit
addition ("subtraction via two's-complement wrapping"). -/
@[simp] def representation_add (s : block_store) (key delta : Nat) : block_store :=
  { s with representation :=
      Function.update s.representation key ((s.representation key + delta) % 2 ^ 128) }

/-- Modelled from the spec: `block_info_get`; `none` is the error return. -/
@[simp] def block_info_get (s : block_store) (hash : Nat) : Option block_info := s.block_infos hash

/-- Modelled from the spec: `block_info_put`. -/
@[simp] def block_info_put (s : block_store) (hash : Nat) (info : block_info) : block_store :=
  { s with block_infos := Function.update s.block_infos hash (some info) }

/-- Modelled from the spec: `block_info_del`. -/
@[simp] def block_info_del (s : block_store) (hash : Nat) : block_store :=
  { s with block_infos := Function.update s.block_infos hash none }

/-- Modelled from the spec: `checksum_get` of the single accumulator. -/
@[simp] def checksum_get (s : block_store) : Nat := s.checksum

/-- Modelled from the spec: `checksum_put` of the single accumulator. -/
@[simp] def checksum_put (s : block_store) (value : Nat) : block_store :=
  { s with checksum := value }

/-- Modelled from the spec: `asset_exists` of the asset table. -/
@[simp] def asset_exists (s : block_store) (asset : Nat) : Bool := (s.assets asset).isSome

/-- Modelled from the spec: `asset_put` of the asset table. -/
@[simp] def asset_put (s : block_store) (asset account : Nat) : block_store :=
  { s with assets := Function.update s.assets asset (some account) }

/-- Modelled from the spec: `asset_account_exists` of the asset-account table. -/
@[simp] def asset_account_exists (s : block_store) (key : asset_account_key) : Bool :=
  (s.asset_accounts key).isSome

/-- Modelled from the spec: `asset_account_get`; `none` is the error return. -/
@[simp] def asset_account_get (s : block_store) (key : asset_account_key) : Option asset_account_info :=
  s.asset_accounts key

/-- Modelled from the spec: `asset_account_put` of the asset-account table. -/
@[simp] def asset_account_put (s : block_store) (key : asset_account_key) (info : asset_account_info) :
    block_store :=
  { s with asset_accounts := Function.update s.asset_accounts key (some info) }

end block_store

/-! ## Bookkeeping (`mol::ledger`) -/

namespace ledger

/-- `mol::ledger::checksum_update`: XOR `hash_a` into the accumulator. -/
@[simp] def checksum_update (s : block_store) (hash_a : Nat) : block_store :=
  s.checksum_put (s.checksum_get ^^^ hash_a)

/-- `mol::ledger::change_latest`. -/
def change_latest (env : ledger_env) (now : Nat) (s : block_store)
    (account_a hash_a rep_block_a balance_a block_count_a : Nat) (is_state : Bool) : block_store :=
  let found := s.account_get account_a
  let info := found.getD account_info.zero
  let s1 := if found.isSome then checksum_update s info.head else s
  let info1 := if found.isSome then info else { info with open_block := hash_a }
  if hash_a ≠ 0 then
    let info2 : account_info :=
      { info1 with
        head := hash_a, rep_block := rep_block_a, balance := balance_a,
        modified := now, block_count := block_count_a }
    let s2 := s1.account_put account_a info2
    let s3 :=
      if block_count_a % env.block_info_max = 0 ∧ is_state = false then
        s2.block_info_put hash_a ⟨account_a, balance_a⟩
      else s2
    checksum_update s3 hash_a
  else
    s1.account_del account_a

/-- `mol::ledger::state_block_parsing_enabled`. -/
def state_block_parsing_enabled (env : ledger_env) (s : block_store) : Bool :=
  s.block_exists env.state_block_parse_canary

/-- `mol::ledger::latest`. -/
def latest (s : block_store) (account_a : Nat) : Nat :=
  match s.account_get account_a with
  | some info => info.head
  | none => 0

/-- `mol::ledger::balance`, through the `balance_visitor` of the environment. -/
@[simp] def balance (env : ledger_env) (s : block_store) (hash_a : Nat) : Nat :=
  env.balance s.blocks hash_a

/-- `mol::ledger::amount`, through the `amount_visitor` of the environment. -/
@[simp] def amount (env : ledger_env) (s : block_store) (hash_a : Nat) : Nat :=
  env.amount s.blocks hash_a

/-- `mol::ledger::representative`, through the `representative_visitor` of the
environment. -/
@[simp] def representative (env : ledger_env) (s : block_store) (hash_a : Nat) : Nat :=
  env.representative s.blocks hash_a

end ledger

/-! ## Validator (`ledger_processor`) -/

namespace ledger_processor

/-- Lines 543-552 of `ledger_processor::change_block`: the index updates of an
accepted change block of `account`, whose record is `info`. -/
def change_block_apply (env : ledger_env) (now : Nat) (s : block_store)
    (block_a : mol.change_block) (account : Nat) (info : account_info) : block_store :=
  let hash := env.hash (block.change block_a)
  let s1 := s.block_put hash (block.change block_a)
  let balance := ledger.balance env s1 block_a.hashables.previous
  let s2 := s1.representation_add hash balance
  let s3 := s2.representation_add info.rep_block (neg128 balance)
  let s4 := ledger.change_latest env now s3 account hash hash info.balance
    (info.block_count + 1) false
  let s5 := s4.frontier_del block_a.hashables.previous
  s5.frontier_put hash account

/-- `ledger_processor::change_block`. -/
def change_block (env : ledger_env) (now : Nat) (s : block_store) (block_a : mol.change_block) :
    process_return × block_store :=
  let result := process_return.init
  let hash := env.hash (block.change block_a)
  if s.block_exists hash then ({ result with code := process_result.old }, s)
  else
    match s.block_get block_a.hashables.previous with
    | none => ({ result with code := process_result.gap_previous }, s)
    | some previous =>
      if env.valid_predecessor (block.change block_a) previous = false then
        ({ result with code := process_result.block_position }, s)
      else
        let account := s.frontier_get block_a.hashables.previous
        if account = 0 then ({ result with code := process_result.fork }, s)
        else
          let info := (s.account_get account).getD account_info.zero
          if env.validate_message account hash block_a.signature then
            ({ result with code := process_result.bad_signature }, s)
          else
            ({ result with code := process_result.progress, account := account, amount := 0 },
              change_block_apply env now s block_a account info)

/-- Lines 588-598 of `ledger_processor::send_block`: the index updates of an
accepted send block of `account`, whose record is `info`. -/
def send_block_apply (env : ledger_env) (now : Nat) (s : block_store)
    (block_a : mol.send_block) (account : Nat) (info : account_info) : block_store :=
  let hash := env.hash (block.send block_a)
  let amount := info.balance - block_a.hashables.balance
  let s1 := s.representation_add info.rep_block (neg128 amount)
  let s2 := s1.block_put hash (block.send block_a)
  let s3 := ledger.change_latest env now s2 account hash info.rep_block
    block_a.hashables.balance (info.block_count + 1) false
  let s4 := s3.pending_put ⟨block_a.hashables.destination, hash⟩ ⟨account, amount⟩
  let s5 := s4.frontier_del block_a.hashables.previous
  s5.frontier_put hash account

/-- `ledger_processor::send_block`. -/
def send_block (env : ledger_env) (now : Nat) (s : block_store) (block_a : mol.send_block) :
    process_return × block_store :=
  let result := process_return.init
  let hash := env.hash (block.send block_a)
  if s.block_exists hash then ({ result with code := process_result.old }, s)
  else
    match s.block_get block_a.hashables.previous with
    | none => ({ result with code := process_result.gap_previous }, s)
    | some previous =>
      if env.valid_predecessor (block.send block_a) previous = false then
        ({ result with code := process_result.block_position }, s)
      else
        let account := s.frontier_get block_a.hashables.previous
        if account = 0 then ({ result with code := process_result.fork }, s)
        else if env.validate_message account hash block_a.signature then
          ({ result with code := process_result.bad_signature }, s)
        else
          let info := (s.account_get account).getD account_info.zero
          if info.balance ≥ block_a.hashables.balance then
            ({ result with
                code := process_result.progress, account := account,
                amount := info.balance - block_a.hashables.balance,
                pending_account := block_a.hashables.destination },
              send_block_apply env now s block_a account info)
          else ({ result with code := process_result.negative_spend }, s)

/-- Lines 641-653 of `ledger_processor::receive_block`: the index updates of an
accepted receive block of `account`, whose record is `info`, consuming the
entry `pending`. -/
def receive_block_apply (env : ledger_env) (now : Nat) (s : block_store)
    (block_a : mol.receive_block) (account : Nat) (info : account_info)
    (pending : pending_info) : block_store :=
  let hash := env.hash (block.receive block_a)
  let new_balance := (info.balance + pending.amount) % 2 ^ 128
  let s1 := s.pending_del ⟨account, block_a.hashables.source⟩
  let s2 := s1.block_put hash (block.receive block_a)
  let s3 := ledger.change_latest env now s2 account hash info.rep_block new_balance
    (info.block_count + 1) false
  let s4 := s3.representation_add info.rep_block pending.amount
  let s5 := s4.frontier_del block_a.hashables.previous
  s5.frontier_put hash account

/-- `ledger_processor::receive_block`. -/
def receive_block (env : ledger_env) (now : Nat) (s : block_store) (block_a : mol.receive_block) :
    process_return × block_store :=
  let result := process_return.init
  let hash := env.hash (block.receive block_a)
  if s.block_exists hash then ({ result with code := process_result.old }, s)
  else
    match s.block_get block_a.hashables.previous with
    | none => ({ result with code := process_result.gap_previous }, s)
    | some previous =>
      if env.valid_predecessor (block.receive block_a) previous = false then
        ({ result with code := process_result.block_position }, s)
      else if s.block_exists block_a.hashables.source = false then
        ({ result with code := process_result.gap_source }, s)
      else
        let account := s.frontier_get block_a.hashables.previous
        if account = 0 then
          if s.block_exists block_a.hashables.previous then
            ({ result with code := process_result.fork }, s)
          else ({ result with code := process_result.gap_previous }, s)
        else if env.validate_message account hash block_a.signature then
          ({ result with code := process_result.bad_signature }, s)
        else
          let info := (s.account_get account).getD account_info.zero
          if info.head ≠ block_a.hashables.previous then
            ({ result with code := process_result.gap_previous }, s)
          else
            match s.pending_get ⟨account, block_a.hashables.source⟩ with
            | none => ({ result with code := process_result.unreceivable }, s)
            | some pending =>
              ({ result with
                  code := process_result.progress, account := account,
                  amount := pending.amount },
                receive_block_apply env now s block_a account info pending)

/-- Lines 694-704 of `ledger_processor::open_block`: the index updates of an
accepted open block consuming the entry `pending`; `info` is the record left
default-constructed by the failed `account_get`. -/
def open_block_apply (env : ledger_env) (now : Nat) (s : block_store)
    (block_a : mol.open_block) (info : account_info) (pending : pending_info) : block_store :=
  let hash := env.hash (block.opening block_a)
  let s1 := s.pending_del ⟨block_a.hashables.account, block_a.hashables.source⟩
  let s2 := s1.block_put hash (block.opening block_a)
  let s3 := ledger.change_latest env now s2 block_a.hashables.account hash hash
    pending.amount (info.block_count + 1) false
  let s4 := s3.representation_add hash pending.amount
  s4.frontier_put hash block_a.hashables.account

/-- `ledger_processor::open_block`. -/
def open_block (env : ledger_env) (now : Nat) (s : block_store) (block_a : mol.open_block) :
    process_return × block_store :=
  let result := process_return.init
  let hash := env.hash (block.opening block_a)
  if s.block_exists hash then ({ result with code := process_result.old }, s)
  else if s.block_exists block_a.hashables.source = false then
    ({ result with code := process_result.gap_source }, s)
  else if env.validate_message block_a.hashables.account hash block_a.signature then
    ({ result with code := process_result.bad_signature }, s)
  else
    match s.account_get block_a.hashables.account with
    | some _ => ({ result with code := process_result.fork }, s)
    | none =>
      match s.pending_get ⟨block_a.hashables.account, block_a.hashables.source⟩ with
      | none => ({ result with code := process_result.unreceivable }, s)
      | some pending =>
        if block_a.hashables.account = env.burn_account then
          ({ result with code := process_result.opened_burn_account }, s)
        else
          ({ result with
              code := process_result.progress, account := block_a.hashables.account,
              amount := pending.amount },
            open_block_apply env now s block_a account_info.zero pending)

/-- Lines 201-229 of `ledger_processor::state_block_impl`: the checks that
depend on whether the account has a record.  Returns the code, `result.amount`
and `is_send` they leave behind. -/
def state_block_account_checks (s : block_store) (block_a : mol.state_block) :
    process_result × Nat × Bool :=
  let found := s.account_get block_a.hashables.account
  let info := found.getD account_info.zero
  let amount0 := block_a.hashables.balance
  if found.isSome then
    -- Account already exists
    if block_a.hashables.previous = 0 then (process_result.fork, amount0, false)
    else if s.block_exists block_a.hashables.previous = false then
      (process_result.gap_previous, amount0, false)
    else
      let is_send := decide (block_a.hashables.balance < info.balance)
      let amount := if is_send then info.balance - amount0 else amount0 - info.balance
      if block_a.hashables.previous = info.head then (process_result.progress, amount, is_send)
      else (process_result.fork, amount, is_send)
  else
    -- Account does not yet exists
    if block_a.hashables.previous ≠ 0 then (process_result.gap_previous, amount0, false)
    else if block_a.hashables.link ≠ 0 then (process_result.progress, amount0, false)
    else (process_result.gap_source, amount0, false)

/-- Lines 230-254 of `ledger_processor::state_block_impl`: the checks of the
non-send path, run when the code is still `progress`. -/
def state_block_link_checks (s : block_store) (block_a : mol.state_block)
    (code : process_result) (amount : Nat) (is_send : Bool) : process_result :=
  if code = process_result.progress then
    if is_send = false then
      if block_a.hashables.link ≠ 0 then
        if s.block_exists block_a.hashables.link then
          match s.pending_get ⟨block_a.hashables.account, block_a.hashables.link⟩ with
          | none => process_result.unreceivable
          | some pending =>
            if amount = pending.amount then process_result.progress
            else process_result.balance_mismatch
        else process_result.gap_source
      else
        -- If there's no link, the balance must remain the same
        if amount = 0 then process_result.progress else process_result.balance_mismatch
    else process_result.progress
  else code

/-- Lines 255-289 of `ledger_processor::state_block_impl`: the index updates of
an accepted state block. -/
def state_block_apply (env : ledger_env) (now : Nat) (s : block_store) (block_a : mol.state_block)
    (info : account_info) (amount : Nat) (is_send : Bool) : block_store :=
  let hash := env.hash (block.state block_a)
  let s1 := s.block_put hash (block.state block_a)
  let s2 :=
    if info.rep_block ≠ 0 then s1.representation_add info.rep_block (neg128 info.balance)
    else s1
  let s3 := s2.representation_add hash block_a.hashables.balance
  let s4 :=
    if is_send then
      s3.pending_put ⟨block_a.hashables.link, hash⟩ ⟨block_a.hashables.account, amount⟩
    else if block_a.hashables.link ≠ 0 then
      s3.pending_del ⟨block_a.hashables.account, block_a.hashables.link⟩
    else s3
  let s5 := ledger.change_latest env now s4 block_a.hashables.account hash hash
    block_a.hashables.balance (info.block_count + 1) true
  if s5.frontier_get info.head ≠ 0 then s5.frontier_del info.head else s5

/-- `ledger_processor::state_block_impl`. -/
def state_block_impl (env : ledger_env) (now : Nat) (s : block_store) (block_a : mol.state_block) :
    process_return × block_store :=
  let result := process_return.init
  let hash := env.hash (block.state block_a)
  if s.block_exists hash then ({ result with code := process_result.old }, s)
  else if env.validate_message block_a.hashables.account hash block_a.signature then
    ({ result with code := process_result.bad_signature }, s)
  else if block_a.hashables.account = 0 then
    ({ result with code := process_result.opened_burn_account }, s)
  else
    let info := (s.account_get block_a.hashables.account).getD account_info.zero
    let checked := state_block_account_checks s block_a
    let amount := checked.2.1
    let is_send := checked.2.2
    let code := state_block_link_checks s block_a checked.1 amount is_send
    let result1 := { result with code := code, amount := amount }
    if code = process_result.progress then
      ({ result1 with state_is_send := is_send, account := block_a.hashables.account },
        state_block_apply env now s block_a info amount is_send)
    else (result1, s)

/-- `ledger_processor::state_block`. -/
def state_block (env : ledger_env) (now : Nat) (s : block_store) (block_a : mol.state_block) :
    process_return × block_store :=
  if ledger.state_block_parsing_enabled env s then state_block_impl env now s block_a
  else ({ process_return.init with code := process_result.state_block_disabled }, s)

/-- The stores written by the two accepting paths of `astate_block` that extend
an asset chain: `block_put`, then `asset_account_put` of the new head. -/
def astate_put (now : Nat) (s : block_store) (hash : Nat) (block_a : mol.astate_block)
    (rep_block open_block block_count : Nat) : block_store :=
  (s.block_put hash (block.astate block_a)).asset_account_put
    ⟨block_a.hashables.account, block_a.hashables.asset⟩
    ⟨hash, rep_block, open_block, block_a.hashables.balance, now, block_count⟩

/-- `ledger_processor::astate_block`. -/
def astate_block (env : ledger_env) (now : Nat) (s : block_store) (block_a : mol.astate_block) :
    process_return × block_store :=
  let result := process_return.init
  let hash := env.hash (block.astate block_a)
  let h := block_a.hashables
  if s.block_exists hash then ({ result with code := process_result.old }, s)
  else if env.validate_message h.account hash block_a.signature then
    ({ result with code := process_result.bad_signature }, s)
  else if h.account = 0 then ({ result with code := process_result.opened_burn_account }, s)
  else if s.account_exists h.account = false then
    ({ result with code := process_result.account_not_exist }, s)
  else
    let result1 := { result with amount := h.balance }
    match s.account_get h.account with
    | none => ({ result1 with code := process_result.progress }, s)
    | some info =>
      if s.asset_exists h.asset then
        if s.asset_account_exists ⟨h.account, h.asset⟩ then
          -- astate send / receive block
          if h.previous = 0 then ({ result1 with code := process_result.block_previous_error }, s)
          else if s.block_exists h.previous = false then
            ({ result1 with code := process_result.gap_previous }, s)
          else
            match s.asset_account_get ⟨h.account, h.asset⟩ with
            | none => ({ result1 with code := process_result.progress }, s)
            | some info_asset_account =>
              if h.previous ≠ info_asset_account.head then
                ({ result1 with code := process_result.block_previous_error }, s)
              else
                let is_send := decide (h.balance < info_asset_account.balance)
                let amount :=
                  if is_send then info_asset_account.balance - result1.amount
                  else result1.amount - info_asset_account.balance
                let result2 := { result1 with code := process_result.progress, amount := amount }
                if is_send then
                  let s1 := astate_put now s hash block_a info_asset_account.rep_block
                    info_asset_account.open_block (info_asset_account.block_count + 1)
                  (result2, s1.pending_put ⟨h.link, hash⟩ ⟨h.account, amount⟩)
                else if h.link ≠ 0 then
                  if s.block_exists h.link = false then
                    ({ result2 with code := process_result.gap_source }, s)
                  else
                    match s.pending_get ⟨h.account, h.link⟩ with
                    | none => ({ result2 with code := process_result.unreceivable }, s)
                    | some pending =>
                      if amount = pending.amount then
                        let s1 := astate_put now s hash block_a info_asset_account.rep_block
                          info_asset_account.open_block (info_asset_account.block_count + 1)
                        (result2, s1.pending_del ⟨h.account, h.link⟩)
                      else ({ result2 with code := process_result.balance_mismatch }, s)
                else (result2, s)
        else
          -- astate open block
          if h.previous = 0 then ({ result1 with code := process_result.block_previous_error }, s)
          else if s.block_exists h.previous = false then
            ({ result1 with code := process_result.gap_previous }, s)
          else if h.previous ≠ info.open_block then
            ({ result1 with code := process_result.block_previous_error }, s)
          else if h.link ≠ 0 then
            if s.block_exists h.link = false then
              ({ result1 with code := process_result.gap_source }, s)
            else
              match s.pending_get ⟨h.account, h.link⟩ with
              | none => ({ result1 with code := process_result.unreceivable }, s)
              | some pending =>
                if result1.amount = pending.amount then
                  let s1 := astate_put now s hash block_a info.rep_block hash 1
                  ({ result1 with code := process_result.progress },
                    s1.pending_del ⟨h.account, h.link⟩)
                else ({ result1 with code := process_result.balance_mismatch }, s)
          else ({ result1 with code := process_result.progress }, s)
      else
        -- a new asset is created
        if h.previous = 0 then ({ result1 with code := process_result.block_previous_error }, s)
        else if s.block_exists h.previous = false then
          ({ result1 with code := process_result.gap_previous }, s)
        else
          let s1 := s.block_put hash (block.astate block_a)
          let s2 := s1.asset_put h.asset h.account
          ({ result1 with code := process_result.progress },
            s2.asset_account_put ⟨h.account, h.asset⟩ ⟨hash, info.rep_block, hash, h.balance, now, 1⟩)

end ledger_processor

/-- `mol::ledger::process`: dispatch on the block variant. -/
def ledger.process (env : ledger_env) (now : Nat) (s : block_store) (block_a : block) :
    process_return × block_store :=
  match block_a with
  | block.send b => ledger_processor.send_block env now s b
  | block.receive b => ledger_processor.receive_block env now s b
  | block.opening b => ledger_processor.open_block env now s b
  | block.change b => ledger_processor.change_block env now s b
  | block.state b => ledger_processor.state_block env now s b
  | block.astate b => ledger_processor.astate_block env now s b

/-! ## Derived query `account` -/

/-- The `while` loop of `mol::ledger::account`, on the locals `hash`,
`successor`, `block` and `block_info`; `none` when the fuel runs out or a null
block would be dereferenced. -/
def ledger.account_loop (s : block_store) :
    Nat → Nat → Nat → block → block_info → Option (Nat × Nat × block × block_info)
  | 0, _, _, _, _ => none
  | fuel + 1, hash, successor, blk, info =>
    if successor ≠ 0 ∧ blk.type ≠ block_type_state then
      match s.block_info_get successor with
      | some found => some (hash, successor, blk, found)
      | none =>
        let successor1 := s.block_successor hash
        if successor1 ≠ 0 then
          match s.block_get successor1 with
          | none => none
          | some blk1 => ledger.account_loop s fuel successor1 successor1 blk1 info
        else ledger.account_loop s fuel hash successor1 blk info
    else some (hash, successor, blk, info)

/-- `mol::ledger::account`: the account containing `hash_a`. -/
def ledger.account (s : block_store) (fuel : Nat) (hash_a : Nat) : Option Nat :=
  match s.block_get hash_a with
  | none => none
  | some blk0 =>
    match ledger.account_loop s fuel hash_a 1 blk0 ⟨0, 0⟩ with
    | none => none
    | some (hash, successor, blk, info) =>
      if blk.type = block_type_state then
        match blk with
        | block.state state_block => some state_block.hashables.account
        | _ => none
      else if successor = 0 then some (s.frontier_get hash)
      else some info.account

/-! ## Rollback visitor (`rollback_visitor`) -/

namespace rollback_visitor

/-- `rollback_visitor::send_block` after its `while` loop: `pending` is the
entry read by the last `pending_get`. -/
def send_block (env : ledger_env) (now : Nat) (s : block_store) (block_a : mol.send_block)
    (pending : pending_info) : block_store :=
  let hash := env.hash (block.send block_a)
  let key : pending_key := ⟨block_a.hashables.destination, hash⟩
  let info := (s.account_get pending.source).getD account_info.zero
  let s1 := s.pending_del key
  let s2 := s1.representation_add (ledger.representative env s1 hash) pending.amount
  let s3 := ledger.change_latest env now s2 pending.source block_a.hashables.previous info.rep_block
    (ledger.balance env s2 block_a.hashables.previous) (info.block_count - 1) false
  let s4 := s3.block_del hash
  let s5 := s4.frontier_del hash
  let s6 := s5.frontier_put block_a.hashables.previous pending.source
  let s7 := s6.block_successor_clear block_a.hashables.previous
  if info.block_count % env.block_info_max = 0 then s7.block_info_del hash else s7

/-- Lines 52-66 of `rollback_visitor::receive_block`, after the two calls of
`ledger.account` returned `destination_account` and `source_account`. -/
def receive_block_undo (env : ledger_env) (now : Nat) (s : block_store)
    (block_a : mol.receive_block) (destination_account source_account : Nat) : block_store :=
  let hash := env.hash (block.receive block_a)
  let representative := ledger.representative env s block_a.hashables.previous
  let amount := ledger.amount env s block_a.hashables.source
  let info := (s.account_get destination_account).getD account_info.zero
  let s1 := s.representation_add (ledger.representative env s hash) (neg128 amount)
  let s2 := ledger.change_latest env now s1 destination_account block_a.hashables.previous
    representative (ledger.balance env s1 block_a.hashables.previous) (info.block_count - 1) false
  let s3 := s2.block_del hash
  let s4 := s3.pending_put ⟨destination_account, block_a.hashables.source⟩ ⟨source_account, amount⟩
  let s5 := s4.frontier_del hash
  let s6 := s5.frontier_put block_a.hashables.previous destination_account
  let s7 := s6.block_successor_clear block_a.hashables.previous
  if info.block_count % env.block_info_max = 0 then s7.block_info_del hash else s7

/-- `rollback_visitor::receive_block`. -/
def receive_block (env : ledger_env) (now fuel : Nat) (s : block_store)
    (block_a : mol.receive_block) : Option block_store :=
  match ledger.account s fuel (env.hash (block.receive block_a)),
      ledger.account s fuel block_a.hashables.source with
  | some destination_account, some source_account =>
    some (receive_block_undo env now s block_a destination_account source_account)
  | _, _ => none

/-- Lines 74-79 of `rollback_visitor::open_block`, after the two calls of
`ledger.account` returned `destination_account` and `source_account`. -/
def open_block_undo (env : ledger_env) (now : Nat) (s : block_store)
    (block_a : mol.open_block) (destination_account source_account : Nat) : block_store :=
  let hash := env.hash (block.opening block_a)
  let amount := ledger.amount env s block_a.hashables.source
  let s1 := s.representation_add (ledger.representative env s hash) (neg128 amount)
  let s2 := ledger.change_latest env now s1 destination_account 0 0 0 0 false
  let s3 := s2.block_del hash
  let s4 := s3.pending_put ⟨destination_account, block_a.hashables.source⟩ ⟨source_account, amount⟩
  s4.frontier_del hash

/-- `rollback_visitor::open_block`. -/
def open_block (env : ledger_env) (now fuel : Nat) (s : block_store)
    (block_a : mol.open_block) : Option block_store :=
  match ledger.account s fuel (env.hash (block.opening block_a)),
      ledger.account s fuel block_a.hashables.source with
  | some destination_account, some source_account =>
    some (open_block_undo env now s block_a destination_account source_account)
  | _, _ => none

/-- Lines 86-101 of `rollback_visitor::change_block`, after the call of
`ledger.account` returned `account`. -/
def change_block_undo (env : ledger_env) (now : Nat) (s : block_store)
    (block_a : mol.change_block) (account : Nat) : block_store :=
  let hash := env.hash (block.change block_a)
  let representative := ledger.representative env s block_a.hashables.previous
  let info := (s.account_get account).getD account_info.zero
  let balance := ledger.balance env s block_a.hashables.previous
  let s1 := s.representation_add representative balance
  let s2 := s1.representation_add hash (neg128 balance)
  let s3 := s2.block_del hash
  let s4 := ledger.change_latest env now s3 account block_a.hashables.previous representative
    info.balance (info.block_count - 1) false
  let s5 := s4.frontier_del hash
  let s6 := s5.frontier_put block_a.hashables.previous account
  let s7 := s6.block_successor_clear block_a.hashables.previous
  if info.block_count % env.block_info_max = 0 then s7.block_info_del hash else s7

/-- `rollback_visitor::change_block`. -/
def change_block (env : ledger_env) (now fuel : Nat) (s : block_store)
    (block_a : mol.change_block) : Option block_store :=
  match ledger.account s fuel block_a.hashables.previous with
  | some account => some (change_block_undo env now s block_a account)
  | none => none

/-- Lines 106-111 of `rollback_visitor::state_block`: the locals
`representative` and `balance`. -/
def state_block_locals (env : ledger_env) (s : block_store) (block_a : mol.state_block) :
    Nat × Nat :=
  let representative :=
    if block_a.hashables.previous ≠ 0 then ledger.representative env s block_a.hashables.previous
    else 0
  (representative, ledger.balance env s block_a.hashables.previous)

/-- Lines 113-119 of `rollback_visitor::state_block`: the two representation
updates. -/
def state_block_weights (env : ledger_env) (s : block_store) (block_a : mol.state_block)
    (representative balance : Nat) : block_store :=
  let hash := env.hash (block.state block_a)
  let s1 := s.representation_add hash (neg128 block_a.hashables.balance)
  if representative ≠ 0 then s1.representation_add representative balance else s1

/-- Lines 138-156 of `rollback_visitor::state_block`: rewind the account head,
restore the successor pointer and the frontier, delete the block. -/
def state_block_rewind (env : ledger_env) (now : Nat) (s : block_store)
    (block_a : mol.state_block) (representative balance : Nat) : block_store :=
  let hash := env.hash (block.state block_a)
  let info := (s.account_get block_a.hashables.account).getD account_info.zero
  let s1 := ledger.change_latest env now s block_a.hashables.account block_a.hashables.previous
    representative balance (info.block_count - 1) false
  let s2 :=
    match s1.block_get block_a.hashables.previous with
    | some previous =>
      let s11 := s1.block_successor_clear block_a.hashables.previous
      if previous.type < block_type_state then
        s11.frontier_put block_a.hashables.previous block_a.hashables.account
      else s11
    | none => s1
  s2.block_del hash

end rollback_visitor

/-- Control points of `mol::ledger::rollback` and of the visitor it drives. -/
inductive rollback_task where
  /-- Entry of `ledger::rollback (block_a)`. -/
  | rollback (block_a : Nat)
  /-- Head of the `while` loop of `ledger::rollback`, with its locals. -/
  | loop (account_l block_a : Nat) (info : account_info)
  /-- Call of `block->visit (rollback)`. -/
  | visit (b : block)
  /-- Head of the `while` loop of `rollback_visitor::state_block` (send case),
  with the locals `representative` and `balance`. -/
  | state_wait (b : state_block) (representative balance : Nat)

/-- `mol::ledger::rollback` together with `rollback_visitor`, which call each
other; one unit of fuel per call or loop test, `none` when the fuel runs out or
a null block would be dereferenced.  `rollback_visitor` has no `astate_block`
method of its own: the visit of an astate block leaves the store as it is. -/
def ledger.rollback_run (env : ledger_env) (now : Nat) :
    Nat → block_store → rollback_task → Option block_store
  | 0, _, _ => none
  | fuel + 1, s, rollback_task.rollback block_a =>
    match ledger.account s (fuel + 1) block_a with
    | none => none
    | some account_l =>
      ledger.rollback_run env now fuel s (rollback_task.loop account_l block_a account_info.zero)
  | fuel + 1, s, rollback_task.loop account_l block_a info =>
    if s.block_exists block_a then
      let info1 := (s.account_get account_l).getD info
      match s.block_get info1.head with
      | none => none
      | some head =>
        match ledger.rollback_run env now fuel s (rollback_task.visit head) with
        | none => none
        | some s1 => ledger.rollback_run env now fuel s1 (rollback_task.loop account_l block_a info1)
    else some s
  | fuel + 1, s, rollback_task.visit (block.send b) =>
    match s.pending_get ⟨b.hashables.destination, env.hash (block.send b)⟩ with
    | some pending => some (rollback_visitor.send_block env now s b pending)
    | none =>
      match ledger.rollback_run env now fuel s
          (rollback_task.rollback (ledger.latest s b.hashables.destination)) with
      | none => none
      | some s1 => ledger.rollback_run env now fuel s1 (rollback_task.visit (block.send b))
  | fuel + 1, s, rollback_task.visit (block.receive b) =>
    rollback_visitor.receive_block env now (fuel + 1) s b
  | fuel + 1, s, rollback_task.visit (block.opening b) =>
    rollback_visitor.open_block env now (fuel + 1) s b
  | fuel + 1, s, rollback_task.visit (block.change b) =>
    rollback_visitor.change_block env now (fuel + 1) s b
  | fuel + 1, s, rollback_task.visit (block.state b) =>
    let locals := rollback_visitor.state_block_locals env s b
    let representative := locals.1
    let balance := locals.2
    let s1 := rollback_visitor.state_block_weights env s b representative balance
    if b.hashables.balance < balance then
      ledger.rollback_run env now fuel s1 (rollback_task.state_wait b representative balance)
    else if b.hashables.link ≠ 0 then
      match ledger.account s1 (fuel + 1) b.hashables.link with
      | none => none
      | some source =>
        let s2 := s1.pending_put ⟨b.hashables.account, b.hashables.link⟩
          ⟨source, b.hashables.balance - balance⟩
        some (rollback_visitor.state_block_rewind env now s2 b representative balance)
    else some (rollback_visitor.state_block_rewind env now s1 b representative balance)
  | fuel + 1, s, rollback_task.state_wait b representative balance =>
    let key : pending_key := ⟨b.hashables.link, env.hash (block.state b)⟩
    if s.pending_exists key then
      some (rollback_visitor.state_block_rewind env now (s.pending_del key) b representative balance)
    else
      match ledger.rollback_run env now fuel s
          (rollback_task.rollback (ledger.latest s b.hashables.link)) with
      | none => none
      | some s1 =>
        ledger.rollback_run env now fuel s1 (rollback_task.state_wait b representative balance)
  | _ + 1, s, rollback_task.visit (block.astate _) => some s

/-- `mol::ledger::rollback`: roll back blocks until `block_a` doesn't exist. -/
def ledger.rollback (env : ledger_env) (now fuel : Nat) (s : block_store) (block_a : Nat) :
    Option block_store :=
  ledger.rollback_run env now fuel s (rollback_task.rollback block_a)

/-! ## Predicates used in the statements -/

/-- Spec: the code of the first failing check of a pipeline, `progress` when no
check fails.  A check is a pair of "the check fails" and the code it yields. -/
def spec_first_failing_check : List (Bool × process_result) → process_result
  | [] => process_result.progress
  | (failed, code) :: rest => if failed then code else spec_first_failing_check rest

/-- Spec: the checks of a send block, in the order of the specification. -/
def spec_send_checks (env : ledger_env) (s : block_store) (b : mol.send_block) :
    List (Bool × process_result) :=
  let hash := env.hash (block.send b)
  let account := s.frontier_get b.hashables.previous
  let info := (s.account_get account).getD account_info.zero
  [ (s.block_exists hash, process_result.old),
    (!s.block_exists b.hashables.previous, process_result.gap_previous),
    ((s.block_get b.hashables.previous).any fun previous =>
        !env.valid_predecessor (block.send b) previous, process_result.block_position),
    (decide (account = 0), process_result.fork),
    (env.validate_message account hash b.signature, process_result.bad_signature),
    (decide (b.hashables.balance > info.balance), process_result.negative_spend) ]

/-- Spec: the checks of a change block, in the order of the specification. -/
def spec_change_checks (env : ledger_env) (s : block_store) (b : mol.change_block) :
    List (Bool × process_result) :=
  let hash := env.hash (block.change b)
  let account := s.frontier_get b.hashables.previous
  [ (s.block_exists hash, process_result.old),
    (!s.block_exists b.hashables.previous, process_result.gap_previous),
    ((s.block_get b.hashables.previous).any fun previous =>
        !env.valid_predecessor (block.change b) previous, process_result.block_position),
    (decide (account = 0), process_result.fork),
    (env.validate_message account hash b.signature, process_result.bad_signature) ]

/-- Spec: the checks of a receive block, in the order of the specification. -/
def spec_receive_checks (env : ledger_env) (s : block_store) (b : mol.receive_block) :
    List (Bool × process_result) :=
  let hash := env.hash (block.receive b)
  let account := s.frontier_get b.hashables.previous
  let info := (s.account_get account).getD account_info.zero
  [ (s.block_exists hash, process_result.old),
    (!s.block_exists b.hashables.previous, process_result.gap_previous),
    ((s.block_get b.hashables.previous).any fun previous =>
        !env.valid_predecessor (block.receive b) previous, process_result.block_position),
    (!s.block_exists b.hashables.source, process_result.gap_source),
    (decide (account = 0) && s.block_exists b.hashables.previous, process_result.fork),
    (decide (account = 0) && !s.block_exists b.hashables.previous, process_result.gap_previous),
    (env.validate_message account hash b.signature, process_result.bad_signature),
    (decide (info.head ≠ b.hashables.previous), process_result.gap_previous),
    ((s.pending_get ⟨account, b.hashables.source⟩).isNone, process_result.unreceivable) ]

/-- Spec: the checks of an open block, in the order of the specification. -/
def spec_open_checks (env : ledger_env) (s : block_store) (b : mol.open_block) :
    List (Bool × process_result) :=
  let hash := env.hash (block.opening b)
  [ (s.block_exists hash, process_result.old),
    (!s.block_exists b.hashables.source, process_result.gap_source),
    (env.validate_message b.hashables.account hash b.signature, process_result.bad_signature),
    (s.account_exists b.hashables.account, process_result.fork),
    ((s.pending_get ⟨b.hashables.account, b.hashables.source⟩).isNone,
      process_result.unreceivable),
    (decide (b.hashables.account = env.burn_account), process_result.opened_burn_account) ]

namespace example_ledger

/-- Toy hash: ten times the sum of the fields, plus the variant's type code. -/
def hash : block → Nat
  | block.send b => 10 * (b.hashables.previous + b.hashables.destination + b.hashables.balance) + 2
  | block.receive b => 10 * (b.hashables.previous + b.hashables.source) + 3
  | block.opening b =>
    10 * (b.hashables.source + b.hashables.representative + b.hashables.account) + 4
  | block.change b => 10 * (b.hashables.previous + b.hashables.representative) + 5
  | block.state b =>
    10 * (b.hashables.account + b.hashables.previous + b.hashables.representative
      + b.hashables.balance + b.hashables.link) + 6
  | block.astate b =>
    10 * (b.hashables.account + b.hashables.previous + b.hashables.representative
      + b.hashables.balance + b.hashables.link + b.hashables.asset) + 7

/-- Toy `balance_visitor`: walks back to a block carrying a balance; an open
block whose source is not stored is the genesis block, worth 100. -/
def balance (t : Nat → Option stored_block) : Nat → Nat → Nat
  | 0, _ => 0
  | fuel + 1, h =>
    match t h with
    | none => 0
    | some r =>
      match r.contents with
      | block.send b => b.hashables.balance
      | block.state b => b.hashables.balance
      | block.astate b => b.hashables.balance
      | block.change b => balance t fuel b.hashables.previous
      | block.receive b =>
        balance t fuel b.hashables.previous
          + (balance t fuel ((t b.hashables.source).elim 0 fun x => x.contents.previous)
              - balance t fuel b.hashables.source)
      | block.opening b =>
        if (t b.hashables.source).isNone then 100
        else balance t fuel ((t b.hashables.source).elim 0 fun x => x.contents.previous)
          - balance t fuel b.hashables.source

/-- Toy `amount_visitor`: the absolute difference of the balances at a block and
at its predecessor. -/
def amount (t : Nat → Option stored_block) (h : Nat) : Nat :=
  let after := balance t 8 h
  let before := balance t 8 ((t h).elim 0 fun x => x.contents.previous)
  if after < before then before - after else after - before

/-- Toy `representative_visitor`: walks back to the block that set the
representative (open, change or state). -/
def representative (t : Nat → Option stored_block) : Nat → Nat → Nat
  | 0, _ => 0
  | fuel + 1, h =>
    match t h with
    | none => 0
    | some r =>
      match r.contents with
      | block.send b => representative t fuel b.hashables.previous
      | block.receive b => representative t fuel b.hashables.previous
      | _ => h

/-- The genesis open block of account `1`. -/
def genesis_block : mol.open_block := ⟨⟨1, 1, 1⟩, 1⟩

/-- Environment of the example: the genesis block (hash 34) is the canary. -/
def env : ledger_env where
  hash := hash
  validate_message := fun account _ signature => signature != account
  valid_predecessor := fun _ previous => decide (previous.type < block_type_state)
  burn_account := 0
  block_info_max := 128
  state_block_parse_canary := 34
  balance := fun t h => balance t 8 h
  amount := amount
  representative := fun t h => representative t 8 h

/-- The store as initialised with the genesis block at time 1: account `1`
holds 100. -/
def genesis : block_store where
  blocks := fun h => if h = 34 then some ⟨block.opening genesis_block, 0⟩ else none
  accounts := fun a => if a = 1 then some ⟨34, 34, 34, 100, 1, 1⟩ else none
  pending := fun _ => none
  frontiers := fun h => if h = 34 then some 1 else none
  representation := fun h => if h = 34 then 100 else 0
  block_infos := fun _ => none
  checksum := 34
  assets := fun _ => none
  asset_accounts := fun _ => none

/-- S1: G sends 10 to B (balance 90 left); hash 1262. -/
def send1 : mol.send_block := ⟨⟨34, 2, 90⟩, 1⟩

/-- S1: B opens with the send of G; hash 12664. -/
def open2 : mol.open_block := ⟨⟨1262, 2, 2⟩, 2⟩

/-- G sends 5 more to B (balance 85 left); hash 13492. -/
def send3 : mol.send_block := ⟨⟨1262, 2, 85⟩, 1⟩

/-- B receives the second send; hash 261563. -/
def receive4 : mol.receive_block := ⟨⟨12664, 13492⟩, 2⟩

/-- G changes its representative; hash 365. -/
def change1 : mol.change_block := ⟨⟨34, 2⟩, 1⟩

/-- S5: G sends 10 to B with a state block; hash 1286. -/
def state1 : mol.state_block := ⟨⟨1, 34, 1, 90, 2⟩, 1⟩

/-- S2: a receive whose source is not stored. -/
def receive_early : mol.receive_block := ⟨⟨34, 999⟩, 1⟩

/-- The store after S1's send, applied at time 5. -/
def after_send1 : block_store := (ledger.process env 5 genesis (block.send send1)).2

/-- The store after B opened, at time 6. -/
def after_open2 : block_store := (ledger.process env 6 after_send1 (block.opening open2)).2

/-- The store after the second send of G, at time 7. -/
def after_send3 : block_store := (ledger.process env 7 after_open2 (block.send send3)).2

end example_ledger

/-! ## Predicates for the state-block pipeline and the returned record -/

/-- Spec: the checks of a state block that come before the direction-dependent
ones, in the order of the specification. -/
def spec_state_account_checks (env : ledger_env) (s : block_store) (b : mol.state_block) :
    List (Bool × process_result) :=
  let hash := env.hash (block.state b)
  let found := s.account_exists b.hashables.account
  let info := (s.account_get b.hashables.account).getD account_info.zero
  [ (s.block_exists hash, process_result.old),
    (env.validate_message b.hashables.account hash b.signature, process_result.bad_signature),
    (decide (b.hashables.account = 0), process_result.opened_burn_account),
    (found && decide (b.hashables.previous = 0), process_result.fork),
    (found && !s.block_exists b.hashables.previous, process_result.gap_previous),
    (found && decide (b.hashables.previous ≠ info.head), process_result.fork),
    (!found && decide (b.hashables.previous ≠ 0), process_result.gap_previous),
    (!found && decide (b.hashables.link = 0), process_result.gap_source) ]

/-- Spec: `prior_balance`, the balance of the account's record, or zero when
the account has none. -/
def spec_prior_balance (s : block_store) (account : Nat) : Nat :=
  ((s.account_get account).map account_info.balance).getD 0

/-- Spec: the checks of the non-send path of a state block, in the order of the
specification; `amount` is `block.balance - prior_balance`. -/
def spec_state_link_checks (s : block_store) (b : mol.state_block) :
    List (Bool × process_result) :=
  let amount := b.hashables.balance - spec_prior_balance s b.hashables.account
  let pending := s.pending_get ⟨b.hashables.account, b.hashables.link⟩
  [ (decide (b.hashables.link ≠ 0) && !s.block_exists b.hashables.link, process_result.gap_source),
    (decide (b.hashables.link ≠ 0) && pending.isNone, process_result.unreceivable),
    (decide (b.hashables.link ≠ 0) && pending.any (fun p => decide (p.amount ≠ amount)),
      process_result.balance_mismatch),
    (decide (b.hashables.link = 0) && decide (amount ≠ 0), process_result.balance_mismatch) ]

/-- Spec: the balance before a receive block plus the amount of the pending
entry it claims stays within 128 bits. -/
def spec_receive_fits (s : block_store) : block → Prop
  | block.receive b =>
    ∀ p, s.pending_get ⟨s.frontier_get b.hashables.previous, b.hashables.source⟩ = some p →
      spec_prior_balance s (s.frontier_get b.hashables.previous) + p.amount < 2 ^ 128
  | _ => True

/-! ## The concrete ledger, continued: an asset send claimed by a native receive -/

namespace example_ledger

/-- Account `1` creates asset `7` with `2 ^ 128 - 1` units, on top of block 1262. -/
def asset_create : mol.astate_block := ⟨⟨1, 1262, 1, 2 ^ 128 - 1, 0, 7⟩, 1⟩

/-- The store after the asset was created, at time 7. -/
def after_asset_create : block_store :=
  (ledger.process env 7 after_open2 (block.astate asset_create)).2

/-- Account `1` sends all units of asset `7` to account `2`. -/
def asset_send : mol.astate_block :=
  ⟨⟨1, hash (block.astate asset_create), 1, 0, 2, 7⟩, 1⟩

/-- The store after the asset send, at time 8. -/
def after_asset_send : block_store :=
  (ledger.process env 8 after_asset_create (block.astate asset_send)).2

/-- Account `2` claims the pending entry of the asset send with a legacy receive block. -/
def receive_asset : mol.receive_block := ⟨⟨12664, hash (block.astate asset_send)⟩, 2⟩

end example_ledger

/-! ## Predicates for claiming a pending entry -/

/-- Spec: the accepted block `b`, whose returned record is `r`, claimed the
pending entry of source `source`: a receive or open block with that source, or
a state block with that non-zero link that is not a send. -/
def spec_claims_source (b : block) (r : process_return) (source : Nat) : Prop :=
  match b with
  | block.receive x => x.hashables.source = source
  | block.opening x => x.hashables.source = source
  | block.state x => x.hashables.link = source ∧ source ≠ 0 ∧ r.state_is_send = false
  | _ => False

/-- Spec: in the store `s`, `b` is a receive block of `account` (the owner of
its previous), an open block of `account`, or a state block of `account` that
is not a send, claiming `source`. -/
def spec_claims_again (s : block_store) (b : block) (account source : Nat) : Prop :=
  match b with
  | block.receive x =>
    x.hashables.source = source ∧ s.frontier_get x.hashables.previous = account
  | block.opening x => x.hashables.source = source ∧ x.hashables.account = account
  | block.state x =>
    x.hashables.link = source ∧ source ≠ 0 ∧ x.hashables.account = account ∧
      ¬ x.hashables.balance < spec_prior_balance s account
  | _ => False

instance spec_claims_source.decidable (b : block) (r : process_return) (source : Nat) :
    Decidable (spec_claims_source b r source) := by
  cases b <;> unfold spec_claims_source <;> infer_instance

instance spec_claims_again.decidable (s : block_store) (b : block) (account source : Nat) :
    Decidable (spec_claims_again s b account source) := by
  cases b <;> unfold spec_claims_again <;> infer_instance

/-! ## Reachable ledger states -/

/-- A legacy block that is built on a previous block: send, receive or change. -/
def block.builds_on : block → Bool
  | block.send _ => true
  | block.receive _ => true
  | block.change _ => true
  | _ => false

/-- Modelled from the spec: the store as initialised with the genesis open block
`g` (scenario S1: the account of `g` holds the whole supply), which is the state
an accepted open block leaves: account record, frontier entry, representation
and checksum of the block, and no pending entry. -/
def ledger.genesis_store (env : ledger_env) (g : mol.open_block) (supply now : Nat) :
    block_store where
  blocks := fun h => if h = env.hash (block.opening g) then some ⟨block.opening g, 0⟩ else none
  accounts := fun a =>
    if a = g.hashables.account then
      some ⟨env.hash (block.opening g), env.hash (block.opening g), env.hash (block.opening g),
        supply, now, 1⟩
    else none
  pending := fun _ => none
  frontiers := fun h => if h = env.hash (block.opening g) then some g.hashables.account else none
  representation := fun h => if h = env.hash (block.opening g) then supply else 0
  block_infos := fun _ => none
  checksum := env.hash (block.opening g)
  assets := fun _ => none
  asset_accounts := fun _ => none

/-- The reachable ledger states: the genesis store, and every store that
`process` (of any block, at any time) or a returning `rollback` (of any hash, at
any time) makes of a reachable one. -/
inductive reachable (env : ledger_env) : block_store → Prop
  | genesis (g : mol.open_block) (supply now : Nat) :
    reachable env (ledger.genesis_store env g supply now)
  | process (s : block_store) (now : Nat) (b : block) :
    reachable env s → reachable env (ledger.process env now s b).2
  | rollback (s s1 : block_store) (now fuel target : Nat) :
    reachable env s → ledger.rollback env now fuel s target = some s1 → reachable env s1

/-- What `process` and `rollback` keep of the frontier table: every block is
stored under its hash, every frontier entry sits at the hash of a legacy block,
and the previous of every stored send, receive and change block is the hash of
a legacy block. -/
structure frontier_discipline (env : ledger_env) (s : block_store) : Prop where
  hash_stored : ∀ h r, s.blocks h = some r → env.hash r.contents = h
  frontier_legacy : ∀ h a, s.frontiers h = some a →
    ∃ l : block, l.type < block_type_state ∧ env.hash l = h
  previous_legacy : ∀ h r, s.blocks h = some r → r.contents.builds_on = true →
    ∃ l : block, l.type < block_type_state ∧ env.hash l = r.contents.previous

/-- The second block table holds no other contents than the first. -/
def blocks_shrink (t t1 : Nat → Option stored_block) : Prop :=
  ∀ k r1, t1 k = some r1 → ∃ r, t k = some r ∧ r.contents = r1.contents

/-- The block handed to a visit of the rollback visitor has, when it is a send,
receive or change block, the hash of a legacy block as previous. -/
def task_legacy (env : ledger_env) : rollback_task → Prop
  | rollback_task.visit b =>
    b.builds_on = true → ∃ l : block, l.type < block_type_state ∧ env.hash l = b.previous
  | _ => True

/-! ## The concrete ledger, continued: an asset block claims a native pending entry -/

namespace example_ledger

/-- The store after account `2` received the second send, at time 8. -/
def after_receive4 : block_store := (ledger.process env 8 after_send3 (block.receive receive4)).2

/-- Account `1` sends 3 more to account `2` (balance 82 left); hash 135762. -/
def send5 : mol.send_block := ⟨⟨13492, 2, 82⟩, 1⟩

/-- The store after the third send of account `1`, at time 9. -/
def after_send5 : block_store := (ledger.process env 9 after_receive4 (block.send send5)).2

/-- Account `1` creates asset `7` with 50 units, on top of the genesis block. -/
def asset_mint : mol.astate_block := ⟨⟨1, 34, 1, 50, 0, 7⟩, 1⟩

/-- The store after the asset was created, at time 10. -/
def after_asset_mint : block_store :=
  (ledger.process env 10 after_send5 (block.astate asset_mint)).2

/-- Account `2` opens its chain of asset `7` (previous: its open block 12664) and claims
with it the pending entry of the third send: link 135762, balance 3. -/
def asset_claim : mol.astate_block := ⟨⟨2, 12664, 2, 3, 135762, 7⟩, 2⟩

/-- The store after the asset block claimed the native pending entry, at time 11. -/
def after_asset_claim : block_store :=
  (ledger.process env 11 after_asset_mint (block.astate asset_claim)).2

end example_ledger

/-- The source hash whose pending entry the undo of a block puts back: the
source of a receive or open block, the link of a state block. -/
def block.claimed_source : block → Option Nat
  | block.receive b => some b.hashables.source
  | block.opening b => some b.hashables.source
  | block.state b => some b.hashables.link
  | _ => none

/-- The pending entry `key` is absent and no stored block would put it back
when undone. -/
def pending_lost (s : block_store) (key : pending_key) : Prop :=
  s.pending key = none ∧
    ∀ k r, s.blocks k = some r → r.contents.claimed_source ≠ some key.hash

/-- The block handed to a visit does not put back the pending entry of `hash`. -/
def task_claims_not (hash : Nat) : rollback_task → Prop
  | rollback_task.visit b => b.claimed_source ≠ some hash
  | rollback_task.state_wait _ _ _ => True
  | _ => True

/-! ## Vote weights (`weight`, `tally`, `winner`) -/

/-- The members of `mol::ledger` that `weight` reads besides the store: the
`check_bootstrap_weights` flag, the threshold `bootstrap_weight_max_blocks`
and the snapshot `bootstrap_weights`. -/
structure ledger_weights where
  check_bootstrap_weights : Bool
  bootstrap_weight_max_blocks : Nat
  bootstrap_weights : Nat → Option Nat

/-- `mol::ledger::weight`: the returned weight and the ledger members after the
call. `blocks_sum` is `store.block_count (transaction_a).sum ()` (modelled from
the spec: `block_count() → per-type sums`). -/
def ledger.weight (l : ledger_weights) (s : block_store) (blocks_sum account_a : Nat) :
    Nat × ledger_weights :=
  if l.check_bootstrap_weights then
    if blocks_sum < l.bootstrap_weight_max_blocks then
      match l.bootstrap_weights account_a with
      | some weight => (weight, l)
      | none => (s.representation_get account_a, l)
    else
      (s.representation_get account_a, { l with check_bootstrap_weights := false })
  else
    (s.representation_get account_a, l)

/-- One pass of the first loop of `tally` over the map `totals` (keyed by block):
the entry of `b` is created at zero when missing and grows by `weight_l` in
128-bit arithmetic. -/
def ledger.totals_add : List (block × Nat) → block → Nat → List (block × Nat)
  | [], b, weight_l => [(b, (0 + weight_l) % 2 ^ 128)]
  | (c, t) :: rest, b, weight_l =>
      if c = b then (c, (t + weight_l) % 2 ^ 128) :: rest
      else (c, t) :: ledger.totals_add rest b weight_l

/-- First loop of `tally`: `votes` is `votes_a.rep_votes` in iteration order. -/
def ledger.tally_totals (s : block_store) (blocks_sum : Nat) :
    ledger_weights → List (Nat × block) → List (block × Nat) → List (block × Nat) × ledger_weights
  | l, [], totals => (totals, l)
  | l, (rep, b) :: votes, totals =>
      let weight_l := ledger.weight l s blocks_sum rep
      ledger.tally_totals s blocks_sum weight_l.2 votes (ledger.totals_add totals b weight_l.1)

/-- The assignment `result[total] = b` on a `std::map` ordered by
`std::greater`: the list is kept in decreasing key order and an equal key is
overwritten. -/
def ledger.result_put : List (Nat × block) → Nat → block → List (Nat × block)
  | [], total, b => [(total, b)]
  | (t, c) :: rest, total, b =>
      if t < total then (total, b) :: (t, c) :: rest
      else if total = t then (total, b) :: rest
      else (t, c) :: ledger.result_put rest total b

/-- `mol::ledger::tally`. `order` is the iteration order of the unordered map
`totals` in the second loop. -/
def ledger.tally (l : ledger_weights) (s : block_store) (blocks_sum : Nat)
    (order : List (block × Nat) → List (block × Nat)) (votes : List (Nat × block)) :
    List (Nat × block) × ledger_weights :=
  let totals := ledger.tally_totals s blocks_sum l votes []
  ((order totals.1).foldl (fun result i => ledger.result_put result i.2 i.1) [], totals.2)

/-- `mol::ledger::winner`: the first entry of the tally (`none` when the tally
is empty, where the code dereferences `end ()`). -/
def ledger.winner (l : ledger_weights) (s : block_store) (blocks_sum : Nat)
    (order : List (block × Nat) → List (block × Nat)) (votes : List (Nat × block)) :
    Option (Nat × block) :=
  (ledger.tally l s blocks_sum order votes).1.head?

/-- Sum of the weights of the representatives that vote for `b`. -/
def spec_vote_total (weight : Nat → Nat) (votes : List (Nat × block)) (b : block) : Nat :=
  ((votes.filter (fun v => decide (v.2 = b))).map (fun v => weight v.1)).sum

/-! ## The checksum identity -/

/-- Head hash of the record of `account`, zero when there is no record. -/
def spec_head (s : block_store) (account : Nat) : Nat :=
  ((s.accounts account).map account_info.head).getD 0

/-- XOR of the head hashes of the accounts of a list. -/
def spec_heads_xor (s : block_store) (accounts : List Nat) : Nat :=
  (accounts.map (spec_head s)).foldr (fun x y => x ^^^ y) 0

/-- The stored checksum is the XOR of the head hashes of all account records:
`accounts` lists, without repetition, exactly the accounts that have a record. -/
def checksum_identity (s : block_store) : Prop :=
  ∃ accounts : List Nat, accounts.Nodup ∧ (∀ a, a ∈ accounts ↔ s.accounts a ≠ none) ∧
    s.checksum = spec_heads_xor s accounts

/-! ## Representation conservation -/

/-- Amount of the pending entry under `key`, zero when there is none. -/
def spec_pending_amount (s : block_store) (key : pending_key) : Nat :=
  ((s.pending key).map pending_info.amount).getD 0

/-- The sets `keys` and `accounts` hold every pending key and every account
that has an entry in the store. -/
def spec_covers (s : block_store) (keys : Finset pending_key) (accounts : Finset Nat) : Prop :=
  (∀ k, s.pending k ≠ none → k ∈ keys) ∧ (∀ a, s.accounts a ≠ none → a ∈ accounts)

/-- Sum of the pending amounts over `keys` plus sum of the account balances
over `accounts`. -/
def spec_ledger_total (s : block_store) (keys : Finset pending_key) (accounts : Finset Nat) :
    Nat :=
  keys.sum (spec_pending_amount s) + accounts.sum (spec_prior_balance s)

/-- Account under which `process` files the pending entry of a block: the
destination of a send, the link of a state or astate block. -/
def block.pending_account : block → Nat
  | block.send x => x.hashables.destination
  | block.state x => x.hashables.link
  | block.astate x => x.hashables.link
  | _ => 0

/-- Account whose record `process` writes for a block: the frontier account of
`previous` for a legacy send, receive or change block, the account field of an
open or state block. -/
def spec_written_account (s : block_store) : block → Nat
  | block.send x => s.frontier_get x.hashables.previous
  | block.receive x => s.frontier_get x.hashables.previous
  | block.opening x => x.hashables.account
  | block.change x => s.frontier_get x.hashables.previous
  | block.state x => x.hashables.account
  | block.astate _ => 0

/-! ## The frontier invariant -/

/-- The record of `account` has head `hash`, and the block stored under `hash`
is a legacy (non-state) block. -/
def spec_legacy_head (s : block_store) (account hash : Nat) : Prop :=
  ∃ info c, s.accounts account = some info ∧ info.head = hash ∧ s.block_get hash = some c ∧
    c.type < block_type_state

/-- The frontier invariant: `frontier_get (h)` is non-zero exactly when `h` is
the head of an account whose head is a legacy block, and then it is that
account. -/
def frontier_invariant (s : block_store) : Prop :=
  ∀ h, (s.frontier_get h ≠ 0 ↔ ∃ a, spec_legacy_head s a h) ∧
    ∀ a, spec_legacy_head s a h → s.frontier_get h = a

/-- Every account head is a stored block. -/
def spec_heads_stored (s : block_store) : Prop :=
  ∀ a info, s.accounts a = some info → s.block_get info.head ≠ none

/-- Block `b` is stored under `hash` and `hash` is the head of the record of
`account`. -/
def spec_head_block (s : block_store) (account : Nat) (b : block) (hash : Nat) : Prop :=
  s.block_get hash = some b ∧ (s.accounts account).map account_info.head = some hash

/-- No account record has `hash` as its head. -/
def spec_no_head (s : block_store) (hash : Nat) : Prop :=
  ∀ a info, s.accounts a = some info → info.head ≠ hash

/-- A legacy (non-state) block is stored under `hash`. -/
def spec_legacy_stored (s : block_store) (hash : Nat) : Prop :=
  ∃ c, s.block_get hash = some c ∧ c.type < block_type_state

/-! ## Chain length -/

/-- Exactly `n` blocks are reachable from `h` via `previous`: all of them are
stored, and the last one, the one without `previous`, is `open_block`. -/
def spec_chain (s : block_store) (open_block : Nat) : Nat → Nat → Prop
  | 0, _ => False
  | n + 1, h => ∃ b, s.block_get h = some b ∧
      ((b.previous = 0 ∧ n = 0 ∧ h = open_block) ∨
        (b.previous ≠ 0 ∧ spec_chain s open_block n b.previous))

/-- Chain length is tracked: the `block_count` of every account record is the
number of blocks reachable from its `head` via `previous`, all of them stored,
the last being its `open_block`. -/
def chain_length_tracked (s : block_store) : Prop :=
  ∀ a info, s.accounts a = some info → spec_chain s info.open_block info.block_count info.head

/-- The fields of an account record that describe its chain: `head`,
`open_block` and `block_count`. -/
def account_info.chain (info : account_info) : Nat × Nat × Nat :=
  (info.head, info.open_block, info.block_count)

/-- The `block_count` of `account`, zero when it has no record. -/
def spec_block_count (s : block_store) (account : Nat) : Nat :=
  ((s.accounts account).map account_info.block_count).getD 0

/-- A frontier entry names an account whose head is the hash of the entry. -/
def spec_frontier_heads (s : block_store) : Prop :=
  ∀ h, s.frontier_get h ≠ 0 → (s.accounts (s.frontier_get h)).map account_info.head = some h

/-- No stored block has `hash` as its `previous`. -/
def spec_no_child (s : block_store) (hash : Nat) : Prop :=
  ∀ k c, s.block_get k = some c → c.previous ≠ hash

/-- No account other than `account` has `hash` as its head. -/
def spec_only_head (s : block_store) (account hash : Nat) : Prop :=
  ∀ a info, s.accounts a = some info → info.head = hash → a = account

/-! ## Order of processing -/

/-- An account record without its `modified` time. -/
def account_info.timeless (info : account_info) : account_info := { info with modified := 0 }

/-- Two stores hold the same tables, and the same account records but for their
`modified` times. -/
def spec_same_but_modified (s t : block_store) : Prop :=
  s.blocks = t.blocks ∧
  (∀ a, (s.accounts a).map account_info.timeless = (t.accounts a).map account_info.timeless) ∧
  s.pending = t.pending ∧ s.frontiers = t.frontiers ∧ s.representation = t.representation ∧
  s.block_infos = t.block_infos ∧ s.checksum = t.checksum ∧ s.assets = t.assets ∧
  s.asset_accounts = t.asset_accounts

/-- No two accounts have the same head. -/
def spec_heads_distinct (s : block_store) : Prop :=
  ∀ a a1 info info1, s.accounts a = some info → s.accounts a1 = some info1 →
    info.head = info1.head → a = a1

/-- The balance that an accepted change block moves between representatives:
`ledger.balance` of its `previous`, read by `change_block` after `block_put`;
zero for the other blocks. -/
def spec_change_weight (env : ledger_env) (s : block_store) : block → Nat
  | block.change b =>
    ledger.balance env (s.block_put (env.hash (block.change b)) (block.change b))
      b.hashables.previous
  | _ => 0

/-- What an accepted send, receive, open, change or state block writes, as read
off the store it is processed in. -/
structure spec_effect where
  /-- Hash and contents of the block put into the block table. -/
  hash : Nat
  contents : block
  /-- The account whose record is rewritten, and the new record (time apart). -/
  account : Nat
  record : account_info
  /-- The head that leaves the checksum, zero when the account had no record. -/
  old_head : Nat
  /-- Whether `change_latest` writes a sidecar entry. -/
  sidecar : Bool
  pending_put : Option (pending_key × pending_info)
  pending_del : Option pending_key
  /-- The calls of `representation_add`, in order. -/
  weights : List (Nat × Nat)
  frontier_del : Option Nat
  frontier_put : Bool

/-- One `representation_add` on the representation table. -/
def spec_weight_add (r : Nat → Nat) (kd : Nat × Nat) : Nat → Nat :=
  Function.update r kd.1 ((r kd.1 + kd.2) % 2 ^ 128)

/-- The pending table after an optional `pending_put` and an optional
`pending_del`. -/
def spec_pending_write (p : pending_key → Option pending_info)
    (put : Option (pending_key × pending_info)) (del : Option pending_key) :
    pending_key → Option pending_info :=
  let p1 :=
    match put with
    | some kv => Function.update p kv.1 (some kv.2)
    | none => p
  match del with
  | some k => Function.update p1 k none
  | none => p1

/-- The frontier table after an optional `frontier_del` and an optional
`frontier_put` of `hash`. -/
def spec_frontier_write (f : Nat → Option Nat) (del : Option Nat) (put : Bool)
    (hash account : Nat) : Nat → Option Nat :=
  let f1 :=
    match del with
    | some k => Function.update f k none
    | none => f
  if put then Function.update f1 hash (some account) else f1

/-- The store after the writes of an effect, made at time `now`. -/
def spec_effect.apply (now : Nat) (s : block_store) (e : spec_effect) : block_store where
  blocks := block_store.blocks_put s.blocks e.hash e.contents
  accounts := Function.update s.accounts e.account (some { e.record with modified := now })
  pending := spec_pending_write s.pending e.pending_put e.pending_del
  frontiers := spec_frontier_write s.frontiers e.frontier_del e.frontier_put e.hash e.account
  representation := e.weights.foldl spec_weight_add s.representation
  block_infos :=
    if e.sidecar then Function.update s.block_infos e.hash (some ⟨e.account, e.record.balance⟩)
    else s.block_infos
  checksum := (s.checksum ^^^ e.old_head) ^^^ e.hash
  assets := s.assets
  asset_accounts := s.asset_accounts

/-- The account that `process` computes for a block: the frontier entry of
`previous` for a send, receive or change block, the account field of an open or
state block. -/
def spec_block_account (s : block_store) : block → Nat
  | block.send b => s.frontier_get b.hashables.previous
  | block.receive b => s.frontier_get b.hashables.previous
  | block.opening b => b.hashables.account
  | block.change b => s.frontier_get b.hashables.previous
  | block.state b => b.hashables.account
  | block.astate b => b.hashables.account

/-- The block whose pending entry a receive or open block claims; zero otherwise. -/
def block.source : block → Nat
  | block.receive b => b.hashables.source
  | block.opening b => b.hashables.source
  | _ => 0

/-- The effect of a block in store `s`, read as the handlers of
`ledger_processor` read it. -/
def spec_effect_of (env : ledger_env) (s : block_store) (b : block) : spec_effect :=
  let account := spec_block_account s b
  let hash := env.hash b
  let info := (s.accounts account).getD account_info.zero
  let open_block := ((s.accounts account).map account_info.open_block).getD hash
  let old_head := ((s.accounts account).map account_info.head).getD 0
  let pending := (s.pending ⟨account, b.source⟩).getD ⟨0, 0⟩
  let sidecar := decide ((info.block_count + 1) % env.block_info_max = 0)
  match b with
  | block.send x =>
    { hash := hash, contents := b, account := account,
      record := ⟨hash, info.rep_block, open_block, x.hashables.balance, 0, info.block_count + 1⟩,
      old_head := old_head, sidecar := sidecar,
      pending_put := some (⟨x.hashables.destination, hash⟩,
        ⟨account, info.balance - x.hashables.balance⟩),
      pending_del := none,
      weights := [(info.rep_block, neg128 (info.balance - x.hashables.balance))],
      frontier_del := some x.hashables.previous, frontier_put := true }
  | block.receive x =>
    { hash := hash, contents := b, account := account,
      record := ⟨hash, info.rep_block, open_block, (info.balance + pending.amount) % 2 ^ 128, 0,
        info.block_count + 1⟩,
      old_head := old_head, sidecar := sidecar,
      pending_put := none, pending_del := some ⟨account, x.hashables.source⟩,
      weights := [(info.rep_block, pending.amount)],
      frontier_del := some x.hashables.previous, frontier_put := true }
  | block.opening x =>
    { hash := hash, contents := b, account := account,
      record := ⟨hash, hash, open_block, pending.amount, 0, account_info.zero.block_count + 1⟩,
      old_head := old_head,
      sidecar := decide ((account_info.zero.block_count + 1) % env.block_info_max = 0),
      pending_put := none, pending_del := some ⟨account, x.hashables.source⟩,
      weights := [(hash, pending.amount)],
      frontier_del := none, frontier_put := true }
  | block.change _ =>
    { hash := hash, contents := b, account := account,
      record := ⟨hash, hash, open_block, info.balance, 0, info.block_count + 1⟩,
      old_head := old_head, sidecar := sidecar,
      pending_put := none, pending_del := none,
      weights := [(hash, spec_change_weight env s b),
        (info.rep_block, neg128 (spec_change_weight env s b))],
      frontier_del := some b.previous, frontier_put := true }
  | block.state x =>
    let checked := ledger_processor.state_block_account_checks s x
    { hash := hash, contents := b, account := account,
      record := ⟨hash, hash, open_block, x.hashables.balance, 0, info.block_count + 1⟩,
      old_head := old_head, sidecar := false,
      pending_put :=
        if checked.2.2 then some (⟨x.hashables.link, hash⟩, ⟨account, checked.2.1⟩) else none,
      pending_del :=
        if checked.2.2 = false ∧ x.hashables.link ≠ 0 then some ⟨account, x.hashables.link⟩
        else none,
      weights :=
        (if info.rep_block ≠ 0 then [(info.rep_block, neg128 info.balance)] else [])
          ++ [(hash, x.hashables.balance)],
      frontier_del := if s.frontier_get info.head ≠ 0 then some info.head else none,
      frontier_put := false }
  | block.astate _ =>
    { hash := hash, contents := b, account := account, record := info, old_head := old_head,
      sidecar := false, pending_put := none, pending_del := none, weights := [],
      frontier_del := none, frontier_put := false }

namespace example_ledger

/-- Account `2` creates asset `7` with 60 units, on top of its open block 12664. -/
def asset_mint_other : mol.astate_block := ⟨⟨2, 12664, 2, 60, 0, 7⟩, 2⟩

end example_ledger

/-! ## Asset blocks that are accepted and not applied -/

/-- Every record of the asset-account table belongs to a non-zero account and
has a non-zero head. -/
def asset_records_rooted (s : block_store) : Prop :=
  ∀ k info, s.asset_accounts k = some info → k.account ≠ 0 ∧ info.head ≠ 0

namespace example_ledger

/-- Account `1` sends 3 units of asset `7` to account `2`. -/
def asset_gift : mol.astate_block :=
  ⟨⟨1, hash (block.astate asset_create), 1, 2 ^ 128 - 4, 2, 7⟩, 1⟩

/-- The store after the asset send of 3 units, at time 8. -/
def after_asset_gift : block_store :=
  (ledger.process env 8 after_asset_create (block.astate asset_gift)).2

/-- Account `2` receives the 3 units with a native state block: balance 13. -/
def state_claim : mol.state_block :=
  ⟨⟨2, 12664, 2, 13, hash (block.astate asset_gift)⟩, 2⟩

/-- The store after the native state block claimed the asset send, at time 9. -/
def after_state_claim : block_store :=
  (ledger.process env 9 after_asset_gift (block.state state_claim)).2

end example_ledger

/-! ## `account_pending` -/

/-- Modelled from the spec: the key order of the pending table ("range iteration
by destination account"), by account and then by hash. -/
def pending_key.below (a b : pending_key) : Bool :=
  decide (a.account < b.account ∨ (a.account = b.account ∧ a.hash < b.hash))

/-- Modelled from the spec: `rows` are the entries of the pending table as its
forward iterator meets them, in key order. -/
def spec_pending_rows (s : block_store) (rows : List (pending_key × pending_info)) : Prop :=
  rows.Pairwise (fun x y => pending_key.below x.1 y.1 = true) ∧
    ∀ k v, s.pending k = some v ↔ (k, v) ∈ rows

/-- Modelled from the spec: `pending_begin (key)`, the position of the first row
whose key is not below `key`; the number of rows when there is none. -/
def pending_begin (rows : List (pending_key × pending_info)) (key : pending_key) : Nat :=
  (rows.takeWhile fun x => pending_key.below x.1 key).length

/-- The `for` loop of `mol::ledger::account_pending` on the iterators `i` and
`n` and the 128-bit `result`; `none` when `i` leaves the table without meeting
`n`, or the fuel runs out. -/
def ledger.account_pending_loop (rows : List (pending_key × pending_info)) :
    Nat → Nat → Nat → Nat → Option Nat
  | 0, _, _, _ => none
  | fuel + 1, i, n, result =>
    if i = n then some result
    else
      match rows[i]? with
      | none => none
      | some row =>
        ledger.account_pending_loop rows fuel (i + 1) n ((result + row.2.amount) % 2 ^ 128)

/-- `mol::ledger::account_pending`, on the rows of the pending table; the end
account is `account_a + 1` in 256 bits. -/
def ledger.account_pending (rows : List (pending_key × pending_info)) (account_a : Nat) :
    Option Nat :=
  let end_account := (account_a + 1) % 2 ^ 256
  ledger.account_pending_loop rows (rows.length + 1) (pending_begin rows ⟨account_a, 0⟩)
    (pending_begin rows ⟨end_account, 0⟩) 0

/-- Spec: the sum of the amounts of the rows whose destination is `account`. -/
def spec_pending_sum (rows : List (pending_key × pending_info)) (account : Nat) : Nat :=
  ((rows.filter fun x => decide (x.1.account = account)).map fun x => x.2.amount).sum

/-! ## The sidecar under rollback -/

namespace example_ledger

/-- The example environment with a sidecar period of two blocks. -/
def env_small : ledger_env := { env with block_info_max := 2 }

/-- The store after `state1`, the second block of account `1`, at time 5. -/
def after_state1 : block_store := (ledger.process env_small 5 genesis (block.state state1)).2

/-- A third block of account `1`: a state block on `state1` (hash 1286) that keeps
balance and representative; hash 13786. -/
def state_again : mol.state_block := ⟨⟨1, 1286, 1, 90, 0⟩, 1⟩

/-- The store after `state_again`, at time 6. -/
def after_state_again : block_store :=
  (ledger.process env_small 6 after_state1 (block.state state_again)).2

/-- A pending table with two entries for account `2` and one for account `3`. -/
def pending_three : block_store :=
  { genesis with
    pending := fun k =>
      if k = ⟨2, 1262⟩ then some ⟨1, 10⟩
      else if k = ⟨2, 13492⟩ then some ⟨1, 5⟩
      else if k = ⟨3, 7⟩ then some ⟨1, 1⟩ else none }

/-- The rows of `pending_three` in key order. -/
def pending_three_rows : List (pending_key × pending_info) :=
  [(⟨2, 1262⟩, ⟨1, 10⟩), (⟨2, 13492⟩, ⟨1, 5⟩), (⟨3, 7⟩, ⟨1, 1⟩)]

end example_ledger

/-! ## The owner of a claimed block -/

namespace example_ledger

end example_ledger

/-! # Lemmas -/

/-! ## Arithmetic of 128-bit amounts -/

theorem neg128_sub (x a : Nat) (ha : a ≤ x) (hx : x < 2 ^ 128) :
    (x + neg128 a) % 2 ^ 128 = x - a := by
  unfold neg128
  omega

theorem set_successor_contents (t : Nat → Option stored_block) (h x k : Nat) :
    (block_store.set_successor t h x k).map stored_block.contents
      = (t k).map stored_block.contents := by
  unfold block_store.set_successor
  cases ht : t h with
  | none => rfl
  | some r =>
    by_cases hk : k = h
    · subst hk; simp [ht]
    · simp [Function.update_noteq hk]

theorem blocks_put_contents (t : Nat → Option stored_block) (h : Nat) (b : block) (k : Nat) :
    (block_store.blocks_put t h b k).map stored_block.contents
      = if k = h then some b else (t k).map stored_block.contents := by
  unfold block_store.blocks_put
  by_cases h0 : b.previous = 0 <;> by_cases hk : k = h <;> simp only [h0, if_true, if_false, hk]
  · subst hk; simp
  · simp [Function.update_noteq hk]
  · rw [set_successor_contents]; subst hk; simp
  · rw [set_successor_contents]; simp [Function.update_noteq hk]

theorem blocks_put_isSome (t : Nat → Option stored_block) (h : Nat) (b : block) (k : Nat) :
    (block_store.blocks_put t h b k).isSome = (decide (k = h) || (t k).isSome) := by
  have := congrArg Option.isSome (blocks_put_contents t h b k)
  by_cases hk : k = h <;> simpa [hk] using this

@[simp] theorem change_latest_blocks (env : ledger_env) (now : Nat) (s : block_store)
    (a h r bal c : Nat) (st : Bool) :
    (ledger.change_latest env now s a h r bal c st).blocks = s.blocks := by
  unfold ledger.change_latest; simp only; split_ifs <;> simp
@[simp] theorem change_latest_pending (env : ledger_env) (now : Nat) (s : block_store)
    (a h r bal c : Nat) (st : Bool) :
    (ledger.change_latest env now s a h r bal c st).pending = s.pending := by
  unfold ledger.change_latest; simp only; split_ifs <;> simp
@[simp] theorem change_latest_frontiers (env : ledger_env) (now : Nat) (s : block_store)
    (a h r bal c : Nat) (st : Bool) :
    (ledger.change_latest env now s a h r bal c st).frontiers = s.frontiers := by
  unfold ledger.change_latest; simp only; split_ifs <;> simp
@[simp] theorem change_latest_representation (env : ledger_env) (now : Nat) (s : block_store)
    (a h r bal c : Nat) (st : Bool) :
    (ledger.change_latest env now s a h r bal c st).representation = s.representation := by
  unfold ledger.change_latest; simp only; split_ifs <;> simp
@[simp] theorem change_latest_assets (env : ledger_env) (now : Nat) (s : block_store)
    (a h r bal c : Nat) (st : Bool) :
    (ledger.change_latest env now s a h r bal c st).assets = s.assets := by
  unfold ledger.change_latest; simp only; split_ifs <;> simp
@[simp] theorem change_latest_asset_accounts (env : ledger_env) (now : Nat) (s : block_store)
    (a h r bal c : Nat) (st : Bool) :
    (ledger.change_latest env now s a h r bal c st).asset_accounts = s.asset_accounts := by
  unfold ledger.change_latest; simp only; split_ifs <;> simp

/-- Accounts table after `change_latest` with a non-zero hash. -/
theorem change_latest_accounts (env : ledger_env) (now : Nat) (s : block_store)
    (a h r bal c : Nat) (st : Bool) (hh : h ≠ 0) :
    (ledger.change_latest env now s a h r bal c st).accounts =
      Function.update s.accounts a (some
        ⟨h, r, ((s.accounts a).map account_info.open_block).getD h, bal, now, c⟩) := by
  unfold ledger.change_latest
  simp only [hh, ne_eq, not_false_eq_true, if_true, block_store.account_get]
  cases hs : s.accounts a <;> simp [hs] <;> split_ifs <;> simp [account_info.zero]

/-- Accounts table after `change_latest` with the zero hash. -/
theorem change_latest_accounts_zero (env : ledger_env) (now : Nat) (s : block_store)
    (a r bal c : Nat) (st : Bool) :
    (ledger.change_latest env now s a 0 r bal c st).accounts = Function.update s.accounts a none := by
  unfold ledger.change_latest
  simp only [ne_eq, not_true_eq_false, if_false]
  split_ifs <;> simp

/-- Checksum after `change_latest`. -/
theorem change_latest_checksum (env : ledger_env) (now : Nat) (s : block_store)
    (a h r bal c : Nat) (st : Bool) :
    (ledger.change_latest env now s a h r bal c st).checksum =
      (s.checksum ^^^ ((s.accounts a).map account_info.head).getD 0) ^^^ h := by
  unfold ledger.change_latest
  simp only [block_store.account_get]
  cases hs : s.accounts a <;> by_cases hh : h = 0 <;> simp [hs, hh] <;> split_ifs <;> simp

/-- Sidecar after `change_latest`. -/
theorem change_latest_block_infos (env : ledger_env) (now : Nat) (s : block_store)
    (a h r bal c : Nat) (st : Bool) :
    (ledger.change_latest env now s a h r bal c st).block_infos =
      if h ≠ 0 ∧ c % env.block_info_max = 0 ∧ st = false then
        Function.update s.block_infos h (some ⟨a, bal⟩)
      else s.block_infos := by
  unfold ledger.change_latest
  simp only [block_store.account_get]
  by_cases hh : h = 0
  · simp [hh]; split_ifs <;> simp
  · simp only [hh, ne_eq, not_false_eq_true, if_true, true_and]
    split_ifs <;> simp

/-! ## A refused block changes nothing -/

theorem send_block_refused (env : ledger_env) (now : Nat) (s : block_store) (b : mol.send_block) :
    (ledger_processor.send_block env now s b).1.code ≠ process_result.progress →
    (ledger_processor.send_block env now s b).2 = s := by
  unfold ledger_processor.send_block
  dsimp only
  repeat' split
  all_goals simp

theorem receive_block_refused (env : ledger_env) (now : Nat) (s : block_store)
    (b : mol.receive_block) :
    (ledger_processor.receive_block env now s b).1.code ≠ process_result.progress →
    (ledger_processor.receive_block env now s b).2 = s := by
  unfold ledger_processor.receive_block
  dsimp only
  repeat' split
  all_goals simp

theorem open_block_refused (env : ledger_env) (now : Nat) (s : block_store) (b : mol.open_block) :
    (ledger_processor.open_block env now s b).1.code ≠ process_result.progress →
    (ledger_processor.open_block env now s b).2 = s := by
  unfold ledger_processor.open_block
  dsimp only
  repeat' split
  all_goals simp

theorem change_block_refused (env : ledger_env) (now : Nat) (s : block_store)
    (b : mol.change_block) :
    (ledger_processor.change_block env now s b).1.code ≠ process_result.progress →
    (ledger_processor.change_block env now s b).2 = s := by
  unfold ledger_processor.change_block
  dsimp only
  repeat' split
  all_goals simp

theorem state_block_refused (env : ledger_env) (now : Nat) (s : block_store)
    (b : mol.state_block) :
    (ledger_processor.state_block env now s b).1.code ≠ process_result.progress →
    (ledger_processor.state_block env now s b).2 = s := by
  unfold ledger_processor.state_block ledger_processor.state_block_impl
  dsimp only
  repeat' split
  all_goals simp
  all_goals (intro h; exact absurd ‹_› h)

theorem astate_block_refused (env : ledger_env) (now : Nat) (s : block_store)
    (b : mol.astate_block) :
    (ledger_processor.astate_block env now s b).1.code ≠ process_result.progress →
    (ledger_processor.astate_block env now s b).2 = s := by
  unfold ledger_processor.astate_block
  dsimp only
  by_cases h1 : s.block_exists (env.hash (block.astate b)) = true
  · rw [if_pos h1]; simp
  rw [if_neg h1]
  by_cases h2 : env.validate_message b.hashables.account (env.hash (block.astate b))
      b.signature = true
  · rw [if_pos h2]; simp
  rw [if_neg h2]
  by_cases h3 : b.hashables.account = 0
  · rw [if_pos h3]; simp
  rw [if_neg h3]
  by_cases h4 : s.account_exists b.hashables.account = false
  · rw [if_pos h4]; simp
  rw [if_neg h4]
  cases hg : s.account_get b.hashables.account with
  | none => simp
  | some info =>
    dsimp only
    by_cases h5 : s.asset_exists b.hashables.asset = true
    · rw [if_pos h5]
      by_cases h6 : s.asset_account_exists ⟨b.hashables.account, b.hashables.asset⟩ = true
      · rw [if_pos h6]
        by_cases h7 : b.hashables.previous = 0
        · rw [if_pos h7]; simp
        rw [if_neg h7]
        by_cases h8 : s.block_exists b.hashables.previous = false
        · rw [if_pos h8]; simp
        rw [if_neg h8]
        cases hag : s.asset_account_get ⟨b.hashables.account, b.hashables.asset⟩ with
        | none => simp
        | some ia =>
          dsimp only
          repeat' split
          all_goals simp
      · rw [if_neg h6]
        repeat' split
        all_goals simp
    · rw [if_neg h5]
      repeat' split
      all_goals simp

/-- An accepted send block passed every check, and its store is `send_block_apply`. -/
theorem send_block_accepted (env : ledger_env) (now : Nat) (s : block_store) (b : mol.send_block)
    (h : (ledger_processor.send_block env now s b).1.code = process_result.progress) :
    s.blocks (env.hash (block.send b)) = none ∧
    (∃ previous, s.blocks b.hashables.previous = some previous) ∧
    s.frontier_get b.hashables.previous ≠ 0 ∧
    b.hashables.balance ≤
      ((s.account_get (s.frontier_get b.hashables.previous)).getD account_info.zero).balance ∧
    (ledger_processor.send_block env now s b).2 =
      ledger_processor.send_block_apply env now s b (s.frontier_get b.hashables.previous)
        ((s.account_get (s.frontier_get b.hashables.previous)).getD account_info.zero) := by
  revert h
  unfold ledger_processor.send_block
  dsimp only
  repeat' split
  all_goals simp_all
  all_goals (rcases ‹∃ a, _› with ⟨a, ha, _⟩; exact ⟨a, ha⟩)

theorem frontier_get_ne_zero (s : block_store) (h : Nat) (hne : s.frontier_get h ≠ 0) :
    s.frontiers h = some (s.frontier_get h) := by
  simp only [block_store.frontier_get] at hne ⊢
  cases hf : s.frontiers h with
  | none => simp [hf] at hne
  | some a => simp

/-- An accepted receive block passed every check, and its store is
`receive_block_apply`. -/
theorem receive_block_accepted (env : ledger_env) (now : Nat) (s : block_store)
    (b : mol.receive_block)
    (h : (ledger_processor.receive_block env now s b).1.code = process_result.progress) :
    s.blocks (env.hash (block.receive b)) = none ∧
    (∃ previous, s.blocks b.hashables.previous = some previous) ∧
    s.frontier_get b.hashables.previous ≠ 0 ∧
    ((s.account_get (s.frontier_get b.hashables.previous)).getD account_info.zero).head
      = b.hashables.previous ∧
    ∃ pending, s.pending ⟨s.frontier_get b.hashables.previous, b.hashables.source⟩ = some pending ∧
      (ledger_processor.receive_block env now s b).2 =
        ledger_processor.receive_block_apply env now s b (s.frontier_get b.hashables.previous)
          ((s.account_get (s.frontier_get b.hashables.previous)).getD account_info.zero) pending := by
  revert h
  unfold ledger_processor.receive_block
  dsimp only
  repeat' split
  all_goals simp_all
  all_goals (rcases ‹∃ a, _› with ⟨a, ha, _⟩; exact ⟨a, ha⟩)

/-- An accepted open block passed every check, and its store is `open_block_apply`. -/
theorem open_block_accepted (env : ledger_env) (now : Nat) (s : block_store)
    (b : mol.open_block)
    (h : (ledger_processor.open_block env now s b).1.code = process_result.progress) :
    s.blocks (env.hash (block.opening b)) = none ∧
    (∃ source, s.blocks b.hashables.source = some source) ∧
    s.accounts b.hashables.account = none ∧
    b.hashables.account ≠ env.burn_account ∧
    ∃ pending, s.pending ⟨b.hashables.account, b.hashables.source⟩ = some pending ∧
      (ledger_processor.open_block env now s b).2 =
        ledger_processor.open_block_apply env now s b account_info.zero pending := by
  revert h
  unfold ledger_processor.open_block
  dsimp only
  repeat' split
  all_goals simp_all
  all_goals (cases hb : s.blocks b.hashables.source <;> simp_all)

/-- An accepted change block passed every check, and its store is
`change_block_apply`. -/
theorem change_block_accepted (env : ledger_env) (now : Nat) (s : block_store)
    (b : mol.change_block)
    (h : (ledger_processor.change_block env now s b).1.code = process_result.progress) :
    s.blocks (env.hash (block.change b)) = none ∧
    (∃ previous, s.blocks b.hashables.previous = some previous) ∧
    s.frontier_get b.hashables.previous ≠ 0 ∧
    (ledger_processor.change_block env now s b).2 =
      ledger_processor.change_block_apply env now s b (s.frontier_get b.hashables.previous)
        ((s.account_get (s.frontier_get b.hashables.previous)).getD account_info.zero) := by
  revert h
  unfold ledger_processor.change_block
  dsimp only
  repeat' split
  all_goals simp_all
  all_goals (rcases ‹∃ a, _› with ⟨a, ha, _⟩; exact ⟨a, ha⟩)

/-- What the account checks of an accepted state block established. -/
theorem state_block_account_checks_progress (s : block_store) (b : mol.state_block)
    (h : (ledger_processor.state_block_account_checks s b).1 = process_result.progress) :
    (∀ info, s.accounts b.hashables.account = some info →
      b.hashables.previous ≠ 0 ∧ (s.blocks b.hashables.previous).isSome = true ∧
      b.hashables.previous = info.head ∧
      (ledger_processor.state_block_account_checks s b).2.2
        = decide (b.hashables.balance < info.balance) ∧
      (ledger_processor.state_block_account_checks s b).2.1
        = (if b.hashables.balance < info.balance then info.balance - b.hashables.balance
           else b.hashables.balance - info.balance)) ∧
    (s.accounts b.hashables.account = none →
      b.hashables.previous = 0 ∧ b.hashables.link ≠ 0 ∧
      (ledger_processor.state_block_account_checks s b).2.2 = false ∧
      (ledger_processor.state_block_account_checks s b).2.1 = b.hashables.balance) := by
  revert h
  unfold ledger_processor.state_block_account_checks
  cases hf : s.accounts b.hashables.account with
  | none =>
    simp only [block_store.account_get, hf]
    repeat' split
    all_goals simp_all
  | some info =>
    simp only [block_store.account_get, hf]
    repeat' split
    all_goals simp_all
    · exact Option.isSome_iff_ne_none.mpr ‹_›
    · refine ⟨Option.isSome_iff_ne_none.mpr ‹_›, ?_⟩
      rw [if_neg (by omega)]

/-- An accepted state block passed every check, and its store is
`state_block_apply`. -/
theorem state_block_accepted (env : ledger_env) (now : Nat) (s : block_store)
    (b : mol.state_block)
    (h : (ledger_processor.state_block env now s b).1.code = process_result.progress) :
    s.blocks (env.hash (block.state b)) = none ∧
    b.hashables.account ≠ 0 ∧
    (ledger_processor.state_block_account_checks s b).1 = process_result.progress ∧
    ledger_processor.state_block_link_checks s b process_result.progress
      (ledger_processor.state_block_account_checks s b).2.1
      (ledger_processor.state_block_account_checks s b).2.2 = process_result.progress ∧
    (ledger_processor.state_block env now s b).2 =
      ledger_processor.state_block_apply env now s b
        ((s.account_get b.hashables.account).getD account_info.zero)
        (ledger_processor.state_block_account_checks s b).2.1
        (ledger_processor.state_block_account_checks s b).2.2 := by
  have key : ∀ c a i, ledger_processor.state_block_link_checks s b c a i = process_result.progress →
      c = process_result.progress := by
    intro c a i hc
    unfold ledger_processor.state_block_link_checks at hc
    by_cases hcp : c = process_result.progress
    · exact hcp
    · rw [if_neg hcp] at hc; exact absurd hc hcp
  revert h
  unfold ledger_processor.state_block ledger_processor.state_block_impl
  dsimp only
  repeat' split
  all_goals try (intro h; simp at h; done)
  · rename_i hen hex hval hacc hcode
    intro _
    have hc := key _ _ _ hcode
    refine ⟨by simpa using hex, hacc, hc, ?_, rfl⟩
    rw [hc] at hcode
    exact hcode
  · rename_i hen hex hval hacc hcode
    intro h; exact absurd h hcode

/-! ## Tables written by an accepted state block -/

theorem state_block_apply_blocks (env : ledger_env) (now : Nat) (s : block_store)
    (b : mol.state_block) (info : account_info) (amount : Nat) (is_send : Bool) :
    (ledger_processor.state_block_apply env now s b info amount is_send).blocks
      = block_store.blocks_put s.blocks (env.hash (block.state b)) (block.state b) := by
  unfold ledger_processor.state_block_apply
  dsimp only
  split_ifs <;> simp

theorem state_block_apply_pending (env : ledger_env) (now : Nat) (s : block_store)
    (b : mol.state_block) (info : account_info) (amount : Nat) (is_send : Bool) :
    (ledger_processor.state_block_apply env now s b info amount is_send).pending
      = if is_send then
          Function.update s.pending ⟨b.hashables.link, env.hash (block.state b)⟩
            (some ⟨b.hashables.account, amount⟩)
        else if b.hashables.link ≠ 0 then
          Function.update s.pending ⟨b.hashables.account, b.hashables.link⟩ none
        else s.pending := by
  unfold ledger_processor.state_block_apply
  dsimp only
  split_ifs <;> simp

theorem state_block_apply_representation (env : ledger_env) (now : Nat) (s : block_store)
    (b : mol.state_block) (info : account_info) (amount : Nat) (is_send : Bool) :
    (ledger_processor.state_block_apply env now s b info amount is_send).representation
      = ((if info.rep_block ≠ 0 then s.representation_add info.rep_block (neg128 info.balance)
          else s).representation_add (env.hash (block.state b)) b.hashables.balance).representation := by
  unfold ledger_processor.state_block_apply
  dsimp only
  split_ifs <;> simp

theorem state_block_apply_frontiers (env : ledger_env) (now : Nat) (s : block_store)
    (b : mol.state_block) (info : account_info) (amount : Nat) (is_send : Bool) :
    (ledger_processor.state_block_apply env now s b info amount is_send).frontiers
      = if s.frontier_get info.head ≠ 0 then Function.update s.frontiers info.head none
        else s.frontiers := by
  unfold ledger_processor.state_block_apply
  dsimp only
  split_ifs <;> simp_all

theorem state_block_apply_accounts (env : ledger_env) (now : Nat) (s : block_store)
    (b : mol.state_block) (info : account_info) (amount : Nat) (is_send : Bool)
    (hnz : env.hash (block.state b) ≠ 0) :
    (ledger_processor.state_block_apply env now s b info amount is_send).accounts
      = Function.update s.accounts b.hashables.account (some
          ⟨env.hash (block.state b), env.hash (block.state b),
            ((s.accounts b.hashables.account).map account_info.open_block).getD
              (env.hash (block.state b)),
            b.hashables.balance, now, info.block_count + 1⟩) := by
  unfold ledger_processor.state_block_apply
  dsimp only
  split_ifs <;> simp [change_latest_accounts _ _ _ _ _ _ _ _ _ hnz]

theorem state_block_apply_checksum (env : ledger_env) (now : Nat) (s : block_store)
    (b : mol.state_block) (info : account_info) (amount : Nat) (is_send : Bool) :
    (ledger_processor.state_block_apply env now s b info amount is_send).checksum
      = (s.checksum ^^^ ((s.accounts b.hashables.account).map account_info.head).getD 0)
          ^^^ env.hash (block.state b) := by
  unfold ledger_processor.state_block_apply
  dsimp only
  split_ifs <;> simp [change_latest_checksum]

theorem account_loop_mono (s : block_store) (f : Nat) :
    ∀ (h su : Nat) (blk : block) (bi : block_info) (r : Nat × Nat × block × block_info),
      ledger.account_loop s f h su blk bi = some r →
      ledger.account_loop s (f + 1) h su blk bi = some r := by
  induction f with
  | zero => intro h su blk bi r hr; simp [ledger.account_loop] at hr
  | succ f ih =>
    intro h su blk bi r hr
    rw [ledger.account_loop] at hr ⊢
    split_ifs at hr ⊢ with hc
    · cases hi : s.block_info_get su with
      | some found => rw [hi] at hr; exact hr
      | none =>
        rw [hi] at hr
        dsimp only at hr ⊢
        split_ifs at hr ⊢ with hs
        · cases hb : s.block_get (s.block_successor h) with
          | none => rw [hb] at hr; simp at hr
          | some blk1 =>
            rw [hb] at hr
            exact ih _ _ _ _ _ hr
        · exact ih _ _ _ _ _ hr
    · exact hr

theorem account_mono (s : block_store) (f h a : Nat) (hr : ledger.account s f h = some a) :
    ledger.account s (f + 1) h = some a := by
  unfold ledger.account at hr ⊢
  revert hr
  cases s.block_get h with
  | none => intro hr; simp at hr
  | some blk0 =>
    dsimp only
    cases hl : ledger.account_loop s f h 1 blk0 ⟨0, 0⟩ with
    | none => intro hr; simp at hr
    | some r =>
      rw [account_loop_mono s f _ _ _ _ r hl]
      exact id

theorem account_mono_le (s : block_store) (f g h a : Nat) (hfg : f ≤ g)
    (hr : ledger.account s f h = some a) : ledger.account s g h = some a := by
  induction hfg with
  | refl => exact hr
  | step _ ih => exact account_mono s _ h a ih

/-- `account` of a state block. -/
theorem account_state_block (s : block_store) (f hash succ : Nat) (b : mol.state_block)
    (hb : s.blocks hash = some ⟨block.state b, succ⟩) :
    ledger.account s (f + 1) hash = some b.hashables.account := by
  unfold ledger.account
  simp only [block_store.block_get, hb, Option.map_some']
  rw [ledger.account_loop]
  simp [block.type, block_type_state]

section send_fields
variable (env : ledger_env) (now : Nat) (s : block_store) (b : mol.send_block)
  (account : Nat) (info : account_info)

theorem send_block_apply_blocks :
    (ledger_processor.send_block_apply env now s b account info).blocks
      = block_store.blocks_put s.blocks (env.hash (block.send b)) (block.send b) := by
  simp [ledger_processor.send_block_apply]

theorem send_block_apply_pending :
    (ledger_processor.send_block_apply env now s b account info).pending
      = Function.update s.pending ⟨b.hashables.destination, env.hash (block.send b)⟩
          (some ⟨account, info.balance - b.hashables.balance⟩) := by
  simp [ledger_processor.send_block_apply]

theorem send_block_apply_representation :
    (ledger_processor.send_block_apply env now s b account info).representation
      = Function.update s.representation info.rep_block
          ((s.representation info.rep_block + neg128 (info.balance - b.hashables.balance))
            % 2 ^ 128) := by
  simp [ledger_processor.send_block_apply]

theorem send_block_apply_frontiers :
    (ledger_processor.send_block_apply env now s b account info).frontiers
      = Function.update (Function.update s.frontiers b.hashables.previous none)
          (env.hash (block.send b)) (some account) := by
  simp [ledger_processor.send_block_apply]

theorem send_block_apply_checksum :
    (ledger_processor.send_block_apply env now s b account info).checksum
      = (s.checksum ^^^ ((s.accounts account).map account_info.head).getD 0)
          ^^^ env.hash (block.send b) := by
  simp [ledger_processor.send_block_apply, change_latest_checksum]

theorem send_block_apply_accounts (hnz : env.hash (block.send b) ≠ 0) :
    (ledger_processor.send_block_apply env now s b account info).accounts
      = Function.update s.accounts account (some
          ⟨env.hash (block.send b), info.rep_block,
            ((s.accounts account).map account_info.open_block).getD (env.hash (block.send b)),
            b.hashables.balance, now, info.block_count + 1⟩) := by
  simp [ledger_processor.send_block_apply, change_latest_accounts _ _ _ _ _ _ _ _ _ hnz]

end send_fields

/-! ## Tables written by the rollback visitor -/

section send_undo_fields
variable (env : ledger_env) (now : Nat) (s : block_store) (b : mol.send_block)
  (pending : pending_info)

theorem rollback_send_blocks :
    (rollback_visitor.send_block env now s b pending).blocks
      = block_store.set_successor (Function.update s.blocks (env.hash (block.send b)) none)
          b.hashables.previous 0 := by
  unfold rollback_visitor.send_block
  dsimp only
  split_ifs <;> simp

theorem rollback_send_pending :
    (rollback_visitor.send_block env now s b pending).pending
      = Function.update s.pending ⟨b.hashables.destination, env.hash (block.send b)⟩ none := by
  unfold rollback_visitor.send_block
  dsimp only
  split_ifs <;> simp

theorem rollback_send_frontiers :
    (rollback_visitor.send_block env now s b pending).frontiers
      = Function.update (Function.update s.frontiers (env.hash (block.send b)) none)
          b.hashables.previous (some pending.source) := by
  unfold rollback_visitor.send_block
  dsimp only
  split_ifs <;> simp

theorem rollback_send_checksum :
    (rollback_visitor.send_block env now s b pending).checksum
      = (s.checksum ^^^ ((s.accounts pending.source).map account_info.head).getD 0)
          ^^^ b.hashables.previous := by
  unfold rollback_visitor.send_block
  dsimp only
  split_ifs <;> simp [change_latest_checksum]

theorem rollback_send_accounts (hp : b.hashables.previous ≠ 0) :
    (rollback_visitor.send_block env now s b pending).accounts
      = Function.update s.accounts pending.source (some
          ⟨b.hashables.previous,
            ((s.accounts pending.source).getD account_info.zero).rep_block,
            ((s.accounts pending.source).map account_info.open_block).getD b.hashables.previous,
            env.balance s.blocks b.hashables.previous, now,
            ((s.accounts pending.source).getD account_info.zero).block_count - 1⟩) := by
  unfold rollback_visitor.send_block
  dsimp only
  split_ifs <;> simp [change_latest_accounts _ _ _ _ _ _ _ _ _ hp]

end send_undo_fields

/-- A rollback that needs exactly one undo. -/
theorem rollback_single (env : ledger_env) (now f : Nat) (s1 s2 : block_store)
    (hash a : Nat) (i1 : account_info) (b : block)
    (hacct : ledger.account s1 (f + 3) hash = some a)
    (hex : s1.blocks hash ≠ none)
    (hrec : s1.accounts a = some i1) (hhead : i1.head = hash)
    (hblk : s1.block_get hash = some b)
    (hvisit : ledger.rollback_run env now (f + 1) s1 (rollback_task.visit b) = some s2)
    (hgone : s2.blocks hash = none) :
    ledger.rollback env now (f + 3) s1 hash = some s2 := by
  unfold ledger.rollback
  rw [ledger.rollback_run, hacct]
  dsimp only
  rw [ledger.rollback_run]
  have hex' : s1.block_exists hash = true := by
    simpa [Option.isSome_iff_ne_none] using hex
  rw [if_pos hex']
  simp only [block_store.account_get, hrec, Option.getD_some, hhead, hblk, hvisit]
  rw [ledger.rollback_run]
  simp [hgone]

theorem xor_cancel_right (x y : Nat) : (x ^^^ y) ^^^ y = x := by
  rw [Nat.xor_assoc, Nat.xor_self, Nat.xor_zero]

section receive_fields
variable (env : ledger_env) (now : Nat) (s : block_store) (b : mol.receive_block)
  (account : Nat) (info : account_info) (pending : pending_info)

theorem receive_block_apply_blocks :
    (ledger_processor.receive_block_apply env now s b account info pending).blocks
      = block_store.blocks_put s.blocks (env.hash (block.receive b)) (block.receive b) := by
  simp [ledger_processor.receive_block_apply]

theorem receive_block_apply_pending :
    (ledger_processor.receive_block_apply env now s b account info pending).pending
      = Function.update s.pending ⟨account, b.hashables.source⟩ none := by
  simp [ledger_processor.receive_block_apply]

theorem receive_block_apply_representation :
    (ledger_processor.receive_block_apply env now s b account info pending).representation
      = Function.update s.representation info.rep_block
          ((s.representation info.rep_block + pending.amount) % 2 ^ 128) := by
  simp [ledger_processor.receive_block_apply]

theorem receive_block_apply_frontiers :
    (ledger_processor.receive_block_apply env now s b account info pending).frontiers
      = Function.update (Function.update s.frontiers b.hashables.previous none)
          (env.hash (block.receive b)) (some account) := by
  simp [ledger_processor.receive_block_apply]

theorem receive_block_apply_checksum :
    (ledger_processor.receive_block_apply env now s b account info pending).checksum
      = (s.checksum ^^^ ((s.accounts account).map account_info.head).getD 0)
          ^^^ env.hash (block.receive b) := by
  simp [ledger_processor.receive_block_apply, change_latest_checksum]

theorem receive_block_apply_accounts (hnz : env.hash (block.receive b) ≠ 0) :
    (ledger_processor.receive_block_apply env now s b account info pending).accounts
      = Function.update s.accounts account (some
          ⟨env.hash (block.receive b), info.rep_block,
            ((s.accounts account).map account_info.open_block).getD (env.hash (block.receive b)),
            (info.balance + pending.amount) % 2 ^ 128, now, info.block_count + 1⟩) := by
  simp [ledger_processor.receive_block_apply, change_latest_accounts _ _ _ _ _ _ _ _ _ hnz]

end receive_fields

section open_fields
variable (env : ledger_env) (now : Nat) (s : block_store) (b : mol.open_block)
  (info : account_info) (pending : pending_info)

theorem open_block_apply_blocks :
    (ledger_processor.open_block_apply env now s b info pending).blocks
      = block_store.blocks_put s.blocks (env.hash (block.opening b)) (block.opening b) := by
  simp [ledger_processor.open_block_apply]

theorem open_block_apply_pending :
    (ledger_processor.open_block_apply env now s b info pending).pending
      = Function.update s.pending ⟨b.hashables.account, b.hashables.source⟩ none := by
  simp [ledger_processor.open_block_apply]

theorem open_block_apply_representation :
    (ledger_processor.open_block_apply env now s b info pending).representation
      = Function.update s.representation (env.hash (block.opening b))
          ((s.representation (env.hash (block.opening b)) + pending.amount) % 2 ^ 128) := by
  simp [ledger_processor.open_block_apply]

theorem open_block_apply_frontiers :
    (ledger_processor.open_block_apply env now s b info pending).frontiers
      = Function.update s.frontiers (env.hash (block.opening b)) (some b.hashables.account) := by
  simp [ledger_processor.open_block_apply]

theorem open_block_apply_checksum :
    (ledger_processor.open_block_apply env now s b info pending).checksum
      = (s.checksum ^^^ ((s.accounts b.hashables.account).map account_info.head).getD 0)
          ^^^ env.hash (block.opening b) := by
  simp [ledger_processor.open_block_apply, change_latest_checksum]

theorem open_block_apply_accounts (hnz : env.hash (block.opening b) ≠ 0) :
    (ledger_processor.open_block_apply env now s b info pending).accounts
      = Function.update s.accounts b.hashables.account (some
          ⟨env.hash (block.opening b), env.hash (block.opening b),
            ((s.accounts b.hashables.account).map account_info.open_block).getD
              (env.hash (block.opening b)),
            pending.amount, now, info.block_count + 1⟩) := by
  simp [ledger_processor.open_block_apply, change_latest_accounts _ _ _ _ _ _ _ _ _ hnz]

end open_fields

section change_fields
variable (env : ledger_env) (now : Nat) (s : block_store) (b : mol.change_block)
  (account : Nat) (info : account_info)

theorem change_block_apply_blocks :
    (ledger_processor.change_block_apply env now s b account info).blocks
      = block_store.blocks_put s.blocks (env.hash (block.change b)) (block.change b) := by
  simp [ledger_processor.change_block_apply]

theorem change_block_apply_pending :
    (ledger_processor.change_block_apply env now s b account info).pending = s.pending := by
  simp [ledger_processor.change_block_apply]

theorem change_block_apply_representation :
    (ledger_processor.change_block_apply env now s b account info).representation
      = ((s.representation_add (env.hash (block.change b))
            (env.balance (block_store.blocks_put s.blocks (env.hash (block.change b))
              (block.change b)) b.hashables.previous)).representation_add info.rep_block
          (neg128 (env.balance (block_store.blocks_put s.blocks (env.hash (block.change b))
              (block.change b)) b.hashables.previous))).representation := by
  simp [ledger_processor.change_block_apply]

theorem change_block_apply_frontiers :
    (ledger_processor.change_block_apply env now s b account info).frontiers
      = Function.update (Function.update s.frontiers b.hashables.previous none)
          (env.hash (block.change b)) (some account) := by
  simp [ledger_processor.change_block_apply]

theorem change_block_apply_checksum :
    (ledger_processor.change_block_apply env now s b account info).checksum
      = (s.checksum ^^^ ((s.accounts account).map account_info.head).getD 0)
          ^^^ env.hash (block.change b) := by
  simp [ledger_processor.change_block_apply, change_latest_checksum]

theorem change_block_apply_accounts (hnz : env.hash (block.change b) ≠ 0) :
    (ledger_processor.change_block_apply env now s b account info).accounts
      = Function.update s.accounts account (some
          ⟨env.hash (block.change b), env.hash (block.change b),
            ((s.accounts account).map account_info.open_block).getD (env.hash (block.change b)),
            info.balance, now, info.block_count + 1⟩) := by
  simp [ledger_processor.change_block_apply, change_latest_accounts _ _ _ _ _ _ _ _ _ hnz]

end change_fields

section receive_undo_fields
variable (env : ledger_env) (now : Nat) (s : block_store) (b : mol.receive_block)
  (dst src : Nat)

theorem rollback_receive_blocks :
    (rollback_visitor.receive_block_undo env now s b dst src).blocks
      = block_store.set_successor (Function.update s.blocks (env.hash (block.receive b)) none)
          b.hashables.previous 0 := by
  unfold rollback_visitor.receive_block_undo
  dsimp only
  split_ifs <;> simp

theorem rollback_receive_pending :
    (rollback_visitor.receive_block_undo env now s b dst src).pending
      = Function.update s.pending ⟨dst, b.hashables.source⟩
          (some ⟨src, env.amount s.blocks b.hashables.source⟩) := by
  unfold rollback_visitor.receive_block_undo
  dsimp only
  split_ifs <;> simp

theorem rollback_receive_frontiers :
    (rollback_visitor.receive_block_undo env now s b dst src).frontiers
      = Function.update (Function.update s.frontiers (env.hash (block.receive b)) none)
          b.hashables.previous (some dst) := by
  unfold rollback_visitor.receive_block_undo
  dsimp only
  split_ifs <;> simp

theorem rollback_receive_checksum :
    (rollback_visitor.receive_block_undo env now s b dst src).checksum
      = (s.checksum ^^^ ((s.accounts dst).map account_info.head).getD 0)
          ^^^ b.hashables.previous := by
  unfold rollback_visitor.receive_block_undo
  dsimp only
  split_ifs <;> simp [change_latest_checksum]

theorem rollback_receive_accounts (hp : b.hashables.previous ≠ 0) :
    (rollback_visitor.receive_block_undo env now s b dst src).accounts
      = Function.update s.accounts dst (some
          ⟨b.hashables.previous, env.representative s.blocks b.hashables.previous,
            ((s.accounts dst).map account_info.open_block).getD b.hashables.previous,
            env.balance s.blocks b.hashables.previous, now,
            ((s.accounts dst).getD account_info.zero).block_count - 1⟩) := by
  unfold rollback_visitor.receive_block_undo
  dsimp only
  split_ifs <;> simp [change_latest_accounts _ _ _ _ _ _ _ _ _ hp]

end receive_undo_fields

section open_undo_fields
variable (env : ledger_env) (now : Nat) (s : block_store) (b : mol.open_block)
  (dst src : Nat)

theorem rollback_open_blocks :
    (rollback_visitor.open_block_undo env now s b dst src).blocks
      = Function.update s.blocks (env.hash (block.opening b)) none := by
  simp [rollback_visitor.open_block_undo]

theorem rollback_open_pending :
    (rollback_visitor.open_block_undo env now s b dst src).pending
      = Function.update s.pending ⟨dst, b.hashables.source⟩
          (some ⟨src, env.amount s.blocks b.hashables.source⟩) := by
  simp [rollback_visitor.open_block_undo]

theorem rollback_open_frontiers :
    (rollback_visitor.open_block_undo env now s b dst src).frontiers
      = Function.update s.frontiers (env.hash (block.opening b)) none := by
  simp [rollback_visitor.open_block_undo]

theorem rollback_open_checksum :
    (rollback_visitor.open_block_undo env now s b dst src).checksum
      = s.checksum ^^^ ((s.accounts dst).map account_info.head).getD 0 := by
  simp [rollback_visitor.open_block_undo, change_latest_checksum]

theorem rollback_open_accounts :
    (rollback_visitor.open_block_undo env now s b dst src).accounts
      = Function.update s.accounts dst none := by
  simp [rollback_visitor.open_block_undo, change_latest_accounts_zero]

end open_undo_fields

section change_undo_fields
variable (env : ledger_env) (now : Nat) (s : block_store) (b : mol.change_block)
  (account : Nat)

theorem rollback_change_blocks :
    (rollback_visitor.change_block_undo env now s b account).blocks
      = block_store.set_successor (Function.update s.blocks (env.hash (block.change b)) none)
          b.hashables.previous 0 := by
  unfold rollback_visitor.change_block_undo
  dsimp only
  split_ifs <;> simp

theorem rollback_change_pending :
    (rollback_visitor.change_block_undo env now s b account).pending = s.pending := by
  unfold rollback_visitor.change_block_undo
  dsimp only
  split_ifs <;> simp

theorem rollback_change_frontiers :
    (rollback_visitor.change_block_undo env now s b account).frontiers
      = Function.update (Function.update s.frontiers (env.hash (block.change b)) none)
          b.hashables.previous (some account) := by
  unfold rollback_visitor.change_block_undo
  dsimp only
  split_ifs <;> simp

theorem rollback_change_checksum :
    (rollback_visitor.change_block_undo env now s b account).checksum
      = (s.checksum ^^^ ((s.accounts account).map account_info.head).getD 0)
          ^^^ b.hashables.previous := by
  unfold rollback_visitor.change_block_undo
  dsimp only
  split_ifs <;> simp [change_latest_checksum]

theorem rollback_change_accounts (hp : b.hashables.previous ≠ 0) :
    (rollback_visitor.change_block_undo env now s b account).accounts
      = Function.update s.accounts account (some
          ⟨b.hashables.previous, env.representative s.blocks b.hashables.previous,
            ((s.accounts account).map account_info.open_block).getD b.hashables.previous,
            ((s.accounts account).getD account_info.zero).balance, now,
            ((s.accounts account).getD account_info.zero).block_count - 1⟩) := by
  unfold rollback_visitor.change_block_undo
  dsimp only
  split_ifs <;> simp [change_latest_accounts _ _ _ _ _ _ _ _ _ hp]

end change_undo_fields

/-- What the link checks of an accepted state block established. -/
theorem state_block_link_checks_progress (s : block_store) (b : mol.state_block) (amount : Nat)
    (h : ledger_processor.state_block_link_checks s b process_result.progress amount false
      = process_result.progress) :
    (b.hashables.link ≠ 0 →
      ∃ p, s.pending ⟨b.hashables.account, b.hashables.link⟩ = some p ∧ amount = p.amount) ∧
    (b.hashables.link = 0 → amount = 0) := by
  revert h
  unfold ledger_processor.state_block_link_checks
  repeat' split
  all_goals simp_all

section state_undo_fields
variable (env : ledger_env) (now : Nat) (s : block_store) (b : mol.state_block)
  (representative balance : Nat)

theorem state_block_weights_blocks :
    (rollback_visitor.state_block_weights env s b representative balance).blocks = s.blocks := by
  unfold rollback_visitor.state_block_weights
  dsimp only
  split_ifs <;> rfl

theorem state_block_weights_accounts :
    (rollback_visitor.state_block_weights env s b representative balance).accounts
      = s.accounts := by
  unfold rollback_visitor.state_block_weights
  dsimp only
  split_ifs <;> rfl

theorem state_block_weights_pending :
    (rollback_visitor.state_block_weights env s b representative balance).pending
      = s.pending := by
  unfold rollback_visitor.state_block_weights
  dsimp only
  split_ifs <;> rfl

theorem state_block_weights_frontiers :
    (rollback_visitor.state_block_weights env s b representative balance).frontiers
      = s.frontiers := by
  unfold rollback_visitor.state_block_weights
  dsimp only
  split_ifs <;> rfl

theorem state_block_weights_checksum :
    (rollback_visitor.state_block_weights env s b representative balance).checksum
      = s.checksum := by
  unfold rollback_visitor.state_block_weights
  dsimp only
  split_ifs <;> rfl

theorem state_block_weights_block_infos :
    (rollback_visitor.state_block_weights env s b representative balance).block_infos
      = s.block_infos := by
  unfold rollback_visitor.state_block_weights
  dsimp only
  split_ifs <;> rfl

theorem state_block_rewind_blocks_self :
    (rollback_visitor.state_block_rewind env now s b representative balance).blocks
      (env.hash (block.state b)) = none := by
  unfold rollback_visitor.state_block_rewind
  simp

theorem state_block_rewind_pending :
    (rollback_visitor.state_block_rewind env now s b representative balance).pending
      = s.pending := by
  unfold rollback_visitor.state_block_rewind
  dsimp only
  split <;> [split_ifs; skip] <;> simp

theorem state_block_rewind_checksum :
    (rollback_visitor.state_block_rewind env now s b representative balance).checksum
      = (s.checksum ^^^ ((s.accounts b.hashables.account).map account_info.head).getD 0)
          ^^^ b.hashables.previous := by
  unfold rollback_visitor.state_block_rewind
  dsimp only
  split <;> [split_ifs; skip] <;> simp [change_latest_checksum]

theorem state_block_rewind_frontiers :
    (rollback_visitor.state_block_rewind env now s b representative balance).frontiers
      = match s.blocks b.hashables.previous with
        | some previous =>
          if previous.contents.type < block_type_state then
            Function.update s.frontiers b.hashables.previous (some b.hashables.account)
          else s.frontiers
        | none => s.frontiers := by
  unfold rollback_visitor.state_block_rewind
  simp only [block_store.block_get, change_latest_blocks]
  cases hp : s.blocks b.hashables.previous with
  | none => simp
  | some r =>
    simp only [Option.map_some']
    split_ifs <;> simp

theorem state_block_rewind_accounts (hp : b.hashables.previous ≠ 0) :
    (rollback_visitor.state_block_rewind env now s b representative balance).accounts
      = Function.update s.accounts b.hashables.account (some
          ⟨b.hashables.previous, representative,
            ((s.accounts b.hashables.account).map account_info.open_block).getD
              b.hashables.previous,
            balance, now,
            ((s.accounts b.hashables.account).getD account_info.zero).block_count - 1⟩) := by
  unfold rollback_visitor.state_block_rewind
  dsimp only
  split <;> [split_ifs; skip] <;> simp [change_latest_accounts _ _ _ _ _ _ _ _ _ hp]

theorem state_block_rewind_accounts_zero (hp : b.hashables.previous = 0) :
    (rollback_visitor.state_block_rewind env now s b representative balance).accounts
      = Function.update s.accounts b.hashables.account none := by
  unfold rollback_visitor.state_block_rewind
  dsimp only
  rw [hp]
  split <;> [split_ifs; skip] <;> simp [change_latest_accounts_zero]

end state_undo_fields

theorem state_block_apply_block_infos (env : ledger_env) (now : Nat) (s : block_store)
    (b : mol.state_block) (info : account_info) (amount : Nat) (is_send : Bool) :
    (ledger_processor.state_block_apply env now s b info amount is_send).block_infos
      = s.block_infos := by
  unfold ledger_processor.state_block_apply
  dsimp only
  split_ifs <;> simp [change_latest_block_infos]

theorem account_loop_congr (s t : block_store) (hb : s.blocks = t.blocks)
    (hi : s.block_infos = t.block_infos) (f : Nat) :
    ∀ (h su : Nat) (blk : block) (bi : block_info),
      ledger.account_loop s f h su blk bi = ledger.account_loop t f h su blk bi := by
  induction f with
  | zero => intro h su blk bi; rfl
  | succ f ih =>
    intro h su blk bi
    rw [ledger.account_loop, ledger.account_loop]
    simp only [block_store.block_info_get, block_store.block_successor, block_store.block_get,
      hb, hi, ih]

/-- `account` reads the block table, the sidecar and the frontier table only. -/
theorem account_congr (s t : block_store) (hb : s.blocks = t.blocks)
    (hi : s.block_infos = t.block_infos) (hf : s.frontiers = t.frontiers) (f h : Nat) :
    ledger.account s f h = ledger.account t f h := by
  unfold ledger.account
  simp only [block_store.block_get, block_store.frontier_get, hb, hf,
    account_loop_congr s t hb hi]

/-- The visit of a state block whose pending entry (send case) is in place. -/
theorem rollback_visit_state (env : ledger_env) (now f : Nat) (s1 : block_store)
    (b : mol.state_block) :
    let representative := (rollback_visitor.state_block_locals env s1 b).1
    let balance := (rollback_visitor.state_block_locals env s1 b).2
    let s2 := rollback_visitor.state_block_weights env s1 b representative balance
    (b.hashables.balance < balance →
      s1.pending ⟨b.hashables.link, env.hash (block.state b)⟩ ≠ none →
      ledger.rollback_run env now (f + 2) s1 (rollback_task.visit (block.state b))
        = some (rollback_visitor.state_block_rewind env now
            (s2.pending_del ⟨b.hashables.link, env.hash (block.state b)⟩) b
            representative balance)) ∧
    (¬ b.hashables.balance < balance → b.hashables.link ≠ 0 →
      ∀ source, ledger.account s1 (f + 2) b.hashables.link = some source →
      ledger.rollback_run env now (f + 2) s1 (rollback_task.visit (block.state b))
        = some (rollback_visitor.state_block_rewind env now
            (s2.pending_put ⟨b.hashables.account, b.hashables.link⟩
              ⟨source, b.hashables.balance - balance⟩) b representative balance)) ∧
    (¬ b.hashables.balance < balance → b.hashables.link = 0 →
      ledger.rollback_run env now (f + 2) s1 (rollback_task.visit (block.state b))
        = some (rollback_visitor.state_block_rewind env now s2 b representative balance)) := by
  intro representative balance s2
  refine ⟨?_, ?_, ?_⟩
  · intro hlt hpend
    rw [ledger.rollback_run]
    simp only [hlt, if_true]
    rw [ledger.rollback_run]
    have : (rollback_visitor.state_block_weights env s1 b representative balance).pending_exists
        ⟨b.hashables.link, env.hash (block.state b)⟩ = true := by
      simp only [block_store.pending_exists, state_block_weights_pending]
      exact Option.isSome_iff_ne_none.mpr hpend
    simp only [representative, balance] at this
    rw [if_pos this]
  · intro hlt hlink source hsrc
    rw [ledger.rollback_run]
    simp only [hlt, if_false, hlink, ne_eq, not_false_eq_true, if_true]
    rw [account_congr _ s1 (state_block_weights_blocks _ _ _ _ _)
      (state_block_weights_block_infos _ _ _ _ _) (state_block_weights_frontiers _ _ _ _ _),
      hsrc]
  · intro hlt hlink
    rw [ledger.rollback_run]
    simp only [hlt, if_false, hlink, ne_eq, not_true_eq_false]

/-- The account reported by an accepted block is the one whose record it wrote. -/
theorem process_account_of_progress (env : ledger_env) (now : Nat) (s : block_store) (b : block)
    (h : (ledger.process env now s b).1.code = process_result.progress) :
    (ledger.process env now s b).1.account =
      match b with
      | block.send x => s.frontier_get x.hashables.previous
      | block.receive x => s.frontier_get x.hashables.previous
      | block.opening x => x.hashables.account
      | block.change x => s.frontier_get x.hashables.previous
      | block.state x => x.hashables.account
      | block.astate _ => (ledger.process env now s b).1.account := by
  cases b with
  | send x =>
    revert h
    simp only [ledger.process]
    unfold ledger_processor.send_block
    dsimp only
    repeat' split
    all_goals simp
  | receive x =>
    revert h
    simp only [ledger.process]
    unfold ledger_processor.receive_block
    dsimp only
    repeat' split
    all_goals simp
  | opening x =>
    revert h
    simp only [ledger.process]
    unfold ledger_processor.open_block
    dsimp only
    repeat' split
    all_goals simp
  | change x =>
    revert h
    simp only [ledger.process]
    unfold ledger_processor.change_block
    dsimp only
    repeat' split
    all_goals simp
  | state x =>
    revert h
    simp only [ledger.process]
    unfold ledger_processor.state_block ledger_processor.state_block_impl
    dsimp only
    repeat' split
    all_goals first
      | (intro h; simp at h; done)
      | (intro _; rfl)
      | (intro h; exact absurd h ‹_›)
  | astate x => rfl

namespace example_ledger

end example_ledger

/-! # The claims -/

open example_ledger

/-- C1. If `process` returns a code other than `progress`, the store (every table)
is exactly as it was before the call, for every block variant. -/
theorem process_failure_leaves_store (env : ledger_env) (now : Nat) (s : block_store)
    (b : block) (h : (ledger.process env now s b).1.code ≠ process_result.progress) :
    (ledger.process env now s b).2 = s := by
  cases b with
  | send x => exact send_block_refused env now s x h
  | receive x => exact receive_block_refused env now s x h
  | opening x => exact open_block_refused env now s x h
  | change x => exact change_block_refused env now s x h
  | state x => exact state_block_refused env now s x h
  | astate x => exact astate_block_refused env now s x h

/-- C1, at S2: a receive whose source is not stored is refused with `gap_source`
and leaves the genesis store as it was. -/
theorem process_failure_leaves_store_witness :
    (ledger.process env 5 genesis (block.receive receive_early)).1.code
        = process_result.gap_source ∧
      (ledger.process env 5 genesis (block.receive receive_early)).2 = genesis :=
  ⟨by decide, process_failure_leaves_store env 5 genesis _ (by decide)⟩

/-- C3. An accepted send block of account A with prior record `info`: the block is
stored; A's record has head = hash, the same rep_block (and open_block), balance =
block.balance and block_count + 1; the representation of `info.rep_block` is decreased by
amount = info.balance - block.balance (a 128-bit subtraction, an exact one when the table
holds at least `amount` there); the pending entry (destination, hash) -> (A, amount)
exists; the frontier entry of previous is removed and frontier(hash) = A. -/
theorem send_block_effect (env : ledger_env) (now : Nat) (s : block_store) (b : mol.send_block)
    (info : account_info)
    (hacc : (ledger.process env now s (block.send b)).1.code = process_result.progress)
    (hinfo : s.account_get (s.frontier_get b.hashables.previous) = some info)
    (hnz : env.hash (block.send b) ≠ 0) :
    (ledger.process env now s (block.send b)).2.block_get (env.hash (block.send b))
      = some (block.send b) ∧
    (ledger.process env now s (block.send b)).2.account_get (s.frontier_get b.hashables.previous)
      = some ⟨env.hash (block.send b), info.rep_block, info.open_block, b.hashables.balance, now,
          info.block_count + 1⟩ ∧
    (ledger.process env now s (block.send b)).2.representation_get info.rep_block
      = (s.representation_get info.rep_block
          + neg128 (info.balance - b.hashables.balance)) % 2 ^ 128 ∧
    (info.balance - b.hashables.balance ≤ s.representation_get info.rep_block →
      s.representation_get info.rep_block < 2 ^ 128 →
      (ledger.process env now s (block.send b)).2.representation_get info.rep_block
        = s.representation_get info.rep_block - (info.balance - b.hashables.balance)) ∧
    (ledger.process env now s (block.send b)).2.pending_get
        ⟨b.hashables.destination, env.hash (block.send b)⟩
      = some ⟨s.frontier_get b.hashables.previous, info.balance - b.hashables.balance⟩ ∧
    (ledger.process env now s (block.send b)).2.frontiers b.hashables.previous = none ∧
    (ledger.process env now s (block.send b)).2.frontiers (env.hash (block.send b))
      = some (s.frontier_get b.hashables.previous) := by
  obtain ⟨h1, ⟨p, hp⟩, h3, h5, hs⟩ := send_block_accepted env now s b hacc
  have hne : b.hashables.previous ≠ env.hash (block.send b) := by
    intro e; rw [e, h1] at hp; cases hp
  change (ledger_processor.send_block env now s b).2.block_get _ = _ ∧
    (ledger_processor.send_block env now s b).2.account_get _ = _ ∧
    (ledger_processor.send_block env now s b).2.representation_get _ = _ ∧
    (_ → _ → (ledger_processor.send_block env now s b).2.representation_get _ = _) ∧
    (ledger_processor.send_block env now s b).2.pending_get _ = _ ∧
    (ledger_processor.send_block env now s b).2.frontiers _ = _ ∧
    (ledger_processor.send_block env now s b).2.frontiers _ = _
  rw [hs, hinfo]
  simp only [Option.getD_some]
  have hrep : (ledger_processor.send_block_apply env now s b (s.frontier_get b.hashables.previous)
      info).representation_get info.rep_block
      = (s.representation_get info.rep_block
          + neg128 (info.balance - b.hashables.balance)) % 2 ^ 128 := by
    simp [ledger_processor.send_block_apply]
  refine ⟨?_, ?_, hrep, ?_, ?_, ?_, ?_⟩
  · simp [ledger_processor.send_block_apply, blocks_put_contents]
  · simp only [block_store.account_get, block_store.frontier_get] at hinfo
    simp [ledger_processor.send_block_apply, change_latest_accounts _ _ _ _ _ _ _ _ _ hnz, hinfo]
  · intro ha hx
    rw [hrep]
    exact neg128_sub _ _ ha hx
  · simp [ledger_processor.send_block_apply]
  · simp [ledger_processor.send_block_apply, Function.update_noteq hne]
  · simp [ledger_processor.send_block_apply]

/-- C3, at S1: G sends 10 to B from the genesis store. -/
theorem send_block_effect_witness :
    (ledger.process env 5 genesis (block.send send1)).1.code = process_result.progress ∧
      genesis.account_get (genesis.frontier_get 34) = some ⟨34, 34, 34, 100, 1, 1⟩ ∧
      after_send1.block_get 1262 = some (block.send send1) ∧
      after_send1.account_get 1 = some ⟨1262, 34, 34, 90, 5, 2⟩ ∧
      after_send1.representation_get 34 = 90 ∧
      after_send1.pending_get ⟨2, 1262⟩ = some ⟨1, 10⟩ ∧
      after_send1.frontiers 34 = none ∧
      after_send1.frontiers 1262 = some 1 :=
  have h := send_block_effect env 5 genesis send1 ⟨34, 34, 34, 100, 1, 1⟩
    (by decide) (by decide) (by decide)
  ⟨by decide, by decide, h.1, h.2.1, h.2.2.2.1 (by decide) (by decide), h.2.2.2.2.1,
    h.2.2.2.2.2.1, h.2.2.2.2.2.2⟩

/-- C5. An accepted open block of account A with pending entry `p` at (A, source): the
block is stored; A's record has open_block = head = rep_block = hash, balance = p.amount
and block_count = 1; the representation of hash is increased by p.amount; frontier(hash) =
A; the pending entry is deleted. -/
theorem open_block_effect (env : ledger_env) (now : Nat) (s : block_store)
    (b : mol.open_block) (p : pending_info)
    (hacc : (ledger.process env now s (block.opening b)).1.code = process_result.progress)
    (hpend : s.pending_get ⟨b.hashables.account, b.hashables.source⟩ = some p)
    (hnz : env.hash (block.opening b) ≠ 0) :
    (ledger.process env now s (block.opening b)).2.block_get (env.hash (block.opening b))
      = some (block.opening b) ∧
    (ledger.process env now s (block.opening b)).2.account_get b.hashables.account
      = some ⟨env.hash (block.opening b), env.hash (block.opening b), env.hash (block.opening b),
          p.amount, now, 1⟩ ∧
    (ledger.process env now s (block.opening b)).2.representation_get (env.hash (block.opening b))
      = (s.representation_get (env.hash (block.opening b)) + p.amount) % 2 ^ 128 ∧
    (ledger.process env now s (block.opening b)).2.frontiers (env.hash (block.opening b))
      = some b.hashables.account ∧
    (ledger.process env now s (block.opening b)).2.pending_get
        ⟨b.hashables.account, b.hashables.source⟩ = none := by
  obtain ⟨h1, _, h3, _, p1, hp1, hs⟩ := open_block_accepted env now s b hacc
  change (ledger_processor.open_block env now s b).2.block_get _ = _ ∧
    (ledger_processor.open_block env now s b).2.account_get _ = _ ∧
    (ledger_processor.open_block env now s b).2.representation_get _ = _ ∧
    (ledger_processor.open_block env now s b).2.frontiers _ = _ ∧
    (ledger_processor.open_block env now s b).2.pending_get _ = _
  simp only [block_store.pending_get] at hpend
  rw [hpend] at hp1
  cases hp1
  rw [hs]
  refine ⟨?_, ?_, ?_, ?_, ?_⟩
  · simp [ledger_processor.open_block_apply, blocks_put_contents]
  · simp [ledger_processor.open_block_apply, change_latest_accounts _ _ _ _ _ _ _ _ _ hnz, h3,
      account_info.zero]
  · simp [ledger_processor.open_block_apply]
  · simp [ledger_processor.open_block_apply]
  · simp [ledger_processor.open_block_apply]

/-- C5, at S1: B opens with the send of G. -/
theorem open_block_effect_witness :
    (ledger.process env 6 after_send1 (block.opening open2)).1.code
        = process_result.progress ∧
      after_send1.pending_get ⟨2, 1262⟩ = some ⟨1, 10⟩ ∧
      after_open2.block_get 12664 = some (block.opening open2) ∧
      after_open2.account_get 2 = some ⟨12664, 12664, 12664, 10, 6, 1⟩ ∧
      after_open2.representation_get 12664 = 10 ∧
      after_open2.frontiers 12664 = some 2 ∧
      after_open2.pending_get ⟨2, 1262⟩ = none :=
  have h := open_block_effect env 6 after_send1 open2 ⟨1, 10⟩ (by decide) (by decide) (by decide)
  ⟨by decide, by decide, h.1, h.2.1, h.2.2.1, h.2.2.2.1, h.2.2.2.2⟩

/-- C6. An accepted change block of account A with prior record `info`, where the balance
the handler reads for `previous` is `info.balance`: the block is stored; A's record has
head = rep_block = hash, the same balance and block_count + 1; the full balance is added to
the representation of hash and subtracted from that of `info.rep_block`; the frontier entry
moves from previous to hash. -/
theorem change_block_effect (env : ledger_env) (now : Nat) (s : block_store)
    (b : mol.change_block) (info : account_info)
    (hacc : (ledger.process env now s (block.change b)).1.code = process_result.progress)
    (hinfo : s.account_get (s.frontier_get b.hashables.previous) = some info)
    (hbal : ledger.balance env (s.block_put (env.hash (block.change b)) (block.change b))
      b.hashables.previous = info.balance)
    (hnz : env.hash (block.change b) ≠ 0) :
    (ledger.process env now s (block.change b)).2.block_get (env.hash (block.change b))
      = some (block.change b) ∧
    (ledger.process env now s (block.change b)).2.account_get (s.frontier_get b.hashables.previous)
      = some ⟨env.hash (block.change b), env.hash (block.change b), info.open_block,
          info.balance, now, info.block_count + 1⟩ ∧
    (ledger.process env now s (block.change b)).2.representation
      = ((s.representation_add (env.hash (block.change b)) info.balance).representation_add
          info.rep_block (neg128 info.balance)).representation ∧
    (info.rep_block ≠ env.hash (block.change b) →
      (ledger.process env now s (block.change b)).2.representation_get info.rep_block
        = (s.representation_get info.rep_block + neg128 info.balance) % 2 ^ 128 ∧
      (ledger.process env now s (block.change b)).2.representation_get (env.hash (block.change b))
        = (s.representation_get (env.hash (block.change b)) + info.balance) % 2 ^ 128) ∧
    (ledger.process env now s (block.change b)).2.frontiers b.hashables.previous = none ∧
    (ledger.process env now s (block.change b)).2.frontiers (env.hash (block.change b))
      = some (s.frontier_get b.hashables.previous) := by
  obtain ⟨h1, ⟨q, hq⟩, h3, hs⟩ := change_block_accepted env now s b hacc
  have hne : b.hashables.previous ≠ env.hash (block.change b) := by
    intro e; rw [e, h1] at hq; cases hq
  change (ledger_processor.change_block env now s b).2.block_get _ = _ ∧
    (ledger_processor.change_block env now s b).2.account_get _ = _ ∧
    (ledger_processor.change_block env now s b).2.representation = _ ∧
    (_ → (ledger_processor.change_block env now s b).2.representation_get _ = _ ∧
      (ledger_processor.change_block env now s b).2.representation_get _ = _) ∧
    (ledger_processor.change_block env now s b).2.frontiers _ = _ ∧
    (ledger_processor.change_block env now s b).2.frontiers _ = _
  rw [hs, hinfo]
  simp only [Option.getD_some]
  simp only [block_store.account_get, block_store.frontier_get] at hinfo
  have hrep : (ledger_processor.change_block_apply env now s b (s.frontier_get b.hashables.previous)
      info).representation
      = ((s.representation_add (env.hash (block.change b)) info.balance).representation_add
          info.rep_block (neg128 info.balance)).representation := by
    simp only [ledger.balance, block_store.block_put] at hbal
    simp [ledger_processor.change_block_apply, hbal]
  refine ⟨?_, ?_, hrep, ?_, ?_, ?_⟩
  · simp [ledger_processor.change_block_apply, blocks_put_contents]
  · simp [ledger_processor.change_block_apply, change_latest_accounts _ _ _ _ _ _ _ _ _ hnz, hinfo]
  · intro hr
    simp only [block_store.representation_get, hrep]
    simp [Function.update_noteq hr, Function.update_noteq (Ne.symm hr)]
  · simp [ledger_processor.change_block_apply, Function.update_noteq hne]
  · simp [ledger_processor.change_block_apply]

/-- C6, in the example: G changes its representative in the genesis store. -/
theorem change_block_effect_witness :
    (ledger.process env 5 genesis (block.change change1)).1.code = process_result.progress ∧
      ledger.balance env (genesis.block_put 365 (block.change change1)) 34 = 100 ∧
      (ledger.process env 5 genesis (block.change change1)).2.block_get 365
        = some (block.change change1) ∧
      (ledger.process env 5 genesis (block.change change1)).2.account_get 1
        = some ⟨365, 365, 34, 100, 5, 2⟩ ∧
      (ledger.process env 5 genesis (block.change change1)).2.representation_get 34 = 0 ∧
      (ledger.process env 5 genesis (block.change change1)).2.representation_get 365 = 100 ∧
      (ledger.process env 5 genesis (block.change change1)).2.frontiers 34 = none ∧
      (ledger.process env 5 genesis (block.change change1)).2.frontiers 365 = some 1 :=
  have h := change_block_effect env 5 genesis change1 ⟨34, 34, 34, 100, 1, 1⟩
    (by decide) (by decide) (by decide) (by decide)
  ⟨by decide, by decide, h.1, h.2.1, (h.2.2.2.1 (by decide)).1, (h.2.2.2.1 (by decide)).2,
    h.2.2.2.2.1, h.2.2.2.2.2⟩

/-- C8. For every send and every change block, `process` returns the code of the first
failing check in the order old, gap_previous, block_position, fork, bad_signature and (send
only) negative_spend; the code is `progress` iff no check fails, and a send returns
negative_spend exactly when the five earlier checks pass and block.balance > info.balance. -/
theorem send_change_check_order (env : ledger_env) (now : Nat) (s : block_store) :
    (∀ b : mol.send_block,
      (ledger.process env now s (block.send b)).1.code
          = spec_first_failing_check (spec_send_checks env s b) ∧
        ((ledger.process env now s (block.send b)).1.code = process_result.progress ↔
          ∀ c ∈ spec_send_checks env s b, c.1 = false) ∧
        ((ledger.process env now s (block.send b)).1.code = process_result.negative_spend ↔
          (∀ c ∈ (spec_send_checks env s b).take 5, c.1 = false) ∧
            b.hashables.balance >
              ((s.account_get (s.frontier_get b.hashables.previous)).getD
                account_info.zero).balance)) ∧
    (∀ b : mol.change_block,
      (ledger.process env now s (block.change b)).1.code
          = spec_first_failing_check (spec_change_checks env s b) ∧
        ((ledger.process env now s (block.change b)).1.code = process_result.progress ↔
          ∀ c ∈ spec_change_checks env s b, c.1 = false)) := by
  constructor
  · intro b
    change (ledger_processor.send_block env now s b).1.code = _ ∧
      ((ledger_processor.send_block env now s b).1.code = _ ↔ _) ∧
      ((ledger_processor.send_block env now s b).1.code = _ ↔ _)
    unfold ledger_processor.send_block spec_send_checks
    dsimp only
    cases hp : s.blocks b.hashables.previous <;>
    repeat' split
    all_goals simp_all [spec_first_failing_check]
    all_goals rw [if_neg (by omega)]
  · intro b
    change (ledger_processor.change_block env now s b).1.code = _ ∧
      ((ledger_processor.change_block env now s b).1.code = _ ↔ _)
    unfold ledger_processor.change_block spec_change_checks
    dsimp only
    cases hp : s.blocks b.hashables.previous <;>
    repeat' split
    all_goals simp_all [spec_first_failing_check]

/-- C9. For every receive block, `process` returns the code of the first failing check in
the order old, gap_previous, block_position, gap_source, then with a zero frontier entry
fork (previous stored) or gap_previous (previous not stored), then bad_signature,
gap_previous (head differs from previous), unreceivable; the code is `progress` iff no
check fails. -/
theorem receive_check_order (env : ledger_env) (now : Nat) (s : block_store)
    (b : mol.receive_block) :
    (ledger.process env now s (block.receive b)).1.code
        = spec_first_failing_check (spec_receive_checks env s b) ∧
      ((ledger.process env now s (block.receive b)).1.code = process_result.progress ↔
        ∀ c ∈ spec_receive_checks env s b, c.1 = false) := by
  change (ledger_processor.receive_block env now s b).1.code = _ ∧
    ((ledger_processor.receive_block env now s b).1.code = _ ↔ _)
  unfold ledger_processor.receive_block spec_receive_checks
  dsimp only
  cases hp : s.blocks b.hashables.previous <;>
  repeat' split
  all_goals simp_all [spec_first_failing_check]
  all_goals exact Option.isSome_iff_ne_none.mpr ‹_›

/-- C10. For every open block, `process` returns the code of the first failing check in
the order old, gap_source, bad_signature, fork, unreceivable, opened_burn_account; the code
is `progress` iff no check fails; an open block of the burn account without a matching
pending entry returns unreceivable. -/
theorem open_check_order (env : ledger_env) (now : Nat) (s : block_store) (b : mol.open_block) :
    (ledger.process env now s (block.opening b)).1.code
        = spec_first_failing_check (spec_open_checks env s b) ∧
      ((ledger.process env now s (block.opening b)).1.code = process_result.progress ↔
        ∀ c ∈ spec_open_checks env s b, c.1 = false) ∧
      (b.hashables.account = env.burn_account →
        s.block_exists (env.hash (block.opening b)) = false →
        s.block_exists b.hashables.source = true →
        env.validate_message b.hashables.account (env.hash (block.opening b)) b.signature = false →
        s.account_exists b.hashables.account = false →
        s.pending_get ⟨b.hashables.account, b.hashables.source⟩ = none →
        (ledger.process env now s (block.opening b)).1.code = process_result.unreceivable) := by
  change (ledger_processor.open_block env now s b).1.code = _ ∧
    ((ledger_processor.open_block env now s b).1.code = _ ↔ _) ∧
    (_ → _ → _ → _ → _ → _ → (ledger_processor.open_block env now s b).1.code = _)
  unfold ledger_processor.open_block spec_open_checks
  dsimp only
  repeat' split
  all_goals simp_all [spec_first_failing_check]
  all_goals first
    | exact Option.isSome_iff_ne_none.mpr ‹_›
    | (intro hb _ hv ha; rw [← hb] at hv ha; simp_all)

/-- C10, at the genesis ledger: an open block of the burn account (account 0) whose source
(block 34) is stored and has no pending entry for account 0 returns unreceivable. -/
theorem open_check_order_witness :
    env.burn_account = 0 ∧
      genesis.pending_get ⟨0, 34⟩ = none ∧
      (ledger.process env 5 genesis (block.opening ⟨⟨34, 34, 0⟩, 0⟩)).1.code
        = process_result.unreceivable :=
  ⟨rfl, by decide,
    (open_check_order env 5 genesis ⟨⟨34, 34, 0⟩, 0⟩).2.2 (by decide) (by decide) (by decide)
      (by decide) (by decide) (by decide)⟩

/-! ## The state-block pipeline (C11-C13) -/

/-- The code of `state_block_impl`, with its two check phases kept apart. -/
theorem state_block_impl_code (env : ledger_env) (now : Nat) (s : block_store)
    (b : mol.state_block) :
    (ledger_processor.state_block_impl env now s b).1.code =
      if s.block_exists (env.hash (block.state b)) then process_result.old
      else if env.validate_message b.hashables.account (env.hash (block.state b)) b.signature then
        process_result.bad_signature
      else if b.hashables.account = 0 then process_result.opened_burn_account
      else ledger_processor.state_block_link_checks s b
        (ledger_processor.state_block_account_checks s b).1
        (ledger_processor.state_block_account_checks s b).2.1
        (ledger_processor.state_block_account_checks s b).2.2 := by
  unfold ledger_processor.state_block_impl
  dsimp only
  split_ifs <;> rfl

/-- The code left by the account checks of a state block is the first failing
one of the five checks of lines 208-227. -/
theorem state_block_account_checks_code (s : block_store) (b : mol.state_block) :
    (ledger_processor.state_block_account_checks s b).1 =
      spec_first_failing_check
        [ (s.account_exists b.hashables.account && decide (b.hashables.previous = 0),
            process_result.fork),
          (s.account_exists b.hashables.account && !s.block_exists b.hashables.previous,
            process_result.gap_previous),
          (s.account_exists b.hashables.account &&
              decide (b.hashables.previous ≠
                ((s.account_get b.hashables.account).getD account_info.zero).head),
            process_result.fork),
          (!s.account_exists b.hashables.account && decide (b.hashables.previous ≠ 0),
            process_result.gap_previous),
          (!s.account_exists b.hashables.account && decide (b.hashables.link = 0),
            process_result.gap_source) ] := by
  unfold ledger_processor.state_block_account_checks
  dsimp only
  cases hf : s.accounts b.hashables.account <;>
  repeat' split
  all_goals simp_all [spec_first_failing_check]

/-- The link checks pass a failure code through and never produce the codes of
the earlier phases. -/
theorem state_block_link_checks_range (s : block_store) (b : mol.state_block)
    (amount : Nat) (is_send : Bool) :
    ledger_processor.state_block_link_checks s b process_result.progress amount is_send
      ∈ [process_result.progress, process_result.gap_source, process_result.unreceivable,
          process_result.balance_mismatch] := by
  unfold ledger_processor.state_block_link_checks
  repeat' split
  all_goals simp

theorem state_block_link_checks_of_failed (s : block_store) (b : mol.state_block)
    (c : process_result) (amount : Nat) (is_send : Bool) (hc : c ≠ process_result.progress) :
    ledger_processor.state_block_link_checks s b c amount is_send = c := by
  unfold ledger_processor.state_block_link_checks
  rw [if_neg hc]

/-- The codes that the account checks can leave. -/
theorem state_block_account_checks_range (s : block_store) (b : mol.state_block) :
    (ledger_processor.state_block_account_checks s b).1
      ∈ [process_result.progress, process_result.fork, process_result.gap_previous,
          process_result.gap_source] := by
  unfold ledger_processor.state_block_account_checks
  dsimp only
  repeat' split
  all_goals simp

/-- C11. `process` of a state block returns `state_block_disabled` exactly when the block
with hash `state_block_parse_canary` is not in the block table: without the canary every
state block gets that code whatever else holds of it (a stored hash included), and with the
canary no state block gets it. -/
theorem state_block_canary_gate (env : ledger_env) (now : Nat) (s : block_store)
    (b : mol.state_block) :
    ((ledger.process env now s (block.state b)).1.code = process_result.state_block_disabled ↔
      s.block_exists env.state_block_parse_canary = false) := by
  change (ledger_processor.state_block env now s b).1.code = _ ↔ _
  unfold ledger_processor.state_block ledger.state_block_parsing_enabled
  by_cases hc : s.block_exists env.state_block_parse_canary = true
  · rw [if_pos hc, state_block_impl_code]
    simp only [hc, Bool.true_eq_false, iff_false]
    have h1 := state_block_account_checks_range s b
    have h2 := state_block_link_checks_range s b
      (ledger_processor.state_block_account_checks s b).2.1
      (ledger_processor.state_block_account_checks s b).2.2
    split_ifs
    · simp
    · simp
    · simp
    · by_cases hp : (ledger_processor.state_block_account_checks s b).1 = process_result.progress
      · rw [hp]
        intro h
        rw [h] at h2
        simp at h2
      · rw [state_block_link_checks_of_failed _ _ _ _ _ hp]
        intro h
        rw [h] at h1
        simp at h1
  · rw [if_neg hc]
    simp at hc
    simp [hc]

/-- Passing the spec's account checks is passing the three first checks of
`state_block_impl` and its account checks. -/
theorem spec_state_account_checks_split (env : ledger_env) (s : block_store)
    (b : mol.state_block) :
    spec_first_failing_check (spec_state_account_checks env s b) =
      if s.block_exists (env.hash (block.state b)) then process_result.old
      else if env.validate_message b.hashables.account (env.hash (block.state b)) b.signature then
        process_result.bad_signature
      else if b.hashables.account = 0 then process_result.opened_burn_account
      else (ledger_processor.state_block_account_checks s b).1 := by
  rw [state_block_account_checks_code]
  unfold spec_state_account_checks
  dsimp only
  split_ifs <;> simp_all [spec_first_failing_check]

/-- With the canary present `process` of a state block is `state_block_impl`. -/
theorem process_state_enabled (env : ledger_env) (now : Nat) (s : block_store)
    (b : mol.state_block) (hc : s.block_exists env.state_block_parse_canary = true) :
    ledger.process env now s (block.state b) = ledger_processor.state_block_impl env now s b := by
  change ledger_processor.state_block env now s b = _
  unfold ledger_processor.state_block ledger.state_block_parsing_enabled
  rw [if_pos hc]

/-- C12. With the canary present: when one of the checks old, bad_signature,
opened_burn_account (account zero), then fork (previous zero), gap_previous (previous not
stored), fork (previous is not the head) for an account with a record, or gap_previous
(previous non-zero), gap_source (link zero) for an account without one, fails, the code of
`process` is that of the first failing one; when none fails the code is left to the
direction-dependent checks (progress, gap_source, unreceivable or balance_mismatch). -/
theorem state_account_check_order (env : ledger_env) (now : Nat) (s : block_store)
    (b : mol.state_block) (hc : s.block_exists env.state_block_parse_canary = true) :
    (spec_first_failing_check (spec_state_account_checks env s b) ≠ process_result.progress →
      (ledger.process env now s (block.state b)).1.code
        = spec_first_failing_check (spec_state_account_checks env s b)) ∧
    (spec_first_failing_check (spec_state_account_checks env s b) = process_result.progress →
      (ledger.process env now s (block.state b)).1.code
        ∈ [process_result.progress, process_result.gap_source, process_result.unreceivable,
            process_result.balance_mismatch]) := by
  rw [process_state_enabled env now s b hc, state_block_impl_code,
    spec_state_account_checks_split]
  split_ifs
  · simp
  · simp
  · simp
  · constructor
    · intro hne
      exact state_block_link_checks_of_failed _ _ _ _ _ hne
    · intro hp
      rw [hp]
      exact state_block_link_checks_range _ _ _ _

/-- Spec: the checks of the non-send path for a given `amount`. -/
theorem state_block_link_checks_nonsend (s : block_store) (b : mol.state_block) (amount : Nat) :
    ledger_processor.state_block_link_checks s b process_result.progress amount false =
      spec_first_failing_check
        [ (decide (b.hashables.link ≠ 0) && !s.block_exists b.hashables.link,
            process_result.gap_source),
          (decide (b.hashables.link ≠ 0) &&
              (s.pending_get ⟨b.hashables.account, b.hashables.link⟩).isNone,
            process_result.unreceivable),
          (decide (b.hashables.link ≠ 0) &&
              (s.pending_get ⟨b.hashables.account, b.hashables.link⟩).any
                (fun p => decide (p.amount ≠ amount)),
            process_result.balance_mismatch),
          (decide (b.hashables.link = 0) && decide (amount ≠ 0),
            process_result.balance_mismatch) ] := by
  unfold ledger_processor.state_block_link_checks
  by_cases hl : b.hashables.link = 0
  · by_cases ha : amount = 0 <;> simp [hl, ha, spec_first_failing_check]
  · cases hx : s.blocks b.hashables.link with
    | none => simp [hl, hx, spec_first_failing_check]
    | some r =>
      cases hp : s.pending ⟨b.hashables.account, b.hashables.link⟩ with
      | none => simp [hl, hx, hp, spec_first_failing_check]
      | some p =>
        by_cases ha : amount = p.amount
        · simp [hl, hx, hp, ha, spec_first_failing_check]
        · have ha2 : ¬ p.amount = amount := fun h => ha h.symm
          simp [hl, hx, hp, ha, ha2, spec_first_failing_check]

theorem state_block_link_checks_send (s : block_store) (b : mol.state_block) (amount : Nat) :
    ledger_processor.state_block_link_checks s b process_result.progress amount true =
      process_result.progress := by
  unfold ledger_processor.state_block_link_checks
  simp

/-- C13. With the canary present, for a state block that passes the account checks: when it
is not a send (block.balance >= prior balance) the code is that of the first failing check
among gap_source (link non-zero, link block not stored), unreceivable (link non-zero, no
pending entry (account, link)), balance_mismatch (link non-zero, pending.amount differs from
block.balance - prior balance), balance_mismatch (link zero, amount non-zero), and progress
when none fails; when it is a send the code is progress. -/
theorem state_link_check_order (env : ledger_env) (now : Nat) (s : block_store)
    (b : mol.state_block) (hc : s.block_exists env.state_block_parse_canary = true)
    (hpass : spec_first_failing_check (spec_state_account_checks env s b)
      = process_result.progress) :
    (¬ b.hashables.balance < spec_prior_balance s b.hashables.account →
      (ledger.process env now s (block.state b)).1.code
        = spec_first_failing_check (spec_state_link_checks s b)) ∧
    (b.hashables.balance < spec_prior_balance s b.hashables.account →
      (ledger.process env now s (block.state b)).1.code = process_result.progress) := by
  rw [process_state_enabled env now s b hc, state_block_impl_code]
  rw [spec_state_account_checks_split] at hpass
  split_ifs at hpass ⊢
  have hacc := state_block_account_checks_progress s b hpass
  rw [hpass]
  cases hf : s.accounts b.hashables.account with
  | none =>
    obtain ⟨-, -, hsend, hamt⟩ := hacc.2 hf
    have hprior : spec_prior_balance s b.hashables.account = 0 := by
      simp [spec_prior_balance, hf]
    rw [hsend, hamt, hprior]
    constructor
    · intro _
      rw [state_block_link_checks_nonsend]
      simp [spec_state_link_checks, hprior]
    · intro h; simp at h
  | some info =>
    obtain ⟨-, -, -, hsend, hamt⟩ := hacc.1 info hf
    have hprior : spec_prior_balance s b.hashables.account = info.balance := by
      simp [spec_prior_balance, hf]
    rw [hsend, hamt, hprior]
    constructor
    · intro hns
      rw [decide_eq_false hns, if_neg hns, state_block_link_checks_nonsend]
      simp [spec_state_link_checks, hprior]
    · intro hs
      rw [decide_eq_true hs, state_block_link_checks_send]

/-- C12, at the genesis ledger: a state block of the existing account `1` with previous
zero is a fork. -/
theorem state_account_check_order_witness :
    genesis.block_exists env.state_block_parse_canary = true ∧
      (ledger.process env 5 genesis (block.state ⟨⟨1, 0, 1, 90, 2⟩, 1⟩)).1.code
        = process_result.fork :=
  ⟨by decide,
    ((state_account_check_order env 5 genesis ⟨⟨1, 0, 1, 90, 2⟩, 1⟩ (by decide)).1
      (by decide)).trans (by decide)⟩

/-- C13, scenario S6: after S1's send of 10 to account `2`, a state receive of account `2`
with balance 11 is a balance mismatch and changes nothing. -/
theorem state_link_check_order_witness :
    after_send1.pending_get ⟨2, 1262⟩ = some ⟨1, 10⟩ ∧
      (ledger.process env 6 after_send1 (block.state ⟨⟨2, 0, 2, 11, 1262⟩, 2⟩)).1.code
        = process_result.balance_mismatch ∧
      (ledger.process env 6 after_send1 (block.state ⟨⟨2, 0, 2, 11, 1262⟩, 2⟩)).2 = after_send1 :=
  ⟨by decide,
    ((state_link_check_order env 6 after_send1 ⟨⟨2, 0, 2, 11, 1262⟩, 2⟩ (by decide)
      (by decide)).1 (by decide)).trans (by decide),
    state_block_refused env 6 after_send1 _ (by decide)⟩

/-! ## The returned record (C14) -/

theorem send_block_result (env : ledger_env) (now : Nat) (s : block_store) (b : mol.send_block)
    (h : (ledger_processor.send_block env now s b).1.code = process_result.progress) :
    (ledger_processor.send_block env now s b).1 =
      ⟨process_result.progress, s.frontier_get b.hashables.previous,
        ((s.account_get (s.frontier_get b.hashables.previous)).getD account_info.zero).balance
          - b.hashables.balance,
        b.hashables.destination, false⟩ := by
  revert h
  unfold ledger_processor.send_block
  dsimp only
  repeat' split
  all_goals simp [process_return.init]

theorem receive_block_result (env : ledger_env) (now : Nat) (s : block_store)
    (b : mol.receive_block) (p : pending_info)
    (hp : s.pending ⟨s.frontier_get b.hashables.previous, b.hashables.source⟩ = some p)
    (h : (ledger_processor.receive_block env now s b).1.code = process_result.progress) :
    (ledger_processor.receive_block env now s b).1 =
      ⟨process_result.progress, s.frontier_get b.hashables.previous, p.amount, 0, false⟩ := by
  revert h
  unfold ledger_processor.receive_block
  dsimp only
  repeat' split
  all_goals simp_all [process_return.init]

theorem open_block_result (env : ledger_env) (now : Nat) (s : block_store)
    (b : mol.open_block) (p : pending_info)
    (hp : s.pending ⟨b.hashables.account, b.hashables.source⟩ = some p)
    (h : (ledger_processor.open_block env now s b).1.code = process_result.progress) :
    (ledger_processor.open_block env now s b).1 =
      ⟨process_result.progress, b.hashables.account, p.amount, 0, false⟩ := by
  revert h
  unfold ledger_processor.open_block
  dsimp only
  repeat' split
  all_goals simp_all [process_return.init]

theorem change_block_result (env : ledger_env) (now : Nat) (s : block_store)
    (b : mol.change_block)
    (h : (ledger_processor.change_block env now s b).1.code = process_result.progress) :
    (ledger_processor.change_block env now s b).1 =
      ⟨process_result.progress, s.frontier_get b.hashables.previous, 0, 0, false⟩ := by
  revert h
  unfold ledger_processor.change_block
  dsimp only
  repeat' split
  all_goals simp [process_return.init]

theorem state_block_result (env : ledger_env) (now : Nat) (s : block_store)
    (b : mol.state_block)
    (h : (ledger_processor.state_block env now s b).1.code = process_result.progress) :
    (ledger_processor.state_block env now s b).1 =
      ⟨process_result.progress, b.hashables.account,
        (ledger_processor.state_block_account_checks s b).2.1, 0,
        (ledger_processor.state_block_account_checks s b).2.2⟩ := by
  revert h
  unfold ledger_processor.state_block ledger_processor.state_block_impl
  dsimp only
  repeat' split
  all_goals first
    | (intro h; simp at h; done)
    | (intro h; exact absurd h ‹_›)
    | (intro _; simp_all [process_return.init])

theorem spec_prior_balance_eq (s : block_store) (a : Nat) :
    spec_prior_balance s a = ((s.account_get a).getD account_info.zero).balance := by
  unfold spec_prior_balance
  cases s.account_get a <;> rfl

/-- C14. For an accepted send, receive, open, change or state block (non-zero hash; for a
receive, balance before plus pending amount within 128 bits): the returned account is the
only one whose record changed and its record has the block as head; the returned amount is
the absolute difference of that account's balance after and before (before is zero without a
record); a send returns its destination as pending_account, a change returns amount zero, and
a state block has state_is_send exactly when block.balance < prior balance. -/
theorem process_return_record (env : ledger_env) (now : Nat) (s : block_store) (b : block)
    (hkind : ∀ a, b ≠ block.astate a)
    (hacc : (ledger.process env now s b).1.code = process_result.progress)
    (hnz : env.hash b ≠ 0)
    (hfit : spec_receive_fits s b) :
    ∃ info1,
      (ledger.process env now s b).2.account_get (ledger.process env now s b).1.account
        = some info1 ∧
      info1.head = env.hash b ∧
      (∀ a, a ≠ (ledger.process env now s b).1.account →
        (ledger.process env now s b).2.account_get a = s.account_get a) ∧
      (ledger.process env now s b).1.amount =
        (if info1.balance < spec_prior_balance s (ledger.process env now s b).1.account then
          spec_prior_balance s (ledger.process env now s b).1.account - info1.balance
        else info1.balance - spec_prior_balance s (ledger.process env now s b).1.account) ∧
      (∀ x, b = block.send x →
        (ledger.process env now s b).1.pending_account = x.hashables.destination) ∧
      (∀ x, b = block.change x → (ledger.process env now s b).1.amount = 0) ∧
      (∀ x, b = block.state x →
        ((ledger.process env now s b).1.state_is_send = true ↔
          x.hashables.balance < spec_prior_balance s x.hashables.account)) := by
  cases b with
  | astate x => exact absurd rfl (hkind x)
  | send x =>
    have hacc1 : (ledger_processor.send_block env now s x).1.code = process_result.progress := hacc
    obtain ⟨-, -, -, hle, hst⟩ := send_block_accepted env now s x hacc1
    have hres := send_block_result env now s x hacc1
    simp only [ledger.process]
    rw [hres, hst]
    simp only [block_store.account_get, send_block_apply_accounts _ _ _ _ _ _ hnz,
      Function.update_same]
    refine ⟨_, rfl, rfl, fun a ha => Function.update_noteq ha _ _, ?_, ?_, ?_, ?_⟩
    · rw [spec_prior_balance_eq]
      simp only [block_store.account_get] at hle ⊢
      split_ifs <;> omega
    · intro y hy; cases hy; rfl
    · intro y hy; cases hy
    · intro y hy; cases hy
  | receive x =>
    have hacc1 : (ledger_processor.receive_block env now s x).1.code = process_result.progress :=
      hacc
    obtain ⟨-, -, -, -, p, hp, hst⟩ := receive_block_accepted env now s x hacc1
    have hres := receive_block_result env now s x p hp hacc1
    have hf := hfit p hp
    simp only [ledger.process]
    rw [hres, hst]
    simp only [block_store.account_get, receive_block_apply_accounts _ _ _ _ _ _ _ hnz,
      Function.update_same]
    refine ⟨_, rfl, rfl, fun a ha => Function.update_noteq ha _ _, ?_, ?_, ?_, ?_⟩
    · rw [spec_prior_balance_eq] at hf ⊢
      simp only [block_store.account_get] at hf ⊢
      rw [Nat.mod_eq_of_lt hf]
      split_ifs <;> omega
    · intro y hy; cases hy
    · intro y hy; cases hy
    · intro y hy; cases hy
  | opening x =>
    have hacc1 : (ledger_processor.open_block env now s x).1.code = process_result.progress :=
      hacc
    obtain ⟨-, -, hnone, -, p, hp, hst⟩ := open_block_accepted env now s x hacc1
    have hres := open_block_result env now s x p hp hacc1
    simp only [ledger.process]
    rw [hres, hst]
    simp only [block_store.account_get, open_block_apply_accounts _ _ _ _ _ _ hnz,
      Function.update_same]
    refine ⟨_, rfl, rfl, fun a ha => Function.update_noteq ha _ _, ?_, ?_, ?_, ?_⟩
    · simp [spec_prior_balance, hnone]
    · intro y hy; cases hy
    · intro y hy; cases hy
    · intro y hy; cases hy
  | change x =>
    have hacc1 : (ledger_processor.change_block env now s x).1.code = process_result.progress :=
      hacc
    obtain ⟨-, -, -, hst⟩ := change_block_accepted env now s x hacc1
    have hres := change_block_result env now s x hacc1
    simp only [ledger.process]
    rw [hres, hst]
    simp only [block_store.account_get, change_block_apply_accounts _ _ _ _ _ _ hnz,
      Function.update_same]
    refine ⟨_, rfl, rfl, fun a ha => Function.update_noteq ha _ _, ?_, ?_, ?_, ?_⟩
    · rw [spec_prior_balance_eq]
      simp
    · intro y hy; cases hy
    · intro y _; trivial
    · intro y hy; cases hy
  | state x =>
    have hacc1 : (ledger_processor.state_block env now s x).1.code = process_result.progress :=
      hacc
    obtain ⟨-, -, hchk, -, hst⟩ := state_block_accepted env now s x hacc1
    have hres := state_block_result env now s x hacc1
    have hprog := state_block_account_checks_progress s x hchk
    simp only [ledger.process]
    rw [hres, hst]
    simp only [block_store.account_get, state_block_apply_accounts _ _ _ _ _ _ _ hnz,
      Function.update_same]
    refine ⟨_, rfl, rfl, fun a ha => Function.update_noteq ha _ _, ?_, ?_, ?_, ?_⟩
    · cases hf : s.accounts x.hashables.account with
      | none =>
        obtain ⟨-, -, -, hamt⟩ := hprog.2 hf
        rw [hamt]
        simp [spec_prior_balance, hf]
      | some info =>
        obtain ⟨-, -, -, -, hamt⟩ := hprog.1 info hf
        rw [hamt]
        simp [spec_prior_balance, hf]
    · intro y hy; cases hy
    · intro y hy; cases hy
    · intro y hy
      cases hy
      cases hf : s.accounts x.hashables.account with
      | none =>
        obtain ⟨-, -, hsend, -⟩ := hprog.2 hf
        rw [hsend]
        simp [spec_prior_balance, hf]
      | some info =>
        obtain ⟨-, -, -, hsend, -⟩ := hprog.1 info hf
        rw [hsend]
        simp [spec_prior_balance, hf]

/-- C14 fails as stated: account `1` creates an asset and sends `2 ^ 128 - 1` units of it
to account `2`, which claims the pending entry with a legacy receive block; `process`
accepts all three blocks, the receive returns amount `2 ^ 128 - 1`, and the balance of
account `2` goes from 10 to 9. -/
theorem receive_amount_wraps :
    (ledger.process env 7 after_open2 (block.astate asset_create)).1.code
        = process_result.progress ∧
      (ledger.process env 8 after_asset_create (block.astate asset_send)).1.code
        = process_result.progress ∧
      (ledger.process env 9 after_asset_send (block.receive receive_asset)).1.code
        = process_result.progress ∧
      (ledger.process env 9 after_asset_send (block.receive receive_asset)).1.account = 2 ∧
      spec_prior_balance after_asset_send 2 = 10 ∧
      ((ledger.process env 9 after_asset_send (block.receive receive_asset)).2.account_get 2).map
        account_info.balance = some 9 ∧
      (ledger.process env 9 after_asset_send (block.receive receive_asset)).1.amount
        = 2 ^ 128 - 1 := by
  decide

/-- C14, at the receive of 5 by account `2`: the hypotheses hold there and the amount 5 is
the difference of the balances. -/
theorem process_return_record_witness :
    (ledger.process env 8 after_send3 (block.receive receive4)).1
        = ⟨process_result.progress, 2, 5, 0, false⟩ ∧
      spec_prior_balance after_send3 2 = 10 ∧
      ∃ info1,
        (ledger.process env 8 after_send3 (block.receive receive4)).2.account_get
          (ledger.process env 8 after_send3 (block.receive receive4)).1.account = some info1 ∧
        info1.head = env.hash (block.receive receive4) ∧
        (ledger.process env 8 after_send3 (block.receive receive4)).1.amount =
          (if info1.balance
              < spec_prior_balance after_send3
                (ledger.process env 8 after_send3 (block.receive receive4)).1.account then
            spec_prior_balance after_send3
                (ledger.process env 8 after_send3 (block.receive receive4)).1.account
              - info1.balance
          else info1.balance
            - spec_prior_balance after_send3
                (ledger.process env 8 after_send3 (block.receive receive4)).1.account) :=
  have h := process_return_record env 8 after_send3 (block.receive receive4)
    (fun _ h => by cases h) (by decide) (by decide)
    (fun p hp => by
      have hp2 : after_send3.pending_get ⟨2, 13492⟩ = some p := hp
      have : p = ⟨1, 5⟩ := Option.some.inj (hp2.symm.trans (by decide))
      subst this
      decide)
  ⟨by decide, by decide, h.imp fun _ hi => ⟨hi.1, hi.2.1, hi.2.2.2.1⟩⟩

/-! ## A pending entry is received once (C17) -/

/-- A receive, open or non-send state block is refused when the pending entry
it claims is absent. -/
theorem claim_refused_without_pending (env : ledger_env) (now : Nat) (s : block_store)
    (b : block) (account source : Nat) (hagain : spec_claims_again s b account source)
    (hp : s.pending ⟨account, source⟩ = none) :
    (ledger.process env now s b).1.code ≠ process_result.progress := by
  intro hacc
  cases b with
  | send x => exact hagain
  | change x => exact hagain
  | astate x => exact hagain
  | receive x =>
    obtain ⟨hs, hf⟩ := hagain
    obtain ⟨-, -, -, -, p, hp2, -⟩ := receive_block_accepted env now s x hacc
    rw [hf, hs, hp] at hp2
    cases hp2
  | opening x =>
    obtain ⟨hs, ha⟩ := hagain
    obtain ⟨-, -, -, -, p, hp2, -⟩ := open_block_accepted env now s x hacc
    rw [ha, hs, hp] at hp2
    cases hp2
  | state x =>
    obtain ⟨hl, hs0, ha, hns⟩ := hagain
    obtain ⟨-, -, hchk, hlink, -⟩ := state_block_accepted env now s x hacc
    have hprog := state_block_account_checks_progress s x hchk
    have hsend : (ledger_processor.state_block_account_checks s x).2.2 = false := by
      cases hf : s.accounts x.hashables.account with
      | none => exact (hprog.2 hf).2.2.1
      | some info =>
        rw [(hprog.1 info hf).2.2.2.1]
        rw [← ha] at hns
        simpa [spec_prior_balance, hf] using hns
    rw [hsend, state_block_link_checks_nonsend] at hlink
    rw [hl, ha] at hlink
    simp only [spec_first_failing_check, hs0, hp, block_store.pending_get, ne_eq,
      not_false_eq_true, decide_True, Bool.true_and, Option.isNone_none, if_true] at hlink
    split_ifs at hlink

/-- The pending entry claimed by an accepted block is gone afterwards. -/
theorem claimed_pending_deleted (env : ledger_env) (now : Nat) (s : block_store) (b : block)
    (source : Nat)
    (hacc : (ledger.process env now s b).1.code = process_result.progress)
    (hclaim : spec_claims_source b (ledger.process env now s b).1 source) :
    (ledger.process env now s b).2.pending ⟨(ledger.process env now s b).1.account, source⟩
      = none := by
  rw [process_account_of_progress env now s b hacc]
  cases b with
  | send x => exact hclaim.elim
  | change x => exact hclaim.elim
  | astate x => exact hclaim.elim
  | receive x =>
    have hs : x.hashables.source = source := hclaim
    obtain ⟨-, -, -, -, p, -, hst⟩ := receive_block_accepted env now s x hacc
    simp only [ledger.process]
    rw [hst, receive_block_apply_pending, hs, Function.update_same]
  | opening x =>
    have hs : x.hashables.source = source := hclaim
    obtain ⟨-, -, -, -, p, -, hst⟩ := open_block_accepted env now s x hacc
    simp only [ledger.process]
    rw [hst, open_block_apply_pending, hs, Function.update_same]
  | state x =>
    obtain ⟨hl, hs0, hns⟩ := hclaim
    have hres := state_block_result env now s x hacc
    have hres2 : (ledger.process env now s (block.state x)).1 = _ := hres
    rw [hres2] at hns
    simp only at hns
    obtain ⟨-, -, -, -, hst⟩ := state_block_accepted env now s x hacc
    simp only [ledger.process]
    rw [hst, state_block_apply_pending, hns]
    simp only [Bool.false_eq_true, if_false]
    rw [if_pos (by rw [hl]; exact hs0), hl, Function.update_same]

/-- C17. After `process` accepts a receive or open block with source S, or a state block
with non-zero link S that is not a send, the pending entry (account, S) of the returned
account is absent, and a receive, open or non-send state block of that account claiming S
again, processed next, gets a code other than progress. -/
theorem pending_received_once (env : ledger_env) (now now2 : Nat) (s : block_store)
    (b b2 : block) (source : Nat)
    (hacc : (ledger.process env now s b).1.code = process_result.progress)
    (hclaim : spec_claims_source b (ledger.process env now s b).1 source)
    (hagain : spec_claims_again (ledger.process env now s b).2 b2
      (ledger.process env now s b).1.account source) :
    (ledger.process env now s b).2.pending_get ⟨(ledger.process env now s b).1.account, source⟩
        = none ∧
      (ledger.process env now2 (ledger.process env now s b).2 b2).1.code
        ≠ process_result.progress :=
  ⟨claimed_pending_deleted env now s b source hacc hclaim,
    claim_refused_without_pending env now2 _ b2 _ source hagain
      (claimed_pending_deleted env now s b source hacc hclaim)⟩

/-- C17, after S1: account `2` opened with the send 1262; a receive block of account `2`
claiming 1262 again is refused (unreceivable). -/
theorem pending_received_once_witness :
    (ledger.process env 6 after_send1 (block.opening open2)).1.code = process_result.progress ∧
      (ledger.process env 6 after_send1 (block.opening open2)).2.pending_get ⟨2, 1262⟩ = none ∧
      (ledger.process env 7 (ledger.process env 6 after_send1 (block.opening open2)).2
        (block.receive ⟨⟨12664, 1262⟩, 2⟩)).1.code ≠ process_result.progress ∧
      (ledger.process env 7 (ledger.process env 6 after_send1 (block.opening open2)).2
        (block.receive ⟨⟨12664, 1262⟩, 2⟩)).1.code = process_result.unreceivable :=
  have h := pending_received_once env 6 7 after_send1 (block.opening open2)
    (block.receive ⟨⟨12664, 1262⟩, 2⟩) 1262 (by decide) (by decide) (by decide)
  ⟨by decide, h.1, h.2, by decide⟩

/-! ## Double spend (C18) -/

/-- After an accepted send or change block, its previous has no frontier entry
and is still stored with the same contents. -/
theorem legacy_successor_moves_frontier (env : ledger_env) (now : Nat) (s : block_store)
    (b1 : block) (hlegacy : (∃ x, b1 = block.send x) ∨ (∃ x, b1 = block.change x))
    (hacc : (ledger.process env now s b1).1.code = process_result.progress) :
    (ledger.process env now s b1).2.frontiers b1.previous = none ∧
      (∀ k, k ≠ env.hash b1 →
        (ledger.process env now s b1).2.block_get k = s.block_get k) ∧
      (ledger.process env now s b1).2.block_exists (env.hash b1) = true ∧
      s.block_exists b1.previous = true := by
  rcases hlegacy with ⟨x, rfl⟩ | ⟨x, rfl⟩
  · obtain ⟨hnew, ⟨p, hp⟩, -, -, hst⟩ := send_block_accepted env now s x hacc
    have hne : x.hashables.previous ≠ env.hash (block.send x) := by
      intro h; rw [h, hnew] at hp; cases hp
    simp only [ledger.process, block.previous]
    rw [hst]
    refine ⟨?_, ?_, ?_, by simp [hp]⟩
    · rw [send_block_apply_frontiers, Function.update_noteq hne, Function.update_same]
    · intro k hk
      simp only [block_store.block_get, send_block_apply_blocks]
      rw [blocks_put_contents, if_neg hk]
    · simp only [block_store.block_exists, send_block_apply_blocks]
      rw [blocks_put_isSome]; simp
  · obtain ⟨hnew, ⟨p, hp⟩, -, hst⟩ := change_block_accepted env now s x hacc
    have hne : x.hashables.previous ≠ env.hash (block.change x) := by
      intro h; rw [h, hnew] at hp; cases hp
    simp only [ledger.process, block.previous]
    rw [hst]
    refine ⟨?_, ?_, ?_, by simp [hp]⟩
    · rw [change_block_apply_frontiers, Function.update_noteq hne, Function.update_same]
    · intro k hk
      simp only [block_store.block_get, change_block_apply_blocks]
      rw [blocks_put_contents, if_neg hk]
    · simp only [block_store.block_exists, change_block_apply_blocks]
      rw [blocks_put_isSome]; simp

/-- A send block whose previous is stored without a frontier entry is a fork. -/
theorem send_block_fork (env : ledger_env) (now : Nat) (s : block_store) (b : mol.send_block)
    (hnew : s.block_exists (env.hash (block.send b)) = false)
    (hstored : s.block_exists b.hashables.previous = true)
    (hvalid : ∀ p, s.block_get b.hashables.previous = some p →
      env.valid_predecessor (block.send b) p = true)
    (hfr : s.frontiers b.hashables.previous = none) :
    ledger_processor.send_block env now s b
      = ({ process_return.init with code := process_result.fork }, s) := by
  unfold ledger_processor.send_block
  dsimp only
  rw [if_neg (by rw [hnew]; simp)]
  cases hp : s.block_get b.hashables.previous with
  | none => simp only [block_store.block_get, block_store.block_exists] at hp hstored; simp_all
  | some p =>
    simp only []
    rw [if_neg (by simp [hvalid p hp]), if_pos (by simp [hfr])]

/-- C18. After a legacy send or change block with previous P was accepted, a send block
with previous P and another hash, not stored and passing valid_predecessor, is reported as
fork and the store stays as it was. -/
theorem double_spend_is_fork (env : ledger_env) (now now2 : Nat) (s : block_store)
    (b1 : block) (b2 : mol.send_block)
    (hlegacy : (∃ x, b1 = block.send x) ∨ (∃ x, b1 = block.change x))
    (hacc : (ledger.process env now s b1).1.code = process_result.progress)
    (hprev : b2.hashables.previous = b1.previous)
    (hne : env.hash (block.send b2) ≠ env.hash b1)
    (hnew : s.block_exists (env.hash (block.send b2)) = false)
    (hvalid : ∀ p, s.block_get b1.previous = some p →
      env.valid_predecessor (block.send b2) p = true) :
    (ledger.process env now2 (ledger.process env now s b1).2 (block.send b2)).1.code
        = process_result.fork ∧
      (ledger.process env now2 (ledger.process env now s b1).2 (block.send b2)).2
        = (ledger.process env now s b1).2 := by
  obtain ⟨hfr, hget, hself, hstored⟩ := legacy_successor_moves_frontier env now s b1 hlegacy hacc
  have hpne : b1.previous ≠ env.hash b1 := by
    intro h
    have hx : s.block_exists (env.hash b1) = false := by
      rcases hlegacy with ⟨x, rfl⟩ | ⟨x, rfl⟩
      · simpa using (send_block_accepted env now s x hacc).1
      · simpa using (change_block_accepted env now s x hacc).1
    rw [h, hx] at hstored
    cases hstored
  have key := send_block_fork env now2 (ledger.process env now s b1).2 b2
    (by
      have := hget _ hne
      simp only [block_store.block_get, block_store.block_exists] at this hnew ⊢
      cases hx : (ledger.process env now s b1).2.blocks (env.hash (block.send b2)) with
      | none => rfl
      | some r =>
        rw [hx] at this
        cases hy : s.blocks (env.hash (block.send b2)) with
        | none => rw [hy] at this; cases this
        | some r2 => rw [hy] at hnew; cases hnew)
    (by
      rw [hprev]
      have := hget _ hpne
      simp only [block_store.block_get, block_store.block_exists] at this hstored ⊢
      cases hx : (ledger.process env now s b1).2.blocks b1.previous with
      | none =>
        rw [hx] at this
        cases hy : s.blocks b1.previous with
        | none => rw [hy] at hstored; cases hstored
        | some r2 => rw [hy] at this; cases this
      | some r => rfl)
    (by
      intro p hp
      rw [hprev] at hp
      rw [hget _ hpne] at hp
      exact hvalid p hp)
    (by rw [hprev]; exact hfr)
  have key2 : ledger.process env now2 (ledger.process env now s b1).2 (block.send b2) = _ := key
  rw [key2]
  exact ⟨rfl, rfl⟩

/-- C18, scenario S3: after S1's send, another send on the genesis open block is a fork
and changes nothing. -/
theorem double_spend_is_fork_witness :
    (ledger.process env 5 genesis (block.send send1)).1.code = process_result.progress ∧
      (ledger.process env 6 after_send1 (block.send ⟨⟨34, 3, 80⟩, 1⟩)).1.code
        = process_result.fork ∧
      (ledger.process env 6 after_send1 (block.send ⟨⟨34, 3, 80⟩, 1⟩)).2 = after_send1 :=
  have h := double_spend_is_fork env 5 6 genesis (block.send send1) ⟨⟨34, 3, 80⟩, 1⟩
    (Or.inl ⟨send1, rfl⟩) (by decide) (by decide) (by decide) (by decide)
    (fun p hp => by
      have hp2 : genesis.block_get 34 = some p := hp
      have : p = block.opening genesis_block := Option.some.inj (hp2.symm.trans (by decide))
      subst this
      decide)
  ⟨by decide, h.1, h.2⟩

/-! ## State send and legacy send (C19) -/

/-- A send block whose checks pass is accepted. -/
theorem send_block_progress (env : ledger_env) (now : Nat) (s : block_store) (b : mol.send_block)
    (account : Nat) (r : stored_block)
    (hnew : s.block_exists (env.hash (block.send b)) = false)
    (hp : s.blocks b.hashables.previous = some r)
    (hvalid : env.valid_predecessor (block.send b) r.contents = true)
    (hfr : s.frontiers b.hashables.previous = some account) (ha : account ≠ 0)
    (hsig : env.validate_message account (env.hash (block.send b)) b.signature = false)
    (hbal : b.hashables.balance ≤ ((s.account_get account).getD account_info.zero).balance) :
    ledger_processor.send_block env now s b =
      (⟨process_result.progress, account,
          ((s.account_get account).getD account_info.zero).balance - b.hashables.balance,
          b.hashables.destination, false⟩,
        ledger_processor.send_block_apply env now s b account
          ((s.account_get account).getD account_info.zero)) := by
  unfold ledger_processor.send_block
  dsimp only
  rw [if_neg (by rw [hnew]; simp)]
  simp only [block_store.block_get, hp, Option.map_some']
  rw [if_neg (by simp [hvalid])]
  simp only [block_store.frontier_get, hfr, Option.getD_some]
  rw [if_neg ha, if_neg (by simp [hsig]), if_pos hbal]
  rfl

/-- A state send whose checks pass is accepted. -/
theorem state_block_send_progress (env : ledger_env) (now : Nat) (s : block_store)
    (b : mol.state_block) (info : account_info)
    (hc : s.block_exists env.state_block_parse_canary = true)
    (hnew : s.block_exists (env.hash (block.state b)) = false)
    (hsig : env.validate_message b.hashables.account (env.hash (block.state b)) b.signature
      = false)
    (ha : b.hashables.account ≠ 0)
    (hinfo : s.account_get b.hashables.account = some info)
    (hp0 : b.hashables.previous ≠ 0)
    (hp : s.block_exists b.hashables.previous = true)
    (hhead : b.hashables.previous = info.head)
    (hbal : b.hashables.balance < info.balance) :
    ledger.process env now s (block.state b) =
      (⟨process_result.progress, b.hashables.account, info.balance - b.hashables.balance, 0,
          true⟩,
        ledger_processor.state_block_apply env now s b info
          (info.balance - b.hashables.balance) true) := by
  rw [process_state_enabled env now s b hc]
  have hchk : ledger_processor.state_block_account_checks s b
      = (process_result.progress, info.balance - b.hashables.balance, true) := by
    unfold ledger_processor.state_block_account_checks
    dsimp only
    rw [hinfo]
    simp only [Option.isSome_some, if_true, Option.getD_some]
    rw [if_neg hp0, if_neg (by rw [hp]; simp), if_pos hhead]
    simp [hbal]
  unfold ledger_processor.state_block_impl
  dsimp only
  rw [if_neg (by rw [hnew]; simp), if_neg (by simp [hsig]), if_neg ha, hchk]
  simp only [state_block_link_checks_send, if_true, hinfo, Option.getD_some]
  rfl

/-- C19. With the canary present, for an account with a record of balance above `balance`
whose head `previous` is a stored legacy head (frontier entry), the state block (account,
previous, balance, link = destination) and the send block (previous, destination, balance),
both new and validly signed, are both accepted from the same store; each leaves the account
with `balance` and a pending entry for `destination` under its own hash with value (account,
old balance - balance), and both return the same amount. -/
theorem state_send_matches_legacy_send (env : ledger_env) (now : Nat) (s : block_store)
    (account previous balance destination representative sig_state sig_send : Nat)
    (info : account_info) (r : stored_block)
    (hc : s.block_exists env.state_block_parse_canary = true)
    (ha : account ≠ 0)
    (hinfo : s.account_get account = some info)
    (hhead : info.head = previous)
    (hfr : s.frontiers previous = some account)
    (hp0 : previous ≠ 0)
    (hp : s.blocks previous = some r)
    (hbal : balance < info.balance)
    (hvalid : env.valid_predecessor (block.send ⟨⟨previous, destination, balance⟩, sig_send⟩)
      r.contents = true)
    (hnew_state : s.block_exists
      (env.hash (block.state ⟨⟨account, previous, representative, balance, destination⟩,
        sig_state⟩)) = false)
    (hnew_send : s.block_exists
      (env.hash (block.send ⟨⟨previous, destination, balance⟩, sig_send⟩)) = false)
    (hsig_state : env.validate_message account
      (env.hash (block.state ⟨⟨account, previous, representative, balance, destination⟩,
        sig_state⟩)) sig_state = false)
    (hsig_send : env.validate_message account
      (env.hash (block.send ⟨⟨previous, destination, balance⟩, sig_send⟩)) sig_send = false)
    (hnz_state :
      env.hash (block.state ⟨⟨account, previous, representative, balance, destination⟩,
        sig_state⟩) ≠ 0)
    (hnz_send : env.hash (block.send ⟨⟨previous, destination, balance⟩, sig_send⟩) ≠ 0) :
    let state_b : block :=
      block.state ⟨⟨account, previous, representative, balance, destination⟩, sig_state⟩
    let send_b : block := block.send ⟨⟨previous, destination, balance⟩, sig_send⟩
    (ledger.process env now s state_b).1.code = process_result.progress ∧
      (ledger.process env now s send_b).1.code = process_result.progress ∧
      ((ledger.process env now s state_b).2.account_get account).map account_info.balance
        = some balance ∧
      ((ledger.process env now s send_b).2.account_get account).map account_info.balance
        = some balance ∧
      (ledger.process env now s state_b).2.pending_get ⟨destination, env.hash state_b⟩
        = some ⟨account, info.balance - balance⟩ ∧
      (ledger.process env now s send_b).2.pending_get ⟨destination, env.hash send_b⟩
        = some ⟨account, info.balance - balance⟩ ∧
      (ledger.process env now s state_b).1.amount = (ledger.process env now s send_b).1.amount := by
  intro state_b send_b
  have h1 := state_block_send_progress env now s
    ⟨⟨account, previous, representative, balance, destination⟩, sig_state⟩ info hc hnew_state
    hsig_state ha hinfo hp0 (by simp [hp]) hhead.symm hbal
  have h2 := send_block_progress env now s ⟨⟨previous, destination, balance⟩, sig_send⟩ account r
    hnew_send hp hvalid hfr ha hsig_send (by rw [hinfo]; exact le_of_lt hbal)
  have h2b : ledger.process env now s send_b = _ := h2
  have h1b : ledger.process env now s state_b = _ := h1
  have hinfo2 : s.accounts account = some info := hinfo
  rw [h1b, h2b]
  simp only [block_store.account_get, hinfo2, and_true, true_and, block_store.pending_get,
    state_block_apply_accounts _ _ _ _ _ _ _ hnz_state,
    send_block_apply_accounts _ _ _ _ _ _ hnz_send, state_block_apply_pending,
    send_block_apply_pending, Function.update_same, if_true, Option.map_some', hinfo,
    Option.getD_some, and_self]

/-- C19, scenario S5: at the genesis ledger the state block `state1` and the send block
`send1` of account `1` both leave balance 90 and a pending entry (1, 10) for account `2`. -/
theorem state_send_matches_legacy_send_witness :
    (ledger.process env 5 genesis (block.state state1)).1.code = process_result.progress ∧
      (ledger.process env 5 genesis (block.send send1)).1.code = process_result.progress ∧
      ((ledger.process env 5 genesis (block.state state1)).2.account_get 1).map
        account_info.balance = some 90 ∧
      ((ledger.process env 5 genesis (block.send send1)).2.account_get 1).map
        account_info.balance = some 90 ∧
      (ledger.process env 5 genesis (block.state state1)).2.pending_get ⟨2, 1286⟩
        = some ⟨1, 10⟩ ∧
      (ledger.process env 5 genesis (block.send send1)).2.pending_get ⟨2, 1262⟩
        = some ⟨1, 10⟩ :=
  have h := state_send_matches_legacy_send env 5 genesis 1 34 90 2 1 1 1
    ⟨34, 34, 34, 100, 1, 1⟩ ⟨block.opening genesis_block, 0⟩
    (by decide) (by decide) (by decide) (by decide) (by decide) (by decide) (by decide)
    (by decide) (by decide) (by decide) (by decide) (by decide) (by decide) (by decide)
    (by decide)
  ⟨h.1, h.2.1, h.2.2.1, h.2.2.2.1, h.2.2.2.2.1, h.2.2.2.2.2.1⟩

/-! ## No legacy block on a state block (C20) -/

/-! ## Block contents and frontier entries under `process` -/

theorem blocks_shrink_refl (t : Nat → Option stored_block) : blocks_shrink t t :=
  fun _ r1 h => ⟨r1, h, rfl⟩

theorem blocks_shrink_trans {t t1 t2 : Nat → Option stored_block}
    (h1 : blocks_shrink t t1) (h2 : blocks_shrink t1 t2) : blocks_shrink t t2 := by
  intro k r2 hk
  obtain ⟨r1, hr1, hc1⟩ := h2 k r2 hk
  obtain ⟨r, hr, hc⟩ := h1 k r1 hr1
  exact ⟨r, hr, hc.trans hc1⟩

theorem blocks_shrink_set_successor (t : Nat → Option stored_block) (h x : Nat) :
    blocks_shrink t (block_store.set_successor t h x) := by
  intro k r1 hk
  have hc := set_successor_contents t h x k
  rw [hk] at hc
  cases htk : t k with
  | none => rw [htk] at hc; cases hc
  | some r =>
    rw [htk] at hc
    exact ⟨r, rfl, (Option.some.inj hc).symm⟩

theorem blocks_shrink_delete (t : Nat → Option stored_block) (h : Nat) :
    blocks_shrink t (Function.update t h none) := by
  intro k r1 hk
  by_cases hkh : k = h
  · rw [hkh, Function.update_same] at hk; cases hk
  · rw [Function.update_noteq hkh] at hk
    exact ⟨r1, hk, rfl⟩

/-- The contents of the block table after `block_put`. -/
theorem blocks_put_cases (t : Nat → Option stored_block) (h : Nat) (b : block) (k : Nat)
    (r1 : stored_block) (hk : block_store.blocks_put t h b k = some r1) :
    (k = h ∧ r1.contents = b) ∨ ∃ r, t k = some r ∧ r.contents = r1.contents := by
  have hc := blocks_put_contents t h b k
  rw [hk] at hc
  by_cases hkh : k = h
  · left
    rw [if_pos hkh] at hc
    exact ⟨hkh, Option.some.inj hc⟩
  · right
    rw [if_neg hkh] at hc
    cases htk : t k with
    | none => rw [htk] at hc; cases hc
    | some r =>
      rw [htk] at hc
      exact ⟨r, rfl, (Option.some.inj hc).symm⟩

/-- The tables of the native ledger that `astate_block` leaves alone, and what
it does to the block table. -/
theorem astate_block_tables (env : ledger_env) (now : Nat) (s : block_store)
    (b : mol.astate_block) :
    (ledger_processor.astate_block env now s b).2.frontiers = s.frontiers ∧
    (ledger_processor.astate_block env now s b).2.accounts = s.accounts ∧
    (ledger_processor.astate_block env now s b).2.block_infos = s.block_infos ∧
    (ledger_processor.astate_block env now s b).2.representation = s.representation ∧
    (ledger_processor.astate_block env now s b).2.checksum = s.checksum ∧
    ((ledger_processor.astate_block env now s b).2.blocks = s.blocks ∨
      (ledger_processor.astate_block env now s b).2.blocks
        = block_store.blocks_put s.blocks (env.hash (block.astate b)) (block.astate b)) := by
  unfold ledger_processor.astate_block
  dsimp only
  by_cases h1 : s.block_exists (env.hash (block.astate b)) = true
  · rw [if_pos h1]; simp
  rw [if_neg h1]
  by_cases h2 : env.validate_message b.hashables.account (env.hash (block.astate b))
      b.signature = true
  · rw [if_pos h2]; simp
  rw [if_neg h2]
  by_cases h3 : b.hashables.account = 0
  · rw [if_pos h3]; simp
  rw [if_neg h3]
  by_cases h4 : s.account_exists b.hashables.account = false
  · rw [if_pos h4]; simp
  rw [if_neg h4]
  cases hg : s.account_get b.hashables.account with
  | none => simp
  | some info =>
    dsimp only
    by_cases h5 : s.asset_exists b.hashables.asset = true
    · rw [if_pos h5]
      by_cases h6 : s.asset_account_exists ⟨b.hashables.account, b.hashables.asset⟩ = true
      · rw [if_pos h6]
        by_cases h7 : b.hashables.previous = 0
        · rw [if_pos h7]; simp
        rw [if_neg h7]
        by_cases h8 : s.block_exists b.hashables.previous = false
        · rw [if_pos h8]; simp
        rw [if_neg h8]
        cases hag : s.asset_account_get ⟨b.hashables.account, b.hashables.asset⟩ with
        | none => simp
        | some ia =>
          dsimp only
          repeat' split
          all_goals simp [ledger_processor.astate_put]
      · rw [if_neg h6]
        repeat' split
        all_goals simp [ledger_processor.astate_put]
    · rw [if_neg h5]
      repeat' split
      all_goals simp [ledger_processor.astate_put]

/-- The block table after `process`: the block itself under its hash, and what
was stored before. -/
theorem process_blocks_cases (env : ledger_env) (now : Nat) (s : block_store) (b : block)
    (k : Nat) (r1 : stored_block) (hk : (ledger.process env now s b).2.blocks k = some r1) :
    (k = env.hash b ∧ r1.contents = b) ∨ ∃ r, s.blocks k = some r ∧ r.contents = r1.contents := by
  by_cases hacc : (ledger.process env now s b).1.code = process_result.progress
  · cases b with
    | send x =>
      obtain ⟨-, -, -, -, hst⟩ := send_block_accepted env now s x hacc
      simp only [ledger.process] at hk
      rw [hst, send_block_apply_blocks] at hk
      exact blocks_put_cases _ _ _ _ _ hk
    | receive x =>
      obtain ⟨-, -, -, -, p, -, hst⟩ := receive_block_accepted env now s x hacc
      simp only [ledger.process] at hk
      rw [hst, receive_block_apply_blocks] at hk
      exact blocks_put_cases _ _ _ _ _ hk
    | opening x =>
      obtain ⟨-, -, -, -, p, -, hst⟩ := open_block_accepted env now s x hacc
      simp only [ledger.process] at hk
      rw [hst, open_block_apply_blocks] at hk
      exact blocks_put_cases _ _ _ _ _ hk
    | change x =>
      obtain ⟨-, -, -, hst⟩ := change_block_accepted env now s x hacc
      simp only [ledger.process] at hk
      rw [hst, change_block_apply_blocks] at hk
      exact blocks_put_cases _ _ _ _ _ hk
    | state x =>
      obtain ⟨-, -, -, -, hst⟩ := state_block_accepted env now s x hacc
      simp only [ledger.process] at hk
      rw [hst, state_block_apply_blocks] at hk
      exact blocks_put_cases _ _ _ _ _ hk
    | astate x =>
      simp only [ledger.process] at hk
      rcases (astate_block_tables env now s x).2.2.2.2.2 with h | h
      · rw [h] at hk; exact Or.inr ⟨r1, hk, rfl⟩
      · rw [h] at hk; exact blocks_put_cases _ _ _ _ _ hk
  · have hs : (ledger.process env now s b).2 = s := by
      cases b with
      | send x => exact send_block_refused env now s x hacc
      | receive x => exact receive_block_refused env now s x hacc
      | opening x => exact open_block_refused env now s x hacc
      | change x => exact change_block_refused env now s x hacc
      | state x => exact state_block_refused env now s x hacc
      | astate x => exact astate_block_refused env now s x hacc
    rw [hs] at hk
    exact Or.inr ⟨r1, hk, rfl⟩

/-- The frontier table after `process`: an accepted legacy block under its
hash, and what was there before. -/
theorem process_frontiers_cases (env : ledger_env) (now : Nat) (s : block_store) (b : block)
    (k a : Nat) (hk : (ledger.process env now s b).2.frontiers k = some a) :
    (k = env.hash b ∧ b.type < block_type_state) ∨ s.frontiers k = some a := by
  by_cases hacc : (ledger.process env now s b).1.code = process_result.progress
  · cases b with
    | send x =>
      obtain ⟨-, -, -, -, hst⟩ := send_block_accepted env now s x hacc
      simp only [ledger.process] at hk
      rw [hst, send_block_apply_frontiers] at hk
      by_cases h1 : k = env.hash (block.send x)
      · exact Or.inl ⟨h1, by simp [block.type, block_type_state]⟩
      · rw [Function.update_noteq h1] at hk
        by_cases h2 : k = x.hashables.previous
        · rw [h2, Function.update_same] at hk; cases hk
        · rw [Function.update_noteq h2] at hk; exact Or.inr hk
    | receive x =>
      obtain ⟨-, -, -, -, p, -, hst⟩ := receive_block_accepted env now s x hacc
      simp only [ledger.process] at hk
      rw [hst, receive_block_apply_frontiers] at hk
      by_cases h1 : k = env.hash (block.receive x)
      · exact Or.inl ⟨h1, by simp [block.type, block_type_state]⟩
      · rw [Function.update_noteq h1] at hk
        by_cases h2 : k = x.hashables.previous
        · rw [h2, Function.update_same] at hk; cases hk
        · rw [Function.update_noteq h2] at hk; exact Or.inr hk
    | opening x =>
      obtain ⟨-, -, -, -, p, -, hst⟩ := open_block_accepted env now s x hacc
      simp only [ledger.process] at hk
      rw [hst, open_block_apply_frontiers] at hk
      by_cases h1 : k = env.hash (block.opening x)
      · exact Or.inl ⟨h1, by simp [block.type, block_type_state]⟩
      · rw [Function.update_noteq h1] at hk; exact Or.inr hk
    | change x =>
      obtain ⟨-, -, -, hst⟩ := change_block_accepted env now s x hacc
      simp only [ledger.process] at hk
      rw [hst, change_block_apply_frontiers] at hk
      by_cases h1 : k = env.hash (block.change x)
      · exact Or.inl ⟨h1, by simp [block.type, block_type_state]⟩
      · rw [Function.update_noteq h1] at hk
        by_cases h2 : k = x.hashables.previous
        · rw [h2, Function.update_same] at hk; cases hk
        · rw [Function.update_noteq h2] at hk; exact Or.inr hk
    | state x =>
      obtain ⟨-, -, -, -, hst⟩ := state_block_accepted env now s x hacc
      simp only [ledger.process] at hk
      rw [hst, state_block_apply_frontiers] at hk
      right
      split_ifs at hk with hf
      · by_cases h2 :
            k = ((s.account_get x.hashables.account).getD account_info.zero).head
        · rw [h2, Function.update_same] at hk; cases hk
        · rw [Function.update_noteq h2] at hk; exact hk
      · exact hk
    | astate x =>
      simp only [ledger.process] at hk
      rw [(astate_block_tables env now s x).1] at hk
      exact Or.inr hk
  · have hs : (ledger.process env now s b).2 = s := by
      cases b with
      | send x => exact send_block_refused env now s x hacc
      | receive x => exact receive_block_refused env now s x hacc
      | opening x => exact open_block_refused env now s x hacc
      | change x => exact change_block_refused env now s x hacc
      | state x => exact state_block_refused env now s x hacc
      | astate x => exact astate_block_refused env now s x hacc
    rw [hs] at hk
    exact Or.inr hk

/-- An accepted send, receive or change block found a frontier entry with a
non-zero account at its previous. -/
theorem process_builds_on_frontier (env : ledger_env) (now : Nat) (s : block_store) (b : block)
    (hb : b.builds_on = true)
    (hacc : (ledger.process env now s b).1.code = process_result.progress) :
    s.frontiers b.previous = some (s.frontier_get b.previous) ∧ s.frontier_get b.previous ≠ 0 := by
  cases b with
  | send x =>
    have h := (send_block_accepted env now s x hacc).2.2.1
    exact ⟨frontier_get_ne_zero s _ h, h⟩
  | receive x =>
    have h := (receive_block_accepted env now s x hacc).2.2.1
    exact ⟨frontier_get_ne_zero s _ h, h⟩
  | change x =>
    have h := (change_block_accepted env now s x hacc).2.2.1
    exact ⟨frontier_get_ne_zero s _ h, h⟩
  | opening x => cases hb
  | state x => cases hb
  | astate x => cases hb

/-- The genesis store keeps the frontier discipline. -/
theorem genesis_store_discipline (env : ledger_env) (g : mol.open_block) (supply now : Nat) :
    frontier_discipline env (ledger.genesis_store env g supply now) := by
  refine ⟨?_, ?_, ?_⟩
  · intro h r hr
    simp only [ledger.genesis_store] at hr
    split_ifs at hr with hh
    cases hr
    exact hh.symm
  · intro h a ha
    simp only [ledger.genesis_store] at ha
    split_ifs at ha with hh
    exact ⟨block.opening g, by simp [block.type, block_type_state], hh.symm⟩
  · intro h r hr hb
    simp only [ledger.genesis_store] at hr
    split_ifs at hr with hh
    cases hr
    cases hb

/-- `process` keeps the frontier discipline. -/
theorem process_discipline (env : ledger_env) (now : Nat) (s : block_store) (b : block)
    (hs : frontier_discipline env s) :
    frontier_discipline env (ledger.process env now s b).2 := by
  refine ⟨?_, ?_, ?_⟩
  · intro h r1 hr1
    rcases process_blocks_cases env now s b h r1 hr1 with ⟨hk, hc⟩ | ⟨r, hr, hc⟩
    · rw [hc, hk]
    · rw [← hc]; exact hs.hash_stored h r hr
  · intro h a ha
    rcases process_frontiers_cases env now s b h a ha with ⟨hk, hty⟩ | hfr
    · exact ⟨b, hty, hk.symm⟩
    · exact hs.frontier_legacy h a hfr
  · intro h r1 hr1 hb
    rcases process_blocks_cases env now s b h r1 hr1 with ⟨hk, hc⟩ | ⟨r, hr, hc⟩
    · by_cases hacc : (ledger.process env now s b).1.code = process_result.progress
      · rw [hc] at hb ⊢
        exact hs.frontier_legacy _ _ (process_builds_on_frontier env now s b hb hacc).1
      · have hst : (ledger.process env now s b).2 = s := by
          cases b with
          | send x => exact send_block_refused env now s x hacc
          | receive x => exact receive_block_refused env now s x hacc
          | opening x => exact open_block_refused env now s x hacc
          | change x => exact change_block_refused env now s x hacc
          | state x => exact state_block_refused env now s x hacc
          | astate x => exact astate_block_refused env now s x hacc
        rw [hst] at hr1
        exact hs.previous_legacy h r1 hr1 hb
    · rw [← hc] at hb ⊢
      exact hs.previous_legacy h r hr hb

/-! ## Block contents and frontier entries under `rollback` -/

/-- The discipline passes to a store with no other block contents and no other
frontier entries than at hashes of legacy blocks. -/
theorem discipline_of_shrink (env : ledger_env) (s s1 : block_store)
    (hs : frontier_discipline env s) (hb : blocks_shrink s.blocks s1.blocks)
    (hf : ∀ h a, s1.frontiers h = some a →
      s.frontiers h = some a ∨ ∃ l : block, l.type < block_type_state ∧ env.hash l = h) :
    frontier_discipline env s1 := by
  refine ⟨?_, ?_, ?_⟩
  · intro h r1 hr1
    obtain ⟨r, hr, hc⟩ := hb h r1 hr1
    rw [← hc]; exact hs.hash_stored h r hr
  · intro h a ha
    rcases hf h a ha with h1 | h1
    · exact hs.frontier_legacy h a h1
    · exact h1
  · intro h r1 hr1 hbo
    obtain ⟨r, hr, hc⟩ := hb h r1 hr1
    rw [← hc] at hbo ⊢
    exact hs.previous_legacy h r hr hbo

/-- Frontier entries after moving the entry of `hash` back to `previous`. -/
theorem frontier_moved_back (fr : Nat → Option Nat) (hash previous account h a : Nat)
    (ha : Function.update (Function.update fr hash none) previous (some account) h = some a) :
    fr h = some a ∨ h = previous := by
  by_cases h1 : h = previous
  · exact Or.inr h1
  · rw [Function.update_noteq h1] at ha
    by_cases h2 : h = hash
    · rw [h2, Function.update_same] at ha; cases ha
    · rw [Function.update_noteq h2] at ha; exact Or.inl ha

theorem send_undo_discipline (env : ledger_env) (now : Nat) (s : block_store)
    (b : mol.send_block) (pending : pending_info) (hs : frontier_discipline env s)
    (hl : ∃ l : block, l.type < block_type_state ∧ env.hash l = b.hashables.previous) :
    frontier_discipline env (rollback_visitor.send_block env now s b pending) := by
  apply discipline_of_shrink env s _ hs
  · rw [rollback_send_blocks]
    exact blocks_shrink_trans (blocks_shrink_delete _ _) (blocks_shrink_set_successor _ _ _)
  · intro h a ha
    rw [rollback_send_frontiers] at ha
    rcases frontier_moved_back _ _ _ _ _ _ ha with h1 | h1
    · exact Or.inl h1
    · rw [h1]; exact Or.inr hl

theorem receive_undo_discipline (env : ledger_env) (now : Nat) (s : block_store)
    (b : mol.receive_block) (dst src : Nat) (hs : frontier_discipline env s)
    (hl : ∃ l : block, l.type < block_type_state ∧ env.hash l = b.hashables.previous) :
    frontier_discipline env (rollback_visitor.receive_block_undo env now s b dst src) := by
  apply discipline_of_shrink env s _ hs
  · rw [rollback_receive_blocks]
    exact blocks_shrink_trans (blocks_shrink_delete _ _) (blocks_shrink_set_successor _ _ _)
  · intro h a ha
    rw [rollback_receive_frontiers] at ha
    rcases frontier_moved_back _ _ _ _ _ _ ha with h1 | h1
    · exact Or.inl h1
    · rw [h1]; exact Or.inr hl

theorem change_undo_discipline (env : ledger_env) (now : Nat) (s : block_store)
    (b : mol.change_block) (account : Nat) (hs : frontier_discipline env s)
    (hl : ∃ l : block, l.type < block_type_state ∧ env.hash l = b.hashables.previous) :
    frontier_discipline env (rollback_visitor.change_block_undo env now s b account) := by
  apply discipline_of_shrink env s _ hs
  · rw [rollback_change_blocks]
    exact blocks_shrink_trans (blocks_shrink_delete _ _) (blocks_shrink_set_successor _ _ _)
  · intro h a ha
    rw [rollback_change_frontiers] at ha
    rcases frontier_moved_back _ _ _ _ _ _ ha with h1 | h1
    · exact Or.inl h1
    · rw [h1]; exact Or.inr hl

theorem open_undo_discipline (env : ledger_env) (now : Nat) (s : block_store)
    (b : mol.open_block) (dst src : Nat) (hs : frontier_discipline env s) :
    frontier_discipline env (rollback_visitor.open_block_undo env now s b dst src) := by
  apply discipline_of_shrink env s _ hs
  · rw [rollback_open_blocks]
    exact blocks_shrink_delete _ _
  · intro h a ha
    rw [rollback_open_frontiers] at ha
    by_cases h2 : h = env.hash (block.opening b)
    · rw [h2, Function.update_same] at ha; cases ha
    · rw [Function.update_noteq h2] at ha; exact Or.inl ha

/-- Block table after the rewind of a state block. -/
theorem state_block_rewind_blocks (env : ledger_env) (now : Nat) (s : block_store)
    (b : mol.state_block) (representative balance : Nat) :
    blocks_shrink s.blocks
      (rollback_visitor.state_block_rewind env now s b representative balance).blocks := by
  unfold rollback_visitor.state_block_rewind
  simp only [block_store.block_get, change_latest_blocks, block_store.block_del]
  cases hp : s.blocks b.hashables.previous with
  | none =>
    simp only [Option.map_none']
    rw [change_latest_blocks]
    exact blocks_shrink_delete _ _
  | some r =>
    simp only [Option.map_some']
    split_ifs
    · simp only [block_store.frontier_put, block_store.block_successor_clear,
        change_latest_blocks]
      exact blocks_shrink_trans (blocks_shrink_set_successor _ _ _) (blocks_shrink_delete _ _)
    · simp only [block_store.block_successor_clear, change_latest_blocks]
      exact blocks_shrink_trans (blocks_shrink_set_successor _ _ _) (blocks_shrink_delete _ _)

theorem state_rewind_discipline (env : ledger_env) (now : Nat) (s : block_store)
    (b : mol.state_block) (representative balance : Nat) (hs : frontier_discipline env s) :
    frontier_discipline env
      (rollback_visitor.state_block_rewind env now s b representative balance) := by
  apply discipline_of_shrink env s _ hs (state_block_rewind_blocks env now s b _ _)
  intro h a ha
  rw [state_block_rewind_frontiers] at ha
  cases hp : s.blocks b.hashables.previous with
  | none => rw [hp] at ha; exact Or.inl ha
  | some r =>
    rw [hp] at ha
    simp only at ha
    split_ifs at ha with hty
    · by_cases h1 : h = b.hashables.previous
      · right
        exact ⟨r.contents, hty, by rw [h1]; exact hs.hash_stored _ r hp⟩
      · rw [Function.update_noteq h1] at ha; exact Or.inl ha
    · exact Or.inl ha

/-- A store that differs in other tables only. -/
theorem discipline_congr (env : ledger_env) (s s1 : block_store)
    (hs : frontier_discipline env s) (hb : s1.blocks = s.blocks)
    (hf : s1.frontiers = s.frontiers) : frontier_discipline env s1 := by
  apply discipline_of_shrink env s _ hs
  · rw [hb]; exact blocks_shrink_refl _
  · intro h a ha; rw [hf] at ha; exact Or.inl ha

/-- A returning run of `rollback` keeps the frontier discipline. -/
theorem rollback_run_discipline (env : ledger_env) (now : Nat) :
    ∀ (fuel : Nat) (s : block_store) (task : rollback_task) (s1 : block_store),
      frontier_discipline env s → task_legacy env task →
      ledger.rollback_run env now fuel s task = some s1 → frontier_discipline env s1 := by
  intro fuel
  induction fuel with
  | zero =>
    intro s task s1 _ _ h
    rw [ledger.rollback_run] at h
    cases h
  | succ n ih =>
    intro s task s1 hs ht h
    cases task with
    | rollback block_a =>
      rw [ledger.rollback_run] at h
      cases ha : ledger.account s (n + 1) block_a with
      | none => rw [ha] at h; cases h
      | some account_l =>
        rw [ha] at h
        exact ih s _ s1 hs (by trivial) h
    | loop account_l block_a info =>
      rw [ledger.rollback_run] at h
      split_ifs at h with hex
      · dsimp only at h
        cases hg : s.block_get ((s.account_get account_l).getD info).head with
        | none => rw [hg] at h; cases h
        | some head =>
          rw [hg] at h
          dsimp only at h
          cases hv : ledger.rollback_run env now n s (rollback_task.visit head) with
          | none => rw [hv] at h; cases h
          | some s2 =>
            rw [hv] at h
            dsimp only at h
            have hhead : task_legacy env (rollback_task.visit head) := by
              intro hb
              simp only [block_store.block_get] at hg
              cases hr : s.blocks ((s.account_get account_l).getD info).head with
              | none => rw [hr] at hg; cases hg
              | some r =>
                rw [hr] at hg
                have hc : r.contents = head := Option.some.inj hg
                rw [← hc] at hb ⊢
                exact hs.previous_legacy _ r hr hb
            exact ih s2 _ s1 (ih s _ s2 hs hhead hv) (by trivial) h
      · cases h; exact hs
    | state_wait b representative balance =>
      rw [ledger.rollback_run] at h
      split_ifs at h with hex
      · cases h
        apply state_rewind_discipline
        exact discipline_congr env s _ hs rfl rfl
      · cases hv : ledger.rollback_run env now n s
            (rollback_task.rollback (ledger.latest s b.hashables.link)) with
        | none => rw [hv] at h; cases h
        | some s2 =>
          rw [hv] at h
          dsimp only at h
          exact ih s2 _ s1 (ih s _ s2 hs (by trivial) hv) (by trivial) h
    | visit blk =>
      cases blk with
      | send b =>
        rw [ledger.rollback_run] at h
        cases hp : s.pending_get ⟨b.hashables.destination, env.hash (block.send b)⟩ with
        | some pending =>
          rw [hp] at h
          cases h
          exact send_undo_discipline env now s b pending hs (ht rfl)
        | none =>
          rw [hp] at h
          dsimp only at h
          cases hv : ledger.rollback_run env now n s
              (rollback_task.rollback (ledger.latest s b.hashables.destination)) with
          | none => rw [hv] at h; cases h
          | some s2 =>
            rw [hv] at h
            dsimp only at h
            exact ih s2 _ s1 (ih s _ s2 hs (by trivial) hv) ht h
      | receive b =>
        rw [ledger.rollback_run] at h
        unfold rollback_visitor.receive_block at h
        cases h1 : ledger.account s (n + 1) (env.hash (block.receive b)) with
        | none => rw [h1] at h; cases h
        | some d =>
          cases h2 : ledger.account s (n + 1) b.hashables.source with
          | none => rw [h1, h2] at h; cases h
          | some src =>
            rw [h1, h2] at h
            cases h
            exact receive_undo_discipline env now s b d src hs (ht rfl)
      | opening b =>
        rw [ledger.rollback_run] at h
        unfold rollback_visitor.open_block at h
        cases h1 : ledger.account s (n + 1) (env.hash (block.opening b)) with
        | none => rw [h1] at h; cases h
        | some d =>
          cases h2 : ledger.account s (n + 1) b.hashables.source with
          | none => rw [h1, h2] at h; cases h
          | some src =>
            rw [h1, h2] at h
            cases h
            exact open_undo_discipline env now s b d src hs
      | change b =>
        rw [ledger.rollback_run] at h
        unfold rollback_visitor.change_block at h
        cases h1 : ledger.account s (n + 1) b.hashables.previous with
        | none => rw [h1] at h; cases h
        | some a =>
          rw [h1] at h
          cases h
          exact change_undo_discipline env now s b a hs (ht rfl)
      | state b =>
        rw [ledger.rollback_run] at h
        dsimp only at h
        have hw : frontier_discipline env
            (rollback_visitor.state_block_weights env s b
              (rollback_visitor.state_block_locals env s b).1
              (rollback_visitor.state_block_locals env s b).2) :=
          discipline_congr env s _ hs (state_block_weights_blocks _ _ _ _ _)
            (state_block_weights_frontiers _ _ _ _ _)
        split_ifs at h with hsend hlink
        · exact ih _ _ s1 hw (by trivial) h
        · cases h1 : ledger.account
              (rollback_visitor.state_block_weights env s b
                (rollback_visitor.state_block_locals env s b).1
                (rollback_visitor.state_block_locals env s b).2) (n + 1) b.hashables.link with
          | none => rw [h1] at h; cases h
          | some src =>
            rw [h1] at h
            cases h
            apply state_rewind_discipline
            exact discipline_congr env _ _ hw rfl rfl
        · cases h
          exact state_rewind_discipline env now _ b _ _ hw
      | astate b =>
        rw [ledger.rollback_run] at h
        cases h
        exact hs

/-- Every reachable ledger state keeps the frontier discipline. -/
theorem reachable_discipline (env : ledger_env) (s : block_store) (hr : reachable env s) :
    frontier_discipline env s := by
  induction hr with
  | genesis g supply now => exact genesis_store_discipline env g supply now
  | process s now b _ ih => exact process_discipline env now s b ih
  | rollback s s1 now fuel target _ hrun ih =>
    exact rollback_run_discipline env now fuel s _ s1 ih (by trivial) hrun

/-- C20. In every reachable ledger state (hashes of blocks of different types being
different), for every stored state block with hash h, `process` of a send, receive or change
block whose previous is h returns a code other than progress. -/
theorem no_legacy_block_on_state_block (env : ledger_env)
    (hhash : ∀ b c : block, env.hash b = env.hash c → b.type = c.type)
    (s : block_store) (hr : reachable env s) (h : Nat) (r : stored_block)
    (hst : s.blocks h = some r) (hty : r.contents.type = block_type_state)
    (now : Nat) (b : block) (hb : b.builds_on = true) (hprev : b.previous = h) :
    (ledger.process env now s b).1.code ≠ process_result.progress := by
  intro hacc
  have hd := reachable_discipline env s hr
  obtain ⟨l, hl, hlh⟩ := hd.frontier_legacy _ _ (process_builds_on_frontier env now s b hb hacc).1
  have h1 := hd.hash_stored h r hst
  have h2 := hhash l r.contents (by rw [hlh, hprev, h1])
  rw [h2, hty] at hl
  exact absurd hl (lt_irrefl _)

/-- The toy hash ends in the type code of the block. -/
theorem example_hash_mod (b : block) : example_ledger.hash b % 10 = b.type := by
  cases b <;> simp only [example_ledger.hash, block.type] <;> omega

/-- Blocks with the same toy hash have the same type. -/
theorem example_hash_type (b c : block) (h : env.hash b = env.hash c) : b.type = c.type := by
  have h1 : example_ledger.hash b = example_ledger.hash c := h
  rw [← example_hash_mod b, ← example_hash_mod c, h1]

/-- C20, after S5's state block (hash 1286) at the genesis ledger: a send block on top of
it is refused. -/
theorem no_legacy_block_on_state_block_witness :
    (ledger.process env 5 genesis (block.state state1)).2.block_get 1286
        = some (block.state state1) ∧
      (ledger.process env 6 (ledger.process env 5 genesis (block.state state1)).2
        (block.send ⟨⟨1286, 2, 80⟩, 1⟩)).1.code ≠ process_result.progress :=
  ⟨by decide,
    no_legacy_block_on_state_block env example_hash_type
      (ledger.process env 5 genesis (block.state state1)).2
      (reachable.process _ 5 _ (reachable.genesis genesis_block 100 1))
      1286 ⟨block.state state1, 0⟩ (by decide) (by decide) 6 (block.send ⟨⟨1286, 2, 80⟩, 1⟩)
      rfl rfl⟩

/-! ## Rollback of a send whose pending entry an asset block claimed (C15, C16) -/

/-- More fuel does not change what a returning run of `rollback` returns. -/
theorem rollback_run_mono (env : ledger_env) (now : Nat) :
    ∀ (fuel : Nat) (s : block_store) (task : rollback_task) (s1 : block_store),
      ledger.rollback_run env now fuel s task = some s1 →
      ledger.rollback_run env now (fuel + 1) s task = some s1 := by
  intro fuel
  induction fuel with
  | zero =>
    intro s task s1 h
    rw [ledger.rollback_run] at h
    cases h
  | succ n ih =>
    intro s task s1 h
    cases task with
    | rollback block_a =>
      rw [ledger.rollback_run] at h ⊢
      cases ha : ledger.account s (n + 1) block_a with
      | none => rw [ha] at h; cases h
      | some account_l =>
        rw [ha] at h
        rw [account_mono s _ _ _ ha]
        exact ih s _ s1 h
    | loop account_l block_a info =>
      rw [ledger.rollback_run] at h ⊢
      split_ifs at h ⊢ with hex
      · dsimp only at h ⊢
        cases hg : s.block_get ((s.account_get account_l).getD info).head with
        | none => rw [hg] at h; cases h
        | some head =>
          rw [hg] at h
          dsimp only at h ⊢
          cases hv : ledger.rollback_run env now n s (rollback_task.visit head) with
          | none => rw [hv] at h; cases h
          | some s2 =>
            rw [hv] at h
            rw [ih s _ s2 hv]
            exact ih s2 _ s1 h
      · exact h
    | state_wait b representative balance =>
      rw [ledger.rollback_run] at h ⊢
      split_ifs at h ⊢ with hex
      · exact h
      · cases hv : ledger.rollback_run env now n s
            (rollback_task.rollback (ledger.latest s b.hashables.link)) with
        | none => rw [hv] at h; cases h
        | some s2 =>
          rw [hv] at h
          rw [ih s _ s2 hv]
          exact ih s2 _ s1 h
    | visit blk =>
      cases blk with
      | send b =>
        rw [ledger.rollback_run] at h ⊢
        cases hp : s.pending_get ⟨b.hashables.destination, env.hash (block.send b)⟩ with
        | some pending => rw [hp] at h; exact h
        | none =>
          rw [hp] at h
          dsimp only at h ⊢
          cases hv : ledger.rollback_run env now n s
              (rollback_task.rollback (ledger.latest s b.hashables.destination)) with
          | none => rw [hv] at h; cases h
          | some s2 =>
            rw [hv] at h
            rw [ih s _ s2 hv]
            exact ih s2 _ s1 h
      | receive b =>
        rw [ledger.rollback_run] at h ⊢
        unfold rollback_visitor.receive_block at h ⊢
        cases h1 : ledger.account s (n + 1) (env.hash (block.receive b)) with
        | none => rw [h1] at h; cases h
        | some d =>
          cases h2 : ledger.account s (n + 1) b.hashables.source with
          | none => rw [h1, h2] at h; cases h
          | some src =>
            rw [h1, h2] at h
            rw [account_mono s _ _ _ h1, account_mono s _ _ _ h2]
            exact h
      | opening b =>
        rw [ledger.rollback_run] at h ⊢
        unfold rollback_visitor.open_block at h ⊢
        cases h1 : ledger.account s (n + 1) (env.hash (block.opening b)) with
        | none => rw [h1] at h; cases h
        | some d =>
          cases h2 : ledger.account s (n + 1) b.hashables.source with
          | none => rw [h1, h2] at h; cases h
          | some src =>
            rw [h1, h2] at h
            rw [account_mono s _ _ _ h1, account_mono s _ _ _ h2]
            exact h
      | change b =>
        rw [ledger.rollback_run] at h ⊢
        unfold rollback_visitor.change_block at h ⊢
        cases h1 : ledger.account s (n + 1) b.hashables.previous with
        | none => rw [h1] at h; cases h
        | some a =>
          rw [h1] at h
          rw [account_mono s _ _ _ h1]
          exact h
      | state b =>
        rw [ledger.rollback_run] at h ⊢
        dsimp only at h ⊢
        split_ifs at h ⊢ with hsend hlink
        · exact ih _ _ s1 h
        · cases h1 : ledger.account
              (rollback_visitor.state_block_weights env s b
                (rollback_visitor.state_block_locals env s b).1
                (rollback_visitor.state_block_locals env s b).2) (n + 1) b.hashables.link with
          | none => rw [h1] at h; cases h
          | some src =>
            rw [h1] at h
            rw [account_mono _ _ _ _ h1]
            exact h
        · exact h
      | astate b =>
        rw [ledger.rollback_run] at h ⊢
        exact h

theorem rollback_run_mono_le (env : ledger_env) (now f g : Nat) (s : block_store)
    (task : rollback_task) (s1 : block_store) (hfg : f ≤ g)
    (h : ledger.rollback_run env now f s task = some s1) :
    ledger.rollback_run env now g s task = some s1 := by
  induction hfg with
  | refl => exact h
  | step _ ih => exact rollback_run_mono env now _ s task s1 ih

/-- A returning run returns what a run with a given larger budget returns. -/
theorem rollback_run_unique (env : ledger_env) (now f g : Nat) (s : block_store)
    (task : rollback_task) (s1 s2 : block_store)
    (h1 : ledger.rollback_run env now f s task = some s1)
    (h2 : ledger.rollback_run env now g s task = some s2) : s1 = s2 := by
  have a := rollback_run_mono_le env now f (max f g) s task s1 (le_max_left _ _) h1
  have b := rollback_run_mono_le env now g (max f g) s task s2 (le_max_right _ _) h2
  rw [a] at b
  exact Option.some.inj b

/-- `rollback` of a hash that is not stored does not return: `account`
dereferences the null block. -/
theorem rollback_run_unstored (env : ledger_env) (now fuel : Nat) (s : block_store)
    (block_a : Nat) (h : s.blocks block_a = none) :
    ledger.rollback_run env now fuel s (rollback_task.rollback block_a) = none := by
  cases fuel with
  | zero => rw [ledger.rollback_run]
  | succ n =>
    rw [ledger.rollback_run]
    have : ledger.account s (n + 1) block_a = none := by
      unfold ledger.account
      simp [h]
    rw [this]

/-! ## A pending entry that no undo puts back -/

theorem pending_lost_of_shrink (s s1 : block_store) (key : pending_key)
    (hs : pending_lost s key) (hb : blocks_shrink s.blocks s1.blocks)
    (hp : s1.pending key = none) : pending_lost s1 key := by
  refine ⟨hp, ?_⟩
  intro k r1 hr1
  obtain ⟨r, hr, hc⟩ := hb k r1 hr1
  rw [← hc]
  exact hs.2 k r hr

theorem state_block_rewind_pending_lost (env : ledger_env) (now : Nat) (s : block_store)
    (b : mol.state_block) (representative balance : Nat) (key : pending_key)
    (hs : pending_lost s key) :
    pending_lost (rollback_visitor.state_block_rewind env now s b representative balance) key :=
  pending_lost_of_shrink s _ key hs (state_block_rewind_blocks env now s b _ _)
    (by rw [state_block_rewind_pending]; exact hs.1)

/-- A returning run of `rollback` does not put a lost pending entry back. -/
theorem rollback_run_pending_lost (env : ledger_env) (now : Nat) (key : pending_key) :
    ∀ (fuel : Nat) (s : block_store) (task : rollback_task) (s1 : block_store),
      pending_lost s key → task_claims_not key.hash task →
      ledger.rollback_run env now fuel s task = some s1 → pending_lost s1 key := by
  intro fuel
  induction fuel with
  | zero =>
    intro s task s1 _ _ h
    rw [ledger.rollback_run] at h
    cases h
  | succ n ih =>
    intro s task s1 hs ht h
    cases task with
    | rollback block_a =>
      rw [ledger.rollback_run] at h
      cases ha : ledger.account s (n + 1) block_a with
      | none => rw [ha] at h; cases h
      | some account_l =>
        rw [ha] at h
        exact ih s _ s1 hs (by trivial) h
    | loop account_l block_a info =>
      rw [ledger.rollback_run] at h
      split_ifs at h with hex
      · dsimp only at h
        cases hg : s.block_get ((s.account_get account_l).getD info).head with
        | none => rw [hg] at h; cases h
        | some head =>
          rw [hg] at h
          dsimp only at h
          cases hv : ledger.rollback_run env now n s (rollback_task.visit head) with
          | none => rw [hv] at h; cases h
          | some s2 =>
            rw [hv] at h
            dsimp only at h
            have hhead : task_claims_not key.hash (rollback_task.visit head) := by
              simp only [block_store.block_get] at hg
              cases hr : s.blocks ((s.account_get account_l).getD info).head with
              | none => rw [hr] at hg; cases hg
              | some r =>
                rw [hr] at hg
                have hc : r.contents = head := Option.some.inj hg
                have := hs.2 _ r hr
                rw [hc] at this
                exact this
            exact ih s2 _ s1 (ih s _ s2 hs hhead hv) (by trivial) h
      · cases h; exact hs
    | state_wait b representative balance =>
      rw [ledger.rollback_run] at h
      split_ifs at h with hex
      · cases h
        apply state_block_rewind_pending_lost
        refine pending_lost_of_shrink s _ key hs (blocks_shrink_refl _) ?_
        simp only [block_store.pending_del]
        by_cases hk : key = ⟨b.hashables.link, env.hash (block.state b)⟩
        · rw [hk, Function.update_same]
        · rw [Function.update_noteq hk]; exact hs.1
      · cases hv : ledger.rollback_run env now n s
            (rollback_task.rollback (ledger.latest s b.hashables.link)) with
        | none => rw [hv] at h; cases h
        | some s2 =>
          rw [hv] at h
          dsimp only at h
          exact ih s2 _ s1 (ih s _ s2 hs (by trivial) hv) (by trivial) h
    | visit blk =>
      cases blk with
      | send b =>
        rw [ledger.rollback_run] at h
        cases hp : s.pending_get ⟨b.hashables.destination, env.hash (block.send b)⟩ with
        | some pending =>
          rw [hp] at h
          cases h
          refine pending_lost_of_shrink s _ key hs ?_ ?_
          · rw [rollback_send_blocks]
            exact blocks_shrink_trans (blocks_shrink_delete _ _)
              (blocks_shrink_set_successor _ _ _)
          · rw [rollback_send_pending]
            by_cases hk : key = ⟨b.hashables.destination, env.hash (block.send b)⟩
            · rw [hk, Function.update_same]
            · rw [Function.update_noteq hk]; exact hs.1
        | none =>
          rw [hp] at h
          dsimp only at h
          cases hv : ledger.rollback_run env now n s
              (rollback_task.rollback (ledger.latest s b.hashables.destination)) with
          | none => rw [hv] at h; cases h
          | some s2 =>
            rw [hv] at h
            dsimp only at h
            exact ih s2 _ s1 (ih s _ s2 hs (by trivial) hv) ht h
      | receive b =>
        rw [ledger.rollback_run] at h
        unfold rollback_visitor.receive_block at h
        cases h1 : ledger.account s (n + 1) (env.hash (block.receive b)) with
        | none => rw [h1] at h; cases h
        | some d =>
          cases h2 : ledger.account s (n + 1) b.hashables.source with
          | none => rw [h1, h2] at h; cases h
          | some src =>
            rw [h1, h2] at h
            cases h
            refine pending_lost_of_shrink s _ key hs ?_ ?_
            · rw [rollback_receive_blocks]
              exact blocks_shrink_trans (blocks_shrink_delete _ _)
                (blocks_shrink_set_successor _ _ _)
            · rw [rollback_receive_pending]
              have hk : key ≠ ⟨d, b.hashables.source⟩ := by
                intro hk
                apply ht
                rw [hk]
                rfl
              rw [Function.update_noteq hk]; exact hs.1
      | opening b =>
        rw [ledger.rollback_run] at h
        unfold rollback_visitor.open_block at h
        cases h1 : ledger.account s (n + 1) (env.hash (block.opening b)) with
        | none => rw [h1] at h; cases h
        | some d =>
          cases h2 : ledger.account s (n + 1) b.hashables.source with
          | none => rw [h1, h2] at h; cases h
          | some src =>
            rw [h1, h2] at h
            cases h
            refine pending_lost_of_shrink s _ key hs ?_ ?_
            · rw [rollback_open_blocks]
              exact blocks_shrink_delete _ _
            · rw [rollback_open_pending]
              have hk : key ≠ ⟨d, b.hashables.source⟩ := by
                intro hk
                apply ht
                rw [hk]
                rfl
              rw [Function.update_noteq hk]; exact hs.1
      | change b =>
        rw [ledger.rollback_run] at h
        unfold rollback_visitor.change_block at h
        cases h1 : ledger.account s (n + 1) b.hashables.previous with
        | none => rw [h1] at h; cases h
        | some a =>
          rw [h1] at h
          cases h
          refine pending_lost_of_shrink s _ key hs ?_ ?_
          · rw [rollback_change_blocks]
            exact blocks_shrink_trans (blocks_shrink_delete _ _)
              (blocks_shrink_set_successor _ _ _)
          · rw [rollback_change_pending]; exact hs.1
      | state b =>
        rw [ledger.rollback_run] at h
        dsimp only at h
        have hw : pending_lost
            (rollback_visitor.state_block_weights env s b
              (rollback_visitor.state_block_locals env s b).1
              (rollback_visitor.state_block_locals env s b).2) key :=
          pending_lost_of_shrink s _ key hs
            (by rw [state_block_weights_blocks]; exact blocks_shrink_refl _)
            (by rw [state_block_weights_pending]; exact hs.1)
        split_ifs at h with hsend hlink
        · exact ih _ _ s1 hw (by trivial) h
        · cases h1 : ledger.account
              (rollback_visitor.state_block_weights env s b
                (rollback_visitor.state_block_locals env s b).1
                (rollback_visitor.state_block_locals env s b).2) (n + 1) b.hashables.link with
          | none => rw [h1] at h; cases h
          | some src =>
            rw [h1] at h
            cases h
            apply state_block_rewind_pending_lost
            refine pending_lost_of_shrink _ _ key hw (blocks_shrink_refl _) ?_
            simp only [block_store.pending_put]
            have hk : key ≠ ⟨b.hashables.account, b.hashables.link⟩ := by
              intro hk
              apply ht
              rw [hk]
              rfl
            rw [Function.update_noteq hk]; exact hw.1
        · cases h
          exact state_block_rewind_pending_lost env now _ b _ _ key hw
      | astate b =>
        rw [ledger.rollback_run] at h
        cases h
        exact hs

/-- The visit of a send block whose pending entry is lost does not return,
whatever the fuel: each turn of its loop rolls back the head of the destination
account and finds the entry still absent. -/
theorem visit_send_lost (env : ledger_env) (now : Nat) (b : mol.send_block) :
    ∀ (fuel : Nat) (s : block_store),
      pending_lost s ⟨b.hashables.destination, env.hash (block.send b)⟩ →
      ledger.rollback_run env now fuel s (rollback_task.visit (block.send b)) = none := by
  intro fuel
  induction fuel with
  | zero => intro s _; rw [ledger.rollback_run]
  | succ n ih =>
    intro s hs
    rw [ledger.rollback_run]
    have hp : s.pending_get ⟨b.hashables.destination, env.hash (block.send b)⟩ = none := hs.1
    rw [hp]
    dsimp only
    cases hv : ledger.rollback_run env now n s
        (rollback_task.rollback (ledger.latest s b.hashables.destination)) with
    | none => rfl
    | some s2 =>
      dsimp only
      exact ih s2 (rollback_run_pending_lost env now _ n s _ s2 hs (by trivial) hv)

/-- The visit of an open block whose source is not stored does not return:
`account` of the source dereferences the null block. -/
theorem visit_open_unstored_source (env : ledger_env) (now fuel : Nat) (s : block_store)
    (b : mol.open_block) (h : s.blocks b.hashables.source = none) :
    ledger.rollback_run env now fuel s (rollback_task.visit (block.opening b)) = none := by
  cases fuel with
  | zero => rw [ledger.rollback_run]
  | succ n =>
    rw [ledger.rollback_run]
    unfold rollback_visitor.open_block
    have h2 : ledger.account s (n + 1) b.hashables.source = none := by
      unfold ledger.account
      simp [h]
    rw [h2]
    cases ledger.account s (n + 1) (env.hash (block.opening b)) <;> rfl

/-- `rollback` of the genesis block does not return, whatever the fuel: its
source is no stored block. -/
theorem rollback_genesis_stuck (env : ledger_env) (g : mol.open_block) (supply now0 now : Nat)
    (hsrc : g.hashables.source ≠ env.hash (block.opening g)) (fuel : Nat) :
    ledger.rollback env now fuel (ledger.genesis_store env g supply now0)
      (env.hash (block.opening g)) = none := by
  have hblocks : ∀ k head, (ledger.genesis_store env g supply now0).block_get k = some head →
      head = block.opening g := by
    intro k head hk
    simp only [block_store.block_get, ledger.genesis_store] at hk
    split_ifs at hk
    · simp only [Option.map_some'] at hk
      exact (Option.some.inj hk).symm
    · cases hk
  have hs : (ledger.genesis_store env g supply now0).blocks g.hashables.source = none := by
    simp only [ledger.genesis_store]
    rw [if_neg hsrc]
  unfold ledger.rollback
  cases fuel with
  | zero => rw [ledger.rollback_run]
  | succ n =>
    rw [ledger.rollback_run]
    cases ha : ledger.account (ledger.genesis_store env g supply now0) (n + 1)
        (env.hash (block.opening g)) with
    | none => rfl
    | some a =>
      dsimp only
      cases n with
      | zero => rw [ledger.rollback_run]
      | succ m =>
        rw [ledger.rollback_run]
        split_ifs
        · dsimp only
          cases hg : (ledger.genesis_store env g supply now0).block_get
              (((ledger.genesis_store env g supply now0).account_get a).getD
                account_info.zero).head with
          | none => rfl
          | some head =>
            dsimp only
            rw [hblocks _ _ hg, visit_open_unstored_source env now m _ g hs]
        · rename_i hne
          exfalso
          apply hne
          simp [ledger.genesis_store]

/-- A property of the contents of all stored blocks passes to the store left by
`process` when the processed block has it. -/
theorem process_contents (env : ledger_env) (now : Nat) (s : block_store) (b : block)
    (p : block → Prop) (hs : ∀ k r, s.blocks k = some r → p r.contents) (hb : p b) :
    ∀ k r, (ledger.process env now s b).2.blocks k = some r → p r.contents := by
  intro k r1 hr1
  rcases process_blocks_cases env now s b k r1 hr1 with ⟨-, hc⟩ | ⟨r, hr, hc⟩
  · rw [hc]; exact hb
  · rw [← hc]; exact hs k r hr

/-- The store in which the asset block of account `2` has claimed the pending
entry of `send5` is reachable. -/
theorem after_asset_claim_reachable : reachable env after_asset_claim :=
  reachable.process _ 11 _ (reachable.process _ 10 _ (reachable.process _ 9 _
    (reachable.process _ 8 _ (reachable.process _ 7 _ (reachable.process _ 6 _
      (reachable.process _ 5 _ (reachable.genesis genesis_block 100 1)))))))

/-- No block stored after the asset claim is a receive, open or state block
that claims `send5`. -/
theorem after_asset_claim_contents :
    ∀ k r, after_asset_claim.blocks k = some r → r.contents.claimed_source ≠ some 135762 := by
  have h0 : ∀ k r, genesis.blocks k = some r → r.contents.claimed_source ≠ some 135762 := by
    intro k r hr
    have hr2 : (if k = 34 then some (⟨block.opening genesis_block, 0⟩ : stored_block) else none)
        = some r := hr
    split_ifs at hr2
    cases hr2
    decide
  have h1 := process_contents env 5 genesis (block.send send1)
    (fun c => c.claimed_source ≠ some 135762) h0 (by decide)
  have h2 := process_contents env 6 after_send1 (block.opening open2)
    (fun c => c.claimed_source ≠ some 135762) h1 (by decide)
  have h3 := process_contents env 7 after_open2 (block.send send3)
    (fun c => c.claimed_source ≠ some 135762) h2 (by decide)
  have h4 := process_contents env 8 after_send3 (block.receive receive4)
    (fun c => c.claimed_source ≠ some 135762) h3 (by decide)
  have h5 := process_contents env 9 after_receive4 (block.send send5)
    (fun c => c.claimed_source ≠ some 135762) h4 (by decide)
  have h6 := process_contents env 10 after_send5 (block.astate asset_mint)
    (fun c => c.claimed_source ≠ some 135762) h5 (by decide)
  exact process_contents env 11 after_asset_mint (block.astate asset_claim)
    (fun c => c.claimed_source ≠ some 135762) h6 (by decide)

/-- The pending entry of `send5` is lost after the asset claim. -/
theorem after_asset_claim_lost : pending_lost after_asset_claim ⟨2, 135762⟩ :=
  ⟨by decide, after_asset_claim_contents⟩

/-- `rollback` of a hash whose account `account` finds to be `1`, in the store
after the asset claim: the loop visits the head `send5` of account `1`, and
that visit does not return. -/
theorem rollback_after_asset_claim_stuck (target : Nat)
    (hex : after_asset_claim.block_exists target = true)
    (hacct : ∃ f, ledger.account after_asset_claim f target = some 1) (fuel : Nat) :
    ledger.rollback env 12 fuel after_asset_claim target = none := by
  obtain ⟨f, hf⟩ := hacct
  unfold ledger.rollback
  cases fuel with
  | zero => rw [ledger.rollback_run]
  | succ n =>
    rw [ledger.rollback_run]
    cases ha : ledger.account after_asset_claim (n + 1) target with
    | none => rfl
    | some a =>
      have h1 := account_mono_le _ _ (max (n + 1) f) _ _ (le_max_left _ _) ha
      have h2 := account_mono_le _ _ (max (n + 1) f) _ _ (le_max_right _ _) hf
      rw [h1] at h2
      cases h2
      dsimp only
      cases n with
      | zero => rw [ledger.rollback_run]
      | succ m =>
        rw [ledger.rollback_run, if_pos hex]
        have hg : after_asset_claim.block_get
            ((after_asset_claim.account_get 1).getD account_info.zero).head
              = some (block.send send5) := by decide
        dsimp only
        rw [hg]
        dsimp only
        rw [visit_send_lost env 12 send5 m after_asset_claim after_asset_claim_lost]

/-- C16 fails on this input. The store is reachable: genesis, `send1`, `open2`, `send3`,
`receive4`, `send5`, then the asset blocks `asset_mint` and `asset_claim`, the second of
which is accepted and deletes the pending entry (2, 135762) of `send5`. `rollback` of the
stored send block 135762, the head of account `1`, returns with no amount of fuel: the
visit of `send5` rolls back the chain of account `2` and never finds the entry again. -/
theorem rollback_send5_never_returns :
    reachable env after_asset_claim ∧
      [(ledger.process env 5 genesis (block.send send1)).1.code,
        (ledger.process env 6 after_send1 (block.opening open2)).1.code,
        (ledger.process env 7 after_open2 (block.send send3)).1.code,
        (ledger.process env 8 after_send3 (block.receive receive4)).1.code,
        (ledger.process env 9 after_receive4 (block.send send5)).1.code,
        (ledger.process env 10 after_send5 (block.astate asset_mint)).1.code,
        (ledger.process env 11 after_asset_mint (block.astate asset_claim)).1.code]
        = List.replicate 7 process_result.progress ∧
      after_asset_claim.block_get 135762 = some (block.send send5) ∧
      after_asset_mint.pending_get ⟨2, 135762⟩ = some ⟨1, 3⟩ ∧
      after_asset_claim.pending_get ⟨2, 135762⟩ = none ∧
      ∀ fuel, ledger.rollback env 12 fuel after_asset_claim 135762 = none :=
  ⟨after_asset_claim_reachable, by decide, by decide, by decide, by decide,
    rollback_after_asset_claim_stuck 135762 (by decide) ⟨2, by decide⟩⟩

/-- C15 fails on this input. In the same reachable store, `rollback` of the stored send
block 13492 of account `1`, which `send5` (the head, 135762) follows, never returns a store:
there is no state after the rollback in which 13492 and 135762 are gone and the head of
account `1` is 1262. -/
theorem rollback_send3_never_returns :
    reachable env after_asset_claim ∧
      after_asset_claim.block_get 13492 = some (block.send send3) ∧
      send5.hashables.previous = 13492 ∧
      ledger.latest after_asset_claim 1 = 135762 ∧
      ∀ fuel s1, ledger.rollback env 12 fuel after_asset_claim 13492 ≠ some s1 :=
  ⟨after_asset_claim_reachable, by decide, rfl, by decide, fun fuel s1 h => by
    rw [rollback_after_asset_claim_stuck 13492 (by decide) ⟨3, by decide⟩ fuel] at h
    cases h⟩

/-! ## Vote weights (C28, C29) -/

theorem weight_value (l : ledger_weights) (s : block_store) (n a : Nat) :
    (ledger.weight l s n a).1 =
      if l.check_bootstrap_weights = true ∧ n < l.bootstrap_weight_max_blocks ∧
          (l.bootstrap_weights a).isSome = true
      then (l.bootstrap_weights a).getD 0 else s.representation_get a := by
  unfold ledger.weight
  cases hc : l.check_bootstrap_weights
  · simp
  · by_cases hn : n < l.bootstrap_weight_max_blocks
    · cases hw : l.bootstrap_weights a <;> simp [hn, hw]
    · simp [hn]

theorem weight_members (l : ledger_weights) (s : block_store) (n a : Nat) :
    (ledger.weight l s n a).2 =
      { l with check_bootstrap_weights :=
          l.check_bootstrap_weights && decide (n < l.bootstrap_weight_max_blocks) } := by
  unfold ledger.weight
  cases hc : l.check_bootstrap_weights
  · cases l; simp_all
  · by_cases hn : n < l.bootstrap_weight_max_blocks
    · cases hw : l.bootstrap_weights a <;> cases l <;> simp_all
    · cases l
      have hn2 : ¬ n < _ := hn
      simp_all [if_neg hn2, Nat.not_lt.mpr (Nat.not_lt.mp hn2)]

/-- C28. `weight` returns the snapshot value exactly when the flag is set, the
block count is below the threshold and the account has a snapshot entry, and
`representation_get` of the account in every other case; a call made while the
flag is set and the count is at or above the threshold clears the flag, and
from then on every call returns `representation_get` and leaves the flag clear. -/
theorem weight_snapshot_or_representation (l : ledger_weights) (s : block_store) (n a : Nat) :
    (ledger.weight l s n a).1 =
        (if l.check_bootstrap_weights = true ∧ n < l.bootstrap_weight_max_blocks ∧
            (l.bootstrap_weights a).isSome = true
         then (l.bootstrap_weights a).getD 0 else s.representation_get a) ∧
      (l.check_bootstrap_weights = true → l.bootstrap_weight_max_blocks ≤ n →
        (ledger.weight l s n a).2.check_bootstrap_weights = false ∧
        ∀ (s1 : block_store) (n1 a1 : Nat),
          ledger.weight (ledger.weight l s n a).2 s1 n1 a1 =
            (s1.representation_get a1, (ledger.weight l s n a).2)) := by
  refine ⟨weight_value l s n a, fun hc hn => ?_⟩
  have hl : (ledger.weight l s n a).2.check_bootstrap_weights = false := by
    rw [weight_members]; simp [hc, Nat.not_lt.mpr hn]
  refine ⟨hl, fun s1 n1 a1 => ?_⟩
  generalize (ledger.weight l s n a).2 = l1 at hl
  unfold ledger.weight
  simp [hl]

/-- C28 at a ledger with a snapshot entry of 500 for account 1 and threshold 10:
at 12 blocks the call clears the flag and reads the representation table. -/
theorem weight_snapshot_or_representation_witness :
    (ledger.weight ⟨true, 10, fun a => if a = 1 then some 500 else none⟩ genesis 12 1).2.check_bootstrap_weights
        = false ∧
      ∀ (s1 : block_store) (n1 a1 : Nat),
        ledger.weight (ledger.weight ⟨true, 10, fun a => if a = 1 then some 500 else none⟩ genesis 12 1).2
            s1 n1 a1 =
          (s1.representation_get a1,
            (ledger.weight ⟨true, 10, fun a => if a = 1 then some 500 else none⟩ genesis 12 1).2) :=
  (weight_snapshot_or_representation ⟨true, 10, fun a => if a = 1 then some 500 else none⟩ genesis 12 1).2
    rfl (by decide)

theorem weight_value_thread (l : ledger_weights) (s : block_store) (n a b : Nat) :
    (ledger.weight (ledger.weight l s n b).2 s n a).1 = (ledger.weight l s n a).1 := by
  unfold ledger.weight
  cases hc : l.check_bootstrap_weights
  · simp [hc]
  · by_cases hn : n < l.bootstrap_weight_max_blocks
    · cases hw : l.bootstrap_weights b <;> simp [hn, hc]
    · simp [hn]

theorem tally_totals_fold (s : block_store) (n : Nat) (votes : List (Nat × block)) :
    ∀ (l l0 : ledger_weights) (totals : List (block × Nat)),
      (∀ a, (ledger.weight l s n a).1 = (ledger.weight l0 s n a).1) →
      (ledger.tally_totals s n l votes totals).1 =
        votes.foldl (fun t v => ledger.totals_add t v.2 (ledger.weight l0 s n v.1).1) totals := by
  induction votes with
  | nil => intro l l0 totals _; rfl
  | cons v votes ih =>
    intro l l0 totals h
    obtain ⟨rep, b⟩ := v
    rw [ledger.tally_totals, List.foldl_cons]
    dsimp only
    rw [ih (ledger.weight l s n rep).2 l0 _ (fun a => by rw [weight_value_thread, h]), h]

theorem lookup_cons_if (b k : block) (t : Nat) (rest : List (block × Nat)) :
    List.lookup b ((k, t) :: rest) = if b = k then some t else List.lookup b rest := by
  by_cases h : b = k
  · subst h; simp [List.lookup]
  · have hb : (b == k) = false := by simpa using h
    simp [List.lookup, hb, h]

theorem totals_add_lookup (b c : block) (w : Nat) :
    ∀ totals : List (block × Nat),
      (ledger.totals_add totals c w).lookup b =
        if b = c then some (((totals.lookup c).getD 0 + w) % 2 ^ 128) else totals.lookup b := by
  intro totals
  induction totals with
  | nil =>
    rw [ledger.totals_add, lookup_cons_if]
    simp [List.lookup]
  | cons x rest ih =>
    obtain ⟨k, t⟩ := x
    by_cases hk : k = c
    · subst hk
      rw [ledger.totals_add, if_pos rfl, lookup_cons_if, lookup_cons_if, lookup_cons_if, if_pos rfl]
      by_cases h : b = k
      · simp [h]
      · simp [h]
    · have hck : ¬ c = k := fun e => hk e.symm
      rw [ledger.totals_add, if_neg hk]
      simp only [lookup_cons_if, ih, if_neg hck]
      by_cases h : b = c
      · have hb : ¬ b = k := fun e => hk (e.symm.trans h)
        simp [h, hb, hck]
      · by_cases hb : b = k
        · subst hb; simp [hk]
        · simp [h, hb]

theorem totals_add_keys (c : block) (w : Nat) :
    ∀ totals : List (block × Nat), (totals.map Prod.fst).Nodup →
      ((ledger.totals_add totals c w).map Prod.fst).Nodup ∧
        ∀ k, k ∈ (ledger.totals_add totals c w).map Prod.fst ↔ k = c ∨ k ∈ totals.map Prod.fst := by
  intro totals
  induction totals with
  | nil => intro _; simp [ledger.totals_add]
  | cons x rest ih =>
    intro hnd
    obtain ⟨k, t⟩ := x
    rw [List.map_cons, List.nodup_cons] at hnd
    by_cases hk : k = c
    · subst hk
      simp only [ledger.totals_add, if_true, List.map_cons, List.nodup_cons]
      refine ⟨⟨hnd.1, hnd.2⟩, fun j => ?_⟩
      simp
    · obtain ⟨ih1, ih2⟩ := ih hnd.2
      simp only [ledger.totals_add, if_neg hk, List.map_cons, List.nodup_cons]
      refine ⟨⟨?_, ih1⟩, fun j => ?_⟩
      · rw [ih2]
        rintro (h | h)
        · exact hk h
        · exact hnd.1 h
      · rw [List.mem_cons, ih2, List.mem_cons]
        tauto

theorem lookup_of_mem :
    ∀ (totals : List (block × Nat)), (totals.map Prod.fst).Nodup →
      ∀ b t, (b, t) ∈ totals ↔ totals.lookup b = some t := by
  intro totals
  induction totals with
  | nil => intro _ b t; simp [List.lookup]
  | cons x rest ih =>
    intro hnd b t
    obtain ⟨k, u⟩ := x
    rw [List.map_cons, List.nodup_cons] at hnd
    by_cases hb : b = k
    · subst hb
      simp only [List.mem_cons, Prod.mk.injEq, true_and, List.lookup, beq_self_eq_true]
      constructor
      · rintro (h | h)
        · rw [h]
        · exact absurd (List.mem_map_of_mem Prod.fst h) hnd.1
      · intro h
        left
        exact (Option.some.inj h).symm
    · have hbk : (b == k) = false := by simpa using hb
      simp only [List.mem_cons, Prod.mk.injEq, hb, false_and, false_or, List.lookup, hbk]
      exact ih hnd.2 b t

theorem totals_fold_keys (W : Nat → Nat) (votes : List (Nat × block)) :
    ∀ totals : List (block × Nat), (totals.map Prod.fst).Nodup →
      ((votes.foldl (fun t v => ledger.totals_add t v.2 (W v.1)) totals).map Prod.fst).Nodup := by
  induction votes with
  | nil => intro totals h; exact h
  | cons v votes ih =>
    intro totals h
    rw [List.foldl_cons]
    exact ih _ (totals_add_keys v.2 (W v.1) totals h).1

theorem totals_fold_lookup (W : Nat → Nat) (b : block) (votes : List (Nat × block)) :
    ∀ totals : List (block × Nat), (∀ t, totals.lookup b = some t → t < 2 ^ 128) →
      (votes.foldl (fun t v => ledger.totals_add t v.2 (W v.1)) totals).lookup b =
        if (totals.lookup b).isSome = true ∨ ∃ v ∈ votes, v.2 = b then
          some (((totals.lookup b).getD 0 + spec_vote_total W votes b) % 2 ^ 128)
        else none := by
  induction votes with
  | nil =>
    intro totals hlt
    have hz : spec_vote_total W [] b = 0 := by simp [spec_vote_total]
    rw [List.foldl_nil, hz]
    cases h : totals.lookup b with
    | none => simp
    | some t => simp [Nat.mod_eq_of_lt (hlt t h)]; exact (Nat.mod_eq_of_lt (hlt t h)).symm
  | cons v votes ih =>
    intro totals hlt
    rw [List.foldl_cons, ih]
    · rw [totals_add_lookup]
      by_cases hv : b = v.2
      · subst hv
        simp [spec_vote_total, List.filter_cons]
        omega
      · have hv2 : ¬ v.2 = b := fun e => hv e.symm
        have hex : (∃ v_1 ∈ v :: votes, v_1.2 = b) ↔ ∃ v_1 ∈ votes, v_1.2 = b := by
          simp [hv2]
        have hsum : spec_vote_total W (v :: votes) b = spec_vote_total W votes b := by
          simp [spec_vote_total, List.filter_cons, hv2]
        rw [if_neg hv, hsum]
        simp only [hex]
    · intro t
      rw [totals_add_lookup]
      by_cases hv : b = v.2
      · rw [if_pos hv]
        intro h
        rw [← Option.some.inj h]
        exact Nat.mod_lt _ (by positivity)
      · rw [if_neg hv]
        exact hlt t

theorem result_put_mem (total : Nat) (b : block) :
    ∀ (result : List (Nat × block)) (x : Nat × block),
      x ∈ ledger.result_put result total b → x = (total, b) ∨ x ∈ result := by
  intro result
  induction result with
  | nil => intro x h; simpa [ledger.result_put] using h
  | cons y rest ih =>
    intro x h
    obtain ⟨t, c⟩ := y
    unfold ledger.result_put at h
    split_ifs at h with h1 h2
    · rcases List.mem_cons.mp h with h | h
      · exact Or.inl h
      · exact Or.inr h
    · rcases List.mem_cons.mp h with h | h
      · exact Or.inl h
      · exact Or.inr (List.mem_cons_of_mem _ h)
    · rcases List.mem_cons.mp h with h | h
      · exact Or.inr (h ▸ List.mem_cons_self _ _)
      · rcases ih x h with h | h
        · exact Or.inl h
        · exact Or.inr (List.mem_cons_of_mem _ h)

theorem result_put_keys (total : Nat) (b : block) :
    ∀ (result : List (Nat × block)) (k : Nat),
      k ∈ (ledger.result_put result total b).map Prod.fst ↔ k = total ∨ k ∈ result.map Prod.fst := by
  intro result
  induction result with
  | nil => intro k; simp [ledger.result_put]
  | cons y rest ih =>
    intro k
    obtain ⟨t, c⟩ := y
    unfold ledger.result_put
    split_ifs with h1 h2
    · simp
    · subst h2; simp
    · simp only [List.map_cons, List.mem_cons, ih]
      tauto

theorem result_put_sorted (total : Nat) (b : block) :
    ∀ (result : List (Nat × block)), result.Pairwise (fun x y => y.1 < x.1) →
      (ledger.result_put result total b).Pairwise (fun x y => y.1 < x.1) := by
  intro result
  induction result with
  | nil => intro _; simp [ledger.result_put]
  | cons y rest ih =>
    intro h
    obtain ⟨t, c⟩ := y
    rw [List.pairwise_cons] at h
    unfold ledger.result_put
    split_ifs with h1 h2
    · rw [List.pairwise_cons]
      refine ⟨fun x hx => ?_, List.pairwise_cons.mpr h⟩
      rcases List.mem_cons.mp hx with hx | hx
      · rw [hx]; exact h1
      · exact lt_trans (h.1 x hx) h1
    · subst h2
      rw [List.pairwise_cons]
      exact ⟨h.1, h.2⟩
    · rw [List.pairwise_cons]
      refine ⟨fun x hx => ?_, ih h.2⟩
      rcases result_put_mem total b rest x hx with hx | hx
      · rw [hx]
        show total < t
        omega
      · exact h.1 x hx

theorem result_fold (entries : List (block × Nat)) :
    ∀ (result : List (Nat × block)), result.Pairwise (fun x y => y.1 < x.1) →
      (entries.foldl (fun r i => ledger.result_put r i.2 i.1) result).Pairwise
          (fun x y => y.1 < x.1) ∧
        (∀ x, x ∈ entries.foldl (fun r i => ledger.result_put r i.2 i.1) result →
          x ∈ result ∨ (x.2, x.1) ∈ entries) ∧
        (∀ k, k ∈ (entries.foldl (fun r i => ledger.result_put r i.2 i.1) result).map Prod.fst ↔
          k ∈ result.map Prod.fst ∨ ∃ i ∈ entries, i.2 = k) := by
  induction entries with
  | nil => intro result h; simp [h]
  | cons e entries ih =>
    intro result h
    rw [List.foldl_cons]
    obtain ⟨h1, h2, h3⟩ := ih _ (result_put_sorted e.2 e.1 result h)
    refine ⟨h1, fun x hx => ?_, fun k => ?_⟩
    · rcases h2 x hx with hx | hx
      · rcases result_put_mem e.2 e.1 result x hx with hx | hx
        · right; rw [hx]; exact List.mem_cons_self _ _
        · exact Or.inl hx
      · exact Or.inr (List.mem_cons_of_mem _ hx)
    · rw [h3, result_put_keys]
      simp only [List.mem_cons, exists_eq_or_imp]
      constructor
      · rintro ((h | h) | h)
        · exact Or.inr (Or.inl h.symm)
        · exact Or.inl h
        · exact Or.inr (Or.inr h)
      · rintro (h | h | h)
        · exact Or.inl (Or.inr h)
        · exact Or.inl (Or.inl h.symm)
        · exact Or.inr h

/-- What `tally` holds: the keys decrease strictly, every entry is a voted block
under its 128-bit total, and every voted block's total is a key. -/
theorem tally_entries (l : ledger_weights) (s : block_store) (n : Nat)
    (order : List (block × Nat) → List (block × Nat)) (votes : List (Nat × block))
    (horder : ∀ t, (order t).Perm t) :
    (ledger.tally l s n order votes).1.Pairwise (fun x y => y.1 < x.1) ∧
      (∀ x, x ∈ (ledger.tally l s n order votes).1 →
        (∃ v ∈ votes, v.2 = x.2) ∧
          x.1 = spec_vote_total (fun a => (ledger.weight l s n a).1) votes x.2 % 2 ^ 128) ∧
      (∀ v, v ∈ votes → ∃ x ∈ (ledger.tally l s n order votes).1,
          x.1 = spec_vote_total (fun a => (ledger.weight l s n a).1) votes v.2 % 2 ^ 128) := by
  have hfold := tally_totals_fold s n votes l l [] (fun _ => rfl)
  have hnd := totals_fold_keys (fun a => (ledger.weight l s n a).1) votes [] (by simp)
  have hlook := fun b => totals_fold_lookup (fun a => (ledger.weight l s n a).1) b votes []
    (by simp [List.lookup])
  simp only [List.lookup, Option.isSome_none, Bool.false_eq_true, false_or, Option.getD_none,
    Nat.zero_add] at hlook
  obtain ⟨h1, h2, h3⟩ := result_fold (order (ledger.tally_totals s n l votes []).1) [] (by simp)
  have hmem : ∀ b t, (b, t) ∈ order (ledger.tally_totals s n l votes []).1 ↔
      (∃ v ∈ votes, v.2 = b) ∧
        t = spec_vote_total (fun a => (ledger.weight l s n a).1) votes b % 2 ^ 128 := by
    intro b t
    rw [(horder _).mem_iff, hfold, lookup_of_mem _ hnd, hlook]
    by_cases hv : ∃ v ∈ votes, v.2 = b
    · rw [if_pos hv]
      simp only [Option.some.injEq, hv, true_and]
      exact eq_comm
    · rw [if_neg hv]
      simp [hv]
  refine ⟨h1, fun x hx => ?_, fun v hv => ?_⟩
  · rcases h2 x hx with h | h
    · cases h
    · exact (hmem x.2 x.1).mp h
  · have hk := (h3 (spec_vote_total (fun a => (ledger.weight l s n a).1) votes v.2 % 2 ^ 128)).mpr
      (Or.inr ⟨(v.2, _), (hmem v.2 _).mpr ⟨⟨v, hv, rfl⟩, rfl⟩, rfl⟩)
    obtain ⟨x, hx, hxk⟩ := List.mem_map.mp hk
    exact ⟨x, hx, hxk⟩

theorem spec_vote_total_le (W : Nat → Nat) (votes : List (Nat × block)) (b : block) :
    spec_vote_total W votes b ≤ (votes.map (fun v => W v.1)).sum := by
  unfold spec_vote_total
  induction votes with
  | nil => simp
  | cons v votes ih =>
    by_cases hv : v.2 = b
    · simp [List.filter_cons, hv]
      simpa using ih
    · simp [List.filter_cons, hv]
      have := ih
      simp at this
      omega

/-- C29. For a non-empty vote set `winner` returns a pair `(w, b)` in which `b`
is a voted block, `w` is the 128-bit total of `b` (the sum of `weight` over the
representatives voting for it, modulo 2^128) and no voted block has a greater
128-bit total; `tally` holds its entries in strictly decreasing order of weight,
each entry a voted block under its 128-bit total, and every voted block's total
is the key of an entry. When the weights of all votes together stay below 2^128
the totals are the plain sums. -/
theorem winner_has_greatest_total (l : ledger_weights) (s : block_store) (n : Nat)
    (order : List (block × Nat) → List (block × Nat)) (votes : List (Nat × block))
    (horder : ∀ t, (order t).Perm t) (hvotes : votes ≠ []) :
    ∃ w b, ledger.winner l s n order votes = some (w, b) ∧
      (∃ v ∈ votes, v.2 = b) ∧
      w = spec_vote_total (fun a => (ledger.weight l s n a).1) votes b % 2 ^ 128 ∧
      (∀ v ∈ votes,
        spec_vote_total (fun a => (ledger.weight l s n a).1) votes v.2 % 2 ^ 128 ≤ w) ∧
      (ledger.tally l s n order votes).1.Pairwise (fun x y => y.1 < x.1) ∧
      (∀ x ∈ (ledger.tally l s n order votes).1,
        (∃ v ∈ votes, v.2 = x.2) ∧
          x.1 = spec_vote_total (fun a => (ledger.weight l s n a).1) votes x.2 % 2 ^ 128) ∧
      (∀ v ∈ votes, ∃ x ∈ (ledger.tally l s n order votes).1,
        x.1 = spec_vote_total (fun a => (ledger.weight l s n a).1) votes v.2 % 2 ^ 128) ∧
      ((votes.map (fun v => (ledger.weight l s n v.1).1)).sum < 2 ^ 128 →
        w = spec_vote_total (fun a => (ledger.weight l s n a).1) votes b ∧
        ∀ v ∈ votes, spec_vote_total (fun a => (ledger.weight l s n a).1) votes v.2 ≤ w) := by
  obtain ⟨h1, h2, h3⟩ := tally_entries l s n order votes horder
  unfold ledger.winner
  cases ht : (ledger.tally l s n order votes).1 with
  | nil =>
    obtain ⟨v, votes1⟩ := List.exists_cons_of_ne_nil hvotes
    obtain ⟨votes1, hv⟩ := votes1
    obtain ⟨x, hx, _⟩ := h3 v (by rw [hv]; exact List.mem_cons_self _ _)
    rw [ht] at hx
    cases hx
  | cons x0 rest =>
    rw [ht] at h1 h2 h3
    obtain ⟨w, b⟩ := x0
    have hmax : ∀ x ∈ (w, b) :: rest, x.1 ≤ w := by
      intro x hx
      rcases List.mem_cons.mp hx with hx | hx
      · rw [hx]
      · exact Nat.le_of_lt ((List.pairwise_cons.mp h1).1 x hx)
    have hle : ∀ v ∈ votes,
        spec_vote_total (fun a => (ledger.weight l s n a).1) votes v.2 % 2 ^ 128 ≤ w := by
      intro v hv
      obtain ⟨x, hx, hxe⟩ := h3 v hv
      rw [← hxe]
      exact hmax x hx
    have hb := h2 (w, b) (List.mem_cons_self _ _)
    refine ⟨w, b, rfl, hb.1, hb.2, hle, h1, h2, h3, fun hfit => ?_⟩
    have hsmall : ∀ c, spec_vote_total (fun a => (ledger.weight l s n a).1) votes c % 2 ^ 128 =
        spec_vote_total (fun a => (ledger.weight l s n a).1) votes c := fun c =>
      Nat.mod_eq_of_lt (lt_of_le_of_lt (spec_vote_total_le _ votes c) hfit)
    refine ⟨by rw [← hsmall]; exact hb.2, fun v hv => ?_⟩
    rw [← hsmall]
    exact hle v hv

/-- C29 on the concrete ledger: of two votes, the genesis representative
(weight 100) decides the winner. -/
theorem winner_has_greatest_total_witness :
    ∃ w b, ledger.winner ⟨false, 0, fun _ => none⟩ genesis 1 id
        [(34, block.send send1), (2, block.send send3)] = some (w, b) ∧
      w = spec_vote_total (fun a => (ledger.weight ⟨false, 0, fun _ => none⟩ genesis 1 a).1)
        [(34, block.send send1), (2, block.send send3)] b := by
  obtain ⟨w, b, h1, _, _, _, _, _, _, h8⟩ :=
    winner_has_greatest_total ⟨false, 0, fun _ => none⟩ genesis 1 id
      [(34, block.send send1), (2, block.send send3)] (fun t => List.Perm.refl t) (by simp)
  exact ⟨w, b, h1, (h8 (by decide)).1⟩

/-- C29 fails for plain sums: two representatives of weight 2^127 vote for
`send1`, one of weight 1 votes for `send3`; the total of `send1` wraps to zero
and `winner` returns `send3` with weight 1, although the votes for `send1` sum
to 2^128. -/
theorem winner_total_wraps :
    ledger.winner ⟨false, 0, fun _ => none⟩
        { genesis with
          representation := fun a => if a = 5 then 2 ^ 127 else if a = 6 then 2 ^ 127
            else if a = 7 then 1 else 0 } 1 id
        [(5, block.send send1), (6, block.send send1), (7, block.send send3)] =
        some (1, block.send send3) ∧
      spec_vote_total (fun a => (ledger.weight ⟨false, 0, fun _ => none⟩
        { genesis with
          representation := fun a => if a = 5 then 2 ^ 127 else if a = 6 then 2 ^ 127
            else if a = 7 then 1 else 0 } 1 a).1)
        [(5, block.send send1), (6, block.send send1), (7, block.send send3)]
        (block.send send1) = 2 ^ 128 := by
  constructor <;> decide

/-! ## A returning rollback run as a sequence of undo steps -/

/-- A property of the store that every undo step of the rollback visitor keeps
holds after every returning run of `rollback`. -/
theorem rollback_run_preserves (env : ledger_env) (now : Nat) (P : block_store → Prop)
    (hsend : ∀ s b pending, P s → P (rollback_visitor.send_block env now s b pending))
    (hreceive : ∀ s b d a, P s → P (rollback_visitor.receive_block_undo env now s b d a))
    (hopen : ∀ s b d a, P s → P (rollback_visitor.open_block_undo env now s b d a))
    (hchange : ∀ s b a, P s → P (rollback_visitor.change_block_undo env now s b a))
    (hweights : ∀ s b r bal, P s → P (rollback_visitor.state_block_weights env s b r bal))
    (hput : ∀ (s : block_store) k v, P s → P (s.pending_put k v))
    (hdel : ∀ (s : block_store) k, P s → P (s.pending_del k))
    (hrewind : ∀ s b r bal, P s → P (rollback_visitor.state_block_rewind env now s b r bal)) :
    ∀ (fuel : Nat) (s : block_store) (task : rollback_task) (s1 : block_store),
      ledger.rollback_run env now fuel s task = some s1 → P s → P s1 := by
  intro fuel
  induction fuel with
  | zero =>
    intro s task s1 h _
    rw [ledger.rollback_run] at h
    cases h
  | succ n ih =>
    intro s task s1 h hs
    cases task with
    | rollback block_a =>
      rw [ledger.rollback_run] at h
      cases ha : ledger.account s (n + 1) block_a with
      | none => rw [ha] at h; cases h
      | some account_l =>
        rw [ha] at h
        exact ih s _ s1 h hs
    | loop account_l block_a info =>
      rw [ledger.rollback_run] at h
      split_ifs at h with hex
      · dsimp only at h
        cases hg : s.block_get ((s.account_get account_l).getD info).head with
        | none => rw [hg] at h; cases h
        | some head =>
          rw [hg] at h
          dsimp only at h
          cases hv : ledger.rollback_run env now n s (rollback_task.visit head) with
          | none => rw [hv] at h; cases h
          | some s2 =>
            rw [hv] at h
            dsimp only at h
            exact ih s2 _ s1 h (ih s _ s2 hv hs)
      · cases h; exact hs
    | state_wait b representative balance =>
      rw [ledger.rollback_run] at h
      split_ifs at h with hex
      · cases h
        exact hrewind _ _ _ _ (hdel _ _ hs)
      · cases hv : ledger.rollback_run env now n s
            (rollback_task.rollback (ledger.latest s b.hashables.link)) with
        | none => rw [hv] at h; cases h
        | some s2 =>
          rw [hv] at h
          dsimp only at h
          exact ih s2 _ s1 h (ih s _ s2 hv hs)
    | visit blk =>
      cases blk with
      | send b =>
        rw [ledger.rollback_run] at h
        cases hp : s.pending_get ⟨b.hashables.destination, env.hash (block.send b)⟩ with
        | some pending =>
          rw [hp] at h
          cases h
          exact hsend _ _ _ hs
        | none =>
          rw [hp] at h
          dsimp only at h
          cases hv : ledger.rollback_run env now n s
              (rollback_task.rollback (ledger.latest s b.hashables.destination)) with
          | none => rw [hv] at h; cases h
          | some s2 =>
            rw [hv] at h
            dsimp only at h
            exact ih s2 _ s1 h (ih s _ s2 hv hs)
      | receive b =>
        rw [ledger.rollback_run, rollback_visitor.receive_block] at h
        cases h1 : ledger.account s (n + 1) (env.hash (block.receive b)) with
        | none => rw [h1] at h; cases h
        | some d =>
          cases h2 : ledger.account s (n + 1) b.hashables.source with
          | none => rw [h1, h2] at h; cases h
          | some a =>
            rw [h1, h2] at h
            cases h
            exact hreceive _ _ _ _ hs
      | opening b =>
        rw [ledger.rollback_run, rollback_visitor.open_block] at h
        cases h1 : ledger.account s (n + 1) (env.hash (block.opening b)) with
        | none => rw [h1] at h; cases h
        | some d =>
          cases h2 : ledger.account s (n + 1) b.hashables.source with
          | none => rw [h1, h2] at h; cases h
          | some a =>
            rw [h1, h2] at h
            cases h
            exact hopen _ _ _ _ hs
      | change b =>
        rw [ledger.rollback_run, rollback_visitor.change_block] at h
        cases h1 : ledger.account s (n + 1) b.hashables.previous with
        | none => rw [h1] at h; cases h
        | some a =>
          rw [h1] at h
          cases h
          exact hchange _ _ _ hs
      | state b =>
        rw [ledger.rollback_run] at h
        dsimp only at h
        split_ifs at h with hlt hlink
        · exact ih _ _ s1 h (hweights _ _ _ _ hs)
        · cases h1 : ledger.account (rollback_visitor.state_block_weights env s b
              (rollback_visitor.state_block_locals env s b).1
              (rollback_visitor.state_block_locals env s b).2) (n + 1) b.hashables.link with
          | none => rw [h1] at h; cases h
          | some a =>
            rw [h1] at h
            cases h
            exact hrewind _ _ _ _ (hput _ _ _ (hweights _ _ _ _ hs))
        · cases h
          exact hrewind _ _ _ _ (hweights _ _ _ _ hs)
      | astate b =>
        rw [ledger.rollback_run] at h
        cases h
        exact hs

/-! ## The checksum identity under `change_latest` -/

/-- Accounts table after `change_latest`, for any hash. -/
theorem change_latest_accounts_any (env : ledger_env) (now : Nat) (s : block_store)
    (a h r bal c : Nat) (st : Bool) :
    (ledger.change_latest env now s a h r bal c st).accounts =
      Function.update s.accounts a
        (if h = 0 then none
         else some ⟨h, r, ((s.accounts a).map account_info.open_block).getD h, bal, now, c⟩) := by
  by_cases hh : h = 0
  · subst hh
    rw [change_latest_accounts_zero, if_pos rfl]
  · rw [change_latest_accounts _ _ _ _ _ _ _ _ _ hh, if_neg hh]

theorem spec_heads_xor_congr (s s1 : block_store) :
    ∀ l : List Nat, (∀ k ∈ l, spec_head s1 k = spec_head s k) →
      spec_heads_xor s1 l = spec_heads_xor s l := by
  intro l
  induction l with
  | nil => intro _; rfl
  | cons x l ih =>
    intro h
    have hx := h x (List.mem_cons_self _ _)
    have hl := ih (fun k hk => h k (List.mem_cons_of_mem _ hk))
    unfold spec_heads_xor at hl ⊢
    simp only [List.map_cons, List.foldr_cons]
    rw [hx, hl]

theorem spec_heads_xor_erase (s : block_store) (a : Nat) :
    ∀ l : List Nat, l.Nodup → a ∈ l →
      spec_heads_xor s l = spec_head s a ^^^ spec_heads_xor s (l.erase a) := by
  intro l
  induction l with
  | nil => intro _ h; cases h
  | cons x l ih =>
    intro hnd ha
    rw [List.nodup_cons] at hnd
    by_cases hx : x = a
    · subst hx
      rw [List.erase_cons_head]
      rfl
    · have hal : a ∈ l := by
        rcases List.mem_cons.mp ha with h | h
        · exact absurd h.symm hx
        · exact h
      rw [List.erase_cons_tail (by simpa using hx)]
      have h1 := ih hnd.2 hal
      unfold spec_heads_xor at h1 ⊢
      simp only [List.map_cons, List.foldr_cons]
      rw [h1, ← Nat.xor_assoc, ← Nat.xor_assoc, Nat.xor_comm (spec_head s x)]

/-- One `change_latest` keeps the checksum identity: the records of the other
accounts stay, and the checksum moves by the old and the new head of `a`. -/
theorem checksum_identity_step (s s1 : block_store) (a : Nat)
    (hacc : ∀ k, k ≠ a → s1.accounts k = s.accounts k)
    (hck : s1.checksum = (s.checksum ^^^ spec_head s a) ^^^ spec_head s1 a) :
    checksum_identity s → checksum_identity s1 := by
  rintro ⟨l, hnd, hmem, hsum⟩
  have hF : spec_heads_xor s l = spec_head s a ^^^ spec_heads_xor s (l.erase a) := by
    by_cases ha : a ∈ l
    · exact spec_heads_xor_erase s a l hnd ha
    · have hn : s.accounts a = none := by
        by_contra hc
        exact ha ((hmem a).mpr hc)
      rw [List.erase_of_not_mem ha]
      simp [spec_head, hn]
  have hk : ∀ k ∈ l.erase a, spec_head s1 k = spec_head s k := by
    intro k hk
    have hne : k ≠ a := fun e => by
      rw [e] at hk
      exact (List.Nodup.not_mem_erase hnd) hk
    unfold spec_head
    rw [hacc k hne]
  have hx := spec_heads_xor_congr s s1 (l.erase a) hk
  have hc1 : s1.checksum = spec_heads_xor s1 (l.erase a) ^^^ spec_head s1 a := by
    rw [hck, hsum, hF, hx, Nat.xor_comm (spec_head s a), xor_cancel_right]
  have hmem1 : ∀ k, k ∈ l.erase a ↔ k ≠ a ∧ s.accounts k ≠ none := by
    intro k
    rw [List.Nodup.mem_erase_iff hnd, hmem]
  cases h1 : s1.accounts a with
  | none =>
    refine ⟨l.erase a, hnd.erase a, fun k => ?_, ?_⟩
    · rw [hmem1]
      by_cases hka : k = a
      · subst hka; simp [h1]
      · rw [hacc k hka]; simp [hka]
    · rw [hc1]
      simp [spec_head, h1]
  | some v =>
    refine ⟨a :: l.erase a, List.nodup_cons.mpr ⟨List.Nodup.not_mem_erase hnd, hnd.erase a⟩,
      fun k => ?_, ?_⟩
    · rw [List.mem_cons, hmem1]
      by_cases hka : k = a
      · subst hka; simp [h1]
      · rw [hacc k hka]; simp [hka]
    · rw [hc1, Nat.xor_comm]
      rfl

/-- The checksum identity reads the account table and the checksum only. -/
theorem checksum_identity_congr (s s1 : block_store) (hacc : s1.accounts = s.accounts)
    (hck : s1.checksum = s.checksum) : checksum_identity s → checksum_identity s1 := by
  rintro ⟨l, hnd, hmem, hsum⟩
  refine ⟨l, hnd, fun k => by rw [hmem, hacc], ?_⟩
  rw [hck, hsum]
  exact (spec_heads_xor_congr s s1 l (fun k _ => by unfold spec_head; rw [hacc])).symm

/-! ## The checksum identity under the accepted blocks and the undo steps -/

theorem change_latest_head (env : ledger_env) (now : Nat) (s : block_store)
    (a h r bal c : Nat) (st : Bool) :
    spec_head (ledger.change_latest env now s a h r bal c st) a = h := by
  unfold spec_head
  rw [change_latest_accounts_any, Function.update_same]
  by_cases hh : h = 0
  · simp [hh]
  · simp [hh]

theorem send_block_apply_identity (env : ledger_env) (now : Nat) (s : block_store)
    (b : mol.send_block) (account : Nat) (info : account_info) :
    checksum_identity s →
      checksum_identity (ledger_processor.send_block_apply env now s b account info) := by
  refine checksum_identity_step s _ account (fun k hk => ?_) ?_
  · simp [ledger_processor.send_block_apply, change_latest_accounts_any, hk]
  · rw [send_block_apply_checksum]
    congr 1
    simp only [spec_head, ledger_processor.send_block_apply, block_store.frontier_put,
      block_store.frontier_del, block_store.pending_put]
    exact (change_latest_head _ _ _ _ _ _ _ _ _).symm

theorem receive_block_apply_identity (env : ledger_env) (now : Nat) (s : block_store)
    (b : mol.receive_block) (account : Nat) (info : account_info) (pending : pending_info) :
    checksum_identity s →
      checksum_identity (ledger_processor.receive_block_apply env now s b account info pending) := by
  refine checksum_identity_step s _ account (fun k hk => ?_) ?_
  · simp [ledger_processor.receive_block_apply, change_latest_accounts_any, hk]
  · rw [receive_block_apply_checksum]
    congr 1
    simp only [spec_head, ledger_processor.receive_block_apply, block_store.frontier_put,
      block_store.frontier_del, block_store.representation_add]
    exact (change_latest_head _ _ _ _ _ _ _ _ _).symm

theorem open_block_apply_identity (env : ledger_env) (now : Nat) (s : block_store)
    (b : mol.open_block) (info : account_info) (pending : pending_info) :
    checksum_identity s →
      checksum_identity (ledger_processor.open_block_apply env now s b info pending) := by
  refine checksum_identity_step s _ b.hashables.account (fun k hk => ?_) ?_
  · simp [ledger_processor.open_block_apply, change_latest_accounts_any, hk]
  · rw [open_block_apply_checksum]
    congr 1
    simp only [spec_head, ledger_processor.open_block_apply, block_store.frontier_put,
      block_store.representation_add]
    exact (change_latest_head _ _ _ _ _ _ _ _ _).symm

theorem change_block_apply_identity (env : ledger_env) (now : Nat) (s : block_store)
    (b : mol.change_block) (account : Nat) (info : account_info) :
    checksum_identity s →
      checksum_identity (ledger_processor.change_block_apply env now s b account info) := by
  refine checksum_identity_step s _ account (fun k hk => ?_) ?_
  · simp [ledger_processor.change_block_apply, change_latest_accounts_any, hk]
  · rw [change_block_apply_checksum]
    congr 1
    simp only [spec_head, ledger_processor.change_block_apply, block_store.frontier_put,
      block_store.frontier_del]
    exact (change_latest_head _ _ _ _ _ _ _ _ _).symm

theorem state_block_apply_identity (env : ledger_env) (now : Nat) (s : block_store)
    (b : mol.state_block) (info : account_info) (amount : Nat) (is_send : Bool) :
    checksum_identity s →
      checksum_identity (ledger_processor.state_block_apply env now s b info amount is_send) := by
  refine checksum_identity_step s _ b.hashables.account (fun k hk => ?_) ?_
  · unfold ledger_processor.state_block_apply
    dsimp only
    split_ifs <;> simp [change_latest_accounts_any, hk]
  · rw [state_block_apply_checksum]
    congr 1
    unfold ledger_processor.state_block_apply
    dsimp only
    split_ifs <;>
      simp only [spec_head, block_store.frontier_del] <;>
      exact (change_latest_head _ _ _ _ _ _ _ _ _).symm

theorem rollback_send_identity (env : ledger_env) (now : Nat) (s : block_store)
    (b : mol.send_block) (pending : pending_info) :
    checksum_identity s →
      checksum_identity (rollback_visitor.send_block env now s b pending) := by
  refine checksum_identity_step s _ pending.source (fun k hk => ?_) ?_
  · unfold rollback_visitor.send_block
    dsimp only
    split_ifs <;> simp [change_latest_accounts_any, hk]
  · rw [rollback_send_checksum]
    congr 1
    unfold rollback_visitor.send_block
    dsimp only
    split_ifs <;>
      simp only [spec_head, block_store.frontier_del, block_store.frontier_put,
        block_store.block_del, block_store.block_successor_clear, block_store.block_info_del] <;>
      exact (change_latest_head _ _ _ _ _ _ _ _ _).symm

theorem rollback_receive_identity (env : ledger_env) (now : Nat) (s : block_store)
    (b : mol.receive_block) (d a : Nat) :
    checksum_identity s →
      checksum_identity (rollback_visitor.receive_block_undo env now s b d a) := by
  refine checksum_identity_step s _ d (fun k hk => ?_) ?_
  · unfold rollback_visitor.receive_block_undo
    dsimp only
    split_ifs <;> simp [change_latest_accounts_any, hk]
  · rw [rollback_receive_checksum]
    congr 1
    unfold rollback_visitor.receive_block_undo
    dsimp only
    split_ifs <;>
      simp only [spec_head, block_store.frontier_del, block_store.frontier_put,
        block_store.block_del, block_store.block_successor_clear, block_store.block_info_del,
        block_store.pending_put] <;>
      exact (change_latest_head _ _ _ _ _ _ _ _ _).symm

theorem rollback_open_identity (env : ledger_env) (now : Nat) (s : block_store)
    (b : mol.open_block) (d a : Nat) :
    checksum_identity s →
      checksum_identity (rollback_visitor.open_block_undo env now s b d a) := by
  refine checksum_identity_step s _ d (fun k hk => ?_) ?_
  · simp [rollback_visitor.open_block_undo, change_latest_accounts_any, hk]
  · rw [rollback_open_checksum]
    have h0 : spec_head (rollback_visitor.open_block_undo env now s b d a) d = 0 := by
      simp only [spec_head, rollback_visitor.open_block_undo, block_store.frontier_del,
        block_store.block_del, block_store.pending_put]
      exact change_latest_head _ _ _ _ _ _ _ _ _
    rw [h0]
    simp [spec_head]

theorem rollback_change_identity (env : ledger_env) (now : Nat) (s : block_store)
    (b : mol.change_block) (a : Nat) :
    checksum_identity s →
      checksum_identity (rollback_visitor.change_block_undo env now s b a) := by
  refine checksum_identity_step s _ a (fun k hk => ?_) ?_
  · unfold rollback_visitor.change_block_undo
    dsimp only
    split_ifs <;> simp [change_latest_accounts_any, hk]
  · rw [rollback_change_checksum]
    congr 1
    unfold rollback_visitor.change_block_undo
    dsimp only
    split_ifs <;>
      simp only [spec_head, block_store.frontier_del, block_store.frontier_put,
        block_store.block_del, block_store.block_successor_clear, block_store.block_info_del] <;>
      exact (change_latest_head _ _ _ _ _ _ _ _ _).symm

theorem state_rewind_identity (env : ledger_env) (now : Nat) (s : block_store)
    (b : mol.state_block) (r bal : Nat) :
    checksum_identity s →
      checksum_identity (rollback_visitor.state_block_rewind env now s b r bal) := by
  refine checksum_identity_step s _ b.hashables.account (fun k hk => ?_) ?_
  · unfold rollback_visitor.state_block_rewind
    dsimp only
    split <;> [split_ifs; skip] <;> simp [change_latest_accounts_any, hk]
  · rw [state_block_rewind_checksum]
    congr 1
    unfold rollback_visitor.state_block_rewind
    dsimp only
    split <;> [split_ifs; skip] <;>
      simp only [spec_head, block_store.frontier_put, block_store.block_del,
        block_store.block_successor_clear] <;>
      exact (change_latest_head _ _ _ _ _ _ _ _ _).symm

/-- An accepted or refused block of any variant keeps the checksum identity. -/
theorem process_identity (env : ledger_env) (now : Nat) (s : block_store) (b : block) :
    checksum_identity s → checksum_identity (ledger.process env now s b).2 := by
  intro hs
  cases b with
  | send x =>
    by_cases hc : (ledger_processor.send_block env now s x).1.code = process_result.progress
    · obtain ⟨_, _, _, _, he⟩ := send_block_accepted env now s x hc
      show checksum_identity (ledger_processor.send_block env now s x).2
      rw [he]
      exact send_block_apply_identity _ _ _ _ _ _ hs
    · show checksum_identity (ledger_processor.send_block env now s x).2
      rw [send_block_refused env now s x hc]
      exact hs
  | receive x =>
    by_cases hc : (ledger_processor.receive_block env now s x).1.code = process_result.progress
    · obtain ⟨_, _, _, _, p, _, he⟩ := receive_block_accepted env now s x hc
      show checksum_identity (ledger_processor.receive_block env now s x).2
      rw [he]
      exact receive_block_apply_identity _ _ _ _ _ _ _ hs
    · show checksum_identity (ledger_processor.receive_block env now s x).2
      rw [receive_block_refused env now s x hc]
      exact hs
  | opening x =>
    by_cases hc : (ledger_processor.open_block env now s x).1.code = process_result.progress
    · obtain ⟨_, _, _, _, p, _, he⟩ := open_block_accepted env now s x hc
      show checksum_identity (ledger_processor.open_block env now s x).2
      rw [he]
      exact open_block_apply_identity _ _ _ _ _ _ hs
    · show checksum_identity (ledger_processor.open_block env now s x).2
      rw [open_block_refused env now s x hc]
      exact hs
  | change x =>
    by_cases hc : (ledger_processor.change_block env now s x).1.code = process_result.progress
    · obtain ⟨_, _, _, he⟩ := change_block_accepted env now s x hc
      show checksum_identity (ledger_processor.change_block env now s x).2
      rw [he]
      exact change_block_apply_identity _ _ _ _ _ _ hs
    · show checksum_identity (ledger_processor.change_block env now s x).2
      rw [change_block_refused env now s x hc]
      exact hs
  | state x =>
    by_cases hc : (ledger_processor.state_block env now s x).1.code = process_result.progress
    · obtain ⟨_, _, _, _, he⟩ := state_block_accepted env now s x hc
      show checksum_identity (ledger_processor.state_block env now s x).2
      rw [he]
      exact state_block_apply_identity _ _ _ _ _ _ _ hs
    · show checksum_identity (ledger_processor.state_block env now s x).2
      rw [state_block_refused env now s x hc]
      exact hs
  | astate x =>
    obtain ⟨_, hacc, _, _, hck, _⟩ := astate_block_tables env now s x
    exact checksum_identity_congr s _ hacc hck hs

/-- C21. If the stored checksum is the XOR of the head hashes of all account
records before a `process` call (of any block) or a `rollback` call, it is so
afterwards. -/
theorem checksum_identity_preserved (env : ledger_env) (now : Nat) (s : block_store)
    (h : checksum_identity s) :
    (∀ b : block, checksum_identity (ledger.process env now s b).2) ∧
      ∀ (fuel block_a : Nat) (s1 : block_store),
        ledger.rollback env now fuel s block_a = some s1 → checksum_identity s1 := by
  refine ⟨fun b => process_identity env now s b h, fun fuel block_a s1 hr => ?_⟩
  exact rollback_run_preserves env now checksum_identity
    (fun s b p => rollback_send_identity env now s b p)
    (fun s b d a => rollback_receive_identity env now s b d a)
    (fun s b d a => rollback_open_identity env now s b d a)
    (fun s b a => rollback_change_identity env now s b a)
    (fun s b r bal => checksum_identity_congr s _
      (state_block_weights_accounts env s b r bal) (state_block_weights_checksum env s b r bal))
    (fun s k v => checksum_identity_congr s _ rfl rfl)
    (fun s k => checksum_identity_congr s _ rfl rfl)
    (fun s b r bal => state_rewind_identity env now s b r bal)
    fuel s _ s1 hr h

theorem genesis_checksum_identity : checksum_identity genesis := by
  refine ⟨[1], by simp, fun a => ?_, by decide⟩
  by_cases ha : a = 1 <;> simp [genesis, ha]

/-- C21 on the concrete ledger: the genesis store satisfies the identity, and
so does the store after `send1`. -/
theorem checksum_identity_preserved_witness :
    checksum_identity genesis ∧ checksum_identity after_send1 :=
  ⟨genesis_checksum_identity,
    (checksum_identity_preserved env 5 genesis genesis_checksum_identity).1 (block.send send1)⟩

/-! ## Deleting an account record (C27) -/

/-- An accepted or refused block of any variant with a non-zero hash deletes no
account record. -/
theorem process_keeps_accounts (env : ledger_env) (now : Nat) (s : block_store) (b : block)
    (a : Nat) (hnz : env.hash b ≠ 0) (ha : s.accounts a ≠ none) :
    (ledger.process env now s b).2.accounts a ≠ none := by
  have hupd : ∀ (k : Nat) (v : account_info), Function.update s.accounts k (some v) a ≠ none := by
    intro k v
    by_cases hk : a = k
    · subst hk; simp
    · rw [Function.update_noteq hk]; exact ha
  cases b with
  | send x =>
    show (ledger_processor.send_block env now s x).2.accounts a ≠ none
    by_cases hc : (ledger_processor.send_block env now s x).1.code = process_result.progress
    · obtain ⟨_, _, _, _, he⟩ := send_block_accepted env now s x hc
      rw [he, send_block_apply_accounts _ _ _ _ _ _ hnz]
      exact hupd _ _
    · rw [send_block_refused env now s x hc]; exact ha
  | receive x =>
    show (ledger_processor.receive_block env now s x).2.accounts a ≠ none
    by_cases hc : (ledger_processor.receive_block env now s x).1.code = process_result.progress
    · obtain ⟨_, _, _, _, p, _, he⟩ := receive_block_accepted env now s x hc
      rw [he, receive_block_apply_accounts _ _ _ _ _ _ _ hnz]
      exact hupd _ _
    · rw [receive_block_refused env now s x hc]; exact ha
  | opening x =>
    show (ledger_processor.open_block env now s x).2.accounts a ≠ none
    by_cases hc : (ledger_processor.open_block env now s x).1.code = process_result.progress
    · obtain ⟨_, _, _, _, p, _, he⟩ := open_block_accepted env now s x hc
      rw [he, open_block_apply_accounts _ _ _ _ _ _ hnz]
      exact hupd _ _
    · rw [open_block_refused env now s x hc]; exact ha
  | change x =>
    show (ledger_processor.change_block env now s x).2.accounts a ≠ none
    by_cases hc : (ledger_processor.change_block env now s x).1.code = process_result.progress
    · obtain ⟨_, _, _, he⟩ := change_block_accepted env now s x hc
      rw [he, change_block_apply_accounts _ _ _ _ _ _ hnz]
      exact hupd _ _
    · rw [change_block_refused env now s x hc]; exact ha
  | state x =>
    show (ledger_processor.state_block env now s x).2.accounts a ≠ none
    by_cases hc : (ledger_processor.state_block env now s x).1.code = process_result.progress
    · obtain ⟨_, _, _, _, he⟩ := state_block_accepted env now s x hc
      rw [he, state_block_apply_accounts _ _ _ _ _ _ _ hnz]
      exact hupd _ _
    · rw [state_block_refused env now s x hc]; exact ha
  | astate x =>
    obtain ⟨_, hacc, _⟩ := astate_block_tables env now s x
    show (ledger_processor.astate_block env now s x).2.accounts a ≠ none
    rw [hacc]; exact ha

theorem rollback_send_deletes (env : ledger_env) (now : Nat) (s : block_store)
    (b : mol.send_block) (pending : pending_info) :
    ((rollback_visitor.send_block env now s b pending).accounts pending.source = none ↔
        b.hashables.previous = 0) ∧
      ∀ k, k ≠ pending.source →
        (rollback_visitor.send_block env now s b pending).accounts k = s.accounts k := by
  constructor
  · unfold rollback_visitor.send_block
    dsimp only
    by_cases hp : b.hashables.previous = 0 <;>
      split_ifs <;> simp [change_latest_accounts_any, hp]
  · intro k hk
    unfold rollback_visitor.send_block
    dsimp only
    split_ifs <;> simp [change_latest_accounts_any, hk]

theorem rollback_receive_deletes (env : ledger_env) (now : Nat) (s : block_store)
    (b : mol.receive_block) (d a : Nat) :
    ((rollback_visitor.receive_block_undo env now s b d a).accounts d = none ↔
        b.hashables.previous = 0) ∧
      ∀ k, k ≠ d →
        (rollback_visitor.receive_block_undo env now s b d a).accounts k = s.accounts k := by
  constructor
  · unfold rollback_visitor.receive_block_undo
    dsimp only
    by_cases hp : b.hashables.previous = 0 <;>
      split_ifs <;> simp [change_latest_accounts_any, hp]
  · intro k hk
    unfold rollback_visitor.receive_block_undo
    dsimp only
    split_ifs <;> simp [change_latest_accounts_any, hk]

theorem rollback_open_deletes (env : ledger_env) (now : Nat) (s : block_store)
    (b : mol.open_block) (d a : Nat) :
    (rollback_visitor.open_block_undo env now s b d a).accounts d = none ∧
      ∀ k, k ≠ d →
        (rollback_visitor.open_block_undo env now s b d a).accounts k = s.accounts k := by
  constructor
  · simp [rollback_visitor.open_block_undo, change_latest_accounts_any]
  · intro k hk
    simp [rollback_visitor.open_block_undo, change_latest_accounts_any, hk]

theorem rollback_change_deletes (env : ledger_env) (now : Nat) (s : block_store)
    (b : mol.change_block) (a : Nat) :
    ((rollback_visitor.change_block_undo env now s b a).accounts a = none ↔
        b.hashables.previous = 0) ∧
      ∀ k, k ≠ a →
        (rollback_visitor.change_block_undo env now s b a).accounts k = s.accounts k := by
  constructor
  · unfold rollback_visitor.change_block_undo
    dsimp only
    by_cases hp : b.hashables.previous = 0 <;>
      split_ifs <;> simp [change_latest_accounts_any, hp]
  · intro k hk
    unfold rollback_visitor.change_block_undo
    dsimp only
    split_ifs <;> simp [change_latest_accounts_any, hk]

theorem state_rewind_deletes (env : ledger_env) (now : Nat) (s : block_store)
    (b : mol.state_block) (r bal : Nat) :
    ((rollback_visitor.state_block_rewind env now s b r bal).accounts b.hashables.account = none ↔
        b.hashables.previous = 0) ∧
      ∀ k, k ≠ b.hashables.account →
        (rollback_visitor.state_block_rewind env now s b r bal).accounts k = s.accounts k := by
  constructor
  · unfold rollback_visitor.state_block_rewind
    dsimp only
    by_cases hp : b.hashables.previous = 0
    · split <;> [split_ifs; skip] <;> simp [change_latest_accounts_any, hp]
    · split <;> [split_ifs; skip] <;> simp [change_latest_accounts_any, hp]
  · intro k hk
    unfold rollback_visitor.state_block_rewind
    dsimp only
    split <;> [split_ifs; skip] <;> simp [change_latest_accounts_any, hk]

/-- C27. `process` of a block with a non-zero hash deletes no account record. Each
undo of the rollback visitor touches the record of one account only, the account
it computed for the undone block, and leaves that account without a record if and
only if the block's `previous` is zero: always for a legacy open block, and for a
send, receive, change or state block exactly when `previous` is zero. -/
theorem account_deleted_only_by_undoing_opening (env : ledger_env) (now : Nat)
    (s : block_store) :
    (∀ (b : block) (a : Nat), env.hash b ≠ 0 → s.accounts a ≠ none →
        (ledger.process env now s b).2.accounts a ≠ none) ∧
      (∀ (b : mol.send_block) (pending : pending_info),
        ((rollback_visitor.send_block env now s b pending).accounts pending.source = none ↔
            (block.send b).previous = 0) ∧
          ∀ k, k ≠ pending.source →
            (rollback_visitor.send_block env now s b pending).accounts k = s.accounts k) ∧
      (∀ (b : mol.receive_block) (destination_account source_account : Nat),
        ((rollback_visitor.receive_block_undo env now s b destination_account
              source_account).accounts destination_account = none ↔
            (block.receive b).previous = 0) ∧
          ∀ k, k ≠ destination_account →
            (rollback_visitor.receive_block_undo env now s b destination_account
              source_account).accounts k = s.accounts k) ∧
      (∀ (b : mol.open_block) (destination_account source_account : Nat),
        ((rollback_visitor.open_block_undo env now s b destination_account
              source_account).accounts destination_account = none ↔
            (block.opening b).previous = 0) ∧
          ∀ k, k ≠ destination_account →
            (rollback_visitor.open_block_undo env now s b destination_account
              source_account).accounts k = s.accounts k) ∧
      (∀ (b : mol.change_block) (account : Nat),
        ((rollback_visitor.change_block_undo env now s b account).accounts account = none ↔
            (block.change b).previous = 0) ∧
          ∀ k, k ≠ account →
            (rollback_visitor.change_block_undo env now s b account).accounts k = s.accounts k) ∧
      (∀ (b : mol.state_block) (representative balance : Nat) (key : pending_key)
          (pending : pending_info),
        (rollback_visitor.state_block_weights env s b representative balance).accounts
            = s.accounts ∧
          (s.pending_put key pending).accounts = s.accounts ∧
          (s.pending_del key).accounts = s.accounts ∧
          ((rollback_visitor.state_block_rewind env now s b representative balance).accounts
                b.hashables.account = none ↔
              (block.state b).previous = 0) ∧
          ∀ k, k ≠ b.hashables.account →
            (rollback_visitor.state_block_rewind env now s b representative balance).accounts k
              = s.accounts k) := by
  refine ⟨fun b a hnz ha => process_keeps_accounts env now s b a hnz ha,
    fun b p => rollback_send_deletes env now s b p,
    fun b d a => rollback_receive_deletes env now s b d a,
    fun b d a => ⟨?_, (rollback_open_deletes env now s b d a).2⟩,
    fun b a => rollback_change_deletes env now s b a,
    fun b r bal key p => ⟨state_block_weights_accounts env s b r bal, rfl, rfl,
      state_rewind_deletes env now s b r bal⟩⟩
  simp only [block.previous, (rollback_open_deletes env now s b d a).1]

/-- C27 on the concrete ledger: `send1` leaves the record of account 1 in place. -/
theorem account_deleted_only_by_undoing_opening_witness :
    (ledger.process env 5 genesis (block.send send1)).2.accounts 1 ≠ none :=
  (account_deleted_only_by_undoing_opening env 5 genesis).1 (block.send send1) 1
    (by decide) (by decide)

/-! ## Sums over a table that changes at one key -/

theorem sum_support_subset {α : Type} (f : α → Nat) (F G : Finset α) (hFG : F ⊆ G)
    (hF : ∀ k, f k ≠ 0 → k ∈ F) : G.sum f = F.sum f := by
  symm
  apply Finset.sum_subset hFG
  intro k _ hk
  by_contra hne
  exact hk (hF k hne)

theorem spec_pending_amount_support (s : block_store) (K : Finset pending_key)
    (hK : ∀ k, s.pending k ≠ none → k ∈ K) : ∀ k, spec_pending_amount s k ≠ 0 → k ∈ K := by
  intro k hk
  apply hK
  intro hn
  apply hk
  unfold spec_pending_amount
  rw [hn]
  rfl

theorem spec_prior_balance_support (s : block_store) (A : Finset Nat)
    (hA : ∀ a, s.accounts a ≠ none → a ∈ A) : ∀ a, spec_prior_balance s a ≠ 0 → a ∈ A := by
  intro a ha
  apply hA
  intro hn
  apply ha
  unfold spec_prior_balance
  simp [hn]

theorem sum_split_at {α : Type} [DecidableEq α] (f g : α → Nat) (a : α) (F : Finset α)
    (ha : a ∈ F) (h : ∀ k, k ≠ a → g k = f k) : F.sum g + f a = F.sum f + g a := by
  rw [← Finset.add_sum_erase F f ha, ← Finset.add_sum_erase F g ha]
  have he : (F.erase a).sum g = (F.erase a).sum f :=
    Finset.sum_congr rfl (fun k hk => h k (Finset.ne_of_mem_erase hk))
  rw [he]
  ring

/-- A step that changes the pending table at one key and the account table at
one account moves the total by the difference at that key and that account. -/
theorem ledger_total_step (s s1 : block_store) (k : pending_key) (a w : Nat)
    (hp : ∀ j, j ≠ k → s1.pending j = s.pending j)
    (ha : ∀ j, j ≠ a → s1.accounts j = s.accounts j)
    (hq : spec_pending_amount s k + spec_prior_balance s a =
      spec_pending_amount s1 k + spec_prior_balance s1 a + w)
    (K K1 : Finset pending_key) (A A1 : Finset Nat)
    (hc : spec_covers s K A) (hc1 : spec_covers s1 K1 A1) :
    spec_ledger_total s K A = spec_ledger_total s1 K1 A1 + w := by
  have hpa : ∀ j, j ≠ k → spec_pending_amount s1 j = spec_pending_amount s j := by
    intro j hj
    unfold spec_pending_amount
    rw [hp j hj]
  have hba : ∀ j, j ≠ a → spec_prior_balance s1 j = spec_prior_balance s j := by
    intro j hj
    unfold spec_prior_balance
    simp only [block_store.account_get]
    rw [ha j hj]
  have h1 := sum_support_subset (spec_pending_amount s) K (insert k (K ∪ K1))
    (fun x hx => Finset.mem_insert_of_mem (Finset.mem_union_left _ hx))
    (spec_pending_amount_support s K hc.1)
  have h2 := sum_support_subset (spec_pending_amount s1) K1 (insert k (K ∪ K1))
    (fun x hx => Finset.mem_insert_of_mem (Finset.mem_union_right _ hx))
    (spec_pending_amount_support s1 K1 hc1.1)
  have h3 := sum_support_subset (spec_prior_balance s) A (insert a (A ∪ A1))
    (fun x hx => Finset.mem_insert_of_mem (Finset.mem_union_left _ hx))
    (spec_prior_balance_support s A hc.2)
  have h4 := sum_support_subset (spec_prior_balance s1) A1 (insert a (A ∪ A1))
    (fun x hx => Finset.mem_insert_of_mem (Finset.mem_union_right _ hx))
    (spec_prior_balance_support s1 A1 hc1.2)
  have h5 := sum_split_at (spec_pending_amount s) (spec_pending_amount s1) k
    (insert k (K ∪ K1)) (Finset.mem_insert_self _ _) hpa
  have h6 := sum_split_at (spec_prior_balance s) (spec_prior_balance s1) a
    (insert a (A ∪ A1)) (Finset.mem_insert_self _ _) hba
  unfold spec_ledger_total
  omega

theorem spec_pending_amount_none (s : block_store) (k : pending_key) (h : s.pending k = none) :
    spec_pending_amount s k = 0 := by
  unfold spec_pending_amount
  rw [h]
  rfl

theorem spec_pending_amount_some (s : block_store) (k : pending_key) (p : pending_info)
    (h : s.pending k = some p) : spec_pending_amount s k = p.amount := by
  unfold spec_pending_amount
  rw [h]
  rfl

theorem spec_prior_balance_some (s : block_store) (a : Nat) (i : account_info)
    (h : s.accounts a = some i) : spec_prior_balance s a = i.balance := by
  unfold spec_prior_balance
  simp [h]

theorem send_block_apply_total (env : ledger_env) (now : Nat) (s : block_store)
    (b : mol.send_block) (account : Nat)
    (hnz : env.hash (block.send b) ≠ 0)
    (hfresh : s.pending ⟨b.hashables.destination, env.hash (block.send b)⟩ = none)
    (hle : b.hashables.balance ≤ ((s.account_get account).getD account_info.zero).balance)
    (K K1 : Finset pending_key) (A A1 : Finset Nat) (hc : spec_covers s K A)
    (hc1 : spec_covers (ledger_processor.send_block_apply env now s b account
      ((s.account_get account).getD account_info.zero)) K1 A1) :
    spec_ledger_total s K A =
      spec_ledger_total (ledger_processor.send_block_apply env now s b account
        ((s.account_get account).getD account_info.zero)) K1 A1 + 0 := by
  refine ledger_total_step s _ ⟨b.hashables.destination, env.hash (block.send b)⟩ account 0
    (fun j hj => ?_) (fun j hj => ?_) ?_ K K1 A A1 hc hc1
  · rw [send_block_apply_pending]
    exact Function.update_noteq hj _ _
  · rw [send_block_apply_accounts _ _ _ _ _ _ hnz]
    exact Function.update_noteq hj _ _
  · have h1 := spec_prior_balance_some (ledger_processor.send_block_apply env now s b account
      ((s.account_get account).getD account_info.zero)) account _
        (by rw [send_block_apply_accounts _ _ _ _ _ _ hnz, Function.update_same])
    rw [spec_pending_amount_none s _ hfresh, h1, spec_prior_balance_eq,
      spec_pending_amount_some _ _ _
        (by rw [send_block_apply_pending, Function.update_same])]
    dsimp only
    omega

theorem receive_block_apply_total (env : ledger_env) (now : Nat) (s : block_store)
    (b : mol.receive_block) (account : Nat) (pending : pending_info)
    (hnz : env.hash (block.receive b) ≠ 0)
    (hp : s.pending ⟨account, b.hashables.source⟩ = some pending)
    (K K1 : Finset pending_key) (A A1 : Finset Nat) (hc : spec_covers s K A)
    (hc1 : spec_covers (ledger_processor.receive_block_apply env now s b account
      ((s.account_get account).getD account_info.zero) pending) K1 A1) :
    spec_ledger_total s K A =
      spec_ledger_total (ledger_processor.receive_block_apply env now s b account
        ((s.account_get account).getD account_info.zero) pending) K1 A1 +
      2 ^ 128 * ((spec_prior_balance s account + pending.amount) / 2 ^ 128) := by
  refine ledger_total_step s _ ⟨account, b.hashables.source⟩ account _
    (fun j hj => ?_) (fun j hj => ?_) ?_ K K1 A A1 hc hc1
  · rw [receive_block_apply_pending]
    exact Function.update_noteq hj _ _
  · rw [receive_block_apply_accounts _ _ _ _ _ _ _ hnz]
    exact Function.update_noteq hj _ _
  · have h1 := spec_prior_balance_some (ledger_processor.receive_block_apply env now s b account
      ((s.account_get account).getD account_info.zero) pending) account _
        (by rw [receive_block_apply_accounts _ _ _ _ _ _ _ hnz, Function.update_same])
    rw [spec_pending_amount_some s _ _ hp,
      spec_pending_amount_none _ _
        (by rw [receive_block_apply_pending, Function.update_same]), h1]
    dsimp only
    rw [← spec_prior_balance_eq]
    have := Nat.mod_add_div (spec_prior_balance s account + pending.amount) (2 ^ 128)
    omega

theorem open_block_apply_total (env : ledger_env) (now : Nat) (s : block_store)
    (b : mol.open_block) (info : account_info) (pending : pending_info)
    (hnz : env.hash (block.opening b) ≠ 0)
    (hnew : s.accounts b.hashables.account = none)
    (hp : s.pending ⟨b.hashables.account, b.hashables.source⟩ = some pending)
    (K K1 : Finset pending_key) (A A1 : Finset Nat) (hc : spec_covers s K A)
    (hc1 : spec_covers (ledger_processor.open_block_apply env now s b info pending) K1 A1) :
    spec_ledger_total s K A =
      spec_ledger_total (ledger_processor.open_block_apply env now s b info pending) K1 A1 + 0 := by
  refine ledger_total_step s _ ⟨b.hashables.account, b.hashables.source⟩ b.hashables.account 0
    (fun j hj => ?_) (fun j hj => ?_) ?_ K K1 A A1 hc hc1
  · rw [open_block_apply_pending]
    exact Function.update_noteq hj _ _
  · rw [open_block_apply_accounts _ _ _ _ _ _ hnz]
    exact Function.update_noteq hj _ _
  · have h1 := spec_prior_balance_some (ledger_processor.open_block_apply env now s b info
      pending) b.hashables.account _
        (by rw [open_block_apply_accounts _ _ _ _ _ _ hnz, Function.update_same])
    have h0 : spec_prior_balance s b.hashables.account = 0 := by
      unfold spec_prior_balance
      simp [hnew]
    rw [spec_pending_amount_some s _ _ hp,
      spec_pending_amount_none _ _
        (by rw [open_block_apply_pending, Function.update_same]), h1, h0]
    dsimp only
    omega

theorem change_block_apply_total (env : ledger_env) (now : Nat) (s : block_store)
    (b : mol.change_block) (account : Nat)
    (hnz : env.hash (block.change b) ≠ 0)
    (K K1 : Finset pending_key) (A A1 : Finset Nat) (hc : spec_covers s K A)
    (hc1 : spec_covers (ledger_processor.change_block_apply env now s b account
      ((s.account_get account).getD account_info.zero)) K1 A1) :
    spec_ledger_total s K A =
      spec_ledger_total (ledger_processor.change_block_apply env now s b account
        ((s.account_get account).getD account_info.zero)) K1 A1 + 0 := by
  refine ledger_total_step s _ ⟨0, 0⟩ account 0
    (fun j hj => ?_) (fun j hj => ?_) ?_ K K1 A A1 hc hc1
  · rw [change_block_apply_pending]
  · rw [change_block_apply_accounts _ _ _ _ _ _ hnz]
    exact Function.update_noteq hj _ _
  · have h1 := spec_prior_balance_some (ledger_processor.change_block_apply env now s b account
      ((s.account_get account).getD account_info.zero)) account _
        (by rw [change_block_apply_accounts _ _ _ _ _ _ hnz, Function.update_same])
    rw [h1, spec_prior_balance_eq]
    unfold spec_pending_amount
    rw [change_block_apply_pending]
    dsimp only
    omega

theorem state_block_apply_total (env : ledger_env) (now : Nat) (s : block_store)
    (b : mol.state_block)
    (hnz : env.hash (block.state b) ≠ 0)
    (hfresh : s.pending ⟨b.hashables.link, env.hash (block.state b)⟩ = none)
    (hchk : (ledger_processor.state_block_account_checks s b).1 = process_result.progress)
    (hlink : ledger_processor.state_block_link_checks s b process_result.progress
      (ledger_processor.state_block_account_checks s b).2.1
      (ledger_processor.state_block_account_checks s b).2.2 = process_result.progress)
    (K K1 : Finset pending_key) (A A1 : Finset Nat) (hc : spec_covers s K A)
    (hc1 : spec_covers (ledger_processor.state_block_apply env now s b
      ((s.account_get b.hashables.account).getD account_info.zero)
      (ledger_processor.state_block_account_checks s b).2.1
      (ledger_processor.state_block_account_checks s b).2.2) K1 A1) :
    spec_ledger_total s K A =
      spec_ledger_total (ledger_processor.state_block_apply env now s b
        ((s.account_get b.hashables.account).getD account_info.zero)
        (ledger_processor.state_block_account_checks s b).2.1
        (ledger_processor.state_block_account_checks s b).2.2) K1 A1 + 0 := by
  have hacc := state_block_apply_accounts env now s b
    ((s.account_get b.hashables.account).getD account_info.zero)
    (ledger_processor.state_block_account_checks s b).2.1
    (ledger_processor.state_block_account_checks s b).2.2 hnz
  have hpend := state_block_apply_pending env now s b
    ((s.account_get b.hashables.account).getD account_info.zero)
    (ledger_processor.state_block_account_checks s b).2.1
    (ledger_processor.state_block_account_checks s b).2.2
  have hb1 := spec_prior_balance_some _ b.hashables.account _
    (by rw [hacc, Function.update_same])
  dsimp only at hb1
  obtain ⟨hsome, hnone⟩ := state_block_account_checks_progress s b hchk
  generalize ledger_processor.state_block_apply env now s b
    ((s.account_get b.hashables.account).getD account_info.zero)
    (ledger_processor.state_block_account_checks s b).2.1
    (ledger_processor.state_block_account_checks s b).2.2 = s1 at hacc hpend hb1 hc1 ⊢
  have hoff : ∀ j, j ≠ b.hashables.account → s1.accounts j = s.accounts j := by
    intro j hj
    rw [hacc]
    exact Function.update_noteq hj _ _
  -- the amount and the prior balance
  have hfacts : ((ledger_processor.state_block_account_checks s b).2.2 = true →
        b.hashables.balance < spec_prior_balance s b.hashables.account ∧
        (ledger_processor.state_block_account_checks s b).2.1 =
          spec_prior_balance s b.hashables.account - b.hashables.balance) ∧
      ((ledger_processor.state_block_account_checks s b).2.2 = false →
        spec_prior_balance s b.hashables.account ≤ b.hashables.balance ∧
        (ledger_processor.state_block_account_checks s b).2.1 =
          b.hashables.balance - spec_prior_balance s b.hashables.account) := by
    cases hi : s.accounts b.hashables.account with
    | none =>
      obtain ⟨_, _, h3, h4⟩ := hnone hi
      have h0 : spec_prior_balance s b.hashables.account = 0 := by
        unfold spec_prior_balance; simp [hi]
      rw [h3, h4, h0]
      simp
    | some info =>
      obtain ⟨_, _, _, h4, h5⟩ := hsome info hi
      rw [h4, h5, spec_prior_balance_some s _ info hi]
      by_cases hlt : b.hashables.balance < info.balance
      · simp [hlt]
      · simp [hlt]; omega
  cases hs : (ledger_processor.state_block_account_checks s b).2.2 with
  | true =>
    obtain ⟨hlt, hamt⟩ := hfacts.1 hs
    rw [hs] at hpend
    simp only [if_true] at hpend
    refine ledger_total_step s s1 ⟨b.hashables.link, env.hash (block.state b)⟩
      b.hashables.account 0 (fun j hj => ?_) hoff ?_ K K1 A A1 hc hc1
    · rw [hpend]
      exact Function.update_noteq hj _ _
    · rw [spec_pending_amount_none s _ hfresh, hb1,
        spec_pending_amount_some s1 _ _ (by rw [hpend, Function.update_same])]
      dsimp only
      omega
  | false =>
    obtain ⟨hle, hamt⟩ := hfacts.2 hs
    rw [hs] at hpend hlink
    simp only [Bool.false_eq_true, if_false] at hpend
    obtain ⟨hl1, hl0⟩ := state_block_link_checks_progress s b _ hlink
    by_cases hl : b.hashables.link = 0
    · have hz := hl0 hl
      rw [if_neg (by simpa using hl)] at hpend
      refine ledger_total_step s s1 ⟨0, 0⟩ b.hashables.account 0 (fun j hj => ?_) hoff ?_
        K K1 A A1 hc hc1
      · rw [hpend]
      · rw [hb1]
        unfold spec_pending_amount
        rw [hpend]
        omega
    · obtain ⟨p, hp, hpa⟩ := hl1 hl
      rw [if_pos hl] at hpend
      refine ledger_total_step s s1 ⟨b.hashables.account, b.hashables.link⟩
        b.hashables.account 0 (fun j hj => ?_) hoff ?_ K K1 A A1 hc hc1
      · rw [hpend]
        exact Function.update_noteq hj _ _
      · rw [spec_pending_amount_some s _ _ hp, hb1,
          spec_pending_amount_none s1 _ (by rw [hpend, Function.update_same])]
        have h7 : p.amount = b.hashables.balance - spec_prior_balance s b.hashables.account := by
          rw [← hpa]; exact hamt
        rw [h7, Nat.sub_add_cancel hle]
        simp

/-- The pending table after an astate block: unchanged, one entry more (an
asset send) or one entry less (an asset receive). -/
theorem astate_block_pending (env : ledger_env) (now : Nat) (s : block_store)
    (b : mol.astate_block) :
    (ledger_processor.astate_block env now s b).2.pending = s.pending ∨
      (∃ p, (ledger_processor.astate_block env now s b).2.pending
        = Function.update s.pending ⟨b.hashables.link, env.hash (block.astate b)⟩ (some p)) ∨
      (ledger_processor.astate_block env now s b).2.pending
        = Function.update s.pending ⟨b.hashables.account, b.hashables.link⟩ none := by
  unfold ledger_processor.astate_block
  dsimp only
  by_cases h1 : s.block_exists (env.hash (block.astate b)) = true
  · rw [if_pos h1]; simp
  rw [if_neg h1]
  by_cases h2 : env.validate_message b.hashables.account (env.hash (block.astate b))
      b.signature = true
  · rw [if_pos h2]; simp
  rw [if_neg h2]
  by_cases h3 : b.hashables.account = 0
  · rw [if_pos h3]; simp
  rw [if_neg h3]
  by_cases h4 : s.account_exists b.hashables.account = false
  · rw [if_pos h4]; simp
  rw [if_neg h4]
  cases hg : s.account_get b.hashables.account with
  | none => simp
  | some info =>
    dsimp only
    by_cases h5 : s.asset_exists b.hashables.asset = true
    · rw [if_pos h5]
      by_cases h6 : s.asset_account_exists ⟨b.hashables.account, b.hashables.asset⟩ = true
      · rw [if_pos h6]
        by_cases h7 : b.hashables.previous = 0
        · rw [if_pos h7]; simp
        rw [if_neg h7]
        by_cases h8 : s.block_exists b.hashables.previous = false
        · rw [if_pos h8]; simp
        rw [if_neg h8]
        cases hag : s.asset_account_get ⟨b.hashables.account, b.hashables.asset⟩ with
        | none => simp
        | some ia =>
          dsimp only
          repeat' split
          all_goals first | (left; rfl) | (right; left; exact ⟨_, rfl⟩) | (right; right; rfl)
      · rw [if_neg h6]
        repeat' split
        all_goals first | (left; rfl) | (right; right; rfl)
    · rw [if_neg h5]
      repeat' split
      all_goals (left; rfl)

/-- A pending entry after `process` was there before or is the entry of the
processed block. -/
theorem process_pending_support (env : ledger_env) (now : Nat) (s : block_store) (b : block)
    (k : pending_key) (h : (ledger.process env now s b).2.pending k ≠ none) :
    s.pending k ≠ none ∨
      k = ⟨b.pending_account, env.hash b⟩ := by
  by_contra hcon
  rw [not_or] at hcon
  obtain ⟨hold, hk⟩ := hcon
  rw [not_not] at hold
  apply h
  cases b with
  | send x =>
    show (ledger_processor.send_block env now s x).2.pending k = none
    by_cases hc : (ledger_processor.send_block env now s x).1.code = process_result.progress
    · obtain ⟨_, _, _, _, he⟩ := send_block_accepted env now s x hc
      rw [he, send_block_apply_pending, Function.update_noteq
        (show ¬ k = ⟨x.hashables.destination, env.hash (block.send x)⟩ from hk)]
      exact hold
    · rw [send_block_refused env now s x hc]; exact hold
  | receive x =>
    show (ledger_processor.receive_block env now s x).2.pending k = none
    by_cases hc : (ledger_processor.receive_block env now s x).1.code = process_result.progress
    · obtain ⟨_, _, _, _, p, _, he⟩ := receive_block_accepted env now s x hc
      rw [he, receive_block_apply_pending]
      by_cases hj : k = ⟨s.frontier_get x.hashables.previous, x.hashables.source⟩
      · rw [hj, Function.update_same]
      · rw [Function.update_noteq hj]; exact hold
    · rw [receive_block_refused env now s x hc]; exact hold
  | opening x =>
    show (ledger_processor.open_block env now s x).2.pending k = none
    by_cases hc : (ledger_processor.open_block env now s x).1.code = process_result.progress
    · obtain ⟨_, _, _, _, p, _, he⟩ := open_block_accepted env now s x hc
      rw [he, open_block_apply_pending]
      by_cases hj : k = ⟨x.hashables.account, x.hashables.source⟩
      · rw [hj, Function.update_same]
      · rw [Function.update_noteq hj]; exact hold
    · rw [open_block_refused env now s x hc]; exact hold
  | change x =>
    show (ledger_processor.change_block env now s x).2.pending k = none
    by_cases hc : (ledger_processor.change_block env now s x).1.code = process_result.progress
    · obtain ⟨_, _, _, he⟩ := change_block_accepted env now s x hc
      rw [he, change_block_apply_pending]
      exact hold
    · rw [change_block_refused env now s x hc]; exact hold
  | state x =>
    show (ledger_processor.state_block env now s x).2.pending k = none
    by_cases hc : (ledger_processor.state_block env now s x).1.code = process_result.progress
    · obtain ⟨_, _, _, _, he⟩ := state_block_accepted env now s x hc
      rw [he, state_block_apply_pending]
      split_ifs
      · rw [Function.update_noteq
          (show ¬ k = ⟨x.hashables.link, env.hash (block.state x)⟩ from hk)]
        exact hold
      · by_cases hj : k = ⟨x.hashables.account, x.hashables.link⟩
        · rw [hj, Function.update_same]
        · rw [Function.update_noteq hj]; exact hold
      · exact hold
    · rw [state_block_refused env now s x hc]; exact hold
  | astate x =>
    show (ledger_processor.astate_block env now s x).2.pending k = none
    rcases astate_block_pending env now s x with he | ⟨p, he⟩ | he
    · rw [he]; exact hold
    · rw [he, Function.update_noteq
        (show ¬ k = ⟨x.hashables.link, env.hash (block.astate x)⟩ from hk)]
      exact hold
    · rw [he]
      by_cases hj : k = ⟨x.hashables.account, x.hashables.link⟩
      · rw [hj, Function.update_same]
      · rw [Function.update_noteq hj]; exact hold

/-- An account record after `process` was there before or belongs to the
account of the processed block. -/
theorem process_accounts_support (env : ledger_env) (now : Nat) (s : block_store) (b : block)
    (a : Nat) (hnz : env.hash b ≠ 0) (h : (ledger.process env now s b).2.accounts a ≠ none) :
    s.accounts a ≠ none ∨
      a = spec_written_account s b := by
  by_contra hcon
  rw [not_or] at hcon
  obtain ⟨hold, hk⟩ := hcon
  rw [not_not] at hold
  apply h
  cases b with
  | send x =>
    show (ledger_processor.send_block env now s x).2.accounts a = none
    by_cases hc : (ledger_processor.send_block env now s x).1.code = process_result.progress
    · obtain ⟨_, _, _, _, he⟩ := send_block_accepted env now s x hc
      rw [he, send_block_apply_accounts _ _ _ _ _ _ hnz, Function.update_noteq
        (show ¬ a = s.frontier_get x.hashables.previous from hk)]
      exact hold
    · rw [send_block_refused env now s x hc]; exact hold
  | receive x =>
    show (ledger_processor.receive_block env now s x).2.accounts a = none
    by_cases hc : (ledger_processor.receive_block env now s x).1.code = process_result.progress
    · obtain ⟨_, _, _, _, p, _, he⟩ := receive_block_accepted env now s x hc
      rw [he, receive_block_apply_accounts _ _ _ _ _ _ _ hnz, Function.update_noteq
        (show ¬ a = s.frontier_get x.hashables.previous from hk)]
      exact hold
    · rw [receive_block_refused env now s x hc]; exact hold
  | opening x =>
    show (ledger_processor.open_block env now s x).2.accounts a = none
    by_cases hc : (ledger_processor.open_block env now s x).1.code = process_result.progress
    · obtain ⟨_, _, _, _, p, _, he⟩ := open_block_accepted env now s x hc
      rw [he, open_block_apply_accounts _ _ _ _ _ _ hnz, Function.update_noteq
        (show ¬ a = x.hashables.account from hk)]
      exact hold
    · rw [open_block_refused env now s x hc]; exact hold
  | change x =>
    show (ledger_processor.change_block env now s x).2.accounts a = none
    by_cases hc : (ledger_processor.change_block env now s x).1.code = process_result.progress
    · obtain ⟨_, _, _, he⟩ := change_block_accepted env now s x hc
      rw [he, change_block_apply_accounts _ _ _ _ _ _ hnz, Function.update_noteq
        (show ¬ a = s.frontier_get x.hashables.previous from hk)]
      exact hold
    · rw [change_block_refused env now s x hc]; exact hold
  | state x =>
    show (ledger_processor.state_block env now s x).2.accounts a = none
    by_cases hc : (ledger_processor.state_block env now s x).1.code = process_result.progress
    · obtain ⟨_, _, _, _, he⟩ := state_block_accepted env now s x hc
      rw [he, state_block_apply_accounts _ _ _ _ _ _ _ hnz, Function.update_noteq
        (show ¬ a = x.hashables.account from hk)]
      exact hold
    · rw [state_block_refused env now s x hc]; exact hold
  | astate x =>
    obtain ⟨_, hacc, _⟩ := astate_block_tables env now s x
    show (ledger_processor.astate_block env now s x).2.accounts a = none
    rw [hacc]; exact hold

/-- C23, amended. For a ledger state whose pending entries all belong to stored
blocks and a send, receive, open, change or state block of non-zero hash that
`process` accepts, the sum of all pending amounts plus the sum of all account
balances is the same modulo 2^128 before and after the call, and the same number
unless a legacy receive wraps the balance of its account. -/
theorem pending_symmetry_modulo (env : ledger_env) (now : Nat) (s : block_store) (b : block)
    (hkind : ∀ a, b ≠ block.astate a)
    (hacc : (ledger.process env now s b).1.code = process_result.progress)
    (hnz : env.hash b ≠ 0)
    (hstored : ∀ k, s.pending k ≠ none → s.blocks k.hash ≠ none)
    (K K1 : Finset pending_key) (A A1 : Finset Nat) (hc : spec_covers s K A)
    (hc1 : spec_covers (ledger.process env now s b).2 K1 A1) :
    spec_ledger_total (ledger.process env now s b).2 K1 A1 % 2 ^ 128 =
        spec_ledger_total s K A % 2 ^ 128 ∧
      (spec_receive_fits s b →
        spec_ledger_total (ledger.process env now s b).2 K1 A1 = spec_ledger_total s K A) := by
  have hfresh : ∀ d, s.blocks (env.hash b) = none → s.pending ⟨d, env.hash b⟩ = none := by
    intro d hb
    by_contra hp
    exact hstored _ hp hb
  have key : ∃ q, spec_ledger_total s K A =
      spec_ledger_total (ledger.process env now s b).2 K1 A1 + 2 ^ 128 * q ∧
      (spec_receive_fits s b → q = 0) := by
    cases b with
    | send x =>
      have hacc1 : (ledger_processor.send_block env now s x).1.code = process_result.progress :=
        hacc
      obtain ⟨hnew, _, _, hle, he⟩ := send_block_accepted env now s x hacc1
      change spec_covers (ledger_processor.send_block env now s x).2 K1 A1 at hc1
      show ∃ q, spec_ledger_total s K A =
        spec_ledger_total (ledger_processor.send_block env now s x).2 K1 A1 + 2 ^ 128 * q ∧ _
      rw [he] at hc1 ⊢
      exact ⟨0, send_block_apply_total env now s x _ hnz (hfresh _ hnew) hle K K1 A A1 hc hc1,
        fun _ => rfl⟩
    | receive x =>
      have hacc1 : (ledger_processor.receive_block env now s x).1.code
          = process_result.progress := hacc
      obtain ⟨_, _, _, _, p, hp, he⟩ := receive_block_accepted env now s x hacc1
      change spec_covers (ledger_processor.receive_block env now s x).2 K1 A1 at hc1
      show ∃ q, spec_ledger_total s K A =
        spec_ledger_total (ledger_processor.receive_block env now s x).2 K1 A1 + 2 ^ 128 * q ∧ _
      rw [he] at hc1 ⊢
      refine ⟨_, receive_block_apply_total env now s x _ p hnz hp K K1 A A1 hc hc1, fun hfit => ?_⟩
      exact Nat.div_eq_of_lt (hfit p hp)
    | opening x =>
      have hacc1 : (ledger_processor.open_block env now s x).1.code = process_result.progress :=
        hacc
      obtain ⟨_, _, hnone, _, p, hp, he⟩ := open_block_accepted env now s x hacc1
      change spec_covers (ledger_processor.open_block env now s x).2 K1 A1 at hc1
      show ∃ q, spec_ledger_total s K A =
        spec_ledger_total (ledger_processor.open_block env now s x).2 K1 A1 + 2 ^ 128 * q ∧ _
      rw [he] at hc1 ⊢
      exact ⟨0, open_block_apply_total env now s x _ p hnz hnone hp K K1 A A1 hc hc1,
        fun _ => rfl⟩
    | change x =>
      have hacc1 : (ledger_processor.change_block env now s x).1.code
          = process_result.progress := hacc
      obtain ⟨_, _, _, he⟩ := change_block_accepted env now s x hacc1
      change spec_covers (ledger_processor.change_block env now s x).2 K1 A1 at hc1
      show ∃ q, spec_ledger_total s K A =
        spec_ledger_total (ledger_processor.change_block env now s x).2 K1 A1 + 2 ^ 128 * q ∧ _
      rw [he] at hc1 ⊢
      exact ⟨0, change_block_apply_total env now s x _ hnz K K1 A A1 hc hc1, fun _ => rfl⟩
    | state x =>
      have hacc1 : (ledger_processor.state_block env now s x).1.code = process_result.progress :=
        hacc
      obtain ⟨hnew, _, hchk, hlink, he⟩ := state_block_accepted env now s x hacc1
      change spec_covers (ledger_processor.state_block env now s x).2 K1 A1 at hc1
      show ∃ q, spec_ledger_total s K A =
        spec_ledger_total (ledger_processor.state_block env now s x).2 K1 A1 + 2 ^ 128 * q ∧ _
      rw [he] at hc1 ⊢
      exact ⟨0, state_block_apply_total env now s x hnz (hfresh _ hnew) hchk hlink K K1 A A1
        hc hc1, fun _ => rfl⟩
    | astate x => exact absurd rfl (hkind x)
  obtain ⟨q, hq, hfit⟩ := key
  refine ⟨?_, fun h => ?_⟩
  · rw [hq, Nat.add_mul_mod_self_left]
  · rw [hq, hfit h]
    rfl

/-- The store after the asset send is reachable. -/
theorem after_asset_send_reachable : reachable env after_asset_send :=
  reachable.process _ 8 _ (reachable.process _ 7 _ (reachable.process _ 6 _
    (reachable.process _ 5 _ (reachable.genesis genesis_block 100 1))))

theorem after_asset_send_pending (k : pending_key) (hk : after_asset_send.pending k ≠ none) :
    k = ⟨2, env.hash (block.astate asset_send)⟩ := by
  rcases process_pending_support env 8 after_asset_create (block.astate asset_send) k hk
    with h4 | h4
  · rcases process_pending_support env 7 after_open2 (block.astate asset_create) k h4
      with h3 | h3
    · rcases process_pending_support env 6 after_send1 (block.opening open2) k h3 with h2 | h2
      · rcases process_pending_support env 5 genesis (block.send send1) k h2 with h1 | h1
        · exact absurd rfl h1
        · rw [h1] at hk
          exact absurd (by decide) hk
      · rw [h2] at hk
        exact absurd (by decide) hk
    · rw [h3] at hk
      exact absurd (by decide) hk
  · exact h4

theorem after_asset_send_accounts (a : Nat) (ha : after_asset_send.accounts a ≠ none) :
    a = 1 ∨ a = 2 := by
  rcases process_accounts_support env 8 after_asset_create (block.astate asset_send) a
    (by decide) ha with h4 | h4
  · rcases process_accounts_support env 7 after_open2 (block.astate asset_create) a
      (by decide) h4 with h3 | h3
    · rcases process_accounts_support env 6 after_send1 (block.opening open2) a
        (by decide) h3 with h2 | h2
      · rcases process_accounts_support env 5 genesis (block.send send1) a
          (by decide) h2 with h1 | h1
        · left
          by_contra hne
          apply h1
          show (if a = 1 then some (⟨34, 34, 34, 100, 1, 1⟩ : account_info) else none) = none
          rw [if_neg hne]
        · left
          rw [h1]
          decide
      · right
        exact h2
    · rw [h3] at ha
      exact absurd (by decide) ha
  · rw [h4] at ha
    exact absurd (by decide) ha

/-- C23 fails as stated: in the reachable store `after_asset_send` account `2`
holds 10 and has a pending entry of `2 ^ 128 - 1`; `process` accepts its legacy
receive block, the entry goes, the balance wraps to 9, and the sum of all pending
amounts and balances drops by `2 ^ 128`. -/
theorem pending_symmetry_wraps :
    reachable env after_asset_send ∧
      (ledger.process env 9 after_asset_send (block.receive receive_asset)).1.code
        = process_result.progress ∧
      spec_covers after_asset_send {⟨2, env.hash (block.astate asset_send)⟩} {1, 2} ∧
      spec_covers (ledger.process env 9 after_asset_send (block.receive receive_asset)).2
        {⟨2, env.hash (block.astate asset_send)⟩} {1, 2} ∧
      spec_ledger_total after_asset_send {⟨2, env.hash (block.astate asset_send)⟩} {1, 2}
        = 2 ^ 128 + 99 ∧
      spec_ledger_total (ledger.process env 9 after_asset_send (block.receive receive_asset)).2
        {⟨2, env.hash (block.astate asset_send)⟩} {1, 2} = 99 := by
  refine ⟨after_asset_send_reachable, by decide, ⟨fun k hk => ?_, fun a ha => ?_⟩,
    ⟨fun k hk => ?_, fun a ha => ?_⟩, by decide, by decide⟩
  · rw [after_asset_send_pending k hk]
    exact Finset.mem_singleton_self _
  · rcases after_asset_send_accounts a ha with h | h <;> rw [h] <;> decide
  · rcases process_pending_support env 9 after_asset_send (block.receive receive_asset) k hk
      with h | h
    · rw [after_asset_send_pending k h]
      exact Finset.mem_singleton_self _
    · rw [h] at hk
      exact absurd (by decide) hk
  · rcases process_accounts_support env 9 after_asset_send (block.receive receive_asset) a
      (by decide) ha with h | h
    · rcases after_asset_send_accounts a h with h | h <;> rw [h] <;> decide
    · rw [h]
      decide

theorem genesis_covers : spec_covers genesis ∅ {1} := by
  refine ⟨fun k hk => absurd rfl hk, fun a ha => ?_⟩
  by_contra hne
  apply ha
  show (if a = 1 then some (⟨34, 34, 34, 100, 1, 1⟩ : account_info) else none) = none
  rw [if_neg (by simpa using hne)]

theorem after_send1_covers :
    spec_covers (ledger.process env 5 genesis (block.send send1)).2 {⟨2, 1262⟩} {1} := by
  refine ⟨fun k hk => ?_, fun a ha => ?_⟩
  · rcases process_pending_support env 5 genesis (block.send send1) k hk with h | h
    · exact absurd rfl h
    · rw [h]
      decide
  · rcases process_accounts_support env 5 genesis (block.send send1) a (by decide) ha with h | h
    · exact genesis_covers.2 a h
    · rw [h]
      decide

/-- C23, amended, on the concrete ledger: `send1` moves 10 from the balance of
account `1` to the pending table, and the total stays 100. -/
theorem pending_symmetry_modulo_witness :
    spec_ledger_total (ledger.process env 5 genesis (block.send send1)).2 {⟨2, 1262⟩} {1}
      = spec_ledger_total genesis ∅ {1} :=
  (pending_symmetry_modulo env 5 genesis (block.send send1) (fun a h => by cases h) (by decide)
    (by decide) (fun k hk => absurd rfl hk) ∅ {⟨2, 1262⟩} {1} {1} genesis_covers
    after_send1_covers).2 trivial

/-! ## The frontier invariant under `process` (C24) -/

/-- Legacy heads of the accounts that a put leaves alone. -/
theorem legacy_head_put_other (s s1 : block_store) (h a k : Nat) (b : block)
    (hblk : ∀ k, s1.block_get k = if k = h then some b else s.block_get k)
    (hnew : s.block_get h = none) (hacc : s1.accounts a = s.accounts a)
    (hstored : spec_heads_stored s) :
    spec_legacy_head s1 a k ↔ spec_legacy_head s a k := by
  unfold spec_legacy_head
  rw [hacc]
  constructor
  · rintro ⟨info, c, hi, hh, hc, ht⟩
    have hkh : k ≠ h := by
      intro e
      apply hstored a info hi
      rw [hh, e]
      exact hnew
    rw [hblk, if_neg hkh] at hc
    exact ⟨info, c, hi, hh, hc, ht⟩
  · rintro ⟨info, c, hi, hh, hc, ht⟩
    have hkh : k ≠ h := by
      intro e
      rw [e, hnew] at hc
      cases hc
    refine ⟨info, c, hi, hh, ?_, ht⟩
    rw [hblk, if_neg hkh]
    exact hc

/-- Legacy head of the account whose record a put writes. -/
theorem legacy_head_put_self (s s1 : block_store) (h A k : Nat) (b : block) (rec : account_info)
    (hblk : ∀ k, s1.block_get k = if k = h then some b else s.block_get k)
    (hrec : s1.accounts A = some rec) (hhead : rec.head = h) :
    spec_legacy_head s1 A k ↔ k = h ∧ b.type < block_type_state := by
  unfold spec_legacy_head
  constructor
  · rintro ⟨info, c, hi, hh, hc, ht⟩
    rw [hrec] at hi
    cases hi
    rw [hhead] at hh
    subst hh
    rw [hblk, if_pos rfl] at hc
    cases hc
    exact ⟨rfl, ht⟩
  · rintro ⟨rfl, ht⟩
    exact ⟨rec, b, hrec, hhead, by rw [hblk, if_pos rfl], ht⟩

theorem frontier_get_update (f : Nat → Option Nat) (k h : Nat) (v : Option Nat) :
    (Function.update f h v k).getD 0 = if k = h then v.getD 0 else (f k).getD 0 := by
  by_cases hk : k = h
  · subst hk; simp
  · simp [Function.update_noteq hk, hk]

/-- The frontier invariant after an accepted legacy send, receive or change
block. -/
theorem frontier_invariant_legacy_put (s s1 : block_store) (h A p : Nat) (b : block)
    (hFI : frontier_invariant s) (hstored : spec_heads_stored s)
    (hblk : ∀ k, s1.block_get k = if k = h then some b else s.block_get k)
    (hnew : s.block_get h = none) (hleg : b.type < block_type_state)
    (hrec0 : (s1.accounts A).map account_info.head = some h)
    (hoff : ∀ a, a ≠ A → s1.accounts a = s.accounts a)
    (hfr : s1.frontiers = Function.update (Function.update s.frontiers p none) h (some A))
    (hA : s.frontier_get p = A) (hA0 : A ≠ 0) :
    frontier_invariant s1 := by
  obtain ⟨rec, hrec, hhead⟩ : ∃ rec, s1.accounts A = some rec ∧ rec.head = h := by
    cases hs : s1.accounts A with
    | none => rw [hs] at hrec0; cases hrec0
    | some r => exact ⟨r, rfl, by rw [hs] at hrec0; exact Option.some.inj hrec0⟩
  have hAp : spec_legacy_head s A p := by
    obtain ⟨a, ha⟩ := ((hFI p).1).mp (by rw [hA]; exact hA0)
    have := (hFI p).2 a ha
    rw [hA] at this
    rw [this]
    exact ha
  have hph : p ≠ h := by
    obtain ⟨info, c, _, _, hc, _⟩ := hAp
    intro e
    rw [e, hnew] at hc
    cases hc
  have hself := legacy_head_put_self s s1 h A
  have hother : ∀ a k, a ≠ A → (spec_legacy_head s1 a k ↔ spec_legacy_head s a k) :=
    fun a k ha => legacy_head_put_other s s1 h a k b hblk hnew (hoff a ha) hstored
  have hAonly : ∀ k, spec_legacy_head s A k → k = p := by
    rintro k ⟨info, c, hi, hh, _, _⟩
    obtain ⟨info2, c2, hi2, hh2, _, _⟩ := hAp
    rw [hi] at hi2
    cases hi2
    rw [← hh, hh2]
  have hfg : ∀ k, s1.frontier_get k =
      if k = h then A else if k = p then 0 else s.frontier_get k := by
    intro k
    simp only [block_store.frontier_get, hfr, frontier_get_update]
    rfl
  intro k
  rw [hfg]
  by_cases hkh : k = h
  · subst hkh
    rw [if_pos rfl]
    refine ⟨⟨fun _ => ⟨A, (hself k b rec hblk hrec hhead).mpr ⟨rfl, hleg⟩⟩, fun _ => hA0⟩,
      fun a ha => ?_⟩
    by_contra hne
    have hne2 : a ≠ A := fun e => hne e.symm
    obtain ⟨_, c, _, _, hc, _⟩ := (hother a k hne2).mp ha
    rw [hnew] at hc
    cases hc
  · rw [if_neg hkh]
    by_cases hkp : k = p
    · subst hkp
      rw [if_pos rfl]
      have hno : ¬ ∃ a, spec_legacy_head s1 a k := by
        rintro ⟨a, ha⟩
        by_cases haA : a = A
        · subst haA
          exact hkh ((hself k b rec hblk hrec hhead).mp ha).1
        · have h1 := (hFI k).2 a ((hother a k haA).mp ha)
          rw [hA] at h1
          exact haA h1.symm
      exact ⟨⟨fun h0 => absurd rfl h0, fun he => absurd he hno⟩,
        fun a ha => absurd ⟨a, ha⟩ hno⟩
    · rw [if_neg hkp]
      have hiff : ∀ a, spec_legacy_head s1 a k ↔ spec_legacy_head s a k := by
        intro a
        by_cases haA : a = A
        · subst haA
          constructor
          · intro ha
            exact absurd ((hself k b rec hblk hrec hhead).mp ha).1 hkh
          · intro ha
            exact absurd (hAonly k ha) hkp
        · exact hother a k haA
      refine ⟨?_, fun a ha => (hFI k).2 a ((hiff a).mp ha)⟩
      rw [(hFI k).1]
      exact ⟨fun ⟨a, ha⟩ => ⟨a, (hiff a).mpr ha⟩, fun ⟨a, ha⟩ => ⟨a, (hiff a).mp ha⟩⟩

/-- The frontier invariant after an accepted legacy open block. -/
theorem frontier_invariant_open_put (s s1 : block_store) (h A : Nat) (b : block)
    (hFI : frontier_invariant s) (hstored : spec_heads_stored s)
    (hblk : ∀ k, s1.block_get k = if k = h then some b else s.block_get k)
    (hnew : s.block_get h = none) (hleg : b.type < block_type_state)
    (hrec0 : (s1.accounts A).map account_info.head = some h)
    (hoff : ∀ a, a ≠ A → s1.accounts a = s.accounts a)
    (hfr : s1.frontiers = Function.update s.frontiers h (some A))
    (hnone : s.accounts A = none) (hA0 : A ≠ 0) :
    frontier_invariant s1 := by
  obtain ⟨rec, hrec, hhead⟩ : ∃ rec, s1.accounts A = some rec ∧ rec.head = h := by
    cases hs : s1.accounts A with
    | none => rw [hs] at hrec0; cases hrec0
    | some r => exact ⟨r, rfl, by rw [hs] at hrec0; exact Option.some.inj hrec0⟩
  have hself := legacy_head_put_self s s1 h A
  have hother : ∀ a k, a ≠ A → (spec_legacy_head s1 a k ↔ spec_legacy_head s a k) :=
    fun a k ha => legacy_head_put_other s s1 h a k b hblk hnew (hoff a ha) hstored
  have hAnone : ∀ k, ¬ spec_legacy_head s A k := by
    rintro k ⟨info, c, hi, _⟩
    rw [hnone] at hi
    cases hi
  have hfg : ∀ k, s1.frontier_get k = if k = h then A else s.frontier_get k := by
    intro k
    simp only [block_store.frontier_get, hfr, frontier_get_update]
    rfl
  intro k
  rw [hfg]
  by_cases hkh : k = h
  · subst hkh
    rw [if_pos rfl]
    refine ⟨⟨fun _ => ⟨A, (hself k b rec hblk hrec hhead).mpr ⟨rfl, hleg⟩⟩, fun _ => hA0⟩,
      fun a ha => ?_⟩
    by_contra hne
    have hne2 : a ≠ A := fun e => hne e.symm
    obtain ⟨_, c, _, _, hc, _⟩ := (hother a k hne2).mp ha
    rw [hnew] at hc
    cases hc
  · rw [if_neg hkh]
    have hiff : ∀ a, spec_legacy_head s1 a k ↔ spec_legacy_head s a k := by
      intro a
      by_cases haA : a = A
      · subst haA
        constructor
        · intro ha
          exact absurd ((hself k b rec hblk hrec hhead).mp ha).1 hkh
        · intro ha
          exact absurd ha (hAnone k)
      · exact hother a k haA
    refine ⟨?_, fun a ha => (hFI k).2 a ((hiff a).mp ha)⟩
    rw [(hFI k).1]
    exact ⟨fun ⟨a, ha⟩ => ⟨a, (hiff a).mpr ha⟩, fun ⟨a, ha⟩ => ⟨a, (hiff a).mp ha⟩⟩

/-- No frontier entry sits at a hash that is not stored. -/
theorem frontier_invariant_unstored (s : block_store) (hFI : frontier_invariant s) (h : Nat)
    (hnew : s.block_get h = none) : s.frontier_get h = 0 := by
  by_contra hne
  obtain ⟨a, _, c, _, _, hc, _⟩ := ((hFI h).1).mp hne
  rw [hnew] at hc
  cases hc

/-- The frontier invariant after an accepted state block: `oldh` is the head of
the prior record, zero when the account is new. -/
theorem frontier_invariant_state_put (s s1 : block_store) (h A oldh : Nat) (b : block)
    (hFI : frontier_invariant s) (hstored : spec_heads_stored s)
    (hblk : ∀ k, s1.block_get k = if k = h then some b else s.block_get k)
    (hnew : s.block_get h = none) (hstate : ¬ b.type < block_type_state)
    (hrec0 : (s1.accounts A).map account_info.head = some h)
    (hoff : ∀ a, a ≠ A → s1.accounts a = s.accounts a)
    (hfr : s1.frontiers =
      if s.frontier_get oldh ≠ 0 then Function.update s.frontiers oldh none else s.frontiers)
    (hold : (∃ info, s.accounts A = some info ∧ info.head = oldh) ∨
      (s.accounts A = none ∧ s.block_get oldh = none)) :
    frontier_invariant s1 := by
  obtain ⟨rec, hrec, hhead⟩ : ∃ rec, s1.accounts A = some rec ∧ rec.head = h := by
    cases hs : s1.accounts A with
    | none => rw [hs] at hrec0; cases hrec0
    | some r => exact ⟨r, rfl, by rw [hs] at hrec0; exact Option.some.inj hrec0⟩
  have hself := legacy_head_put_self s s1 h A
  have hother : ∀ a k, a ≠ A → (spec_legacy_head s1 a k ↔ spec_legacy_head s a k) :=
    fun a k ha => legacy_head_put_other s s1 h a k b hblk hnew (hoff a ha) hstored
  have hAself : ∀ k, ¬ spec_legacy_head s1 A k := fun k ha =>
    hstate ((hself k b rec hblk hrec hhead).mp ha).2
  have hAonly : ∀ k, spec_legacy_head s A k → k = oldh := by
    rintro k ⟨info, c, hi, hh, _, _⟩
    rcases hold with ⟨info2, hi2, hh2⟩ | ⟨hn, _⟩
    · rw [hi] at hi2
      cases hi2
      rw [← hh, hh2]
    · rw [hn] at hi
      cases hi
  have hfg : ∀ k, s1.frontier_get k = if k = oldh then 0 else s.frontier_get k := by
    intro k
    simp only [block_store.frontier_get] at hfr ⊢
    rw [hfr]
    split_ifs with h1 h2 h2
    · subst h2; simp
    · rw [Function.update_noteq h2]
    · subst h2
      exact not_not.mp h1
    · rfl
  intro k
  rw [hfg]
  by_cases hkp : k = oldh
  · subst hkp
    rw [if_pos rfl]
    have hno : ¬ ∃ a, spec_legacy_head s1 a k := by
      rintro ⟨a, ha⟩
      by_cases haA : a = A
      · subst haA
        exact hAself k ha
      · have hsa := (hother a k haA).mp ha
        rcases hold with ⟨info2, hi2, hh2⟩ | ⟨_, hn⟩
        · obtain ⟨_, c, _, _, hc, ht⟩ := hsa
          have hA : spec_legacy_head s A k := ⟨info2, c, hi2, hh2, hc, ht⟩
          have h1 := (hFI k).2 a ⟨_, c, ‹_›, ‹_›, hc, ht⟩
          have h2 := (hFI k).2 A hA
          exact haA (h1.symm.trans h2)
        · obtain ⟨_, c, _, _, hc, _⟩ := hsa
          rw [hn] at hc
          cases hc
    exact ⟨⟨fun h0 => absurd rfl h0, fun he => absurd he hno⟩,
      fun a ha => absurd ⟨a, ha⟩ hno⟩
  · rw [if_neg hkp]
    have hiff : ∀ a, spec_legacy_head s1 a k ↔ spec_legacy_head s a k := by
      intro a
      by_cases haA : a = A
      · subst haA
        constructor
        · intro ha
          exact absurd ha (hAself k)
        · intro ha
          exact absurd (hAonly k ha) hkp
      · exact hother a k haA
    refine ⟨?_, fun a ha => (hFI k).2 a ((hiff a).mp ha)⟩
    rw [(hFI k).1]
    exact ⟨fun ⟨a, ha⟩ => ⟨a, (hiff a).mpr ha⟩, fun ⟨a, ha⟩ => ⟨a, (hiff a).mp ha⟩⟩

/-- The frontier invariant after a step that only adds a block that is not a
legacy block (an astate block), or adds nothing. -/
theorem frontier_invariant_congr (s s1 : block_store) (hFI : frontier_invariant s)
    (hacc : s1.accounts = s.accounts) (hfr : s1.frontiers = s.frontiers)
    (hblk : ∀ k c, c.type < block_type_state → (s1.block_get k = some c ↔ s.block_get k = some c)) :
    frontier_invariant s1 := by
  have hiff : ∀ a k, spec_legacy_head s1 a k ↔ spec_legacy_head s a k := by
    intro a k
    unfold spec_legacy_head
    rw [hacc]
    constructor
    · rintro ⟨info, c, hi, hh, hc, ht⟩
      exact ⟨info, c, hi, hh, (hblk k c ht).mp hc, ht⟩
    · rintro ⟨info, c, hi, hh, hc, ht⟩
      exact ⟨info, c, hi, hh, (hblk k c ht).mpr hc, ht⟩
  have hfg : ∀ k, s1.frontier_get k = s.frontier_get k := by
    intro k
    simp only [block_store.frontier_get, hfr]
  intro k
  rw [hfg]
  refine ⟨?_, fun a ha => (hFI k).2 a ((hiff a k).mp ha)⟩
  rw [(hFI k).1]
  exact ⟨fun ⟨a, ha⟩ => ⟨a, (hiff a k).mpr ha⟩, fun ⟨a, ha⟩ => ⟨a, (hiff a k).mp ha⟩⟩

theorem block_get_put (s : block_store) (h : Nat) (b : block) (k : Nat) :
    (block_store.blocks_put s.blocks h b k).map stored_block.contents =
      if k = h then some b else s.block_get k :=
  blocks_put_contents s.blocks h b k

theorem astate_block_old (env : ledger_env) (now : Nat) (s : block_store) (b : mol.astate_block)
    (h : s.block_exists (env.hash (block.astate b)) = true) :
    (ledger_processor.astate_block env now s b).2 = s := by
  unfold ledger_processor.astate_block
  dsimp only
  rw [if_pos h]

/-- `process` keeps the frontier invariant of a store whose account heads are
stored blocks. -/
theorem process_frontier_invariant (env : ledger_env) (now : Nat) (s : block_store) (b : block)
    (hFI : frontier_invariant s) (hstored : spec_heads_stored s)
    (h0 : s.block_get 0 = none) (hburn : env.burn_account = 0) (hnz : env.hash b ≠ 0) :
    frontier_invariant (ledger.process env now s b).2 := by
  cases b with
  | send x =>
    show frontier_invariant (ledger_processor.send_block env now s x).2
    by_cases hc : (ledger_processor.send_block env now s x).1.code = process_result.progress
    · obtain ⟨hnew, _, hf, _, he⟩ := send_block_accepted env now s x hc
      rw [he]
      refine frontier_invariant_legacy_put s _ (env.hash (block.send x))
        (s.frontier_get x.hashables.previous) x.hashables.previous (block.send x) hFI hstored
        (fun k => ?_) (by simp [hnew]) (by simp [block.type, block_type_state]) ?_ (fun a ha => ?_) ?_ rfl hf
      · simp only [block_store.block_get]
        rw [send_block_apply_blocks]
        exact block_get_put s _ _ k
      · rw [send_block_apply_accounts _ _ _ _ _ _ hnz, Function.update_same]
        rfl
      · rw [send_block_apply_accounts _ _ _ _ _ _ hnz, Function.update_noteq ha]
      · rw [send_block_apply_frontiers]
    · rw [send_block_refused env now s x hc]; exact hFI
  | receive x =>
    show frontier_invariant (ledger_processor.receive_block env now s x).2
    by_cases hc : (ledger_processor.receive_block env now s x).1.code = process_result.progress
    · obtain ⟨hnew, _, hf, _, p, _, he⟩ := receive_block_accepted env now s x hc
      rw [he]
      refine frontier_invariant_legacy_put s _ (env.hash (block.receive x))
        (s.frontier_get x.hashables.previous) x.hashables.previous (block.receive x) hFI
        hstored (fun k => ?_) (by simp [hnew]) (by simp [block.type, block_type_state]) ?_ (fun a ha => ?_) ?_ rfl hf
      · simp only [block_store.block_get]
        rw [receive_block_apply_blocks]
        exact block_get_put s _ _ k
      · rw [receive_block_apply_accounts _ _ _ _ _ _ _ hnz, Function.update_same]
        rfl
      · rw [receive_block_apply_accounts _ _ _ _ _ _ _ hnz, Function.update_noteq ha]
      · rw [receive_block_apply_frontiers]
    · rw [receive_block_refused env now s x hc]; exact hFI
  | opening x =>
    show frontier_invariant (ledger_processor.open_block env now s x).2
    by_cases hc : (ledger_processor.open_block env now s x).1.code = process_result.progress
    · obtain ⟨hnew, _, hnone, hb, p, _, he⟩ := open_block_accepted env now s x hc
      rw [he]
      refine frontier_invariant_open_put s _ (env.hash (block.opening x))
        x.hashables.account (block.opening x) hFI hstored
        (fun k => ?_) (by simp [hnew]) (by simp [block.type, block_type_state]) ?_ (fun a ha => ?_) ?_ hnone
        (by rw [← hburn]; exact hb)
      · simp only [block_store.block_get]
        rw [open_block_apply_blocks]
        exact block_get_put s _ _ k
      · rw [open_block_apply_accounts _ _ _ _ _ _ hnz, Function.update_same]
        rfl
      · rw [open_block_apply_accounts _ _ _ _ _ _ hnz, Function.update_noteq ha]
      · rw [open_block_apply_frontiers]
    · rw [open_block_refused env now s x hc]; exact hFI
  | change x =>
    show frontier_invariant (ledger_processor.change_block env now s x).2
    by_cases hc : (ledger_processor.change_block env now s x).1.code = process_result.progress
    · obtain ⟨hnew, _, hf, he⟩ := change_block_accepted env now s x hc
      rw [he]
      refine frontier_invariant_legacy_put s _ (env.hash (block.change x))
        (s.frontier_get x.hashables.previous) x.hashables.previous (block.change x) hFI
        hstored (fun k => ?_) (by simp [hnew]) (by simp [block.type, block_type_state]) ?_ (fun a ha => ?_) ?_ rfl hf
      · simp only [block_store.block_get]
        rw [change_block_apply_blocks]
        exact block_get_put s _ _ k
      · rw [change_block_apply_accounts _ _ _ _ _ _ hnz, Function.update_same]
        rfl
      · rw [change_block_apply_accounts _ _ _ _ _ _ hnz, Function.update_noteq ha]
      · rw [change_block_apply_frontiers]
    · rw [change_block_refused env now s x hc]; exact hFI
  | state x =>
    show frontier_invariant (ledger_processor.state_block env now s x).2
    by_cases hc : (ledger_processor.state_block env now s x).1.code = process_result.progress
    · obtain ⟨hnew, _, _, _, he⟩ := state_block_accepted env now s x hc
      rw [he]
      refine frontier_invariant_state_put s _ (env.hash (block.state x))
        x.hashables.account ((s.account_get x.hashables.account).getD account_info.zero).head
        (block.state x) hFI hstored
        (fun k => ?_) (by simp [hnew]) (by simp [block.type, block_type_state]) ?_ (fun a ha => ?_) ?_ ?_
      · simp only [block_store.block_get]
        rw [state_block_apply_blocks]
        exact block_get_put s _ _ k
      · rw [state_block_apply_accounts _ _ _ _ _ _ _ hnz, Function.update_same]
        rfl
      · rw [state_block_apply_accounts _ _ _ _ _ _ _ hnz, Function.update_noteq ha]
      · rw [state_block_apply_frontiers]
      · cases hi : s.accounts x.hashables.account with
        | none =>
          right
          simp only [block_store.account_get, hi, Option.getD_none, account_info.zero]
          exact ⟨trivial, h0⟩
        | some info =>
          left
          exact ⟨info, rfl, by simp [hi]⟩
    · rw [state_block_refused env now s x hc]; exact hFI
  | astate x =>
    show frontier_invariant (ledger_processor.astate_block env now s x).2
    by_cases hex : s.block_exists (env.hash (block.astate x)) = true
    · rw [astate_block_old env now s x hex]; exact hFI
    · obtain ⟨hfr, hacc, _, _, _, hb⟩ := astate_block_tables env now s x
      refine frontier_invariant_congr s _ hFI hacc hfr (fun k c hc => ?_)
      rcases hb with hb | hb
      · simp only [block_store.block_get, hb]
      · simp only [block_store.block_get] at hex ⊢
        rw [hb, block_get_put]
        by_cases hk : k = env.hash (block.astate x)
        · subst hk
          rw [if_pos rfl]
          have hn : s.blocks (env.hash (block.astate x)) = none := by
            cases hs : s.blocks (env.hash (block.astate x)) with
            | none => rfl
            | some r => simp [hs] at hex
          simp only [block_store.block_get, hn, Option.map_none']
          constructor
          · intro h
            cases h
            exact absurd hc (by simp [block.type, block_type_state])
          · intro h
            cases h
        · rw [if_neg hk]
          rfl

/-! ## The frontier invariant under the undo steps (C24) -/

theorem head_of_map (s : block_store) (a h : Nat)
    (hm : (s.accounts a).map account_info.head = some h) :
    ∃ rec, s.accounts a = some rec ∧ rec.head = h := by
  cases hs : s.accounts a with
  | none => rw [hs] at hm; cases hm
  | some r => exact ⟨r, rfl, by rw [hs] at hm; exact Option.some.inj hm⟩

/-- Legacy heads of the accounts that an undo leaves alone. -/
theorem legacy_head_del_other (s s1 : block_store) (h X a k : Nat)
    (hFI : frontier_invariant s)
    (hblk : ∀ k, s1.block_get k = if k = h then none else s.block_get k)
    (hXh : (s.accounts X).map account_info.head = some h)
    (hacc : s1.accounts a = s.accounts a) (ha : a ≠ X) :
    spec_legacy_head s1 a k ↔ spec_legacy_head s a k := by
  obtain ⟨rec, hrec, hhead⟩ := head_of_map s X h hXh
  unfold spec_legacy_head
  rw [hacc]
  constructor
  · rintro ⟨info, c, hi, hh, hc, ht⟩
    have hkh : k ≠ h := by
      intro e
      rw [hblk, if_pos e] at hc
      cases hc
    rw [hblk, if_neg hkh] at hc
    exact ⟨info, c, hi, hh, hc, ht⟩
  · rintro ⟨info, c, hi, hh, hc, ht⟩
    have hkh : k ≠ h := by
      intro e
      subst e
      have h1 := (hFI k).2 a ⟨info, c, hi, hh, hc, ht⟩
      have h2 := (hFI k).2 X ⟨rec, c, hrec, hhead, hc, ht⟩
      exact ha (h1.symm.trans h2)
    refine ⟨info, c, hi, hh, ?_, ht⟩
    rw [hblk, if_neg hkh]
    exact hc

/-- The frontier invariant after the undo of a legacy send, receive or change
block `b` (hash `h`, previous `p`) that is the head of account `X`. -/
theorem frontier_invariant_legacy_del (s s1 : block_store) (h X p : Nat) (b : block)
    (hFI : frontier_invariant s)
    (hblk : ∀ k, s1.block_get k = if k = h then none else s.block_get k)
    (hb : s.block_get h = some b) (hleg : b.type < block_type_state)
    (hXh : (s.accounts X).map account_info.head = some h)
    (hXp : (s1.accounts X).map account_info.head = some p)
    (hoff : ∀ a, a ≠ X → s1.accounts a = s.accounts a)
    (hfr : s1.frontiers = Function.update (Function.update s.frontiers h none) p (some X))
    (hp : ∃ c, s.block_get p = some c ∧ c.type < block_type_state)
    (hnohead : ∀ a info, s.accounts a = some info → info.head ≠ p) :
    frontier_invariant s1 := by
  obtain ⟨rec, hrec, hhead⟩ := head_of_map s X h hXh
  obtain ⟨rec1, hrec1, hhead1⟩ := head_of_map s1 X p hXp
  obtain ⟨cp, hcp, htp⟩ := hp
  have hph : p ≠ h := fun e => hnohead X rec hrec (by rw [hhead, e])
  have hX0 : X ≠ 0 := by
    have h1 := (hFI h).2 X ⟨rec, b, hrec, hhead, hb, hleg⟩
    have h2 := ((hFI h).1).mpr ⟨X, rec, b, hrec, hhead, hb, hleg⟩
    rw [h1] at h2
    exact h2
  have hother : ∀ a k, a ≠ X → (spec_legacy_head s1 a k ↔ spec_legacy_head s a k) :=
    fun a k ha => legacy_head_del_other s s1 h X a k hFI hblk hXh (hoff a ha) ha
  have hself1 : ∀ k, spec_legacy_head s1 X k ↔ k = p := by
    intro k
    constructor
    · rintro ⟨info, c, hi, hh, _, _⟩
      rw [hrec1] at hi
      cases hi
      rw [← hh, hhead1]
    · rintro rfl
      exact ⟨rec1, cp, hrec1, hhead1, by rw [hblk, if_neg hph]; exact hcp, htp⟩
  have hself : ∀ k, spec_legacy_head s X k → k = h := by
    rintro k ⟨info, c, hi, hh, _, _⟩
    rw [hrec] at hi
    cases hi
    rw [← hh, hhead]
  have hfg : ∀ k, s1.frontier_get k =
      if k = p then X else if k = h then 0 else s.frontier_get k := by
    intro k
    simp only [block_store.frontier_get, hfr, frontier_get_update]
    rfl
  intro k
  rw [hfg]
  by_cases hkp : k = p
  · subst hkp
    rw [if_pos rfl]
    refine ⟨⟨fun _ => ⟨X, (hself1 k).mpr rfl⟩, fun _ => hX0⟩, fun a ha => ?_⟩
    by_contra hne
    have hne2 : a ≠ X := fun e => hne e.symm
    obtain ⟨info, _, hi, hh, _, _⟩ := (hother a k hne2).mp ha
    exact hnohead a info hi hh
  · rw [if_neg hkp]
    by_cases hkh : k = h
    · subst hkh
      rw [if_pos rfl]
      have hno : ¬ ∃ a, spec_legacy_head s1 a k := by
        rintro ⟨a, _, c, _, _, hc, _⟩
        rw [hblk, if_pos rfl] at hc
        cases hc
      exact ⟨⟨fun h0 => absurd rfl h0, fun he => absurd he hno⟩,
        fun a ha => absurd ⟨a, ha⟩ hno⟩
    · rw [if_neg hkh]
      have hiff : ∀ a, spec_legacy_head s1 a k ↔ spec_legacy_head s a k := by
        intro a
        by_cases haX : a = X
        · subst haX
          constructor
          · intro ha
            exact absurd ((hself1 k).mp ha) hkp
          · intro ha
            exact absurd (hself k ha) hkh
        · exact hother a k haX
      refine ⟨?_, fun a ha => (hFI k).2 a ((hiff a).mp ha)⟩
      rw [(hFI k).1]
      exact ⟨fun ⟨a, ha⟩ => ⟨a, (hiff a).mpr ha⟩, fun ⟨a, ha⟩ => ⟨a, (hiff a).mp ha⟩⟩

/-- The frontier invariant after the undo of a legacy open block (hash `h`)
that is the head of account `X`. -/
theorem frontier_invariant_open_del (s s1 : block_store) (h X : Nat)
    (hFI : frontier_invariant s)
    (hblk : ∀ k, s1.block_get k = if k = h then none else s.block_get k)
    (hXh : (s.accounts X).map account_info.head = some h)
    (hX1 : s1.accounts X = none)
    (hoff : ∀ a, a ≠ X → s1.accounts a = s.accounts a)
    (hfr : s1.frontiers = Function.update s.frontiers h none) :
    frontier_invariant s1 := by
  obtain ⟨rec, hrec, hhead⟩ := head_of_map s X h hXh
  have hother : ∀ a k, a ≠ X → (spec_legacy_head s1 a k ↔ spec_legacy_head s a k) :=
    fun a k ha => legacy_head_del_other s s1 h X a k hFI hblk hXh (hoff a ha) ha
  have hself1 : ∀ k, ¬ spec_legacy_head s1 X k := by
    rintro k ⟨info, c, hi, _⟩
    rw [hX1] at hi
    cases hi
  have hself : ∀ k, spec_legacy_head s X k → k = h := by
    rintro k ⟨info, c, hi, hh, _, _⟩
    rw [hrec] at hi
    cases hi
    rw [← hh, hhead]
  have hfg : ∀ k, s1.frontier_get k = if k = h then 0 else s.frontier_get k := by
    intro k
    simp only [block_store.frontier_get, hfr, frontier_get_update]
    rfl
  intro k
  rw [hfg]
  by_cases hkh : k = h
  · subst hkh
    rw [if_pos rfl]
    have hno : ¬ ∃ a, spec_legacy_head s1 a k := by
      rintro ⟨a, _, c, _, _, hc, _⟩
      rw [hblk, if_pos rfl] at hc
      cases hc
    exact ⟨⟨fun h0 => absurd rfl h0, fun he => absurd he hno⟩,
      fun a ha => absurd ⟨a, ha⟩ hno⟩
  · rw [if_neg hkh]
    have hiff : ∀ a, spec_legacy_head s1 a k ↔ spec_legacy_head s a k := by
      intro a
      by_cases haX : a = X
      · subst haX
        constructor
        · intro ha
          exact absurd ha (hself1 k)
        · intro ha
          exact absurd (hself k ha) hkh
      · exact hother a k haX
    refine ⟨?_, fun a ha => (hFI k).2 a ((hiff a).mp ha)⟩
    rw [(hFI k).1]
    exact ⟨fun ⟨a, ha⟩ => ⟨a, (hiff a).mpr ha⟩, fun ⟨a, ha⟩ => ⟨a, (hiff a).mp ha⟩⟩

/-- The frontier invariant after the undo of a state block (hash `h`, previous
`p`) that is the head of account `X`: the frontier entry of `p` comes back when
`p` is a stored legacy block. -/
theorem frontier_invariant_state_del (s s1 : block_store) (h X p : Nat) (b : block)
    (hFI : frontier_invariant s)
    (hblk : ∀ k, s1.block_get k = if k = h then none else s.block_get k)
    (hb : s.block_get h = some b) (hstate : ¬ b.type < block_type_state)
    (hXh : (s.accounts X).map account_info.head = some h)
    (hXp : (s1.accounts X).map account_info.head = if p = 0 then none else some p)
    (hoff : ∀ a, a ≠ X → s1.accounts a = s.accounts a)
    (hfr : s1.frontiers =
      if ∃ c, s.block_get p = some c ∧ c.type < block_type_state then
        Function.update s.frontiers p (some X)
      else s.frontiers)
    (h0 : s.block_get 0 = none) (hX0 : X ≠ 0)
    (hnohead : ∀ a info, s.accounts a = some info → info.head ≠ p) :
    frontier_invariant s1 := by
  obtain ⟨rec, hrec, hhead⟩ := head_of_map s X h hXh
  have hph : p ≠ h := fun e => hnohead X rec hrec (by rw [hhead, e])
  have hother : ∀ a k, a ≠ X → (spec_legacy_head s1 a k ↔ spec_legacy_head s a k) :=
    fun a k ha => legacy_head_del_other s s1 h X a k hFI hblk hXh (hoff a ha) ha
  have hself : ∀ k, ¬ spec_legacy_head s X k := by
    rintro k ⟨info, c, hi, hh, hc, ht⟩
    rw [hrec] at hi
    cases hi
    rw [hhead] at hh
    subst hh
    rw [hb] at hc
    cases hc
    exact hstate ht
  have hself1 : ∀ k, spec_legacy_head s1 X k ↔
      k = p ∧ ∃ c, s.block_get p = some c ∧ c.type < block_type_state := by
    intro k
    constructor
    · rintro ⟨info, c, hi, hh, hc, ht⟩
      rw [hi] at hXp
      by_cases hp0 : p = 0
      · rw [if_pos hp0] at hXp
        cases hXp
      · rw [if_neg hp0] at hXp
        have hk : k = p := by
          rw [← hh]
          exact Option.some.inj hXp
        subst hk
        rw [hblk, if_neg hph] at hc
        exact ⟨rfl, c, hc, ht⟩
    · rintro ⟨rfl, c, hc, ht⟩
      have hp0 : k ≠ 0 := by
        intro e
        rw [e, h0] at hc
        cases hc
      rw [if_neg hp0] at hXp
      obtain ⟨rec1, hrec1, hhead1⟩ := head_of_map s1 X k hXp
      exact ⟨rec1, c, hrec1, hhead1, by rw [hblk, if_neg hph]; exact hc, ht⟩
  intro k
  by_cases hleg : ∃ c, s.block_get p = some c ∧ c.type < block_type_state
  · rw [if_pos hleg] at hfr
    have hfg : ∀ k, s1.frontier_get k = if k = p then X else s.frontier_get k := by
      intro k
      simp only [block_store.frontier_get, hfr, frontier_get_update]
      rfl
    rw [hfg]
    by_cases hkp : k = p
    · subst hkp
      rw [if_pos rfl]
      refine ⟨⟨fun _ => ⟨X, (hself1 k).mpr ⟨rfl, hleg⟩⟩, fun _ => hX0⟩, fun a ha => ?_⟩
      by_contra hne
      have hne2 : a ≠ X := fun e => hne e.symm
      obtain ⟨info, _, hi, hh, _, _⟩ := (hother a k hne2).mp ha
      exact hnohead a info hi hh
    · rw [if_neg hkp]
      have hiff : ∀ a, spec_legacy_head s1 a k ↔ spec_legacy_head s a k := by
        intro a
        by_cases haX : a = X
        · subst haX
          constructor
          · intro ha
            exact absurd ((hself1 k).mp ha).1 hkp
          · intro ha
            exact absurd ha (hself k)
        · exact hother a k haX
      refine ⟨?_, fun a ha => (hFI k).2 a ((hiff a).mp ha)⟩
      rw [(hFI k).1]
      exact ⟨fun ⟨a, ha⟩ => ⟨a, (hiff a).mpr ha⟩, fun ⟨a, ha⟩ => ⟨a, (hiff a).mp ha⟩⟩
  · rw [if_neg hleg] at hfr
    have hfg : ∀ k, s1.frontier_get k = s.frontier_get k := by
      intro k
      simp only [block_store.frontier_get, hfr]
    rw [hfg]
    have hiff : ∀ a, spec_legacy_head s1 a k ↔ spec_legacy_head s a k := by
      intro a
      by_cases haX : a = X
      · subst haX
        constructor
        · intro ha
          exact absurd ((hself1 k).mp ha).2 hleg
        · intro ha
          exact absurd ha (hself k)
      · exact hother a k haX
    refine ⟨?_, fun a ha => (hFI k).2 a ((hiff a).mp ha)⟩
    rw [(hFI k).1]
    exact ⟨fun ⟨a, ha⟩ => ⟨a, (hiff a).mpr ha⟩, fun ⟨a, ha⟩ => ⟨a, (hiff a).mp ha⟩⟩

theorem block_get_del (t : Nat → Option stored_block) (h p k : Nat) :
    (block_store.set_successor (Function.update t h none) p 0 k).map stored_block.contents =
      if k = h then none else (t k).map stored_block.contents := by
  rw [set_successor_contents]
  by_cases hk : k = h
  · subst hk; simp
  · simp [Function.update_noteq hk, hk]

theorem rollback_send_frontier_invariant (env : ledger_env) (now : Nat) (s : block_store)
    (b : mol.send_block) (pending : pending_info) (hFI : frontier_invariant s)
    (h0 : s.block_get 0 = none)
    (hhead : spec_head_block s pending.source (block.send b) (env.hash (block.send b)))
    (hp : spec_legacy_stored s b.hashables.previous)
    (hno : spec_no_head s b.hashables.previous) :
    frontier_invariant (rollback_visitor.send_block env now s b pending) := by
  have hp0 : b.hashables.previous ≠ 0 := by
    intro e
    obtain ⟨c, hc, _⟩ := hp
    rw [e, h0] at hc
    cases hc
  refine frontier_invariant_legacy_del s _ (env.hash (block.send b)) pending.source
    b.hashables.previous (block.send b) hFI (fun k => ?_) hhead.1
    (by simp [block.type, block_type_state]) hhead.2 ?_ (fun a ha => ?_) ?_ hp hno
  · simp only [block_store.block_get]
    rw [rollback_send_blocks]
    exact block_get_del s.blocks _ _ k
  · rw [rollback_send_accounts _ _ _ _ _ hp0, Function.update_same]
    rfl
  · rw [rollback_send_accounts _ _ _ _ _ hp0, Function.update_noteq ha]
  · rw [rollback_send_frontiers]

theorem rollback_receive_frontier_invariant (env : ledger_env) (now : Nat) (s : block_store)
    (b : mol.receive_block) (d a : Nat) (hFI : frontier_invariant s)
    (h0 : s.block_get 0 = none)
    (hhead : spec_head_block s d (block.receive b) (env.hash (block.receive b)))
    (hp : spec_legacy_stored s b.hashables.previous)
    (hno : spec_no_head s b.hashables.previous) :
    frontier_invariant (rollback_visitor.receive_block_undo env now s b d a) := by
  have hp0 : b.hashables.previous ≠ 0 := by
    intro e
    obtain ⟨c, hc, _⟩ := hp
    rw [e, h0] at hc
    cases hc
  refine frontier_invariant_legacy_del s _ (env.hash (block.receive b)) d
    b.hashables.previous (block.receive b) hFI (fun k => ?_) hhead.1
    (by simp [block.type, block_type_state]) hhead.2 ?_ (fun a ha => ?_) ?_ hp hno
  · simp only [block_store.block_get]
    rw [rollback_receive_blocks]
    exact block_get_del s.blocks _ _ k
  · rw [rollback_receive_accounts _ _ _ _ _ _ hp0, Function.update_same]
    rfl
  · rw [rollback_receive_accounts _ _ _ _ _ _ hp0, Function.update_noteq ha]
  · rw [rollback_receive_frontiers]

theorem rollback_change_frontier_invariant (env : ledger_env) (now : Nat) (s : block_store)
    (b : mol.change_block) (account : Nat) (hFI : frontier_invariant s)
    (h0 : s.block_get 0 = none)
    (hhead : spec_head_block s account (block.change b) (env.hash (block.change b)))
    (hp : spec_legacy_stored s b.hashables.previous)
    (hno : spec_no_head s b.hashables.previous) :
    frontier_invariant (rollback_visitor.change_block_undo env now s b account) := by
  have hp0 : b.hashables.previous ≠ 0 := by
    intro e
    obtain ⟨c, hc, _⟩ := hp
    rw [e, h0] at hc
    cases hc
  refine frontier_invariant_legacy_del s _ (env.hash (block.change b)) account
    b.hashables.previous (block.change b) hFI (fun k => ?_) hhead.1
    (by simp [block.type, block_type_state]) hhead.2 ?_ (fun a ha => ?_) ?_ hp hno
  · simp only [block_store.block_get]
    rw [rollback_change_blocks]
    exact block_get_del s.blocks _ _ k
  · rw [rollback_change_accounts _ _ _ _ _ hp0, Function.update_same]
    rfl
  · rw [rollback_change_accounts _ _ _ _ _ hp0, Function.update_noteq ha]
  · rw [rollback_change_frontiers]

theorem rollback_open_frontier_invariant (env : ledger_env) (now : Nat) (s : block_store)
    (b : mol.open_block) (d a : Nat) (hFI : frontier_invariant s)
    (hhead : spec_head_block s d (block.opening b) (env.hash (block.opening b))) :
    frontier_invariant (rollback_visitor.open_block_undo env now s b d a) := by
  refine frontier_invariant_open_del s _ (env.hash (block.opening b)) d hFI (fun k => ?_)
    hhead.2 ?_ (fun a ha => ?_) ?_
  · simp only [block_store.block_get]
    rw [rollback_open_blocks]
    by_cases hk : k = env.hash (block.opening b)
    · subst hk; simp
    · simp [Function.update_noteq hk, hk]
  · rw [rollback_open_accounts, Function.update_same]
  · rw [rollback_open_accounts, Function.update_noteq ha]
  · rw [rollback_open_frontiers]

theorem state_block_rewind_block_get (env : ledger_env) (now : Nat) (s : block_store)
    (b : mol.state_block) (r bal : Nat) (k : Nat) :
    (rollback_visitor.state_block_rewind env now s b r bal).block_get k =
      if k = env.hash (block.state b) then none else s.block_get k := by
  unfold rollback_visitor.state_block_rewind
  simp only [block_store.block_get, change_latest_blocks, block_store.block_del]
  cases hp : s.blocks b.hashables.previous with
  | none =>
    simp only [Option.map_none', change_latest_blocks]
    by_cases hk : k = env.hash (block.state b)
    · subst hk; simp
    · simp [Function.update_noteq hk, hk]
  | some rp =>
    simp only [Option.map_some']
    split_ifs with h1 h2 h2
    · subst h2; simp
    · simp only [block_store.frontier_put, block_store.block_successor_clear,
        change_latest_blocks, Function.update_noteq h2]
      exact set_successor_contents _ _ _ _
    · subst h2; simp
    · simp only [block_store.block_successor_clear, change_latest_blocks,
        Function.update_noteq h2]
      exact set_successor_contents _ _ _ _

theorem state_rewind_frontier_invariant (env : ledger_env) (now : Nat) (s : block_store)
    (b : mol.state_block) (r bal : Nat) (hFI : frontier_invariant s)
    (h0 : s.block_get 0 = none)
    (hhead : spec_head_block s b.hashables.account (block.state b) (env.hash (block.state b)))
    (hX0 : b.hashables.account ≠ 0)
    (hno : spec_no_head s b.hashables.previous) :
    frontier_invariant (rollback_visitor.state_block_rewind env now s b r bal) := by
  refine frontier_invariant_state_del s _ (env.hash (block.state b)) b.hashables.account
    b.hashables.previous (block.state b) hFI
    (fun k => state_block_rewind_block_get env now s b r bal k) hhead.1
    (by simp [block.type, block_type_state]) hhead.2 ?_ (fun a ha => ?_) ?_ h0 hX0 hno
  · by_cases hp : b.hashables.previous = 0
    · rw [state_block_rewind_accounts_zero _ _ _ _ _ _ hp, Function.update_same, if_pos hp]
      rfl
    · rw [state_block_rewind_accounts _ _ _ _ _ _ hp, Function.update_same, if_neg hp]
      rfl
  · by_cases hp : b.hashables.previous = 0
    · rw [state_block_rewind_accounts_zero _ _ _ _ _ _ hp, Function.update_noteq ha]
    · rw [state_block_rewind_accounts _ _ _ _ _ _ hp, Function.update_noteq ha]
  · rw [state_block_rewind_frontiers]
    simp only [block_store.block_get]
    split
    · rename_i rp hp
      by_cases ht : rp.contents.type < block_type_state
      · rw [if_pos ht, if_pos ⟨rp.contents, by rw [hp]; rfl, ht⟩]
      · rw [if_neg ht, if_neg (by
          rintro ⟨c, hc, hct⟩
          rw [hp] at hc
          cases hc
          exact ht hct)]
    · rename_i hp
      rw [if_neg (by
        rintro ⟨c, hc, _⟩
        rw [hp] at hc
        cases hc)]

theorem genesis_frontier_invariant : frontier_invariant genesis := by
  have hlh : ∀ a h, spec_legacy_head genesis a h ↔ a = 1 ∧ h = 34 := by
    intro a h
    constructor
    · rintro ⟨info, c, hi, hh, hc, _⟩
      have ha : a = 1 := by
        by_contra hne
        have : genesis.accounts a = none := if_neg hne
        rw [this] at hi
        cases hi
      subst ha
      have : genesis.accounts 1 = some ⟨34, 34, 34, 100, 1, 1⟩ := rfl
      rw [this] at hi
      cases hi
      exact ⟨rfl, hh.symm⟩
    · rintro ⟨rfl, rfl⟩
      exact ⟨⟨34, 34, 34, 100, 1, 1⟩, block.opening genesis_block, rfl, rfl, rfl, by decide⟩
  intro h
  by_cases hh : h = 34
  · subst hh
    exact ⟨⟨fun _ => ⟨1, (hlh 1 34).mpr ⟨rfl, rfl⟩⟩, fun _ => by decide⟩,
      fun a ha => by rw [((hlh a 34).mp ha).1]; rfl⟩
  · have hf : genesis.frontier_get h = 0 := by
      show (if h = 34 then some 1 else none : Option Nat).getD 0 = 0
      rw [if_neg hh]
      rfl
    rw [hf]
    exact ⟨⟨fun h0 => absurd rfl h0, fun ⟨a, ha⟩ => absurd ((hlh a h).mp ha).2 hh⟩,
      fun a ha => absurd ((hlh a h).mp ha).2 hh⟩

theorem genesis_heads_stored : spec_heads_stored genesis := by
  intro a info hi
  have ha : a = 1 := by
    by_contra hne
    have : genesis.accounts a = none := if_neg hne
    rw [this] at hi
    cases hi
  subst ha
  have : genesis.accounts 1 = some ⟨34, 34, 34, 100, 1, 1⟩ := rfl
  rw [this] at hi
  cases hi
  decide

/-! ## Chains under writes of the block table (C25) -/

theorem spec_chain_mono (s s1 : block_store) (o : Nat)
    (hb : ∀ k c, s.block_get k = some c → s1.block_get k = some c) :
    ∀ n h, spec_chain s o n h → spec_chain s1 o n h := by
  intro n
  induction n with
  | zero => intro h hc; exact hc
  | succ n ih =>
    intro h hc
    obtain ⟨b, hbh, hcase⟩ := hc
    refine ⟨b, hb h b hbh, ?_⟩
    rcases hcase with h1 | ⟨hp, hrest⟩
    · exact Or.inl h1
    · exact Or.inr ⟨hp, ih _ hrest⟩

theorem spec_chain_del (s s1 : block_store) (o hash : Nat)
    (hb : ∀ k, k ≠ hash → s1.block_get k = s.block_get k)
    (hchild : spec_no_child s hash) :
    ∀ n h, h ≠ hash → spec_chain s o n h → spec_chain s1 o n h := by
  intro n
  induction n with
  | zero => intro h _ hc; exact hc
  | succ n ih =>
    intro h hne hc
    obtain ⟨b, hbh, hcase⟩ := hc
    refine ⟨b, by rw [hb h hne]; exact hbh, ?_⟩
    rcases hcase with h1 | ⟨hp, hrest⟩
    · exact Or.inl h1
    · exact Or.inr ⟨hp, ih _ (hchild h b hbh) hrest⟩

theorem spec_chain_pos (s : block_store) (o n h : Nat) (hc : spec_chain s o n h) : 0 < n := by
  cases n with
  | zero => exact absurd hc (by simp [spec_chain])
  | succ n => exact Nat.succ_pos n

/-- Chain lengths after a block is appended to the chain of account `A`. -/
theorem chain_length_put (s s1 : block_store) (hash A : Nat) (b : block)
    (hCL : chain_length_tracked s)
    (hblocks : ∀ k, s1.block_get k = if k = hash then some b else s.block_get k)
    (hnew : s.block_get hash = none)
    (hacc : (s1.accounts A).map account_info.chain = some
      (hash, ((s.accounts A).map account_info.open_block).getD hash,
        ((s.accounts A).getD account_info.zero).block_count + 1))
    (hothers : ∀ a, a ≠ A → s1.accounts a = s.accounts a)
    (hprev : (b.previous = 0 ∧ s.accounts A = none) ∨
      (b.previous ≠ 0 ∧ (s.accounts A).map account_info.head = some b.previous)) :
    chain_length_tracked s1 := by
  have hmono : ∀ k c, s.block_get k = some c → s1.block_get k = some c := by
    intro k c hk
    rw [hblocks k]
    by_cases hkh : k = hash
    · subst hkh
      rw [hnew] at hk
      cases hk
    · rw [if_neg hkh]
      exact hk
  have hself : s1.block_get hash = some b := by rw [hblocks hash, if_pos rfl]
  intro a info hi
  by_cases ha : a = A
  · subst ha
    rw [hi] at hacc
    obtain ⟨hih, hio, hic⟩ : info.head = hash ∧
        info.open_block = ((s.accounts a).map account_info.open_block).getD hash ∧
        info.block_count = ((s.accounts a).getD account_info.zero).block_count + 1 := by
      simpa [account_info.chain] using hacc
    rw [hih, hio, hic]
    rcases hprev with ⟨hp, hnone⟩ | ⟨hp, hhead⟩
    · refine ⟨b, hself, Or.inl ⟨hp, ?_, ?_⟩⟩
      · simp [hnone, account_info.zero]
      · simp [hnone]
    · cases hs : s.accounts a with
      | none => rw [hs] at hhead; cases hhead
      | some rec =>
        rw [hs] at hhead
        have hh : rec.head = b.previous := Option.some.inj hhead
        have hc := hCL a rec hs
        rw [hh] at hc
        refine ⟨b, hself, Or.inr ⟨hp, ?_⟩⟩
        simp only [Option.map_some', Option.getD_some]
        exact spec_chain_mono s s1 _ hmono _ _ hc
  · rw [hothers a ha] at hi
    exact spec_chain_mono s s1 _ hmono _ _ (hCL a info hi)

/-- Block count after a block is appended to the chain of account `A`. -/
theorem block_count_put (s s1 : block_store) (hash A : Nat)
    (hacc : (s1.accounts A).map account_info.chain = some
      (hash, ((s.accounts A).map account_info.open_block).getD hash,
        ((s.accounts A).getD account_info.zero).block_count + 1)) :
    spec_block_count s1 A = spec_block_count s A + 1 := by
  unfold spec_block_count
  cases h1 : s1.accounts A with
  | none => rw [h1] at hacc; cases hacc
  | some info =>
    rw [h1] at hacc
    have hic : info.block_count = ((s.accounts A).getD account_info.zero).block_count + 1 := by
      have := Option.some.inj hacc
      simp only [account_info.chain, Prod.mk.injEq] at this
      exact this.2.2
    cases hs : s.accounts A <;> simp [account_info.zero, hic, hs]

/-- Chain lengths and the block count of account `X` after its head block is
removed. -/
theorem chain_length_del (s s1 : block_store) (hash X : Nat) (b : block)
    (hCL : chain_length_tracked s)
    (hblocks : ∀ k, s1.block_get k = if k = hash then none else s.block_get k)
    (hhead : spec_head_block s X b hash)
    (hchild : spec_no_child s hash) (honly : spec_only_head s X hash)
    (hacc : (s1.accounts X).map account_info.chain =
      if b.previous = 0 then none
      else some (b.previous, ((s.accounts X).map account_info.open_block).getD b.previous,
        ((s.accounts X).getD account_info.zero).block_count - 1))
    (hothers : ∀ a, a ≠ X → s1.accounts a = s.accounts a) :
    chain_length_tracked s1 ∧ spec_block_count s1 X + 1 = spec_block_count s X := by
  have hdel : ∀ k, k ≠ hash → s1.block_get k = s.block_get k := by
    intro k hk
    rw [hblocks k, if_neg hk]
  obtain ⟨hstored, hhd⟩ := hhead
  obtain ⟨rec, hrec, hrh⟩ := head_of_map s X hash hhd
  have hnew := hacc
  have hc := hCL X rec hrec
  rw [hrh] at hc
  have hpos := spec_chain_pos s _ _ _ hc
  obtain ⟨n, hn⟩ : ∃ n, rec.block_count = n + 1 := ⟨rec.block_count - 1, by omega⟩
  rw [hn] at hc
  obtain ⟨b1, hb1, hcase⟩ := hc
  rw [hstored] at hb1
  cases hb1
  constructor
  · intro a info hi
    by_cases ha : a = X
    · subst ha
      rw [hi] at hnew
      rcases hcase with ⟨hp, _, _⟩ | ⟨hp, hrest⟩
      · rw [if_pos hp] at hnew
        cases hnew
      · rw [if_neg hp, hrec] at hnew
        obtain ⟨hih, hio, hic⟩ : info.head = b.previous ∧ info.open_block = rec.open_block ∧
            info.block_count = rec.block_count - 1 := by
          simpa [account_info.chain] using hnew
        rw [hih, hio, hic, hn, Nat.add_sub_cancel]
        exact spec_chain_del s s1 _ hash hdel hchild _ _ (hchild hash b hstored) hrest
    · rw [hothers a ha] at hi
      have hne : info.head ≠ hash := fun he => ha (honly a info hi he)
      exact spec_chain_del s s1 _ hash hdel hchild _ _ hne (hCL a info hi)
  · unfold spec_block_count
    rw [hrec]
    rcases hcase with ⟨hp, hn0, _⟩ | ⟨hp, _⟩
    · rw [if_pos hp] at hnew
      cases h1 : s1.accounts X with
      | none => simp [hn, hn0]
      | some info => rw [h1] at hnew; cases hnew
    · rw [if_neg hp, hrec] at hnew
      cases h1 : s1.accounts X with
      | none => rw [h1] at hnew; cases hnew
      | some info =>
        rw [h1] at hnew
        have hic : info.block_count = rec.block_count - 1 := by
          have := Option.some.inj hnew
          simp only [account_info.chain, Prod.mk.injEq, Option.getD_some] at this
          exact this.2.2
        simp only [Option.map_some', Option.getD_some, hic]
        omega

theorem chain_length_congr (s s1 : block_store) (hCL : chain_length_tracked s)
    (hacc : s1.accounts = s.accounts) (hblocks : ∀ k, s1.block_get k = s.block_get k) :
    chain_length_tracked s1 := by
  intro a info hi
  rw [hacc] at hi
  exact spec_chain_mono s s1 _ (fun k c hk => by rw [hblocks k]; exact hk) _ _ (hCL a info hi)

/-! ## Chain length under `process` (C25) -/

theorem previous_ne_zero (s : block_store) (p : Nat) (h0 : s.block_get 0 = none)
    (hp : ∃ previous, s.blocks p = some previous) : p ≠ 0 := by
  rintro rfl
  obtain ⟨r, hr⟩ := hp
  simp [block_store.block_get, hr] at h0

/-- `process` keeps chain lengths tracked in a store whose frontier entries name
accounts by their heads. -/
theorem process_chain_length (env : ledger_env) (now : Nat) (s : block_store) (b : block)
    (hCL : chain_length_tracked s) (h0 : s.block_get 0 = none)
    (hfh : spec_frontier_heads s) (hnz : env.hash b ≠ 0) :
    chain_length_tracked (ledger.process env now s b).2 := by
  cases b with
  | send x =>
    show chain_length_tracked (ledger_processor.send_block env now s x).2
    by_cases hc : (ledger_processor.send_block env now s x).1.code = process_result.progress
    · obtain ⟨hnew, hprev, hf, _, he⟩ := send_block_accepted env now s x hc
      rw [he]
      refine chain_length_put s _ (env.hash (block.send x))
        (s.frontier_get x.hashables.previous) (block.send x) hCL (fun k => ?_)
        (by simp [hnew]) ?_ (fun a ha => ?_)
        (Or.inr ⟨previous_ne_zero s _ h0 hprev, hfh _ hf⟩)
      · simp only [block_store.block_get]
        rw [send_block_apply_blocks]
        exact block_get_put s _ _ k
      · rw [send_block_apply_accounts _ _ _ _ _ _ hnz, Function.update_same]
        rfl
      · rw [send_block_apply_accounts _ _ _ _ _ _ hnz, Function.update_noteq ha]
    · rw [send_block_refused env now s x hc]; exact hCL
  | receive x =>
    show chain_length_tracked (ledger_processor.receive_block env now s x).2
    by_cases hc : (ledger_processor.receive_block env now s x).1.code = process_result.progress
    · obtain ⟨hnew, hprev, hf, _, p, _, he⟩ := receive_block_accepted env now s x hc
      rw [he]
      refine chain_length_put s _ (env.hash (block.receive x))
        (s.frontier_get x.hashables.previous) (block.receive x) hCL (fun k => ?_)
        (by simp [hnew]) ?_ (fun a ha => ?_)
        (Or.inr ⟨previous_ne_zero s _ h0 hprev, hfh _ hf⟩)
      · simp only [block_store.block_get]
        rw [receive_block_apply_blocks]
        exact block_get_put s _ _ k
      · rw [receive_block_apply_accounts _ _ _ _ _ _ _ hnz, Function.update_same]
        rfl
      · rw [receive_block_apply_accounts _ _ _ _ _ _ _ hnz, Function.update_noteq ha]
    · rw [receive_block_refused env now s x hc]; exact hCL
  | opening x =>
    show chain_length_tracked (ledger_processor.open_block env now s x).2
    by_cases hc : (ledger_processor.open_block env now s x).1.code = process_result.progress
    · obtain ⟨hnew, _, hnone, _, p, _, he⟩ := open_block_accepted env now s x hc
      rw [he]
      refine chain_length_put s _ (env.hash (block.opening x))
        x.hashables.account (block.opening x) hCL (fun k => ?_)
        (by simp [hnew]) ?_ (fun a ha => ?_) (Or.inl ⟨rfl, hnone⟩)
      · simp only [block_store.block_get]
        rw [open_block_apply_blocks]
        exact block_get_put s _ _ k
      · rw [open_block_apply_accounts _ _ _ _ _ _ hnz, Function.update_same, hnone]
        rfl
      · rw [open_block_apply_accounts _ _ _ _ _ _ hnz, Function.update_noteq ha]
    · rw [open_block_refused env now s x hc]; exact hCL
  | change x =>
    show chain_length_tracked (ledger_processor.change_block env now s x).2
    by_cases hc : (ledger_processor.change_block env now s x).1.code = process_result.progress
    · obtain ⟨hnew, hprev, hf, he⟩ := change_block_accepted env now s x hc
      rw [he]
      refine chain_length_put s _ (env.hash (block.change x))
        (s.frontier_get x.hashables.previous) (block.change x) hCL (fun k => ?_)
        (by simp [hnew]) ?_ (fun a ha => ?_)
        (Or.inr ⟨previous_ne_zero s _ h0 hprev, hfh _ hf⟩)
      · simp only [block_store.block_get]
        rw [change_block_apply_blocks]
        exact block_get_put s _ _ k
      · rw [change_block_apply_accounts _ _ _ _ _ _ hnz, Function.update_same]
        rfl
      · rw [change_block_apply_accounts _ _ _ _ _ _ hnz, Function.update_noteq ha]
    · rw [change_block_refused env now s x hc]; exact hCL
  | state x =>
    show chain_length_tracked (ledger_processor.state_block env now s x).2
    by_cases hc : (ledger_processor.state_block env now s x).1.code = process_result.progress
    · obtain ⟨hnew, _, hchk, _, he⟩ := state_block_accepted env now s x hc
      obtain ⟨hsome, hnone⟩ := state_block_account_checks_progress s x hchk
      rw [he]
      refine chain_length_put s _ (env.hash (block.state x))
        x.hashables.account (block.state x) hCL (fun k => ?_)
        (by simp [hnew]) ?_ (fun a ha => ?_) ?_
      · simp only [block_store.block_get]
        rw [state_block_apply_blocks]
        exact block_get_put s _ _ k
      · rw [state_block_apply_accounts _ _ _ _ _ _ _ hnz, Function.update_same]
        rfl
      · rw [state_block_apply_accounts _ _ _ _ _ _ _ hnz, Function.update_noteq ha]
      · cases hi : s.accounts x.hashables.account with
        | none => exact Or.inl ⟨(hnone hi).1, rfl⟩
        | some info =>
          obtain ⟨hp, _, hh, _⟩ := hsome info hi
          exact Or.inr ⟨hp, by simp [block.previous, hh]⟩
    · rw [state_block_refused env now s x hc]; exact hCL
  | astate x =>
    show chain_length_tracked (ledger_processor.astate_block env now s x).2
    by_cases hex : s.block_exists (env.hash (block.astate x)) = true
    · rw [astate_block_old env now s x hex]; exact hCL
    · obtain ⟨_, hacc, _, _, _, hb⟩ := astate_block_tables env now s x
      intro a info hi
      rw [hacc] at hi
      refine spec_chain_mono s _ _ (fun k c hk => ?_) _ _ (hCL a info hi)
      rcases hb with hb | hb
      · simp only [block_store.block_get, hb]
        exact hk
      · simp only [block_store.block_get] at hex hk ⊢
        rw [hb, block_get_put]
        by_cases hkh : k = env.hash (block.astate x)
        · subst hkh
          cases hs : s.blocks (env.hash (block.astate x)) with
          | none => rw [hs] at hk; cases hk
          | some r => simp [hs] at hex
        · rw [if_neg hkh]
          exact hk

/-- An accepted send, receive, open, change or state block raises the
`block_count` of its account by one. -/
theorem process_block_count (env : ledger_env) (now : Nat) (s : block_store) (b : block)
    (hnz : env.hash b ≠ 0) (ht : b.type ≤ block_type_state)
    (hc : (ledger.process env now s b).1.code = process_result.progress) :
    spec_block_count (ledger.process env now s b).2 (ledger.process env now s b).1.account =
      spec_block_count s (ledger.process env now s b).1.account + 1 := by
  rw [process_account_of_progress env now s b hc]
  cases b with
  | send x =>
    have hc1 : (ledger_processor.send_block env now s x).1.code = process_result.progress := hc
    obtain ⟨_, _, _, _, he⟩ := send_block_accepted env now s x hc1
    show spec_block_count (ledger_processor.send_block env now s x).2 _ = _
    rw [he]
    exact block_count_put s _ (env.hash (block.send x)) _ (by
      rw [send_block_apply_accounts _ _ _ _ _ _ hnz, Function.update_same]; rfl)
  | receive x =>
    have hc1 : (ledger_processor.receive_block env now s x).1.code = process_result.progress := hc
    obtain ⟨_, _, _, _, p, _, he⟩ := receive_block_accepted env now s x hc1
    show spec_block_count (ledger_processor.receive_block env now s x).2 _ = _
    rw [he]
    exact block_count_put s _ (env.hash (block.receive x)) _ (by
      rw [receive_block_apply_accounts _ _ _ _ _ _ _ hnz, Function.update_same]; rfl)
  | opening x =>
    have hc1 : (ledger_processor.open_block env now s x).1.code = process_result.progress := hc
    obtain ⟨_, _, hnone, _, p, _, he⟩ := open_block_accepted env now s x hc1
    show spec_block_count (ledger_processor.open_block env now s x).2 _ = _
    rw [he]
    exact block_count_put s _ (env.hash (block.opening x)) _ (by
      rw [open_block_apply_accounts _ _ _ _ _ _ hnz, Function.update_same, hnone]; rfl)
  | change x =>
    have hc1 : (ledger_processor.change_block env now s x).1.code = process_result.progress := hc
    obtain ⟨_, _, _, he⟩ := change_block_accepted env now s x hc1
    show spec_block_count (ledger_processor.change_block env now s x).2 _ = _
    rw [he]
    exact block_count_put s _ (env.hash (block.change x)) _ (by
      rw [change_block_apply_accounts _ _ _ _ _ _ hnz, Function.update_same]; rfl)
  | state x =>
    have hc1 : (ledger_processor.state_block env now s x).1.code = process_result.progress := hc
    obtain ⟨_, _, _, _, he⟩ := state_block_accepted env now s x hc1
    show spec_block_count (ledger_processor.state_block env now s x).2 _ = _
    rw [he]
    exact block_count_put s _ (env.hash (block.state x)) _ (by
      rw [state_block_apply_accounts _ _ _ _ _ _ _ hnz, Function.update_same]; rfl)
  | astate x => exact absurd ht (by simp [block.type, block_type_state])

/-! ## Chain length under the undo steps (C25) -/

theorem rollback_send_accounts_any (env : ledger_env) (now : Nat) (s : block_store)
    (b : mol.send_block) (pending : pending_info) :
    (rollback_visitor.send_block env now s b pending).accounts
      = Function.update s.accounts pending.source
          (if b.hashables.previous = 0 then none
           else some
            ⟨b.hashables.previous,
              ((s.accounts pending.source).getD account_info.zero).rep_block,
              ((s.accounts pending.source).map account_info.open_block).getD b.hashables.previous,
              env.balance s.blocks b.hashables.previous, now,
              ((s.accounts pending.source).getD account_info.zero).block_count - 1⟩) := by
  unfold rollback_visitor.send_block
  dsimp only
  split_ifs <;> simp_all [change_latest_accounts_any]

theorem rollback_receive_accounts_any (env : ledger_env) (now : Nat) (s : block_store)
    (b : mol.receive_block) (dst src : Nat) :
    (rollback_visitor.receive_block_undo env now s b dst src).accounts
      = Function.update s.accounts dst
          (if b.hashables.previous = 0 then none
           else some
            ⟨b.hashables.previous, env.representative s.blocks b.hashables.previous,
              ((s.accounts dst).map account_info.open_block).getD b.hashables.previous,
              env.balance s.blocks b.hashables.previous, now,
              ((s.accounts dst).getD account_info.zero).block_count - 1⟩) := by
  unfold rollback_visitor.receive_block_undo
  dsimp only
  split_ifs <;> simp_all [change_latest_accounts_any]

theorem rollback_change_accounts_any (env : ledger_env) (now : Nat) (s : block_store)
    (b : mol.change_block) (account : Nat) :
    (rollback_visitor.change_block_undo env now s b account).accounts
      = Function.update s.accounts account
          (if b.hashables.previous = 0 then none
           else some
            ⟨b.hashables.previous, env.representative s.blocks b.hashables.previous,
              ((s.accounts account).map account_info.open_block).getD b.hashables.previous,
              ((s.accounts account).getD account_info.zero).balance, now,
              ((s.accounts account).getD account_info.zero).block_count - 1⟩) := by
  unfold rollback_visitor.change_block_undo
  dsimp only
  split_ifs <;> simp_all [change_latest_accounts_any]

theorem state_block_rewind_accounts_any (env : ledger_env) (now : Nat) (s : block_store)
    (b : mol.state_block) (representative balance : Nat) :
    (rollback_visitor.state_block_rewind env now s b representative balance).accounts
      = Function.update s.accounts b.hashables.account
          (if b.hashables.previous = 0 then none
           else some
            ⟨b.hashables.previous, representative,
              ((s.accounts b.hashables.account).map account_info.open_block).getD
                b.hashables.previous,
              balance, now,
              ((s.accounts b.hashables.account).getD account_info.zero).block_count - 1⟩) := by
  by_cases hp : b.hashables.previous = 0
  · rw [state_block_rewind_accounts_zero _ _ _ _ _ _ hp, if_pos hp]
  · rw [state_block_rewind_accounts _ _ _ _ _ _ hp, if_neg hp]

theorem rollback_send_chain_length (env : ledger_env) (now : Nat) (s : block_store)
    (b : mol.send_block) (pending : pending_info) (hCL : chain_length_tracked s)
    (hhead : spec_head_block s pending.source (block.send b) (env.hash (block.send b)))
    (hchild : spec_no_child s (env.hash (block.send b)))
    (honly : spec_only_head s pending.source (env.hash (block.send b))) :
    chain_length_tracked (rollback_visitor.send_block env now s b pending) ∧
      spec_block_count (rollback_visitor.send_block env now s b pending) pending.source + 1 =
        spec_block_count s pending.source := by
  refine chain_length_del s _ (env.hash (block.send b)) pending.source (block.send b) hCL
    (fun k => ?_) hhead hchild honly ?_ (fun a ha => ?_)
  · simp only [block_store.block_get]
    rw [rollback_send_blocks]
    exact block_get_del s.blocks _ _ k
  · rw [rollback_send_accounts_any, Function.update_same]
    show _ = if b.hashables.previous = 0 then _ else _
    split_ifs <;> rfl
  · rw [rollback_send_accounts_any, Function.update_noteq ha]

theorem rollback_receive_chain_length (env : ledger_env) (now : Nat) (s : block_store)
    (b : mol.receive_block) (dst src : Nat) (hCL : chain_length_tracked s)
    (hhead : spec_head_block s dst (block.receive b) (env.hash (block.receive b)))
    (hchild : spec_no_child s (env.hash (block.receive b)))
    (honly : spec_only_head s dst (env.hash (block.receive b))) :
    chain_length_tracked (rollback_visitor.receive_block_undo env now s b dst src) ∧
      spec_block_count (rollback_visitor.receive_block_undo env now s b dst src) dst + 1 =
        spec_block_count s dst := by
  refine chain_length_del s _ (env.hash (block.receive b)) dst (block.receive b) hCL
    (fun k => ?_) hhead hchild honly ?_ (fun a ha => ?_)
  · simp only [block_store.block_get]
    rw [rollback_receive_blocks]
    exact block_get_del s.blocks _ _ k
  · rw [rollback_receive_accounts_any, Function.update_same]
    show _ = if b.hashables.previous = 0 then _ else _
    split_ifs <;> rfl
  · rw [rollback_receive_accounts_any, Function.update_noteq ha]

theorem rollback_change_chain_length (env : ledger_env) (now : Nat) (s : block_store)
    (b : mol.change_block) (account : Nat) (hCL : chain_length_tracked s)
    (hhead : spec_head_block s account (block.change b) (env.hash (block.change b)))
    (hchild : spec_no_child s (env.hash (block.change b)))
    (honly : spec_only_head s account (env.hash (block.change b))) :
    chain_length_tracked (rollback_visitor.change_block_undo env now s b account) ∧
      spec_block_count (rollback_visitor.change_block_undo env now s b account) account + 1 =
        spec_block_count s account := by
  refine chain_length_del s _ (env.hash (block.change b)) account (block.change b) hCL
    (fun k => ?_) hhead hchild honly ?_ (fun a ha => ?_)
  · simp only [block_store.block_get]
    rw [rollback_change_blocks]
    exact block_get_del s.blocks _ _ k
  · rw [rollback_change_accounts_any, Function.update_same]
    show _ = if b.hashables.previous = 0 then _ else _
    split_ifs <;> rfl
  · rw [rollback_change_accounts_any, Function.update_noteq ha]

theorem rollback_open_chain_length (env : ledger_env) (now : Nat) (s : block_store)
    (b : mol.open_block) (dst src : Nat) (hCL : chain_length_tracked s)
    (hhead : spec_head_block s dst (block.opening b) (env.hash (block.opening b)))
    (hchild : spec_no_child s (env.hash (block.opening b)))
    (honly : spec_only_head s dst (env.hash (block.opening b))) :
    chain_length_tracked (rollback_visitor.open_block_undo env now s b dst src) ∧
      spec_block_count (rollback_visitor.open_block_undo env now s b dst src) dst + 1 =
        spec_block_count s dst := by
  refine chain_length_del s _ (env.hash (block.opening b)) dst (block.opening b) hCL
    (fun k => ?_) hhead hchild honly ?_ (fun a ha => ?_)
  · simp only [block_store.block_get]
    rw [rollback_open_blocks]
    by_cases hk : k = env.hash (block.opening b)
    · subst hk; simp
    · simp [Function.update_noteq hk, hk]
  · rw [rollback_open_accounts, Function.update_same]
    rfl
  · rw [rollback_open_accounts, Function.update_noteq ha]

theorem state_rewind_chain_length (env : ledger_env) (now : Nat) (s : block_store)
    (b : mol.state_block) (r bal : Nat) (hCL : chain_length_tracked s)
    (hhead : spec_head_block s b.hashables.account (block.state b) (env.hash (block.state b)))
    (hchild : spec_no_child s (env.hash (block.state b)))
    (honly : spec_only_head s b.hashables.account (env.hash (block.state b))) :
    chain_length_tracked (rollback_visitor.state_block_rewind env now s b r bal) ∧
      spec_block_count (rollback_visitor.state_block_rewind env now s b r bal)
          b.hashables.account + 1 =
        spec_block_count s b.hashables.account := by
  refine chain_length_del s _ (env.hash (block.state b)) b.hashables.account (block.state b) hCL
    (fun k => state_block_rewind_block_get env now s b r bal k) hhead hchild honly ?_
    (fun a ha => ?_)
  · rw [state_block_rewind_accounts_any, Function.update_same]
    show _ = if b.hashables.previous = 0 then _ else _
    split_ifs <;> rfl
  · rw [state_block_rewind_accounts_any, Function.update_noteq ha]

theorem genesis_chain_length : chain_length_tracked genesis := by
  intro a info hi
  have hi2 : (if a = 1 then some (⟨34, 34, 34, 100, 1, 1⟩ : account_info) else none)
      = some info := hi
  split_ifs at hi2
  cases hi2
  exact ⟨block.opening genesis_block, rfl, Or.inl ⟨rfl, rfl, rfl⟩⟩

theorem genesis_frontier_heads : spec_frontier_heads genesis := by
  intro h hne
  have hf : genesis.frontier_get h = (if h = 34 then some 1 else none : Option Nat).getD 0 := rfl
  by_cases hh : h = 34
  · subst hh
    rfl
  · rw [hf, if_neg hh] at hne
    exact absurd rfl hne

/-! ## An accepted block as an effect (C26) -/

theorem block_store_ext (s t : block_store) (h1 : s.blocks = t.blocks)
    (h2 : s.accounts = t.accounts) (h3 : s.pending = t.pending) (h4 : s.frontiers = t.frontiers)
    (h5 : s.representation = t.representation) (h6 : s.block_infos = t.block_infos)
    (h7 : s.checksum = t.checksum) (h8 : s.assets = t.assets)
    (h9 : s.asset_accounts = t.asset_accounts) : s = t := by
  cases s
  cases t
  simp only [block_store.mk.injEq]
  exact ⟨h1, h2, h3, h4, h5, h6, h7, h8, h9⟩

theorem send_block_apply_effect (env : ledger_env) (now : Nat) (s : block_store)
    (b : mol.send_block) (hnz : env.hash (block.send b) ≠ 0) :
    ledger_processor.send_block_apply env now s b (s.frontier_get b.hashables.previous)
        ((s.account_get (s.frontier_get b.hashables.previous)).getD account_info.zero) =
      (spec_effect_of env s (block.send b)).apply now s := by
  apply block_store_ext
  · rw [send_block_apply_blocks]; rfl
  · rw [send_block_apply_accounts _ _ _ _ _ _ hnz]; rfl
  · rw [send_block_apply_pending]; rfl
  · rw [send_block_apply_frontiers]; rfl
  · rw [send_block_apply_representation]; rfl
  · simp only [ledger_processor.send_block_apply, block_store.frontier_put,
      block_store.frontier_del, block_store.pending_put, change_latest_block_infos,
      spec_effect.apply, spec_effect_of, spec_block_account]
    simp [hnz]
  · rw [send_block_apply_checksum]; rfl
  · simp [ledger_processor.send_block_apply, spec_effect.apply]
  · simp [ledger_processor.send_block_apply, spec_effect.apply]

theorem receive_block_apply_effect (env : ledger_env) (now : Nat) (s : block_store)
    (b : mol.receive_block) (pending : pending_info)
    (hnz : env.hash (block.receive b) ≠ 0)
    (hp : s.pending ⟨s.frontier_get b.hashables.previous, b.hashables.source⟩ = some pending) :
    ledger_processor.receive_block_apply env now s b (s.frontier_get b.hashables.previous)
        ((s.account_get (s.frontier_get b.hashables.previous)).getD account_info.zero) pending =
      (spec_effect_of env s (block.receive b)).apply now s := by
  have hpd : (s.pending ⟨spec_block_account s (block.receive b),
      (block.receive b).source⟩).getD ⟨0, 0⟩ = pending := by
    show (s.pending ⟨s.frontier_get b.hashables.previous, b.hashables.source⟩).getD ⟨0, 0⟩ = _
    rw [hp]; rfl
  apply block_store_ext
  · rw [receive_block_apply_blocks]; rfl
  · rw [receive_block_apply_accounts _ _ _ _ _ _ _ hnz]
    simp only [spec_effect.apply, spec_effect_of, hpd]
    rfl
  · rw [receive_block_apply_pending]; rfl
  · rw [receive_block_apply_frontiers]; rfl
  · rw [receive_block_apply_representation]
    simp only [spec_effect.apply, spec_effect_of, hpd]
    rfl
  · simp only [ledger_processor.receive_block_apply, block_store.frontier_put,
      block_store.frontier_del, block_store.representation_add, change_latest_block_infos,
      spec_effect.apply, spec_effect_of, hpd]
    simp [hnz, spec_block_account]
  · rw [receive_block_apply_checksum]; rfl
  · simp [ledger_processor.receive_block_apply, spec_effect.apply]
  · simp [ledger_processor.receive_block_apply, spec_effect.apply]

theorem open_block_apply_effect (env : ledger_env) (now : Nat) (s : block_store)
    (b : mol.open_block) (pending : pending_info)
    (hnz : env.hash (block.opening b) ≠ 0)
    (hp : s.pending ⟨b.hashables.account, b.hashables.source⟩ = some pending) :
    ledger_processor.open_block_apply env now s b account_info.zero pending =
      (spec_effect_of env s (block.opening b)).apply now s := by
  have hpd : (s.pending ⟨spec_block_account s (block.opening b),
      (block.opening b).source⟩).getD ⟨0, 0⟩ = pending := by
    show (s.pending ⟨b.hashables.account, b.hashables.source⟩).getD ⟨0, 0⟩ = _
    rw [hp]; rfl
  apply block_store_ext
  · rw [open_block_apply_blocks]; rfl
  · rw [open_block_apply_accounts _ _ _ _ _ _ hnz]
    simp only [spec_effect.apply, spec_effect_of, hpd]
    rfl
  · rw [open_block_apply_pending]; rfl
  · rw [open_block_apply_frontiers]; rfl
  · rw [open_block_apply_representation]
    simp only [spec_effect.apply, spec_effect_of, hpd]
    rfl
  · simp only [ledger_processor.open_block_apply, block_store.frontier_put,
      block_store.representation_add, change_latest_block_infos,
      spec_effect.apply, spec_effect_of, hpd]
    simp [hnz, spec_block_account]
  · rw [open_block_apply_checksum]; rfl
  · simp [ledger_processor.open_block_apply, spec_effect.apply]
  · simp [ledger_processor.open_block_apply, spec_effect.apply]

theorem change_block_apply_effect (env : ledger_env) (now : Nat) (s : block_store)
    (b : mol.change_block) (hnz : env.hash (block.change b) ≠ 0) :
    ledger_processor.change_block_apply env now s b (s.frontier_get b.hashables.previous)
        ((s.account_get (s.frontier_get b.hashables.previous)).getD account_info.zero) =
      (spec_effect_of env s (block.change b)).apply now s := by
  apply block_store_ext
  · rw [change_block_apply_blocks]; rfl
  · rw [change_block_apply_accounts _ _ _ _ _ _ hnz]; rfl
  · rw [change_block_apply_pending]; rfl
  · rw [change_block_apply_frontiers]; rfl
  · rw [change_block_apply_representation]; rfl
  · simp only [ledger_processor.change_block_apply, block_store.frontier_put,
      block_store.frontier_del, change_latest_block_infos,
      spec_effect.apply, spec_effect_of]
    simp [hnz, spec_block_account]
  · rw [change_block_apply_checksum]; rfl
  · simp [ledger_processor.change_block_apply, spec_effect.apply]
  · simp [ledger_processor.change_block_apply, spec_effect.apply]

theorem state_block_apply_assets (env : ledger_env) (now : Nat) (s : block_store)
    (b : mol.state_block) (info : account_info) (amount : Nat) (is_send : Bool) :
    (ledger_processor.state_block_apply env now s b info amount is_send).assets = s.assets ∧
    (ledger_processor.state_block_apply env now s b info amount is_send).asset_accounts
      = s.asset_accounts := by
  unfold ledger_processor.state_block_apply
  dsimp only
  constructor <;> split_ifs <;> simp

theorem state_block_apply_effect (env : ledger_env) (now : Nat) (s : block_store)
    (b : mol.state_block) (hnz : env.hash (block.state b) ≠ 0) :
    ledger_processor.state_block_apply env now s b
        ((s.account_get b.hashables.account).getD account_info.zero)
        (ledger_processor.state_block_account_checks s b).2.1
        (ledger_processor.state_block_account_checks s b).2.2 =
      (spec_effect_of env s (block.state b)).apply now s := by
  apply block_store_ext
  · rw [state_block_apply_blocks]; rfl
  · rw [state_block_apply_accounts _ _ _ _ _ _ _ hnz]; rfl
  · rw [state_block_apply_pending]
    simp only [spec_effect.apply, spec_effect_of, spec_block_account]
    cases hs : (ledger_processor.state_block_account_checks s b).2.2
    · by_cases hl : b.hashables.link = 0
      · simp [hl, spec_pending_write]
      · simp [hl, spec_pending_write]
    · simp [spec_pending_write]
  · rw [state_block_apply_frontiers]
    simp only [spec_effect.apply, spec_effect_of, spec_block_account, block_store.account_get]
    split_ifs <;> first | contradiction | rfl
  · rw [state_block_apply_representation]
    simp only [spec_effect.apply, spec_effect_of, spec_block_account, block_store.account_get]
    split_ifs <;> simp [spec_weight_add]
  · rw [state_block_apply_block_infos]
    simp [spec_effect.apply, spec_effect_of]
  · rw [state_block_apply_checksum]; rfl
  · rw [(state_block_apply_assets env now s b _ _ _).1]; rfl
  · rw [(state_block_apply_assets env now s b _ _ _).2]; rfl

/-- The store of an accepted send, receive, open, change or state block is the
store after its effect. -/
theorem process_effect (env : ledger_env) (now : Nat) (s : block_store) (b : block)
    (hnz : env.hash b ≠ 0) (ht : b.type ≤ block_type_state)
    (hc : (ledger.process env now s b).1.code = process_result.progress) :
    (ledger.process env now s b).2 = (spec_effect_of env s b).apply now s := by
  cases b with
  | send x =>
    have hc1 : (ledger_processor.send_block env now s x).1.code = process_result.progress := hc
    obtain ⟨_, _, _, _, he⟩ := send_block_accepted env now s x hc1
    show (ledger_processor.send_block env now s x).2 = _
    rw [he]
    exact send_block_apply_effect env now s x hnz
  | receive x =>
    have hc1 : (ledger_processor.receive_block env now s x).1.code = process_result.progress := hc
    obtain ⟨_, _, _, _, p, hp, he⟩ := receive_block_accepted env now s x hc1
    show (ledger_processor.receive_block env now s x).2 = _
    rw [he]
    exact receive_block_apply_effect env now s x p hnz hp
  | opening x =>
    have hc1 : (ledger_processor.open_block env now s x).1.code = process_result.progress := hc
    obtain ⟨_, _, _, _, p, hp, he⟩ := open_block_accepted env now s x hc1
    show (ledger_processor.open_block env now s x).2 = _
    rw [he]
    exact open_block_apply_effect env now s x p hnz hp
  | change x =>
    have hc1 : (ledger_processor.change_block env now s x).1.code = process_result.progress := hc
    obtain ⟨_, _, _, he⟩ := change_block_accepted env now s x hc1
    show (ledger_processor.change_block env now s x).2 = _
    rw [he]
    exact change_block_apply_effect env now s x hnz
  | state x =>
    have hc1 : (ledger_processor.state_block env now s x).1.code = process_result.progress := hc
    obtain ⟨_, _, _, _, he⟩ := state_block_accepted env now s x hc1
    show (ledger_processor.state_block env now s x).2 = _
    rw [he]
    exact state_block_apply_effect env now s x hnz
  | astate x => exact absurd ht (by simp [block.type, block_type_state])

/-! ## What acceptance tells about a block (C26) -/

theorem effect_fields (env : ledger_env) (s : block_store) (b : block) :
    (spec_effect_of env s b).hash = env.hash b ∧ (spec_effect_of env s b).contents = b ∧
      (spec_effect_of env s b).account = spec_block_account s b := by
  cases b <;> exact ⟨rfl, rfl, rfl⟩

theorem state_link_stored (s : block_store) (b : mol.state_block) (amount : Nat)
    (h : ledger_processor.state_block_link_checks s b process_result.progress amount false
      = process_result.progress) (hl : b.hashables.link ≠ 0) :
    (s.blocks b.hashables.link).isSome = true := by
  revert h
  unfold ledger_processor.state_block_link_checks
  repeat' split
  all_goals simp_all

/-- The block of an accepted send, receive, open, change or state block is new,
and its `previous`, when it has one, is stored. -/
theorem accepted_fresh (env : ledger_env) (now : Nat) (s : block_store) (b : block)
    (ht : b.type ≤ block_type_state)
    (hc : (ledger.process env now s b).1.code = process_result.progress) :
    s.blocks (env.hash b) = none ∧ (b.previous ≠ 0 → (s.blocks b.previous).isSome = true) := by
  cases b with
  | send x =>
    obtain ⟨hnew, ⟨r, hr⟩, _⟩ := send_block_accepted env now s x hc
    exact ⟨hnew, fun _ => by simp [block.previous, hr]⟩
  | receive x =>
    obtain ⟨hnew, ⟨r, hr⟩, _⟩ := receive_block_accepted env now s x hc
    exact ⟨hnew, fun _ => by simp [block.previous, hr]⟩
  | opening x =>
    obtain ⟨hnew, _⟩ := open_block_accepted env now s x hc
    exact ⟨hnew, fun h => absurd rfl h⟩
  | change x =>
    obtain ⟨hnew, ⟨r, hr⟩, _⟩ := change_block_accepted env now s x hc
    exact ⟨hnew, fun _ => by simp [block.previous, hr]⟩
  | state x =>
    obtain ⟨hnew, _, hchk, _, _⟩ := state_block_accepted env now s x hc
    obtain ⟨hsome, hnone⟩ := state_block_account_checks_progress s x hchk
    refine ⟨hnew, fun hp => ?_⟩
    cases hi : s.accounts x.hashables.account with
    | none => exact absurd (hnone hi).1 hp
    | some info => exact (hsome info hi).2.1
  | astate x => exact absurd ht (by simp [block.type, block_type_state])

/-- An accepted send, receive or change block found a frontier entry of its
`previous`. -/
theorem accepted_frontier (env : ledger_env) (now : Nat) (s : block_store) (b : block)
    (hb : b.builds_on = true)
    (hc : (ledger.process env now s b).1.code = process_result.progress) :
    s.frontier_get b.previous ≠ 0 ∧ spec_block_account s b = s.frontier_get b.previous := by
  cases b with
  | send x =>
    obtain ⟨_, _, hf, _⟩ := send_block_accepted env now s x hc
    exact ⟨hf, rfl⟩
  | receive x =>
    obtain ⟨_, _, hf, _⟩ := receive_block_accepted env now s x hc
    exact ⟨hf, rfl⟩
  | change x =>
    obtain ⟨_, _, hf, _⟩ := change_block_accepted env now s x hc
    exact ⟨hf, rfl⟩
  | opening x => cases hb
  | state x => cases hb
  | astate x => cases hb

/-- An accepted open or state block extends the chain of its account at the
head: the account has no record and the block no `previous`, or the head of the
record is its `previous`. -/
theorem accepted_head (env : ledger_env) (now : Nat) (s : block_store) (b : block)
    (hb : b.builds_on = false) (ht : b.type ≤ block_type_state)
    (hc : (ledger.process env now s b).1.code = process_result.progress) :
    (s.accounts (spec_block_account s b)).map account_info.head =
      if b.previous = 0 then none else some b.previous := by
  cases b with
  | send x => cases hb
  | receive x => cases hb
  | change x => cases hb
  | opening x =>
    obtain ⟨_, _, hnone, _⟩ := open_block_accepted env now s x hc
    show (s.accounts x.hashables.account).map account_info.head = _
    rw [hnone]
    rfl
  | state x =>
    obtain ⟨_, _, hchk, _, _⟩ := state_block_accepted env now s x hc
    obtain ⟨hsome, hnone⟩ := state_block_account_checks_progress s x hchk
    show (s.accounts x.hashables.account).map account_info.head =
      if x.hashables.previous = 0 then none else some x.hashables.previous
    cases hi : s.accounts x.hashables.account with
    | none => rw [if_pos (hnone hi).1]; rfl
    | some info =>
      obtain ⟨hp, _, hh, _⟩ := hsome info hi
      rw [if_neg hp, hh]; rfl
  | astate x => exact absurd ht (by simp [block.type, block_type_state])

/-- In a store whose frontier entries name accounts by their heads, every
accepted send, receive, open, change or state block extends the chain of its
account at the head. -/
theorem accepted_extends (env : ledger_env) (now : Nat) (s : block_store) (b : block)
    (hfh : spec_frontier_heads s) (h0 : s.block_get 0 = none)
    (ht : b.type ≤ block_type_state)
    (hc : (ledger.process env now s b).1.code = process_result.progress) :
    (s.accounts (spec_block_account s b)).map account_info.head =
      if b.previous = 0 then none else some b.previous := by
  cases hb : b.builds_on with
  | false => exact accepted_head env now s b hb ht hc
  | true =>
    obtain ⟨hf, hA⟩ := accepted_frontier env now s b hb hc
    have hp : b.previous ≠ 0 := by
      intro hp0
      have hst := (accepted_fresh env now s b ht hc).2
      cases b with
      | send x =>
        obtain ⟨_, hprev, _⟩ := send_block_accepted env now s x hc
        exact previous_ne_zero s _ h0 hprev hp0
      | receive x =>
        obtain ⟨_, hprev, _⟩ := receive_block_accepted env now s x hc
        exact previous_ne_zero s _ h0 hprev hp0
      | change x =>
        obtain ⟨_, hprev, _⟩ := change_block_accepted env now s x hc
        exact previous_ne_zero s _ h0 hprev hp0
      | opening x => cases hb
      | state x => cases hb
      | astate x => cases hb
    rw [if_neg hp, hA]
    exact hfh _ hf

/-- The frontier entry that an accepted block deletes is that of its `previous`. -/
theorem effect_frontier_del (env : ledger_env) (now : Nat) (s : block_store) (b : block)
    (ht : b.type ≤ block_type_state)
    (hc : (ledger.process env now s b).1.code = process_result.progress) :
    (∀ d, (spec_effect_of env s b).frontier_del = some d → d = b.previous ∧
      s.frontier_get d ≠ 0) ∧
    (s.frontier_get b.previous ≠ 0 → b.previous ≠ 0 →
      (spec_effect_of env s b).frontier_del = some b.previous) := by
  cases b with
  | send x =>
    obtain ⟨_, _, hf, _⟩ := send_block_accepted env now s x hc
    refine ⟨fun d hd => ?_, fun _ _ => rfl⟩
    cases hd
    exact ⟨rfl, hf⟩
  | receive x =>
    obtain ⟨_, _, hf, _⟩ := receive_block_accepted env now s x hc
    refine ⟨fun d hd => ?_, fun _ _ => rfl⟩
    cases hd
    exact ⟨rfl, hf⟩
  | change x =>
    obtain ⟨_, _, hf, _⟩ := change_block_accepted env now s x hc
    refine ⟨fun d hd => ?_, fun _ _ => rfl⟩
    cases hd
    exact ⟨rfl, hf⟩
  | opening x =>
    refine ⟨fun d hd => ?_, fun _ hp => absurd rfl hp⟩
    cases hd
  | state x =>
    obtain ⟨_, _, hchk, _, _⟩ := state_block_accepted env now s x hc
    obtain ⟨hsome, hnone⟩ := state_block_account_checks_progress s x hchk
    have hhead : ((s.accounts x.hashables.account).getD account_info.zero).head
        = x.hashables.previous := by
      cases hi : s.accounts x.hashables.account with
      | none => rw [(hnone hi).1]; rfl
      | some info => rw [(hsome info hi).2.2.1]; rfl
    have he : (spec_effect_of env s (block.state x)).frontier_del =
        if s.frontier_get x.hashables.previous ≠ 0 then some x.hashables.previous else none := by
      show (if s.frontier_get ((s.accounts x.hashables.account).getD account_info.zero).head ≠ 0
        then some ((s.accounts x.hashables.account).getD account_info.zero).head else none) = _
      rw [hhead]
    rw [he]
    refine ⟨fun d hd => ?_, fun hf _ => if_pos hf⟩
    by_cases hf : s.frontier_get x.hashables.previous ≠ 0
    · rw [if_pos hf] at hd
      cases hd
      exact ⟨rfl, hf⟩
    · rw [if_neg hf] at hd
      cases hd
  | astate x => exact absurd ht (by simp [block.type, block_type_state])

/-- The pending entries that an accepted block writes and deletes. -/
theorem effect_pending (env : ledger_env) (now : Nat) (s : block_store) (b : block)
    (ht : b.type ≤ block_type_state)
    (hc : (ledger.process env now s b).1.code = process_result.progress) :
    (∀ kv, (spec_effect_of env s b).pending_put = some kv → kv.1.hash = env.hash b) ∧
    (∀ k, (spec_effect_of env s b).pending_del = some k →
      k.account = spec_block_account s b ∧ (s.blocks k.hash).isSome = true) ∧
    (b.source ≠ 0 → (s.blocks b.source).isSome = true) := by
  cases b with
  | send x =>
    refine ⟨fun kv hkv => ?_, fun k hk => ?_, fun h => absurd rfl h⟩
    · cases hkv; rfl
    · cases hk
  | receive x =>
    have hsrc : (s.blocks x.hashables.source).isSome = true := by
      have hc1 : (ledger_processor.receive_block env now s x).1.code
          = process_result.progress := hc
      revert hc1
      unfold ledger_processor.receive_block
      dsimp only
      repeat' split
      all_goals simp_all
      exact Option.isSome_iff_ne_none.mpr ‹_›
    refine ⟨fun kv hkv => ?_, fun k hk => ?_, fun _ => hsrc⟩
    · cases hkv
    · cases hk; exact ⟨rfl, hsrc⟩
  | opening x =>
    obtain ⟨_, ⟨r, hr⟩, _⟩ := open_block_accepted env now s x hc
    have hsrc : (s.blocks x.hashables.source).isSome = true := by rw [hr]; rfl
    refine ⟨fun kv hkv => ?_, fun k hk => ?_, fun _ => hsrc⟩
    · cases hkv
    · cases hk; exact ⟨rfl, hsrc⟩
  | change x =>
    refine ⟨fun kv hkv => ?_, fun k hk => ?_, fun h => absurd rfl h⟩
    · cases hkv
    · cases hk
  | state x =>
    obtain ⟨_, _, hchk, hlnk, _⟩ := state_block_accepted env now s x hc
    refine ⟨fun kv hkv => ?_, fun k hk => ?_, fun h => absurd rfl h⟩
    · have hkv2 : (if (ledger_processor.state_block_account_checks s x).2.2 = true then
          some ((⟨x.hashables.link, env.hash (block.state x)⟩ : pending_key),
            (⟨x.hashables.account, (ledger_processor.state_block_account_checks s x).2.1⟩ :
              pending_info))
          else none) = some kv := hkv
      split_ifs at hkv2
      cases hkv2
      rfl
    · have hk2 : (if (ledger_processor.state_block_account_checks s x).2.2 = false ∧
          x.hashables.link ≠ 0 then
          some (⟨x.hashables.account, x.hashables.link⟩ : pending_key) else none) = some k := hk
      split_ifs at hk2 with hcond
      cases hk2
      rw [hcond.1] at hlnk
      exact ⟨rfl, state_link_stored s x _ hlnk hcond.2⟩
  | astate x => exact absurd ht (by simp [block.type, block_type_state])

/-! ## Two effects in either order (C26) -/

theorem blocks_put_at (t : Nat → Option stored_block) (h : Nat) (b : block) (k : Nat)
    (hp : b.previous ≠ h) :
    block_store.blocks_put t h b k =
      if k = h then some ⟨b, 0⟩
      else if b.previous ≠ 0 ∧ k = b.previous then (t k).map fun r => ⟨r.contents, h⟩
      else t k := by
  unfold block_store.blocks_put
  by_cases hp0 : b.previous = 0
  · rw [if_pos hp0]
    by_cases hk : k = h
    · subst hk; simp
    · simp [Function.update_noteq hk, hk, hp0]
  · rw [if_neg hp0]
    unfold block_store.set_successor
    rw [Function.update_noteq hp]
    cases htp : t b.previous with
    | none =>
      dsimp only
      by_cases hk : k = h
      · subst hk; simp
      · rw [Function.update_noteq hk, if_neg hk]
        by_cases hkp : k = b.previous
        · subst hkp; simp [htp]
        · simp [hkp]
    | some r =>
      dsimp only
      by_cases hkp : k = b.previous
      · subst hkp
        rw [Function.update_same, if_neg hp, if_pos ⟨hp0, rfl⟩, htp]
        rfl
      · rw [Function.update_noteq hkp]
        by_cases hk : k = h
        · subst hk; simp
        · simp [Function.update_noteq hk, hk, hkp]

theorem blocks_put_comm (t : Nat → Option stored_block) (h1 h2 : Nat) (b1 b2 : block)
    (hh : h1 ≠ h2) (h11 : b1.previous ≠ h1) (h22 : b2.previous ≠ h2)
    (h12 : b1.previous ≠ h2) (h21 : b2.previous ≠ h1)
    (hpp : b1.previous = 0 ∨ b2.previous = 0 ∨ b1.previous ≠ b2.previous) :
    block_store.blocks_put (block_store.blocks_put t h1 b1) h2 b2 =
      block_store.blocks_put (block_store.blocks_put t h2 b2) h1 b1 := by
  funext k
  rw [blocks_put_at _ h2 b2 k h22, blocks_put_at _ h1 b1 k h11, blocks_put_at _ h1 b1 k h11,
    blocks_put_at _ h2 b2 k h22]
  by_cases hk1 : k = h1
  · subst hk1
    have h3 : ¬ (b2.previous ≠ 0 ∧ k = b2.previous) := fun h => h21 h.2.symm
    simp [hh, h3]
  · by_cases hk2 : k = h2
    · subst hk2
      have h3 : ¬ (b1.previous ≠ 0 ∧ k = b1.previous) := fun h => h12 h.2.symm
      simp [h3, hk1]
    · simp only [if_neg hk1, if_neg hk2]
      by_cases hc1 : b1.previous ≠ 0 ∧ k = b1.previous
      · have hc2 : ¬ (b2.previous ≠ 0 ∧ k = b2.previous) := by
          rintro ⟨hc20, hc2⟩
          rcases hpp with hpp | hpp | hpp
          · exact hc1.1 hpp
          · exact hc20 hpp
          · exact hpp (hc1.2.symm.trans hc2)
        rw [if_neg hc2, if_pos hc1, if_pos hc1, if_neg hc2]
      · simp [hc1]

theorem weight_add_comm (r : Nat → Nat) (a b : Nat × Nat) :
    spec_weight_add (spec_weight_add r a) b = spec_weight_add (spec_weight_add r b) a := by
  funext k
  unfold spec_weight_add
  simp only [Function.update_apply]
  by_cases hab : a.1 = b.1
  · by_cases hk : k = b.1
    · simp only [hab, hk, if_true]
      omega
    · simp only [hab, hk, if_false]
  · have hba : ¬ b.1 = a.1 := fun h => hab h.symm
    by_cases hk : k = b.1
    · have hka : ¬ k = a.1 := fun h => hba (hk.symm.trans h)
      simp only [hk, hba, hka, if_true, if_false]
    · by_cases hka : k = a.1
      · simp only [hka, hab, if_true, if_false]
      · simp only [hk, hka, if_false]

theorem weight_fold_add (l : List (Nat × Nat)) :
    ∀ (r : Nat → Nat) (a : Nat × Nat),
      l.foldl spec_weight_add (spec_weight_add r a) = spec_weight_add (l.foldl spec_weight_add r) a := by
  induction l with
  | nil => intro r a; rfl
  | cons x l ih =>
    intro r a
    rw [List.foldl_cons, List.foldl_cons, weight_add_comm, ih]

theorem weight_fold_comm (l1 l2 : List (Nat × Nat)) :
    ∀ r : Nat → Nat,
      l2.foldl spec_weight_add (l1.foldl spec_weight_add r) =
        l1.foldl spec_weight_add (l2.foldl spec_weight_add r) := by
  induction l1 with
  | nil => intro r; rfl
  | cons x l1 ih =>
    intro r
    rw [List.foldl_cons, List.foldl_cons, ih, weight_fold_add]

theorem checksum_comm (c o1 h1 o2 h2 : Nat) :
    (((c ^^^ o1) ^^^ h1) ^^^ o2) ^^^ h2 = (((c ^^^ o2) ^^^ h2) ^^^ o1) ^^^ h1 := by
  ac_rfl

theorem pending_write_comm (p : pending_key → Option pending_info)
    (p1 p2 : Option (pending_key × pending_info)) (d1 d2 : Option pending_key)
    (h12 : ∀ kv k, p1 = some kv → d2 = some k → kv.1 ≠ k)
    (h21 : ∀ kv k, p2 = some kv → d1 = some k → kv.1 ≠ k)
    (hpp : ∀ kv kv1, p1 = some kv → p2 = some kv1 → kv.1 ≠ kv1.1) :
    spec_pending_write (spec_pending_write p p1 d1) p2 d2 =
      spec_pending_write (spec_pending_write p p2 d2) p1 d1 := by
  funext k
  unfold spec_pending_write
  cases p1 with
  | none =>
    cases p2 with
    | none =>
      cases d1 <;> cases d2 <;>
        first
        | rfl
        | (simp only [Function.update_apply]; done)
        | (simp only [Function.update_apply]; first | rfl | (split_ifs <;> rfl))
    | some kv2 =>
      cases d1 with
      | none => cases d2 <;> rfl
      | some k1 =>
        have hne := h21 kv2 k1 rfl rfl
        cases d2 <;> simp only [Function.update_apply] <;>
          (split_ifs <;> first | rfl | (exfalso; simp_all))
  | some kv1 =>
    cases p2 with
    | none =>
      cases d2 with
      | none => cases d1 <;> rfl
      | some k2 =>
        have hne := h12 kv1 k2 rfl rfl
        cases d1 <;> simp only [Function.update_apply] <;>
          (split_ifs <;> first | rfl | (exfalso; simp_all))
    | some kv2 =>
      have hne := hpp kv1 kv2 rfl rfl
      cases d1 with
      | none =>
        cases d2 with
        | none =>
          simp only [Function.update_apply]
          split_ifs <;> first | rfl | (exfalso; simp_all)
        | some k2 =>
          have hne2 := h12 kv1 k2 rfl rfl
          simp only [Function.update_apply]
          split_ifs <;> first | rfl | (exfalso; simp_all)
      | some k1 =>
        have hne3 := h21 kv2 k1 rfl rfl
        cases d2 with
        | none =>
          simp only [Function.update_apply]
          split_ifs <;> first | rfl | (exfalso; simp_all)
        | some k2 =>
          have hne2 := h12 kv1 k2 rfl rfl
          simp only [Function.update_apply]
          split_ifs <;> first | rfl | (exfalso; simp_all)

theorem frontier_write_comm (f : Nat → Option Nat) (d1 d2 : Option Nat) (q1 q2 : Bool)
    (h1 h2 a1 a2 : Nat) (hh : h1 ≠ h2)
    (h12 : ∀ d, d1 = some d → d ≠ h2) (h21 : ∀ d, d2 = some d → d ≠ h1) :
    spec_frontier_write (spec_frontier_write f d1 q1 h1 a1) d2 q2 h2 a2 =
      spec_frontier_write (spec_frontier_write f d2 q2 h2 a2) d1 q1 h1 a1 := by
  funext k
  unfold spec_frontier_write
  cases d1 with
  | none =>
    cases d2 with
    | none =>
      cases q1 <;> cases q2 <;>
        first
        | rfl
        | (simp only [Function.update_apply, if_true, if_false, Bool.false_eq_true]; done)
        | (simp only [Function.update_apply, if_true, if_false, Bool.false_eq_true];
            first | rfl | (split_ifs <;> first | rfl | (exfalso; simp_all)))
    | some x2 =>
      have hne := h21 x2 rfl
      cases q1 <;> cases q2 <;>
        simp only [Function.update_apply, if_true, if_false, Bool.false_eq_true] <;>
        first | rfl | (split_ifs <;> first | rfl | (exfalso; simp_all))
  | some x1 =>
    have hne1 := h12 x1 rfl
    cases d2 with
    | none =>
      cases q1 <;> cases q2 <;>
        simp only [Function.update_apply, if_true, if_false, Bool.false_eq_true] <;>
        first | rfl | (split_ifs <;> first | rfl | (exfalso; simp_all))
    | some x2 =>
      have hne := h21 x2 rfl
      cases q1 <;> cases q2 <;>
        simp only [Function.update_apply, if_true, if_false, Bool.false_eq_true] <;>
        first | rfl | (split_ifs <;> first | rfl | (exfalso; simp_all))

/-- Two effects on different blocks and accounts give the same tables in either
order; the account records carry the time of the write. -/
theorem effect_apply_comm (s : block_store) (e1 e2 : spec_effect) (t1 t2 t3 t4 : Nat)
    (hh : e1.hash ≠ e2.hash) (hA : e1.account ≠ e2.account)
    (h11 : e1.contents.previous ≠ e1.hash) (h22 : e2.contents.previous ≠ e2.hash)
    (h12 : e1.contents.previous ≠ e2.hash) (h21 : e2.contents.previous ≠ e1.hash)
    (hpp : e1.contents.previous = 0 ∨ e2.contents.previous = 0 ∨
      e1.contents.previous ≠ e2.contents.previous)
    (hpd12 : ∀ kv k, e1.pending_put = some kv → e2.pending_del = some k → kv.1 ≠ k)
    (hpd21 : ∀ kv k, e2.pending_put = some kv → e1.pending_del = some k → kv.1 ≠ k)
    (hpp12 : ∀ kv kv1, e1.pending_put = some kv → e2.pending_put = some kv1 → kv.1 ≠ kv1.1)
    (hf12 : ∀ d, e1.frontier_del = some d → d ≠ e2.hash)
    (hf21 : ∀ d, e2.frontier_del = some d → d ≠ e1.hash) :
    (e2.apply t2 (e1.apply t1 s)).blocks = (e1.apply t4 (e2.apply t3 s)).blocks ∧
    (e2.apply t2 (e1.apply t1 s)).pending = (e1.apply t4 (e2.apply t3 s)).pending ∧
    (e2.apply t2 (e1.apply t1 s)).frontiers = (e1.apply t4 (e2.apply t3 s)).frontiers ∧
    (e2.apply t2 (e1.apply t1 s)).representation
      = (e1.apply t4 (e2.apply t3 s)).representation ∧
    (e2.apply t2 (e1.apply t1 s)).block_infos = (e1.apply t4 (e2.apply t3 s)).block_infos ∧
    (e2.apply t2 (e1.apply t1 s)).checksum = (e1.apply t4 (e2.apply t3 s)).checksum ∧
    (e2.apply t2 (e1.apply t1 s)).assets = (e1.apply t4 (e2.apply t3 s)).assets ∧
    (e2.apply t2 (e1.apply t1 s)).asset_accounts
      = (e1.apply t4 (e2.apply t3 s)).asset_accounts ∧
    (e2.apply t2 (e1.apply t1 s)).accounts =
      Function.update (Function.update s.accounts e1.account
        (some { e1.record with modified := t1 })) e2.account
        (some { e2.record with modified := t2 }) ∧
    (e1.apply t4 (e2.apply t3 s)).accounts =
      Function.update (Function.update s.accounts e1.account
        (some { e1.record with modified := t4 })) e2.account
        (some { e2.record with modified := t3 }) := by
  refine ⟨?_, ?_, ?_, ?_, ?_, ?_, rfl, rfl, rfl, ?_⟩
  · exact blocks_put_comm s.blocks _ _ _ _ hh h11 h22 h12 h21 hpp
  · exact pending_write_comm s.pending _ _ _ _ hpd12 hpd21 hpp12
  · exact frontier_write_comm s.frontiers _ _ _ _ _ _ _ _ hh hf12 hf21
  · exact weight_fold_comm _ _ _
  · dsimp only [spec_effect.apply]
    cases e1.sidecar <;> cases e2.sidecar <;>
      simp only [if_true, if_false, Bool.false_eq_true]
    exact Function.update_comm hh _ _ _
  · exact checksum_comm _ _ _ _ _
  · dsimp only [spec_effect.apply]
    exact Function.update_comm hA.symm _ _ _

/-! ## The effect of a block does not depend on the other block (C26) -/

theorem state_checked_congr (s t : block_store) (b : mol.state_block)
    (hs : (ledger_processor.state_block_account_checks s b).1 = process_result.progress)
    (ht : (ledger_processor.state_block_account_checks t b).1 = process_result.progress)
    (hrec : t.accounts b.hashables.account = s.accounts b.hashables.account) :
    (ledger_processor.state_block_account_checks t b).2.1
        = (ledger_processor.state_block_account_checks s b).2.1 ∧
      (ledger_processor.state_block_account_checks t b).2.2
        = (ledger_processor.state_block_account_checks s b).2.2 := by
  obtain ⟨hs1, hs2⟩ := state_block_account_checks_progress s b hs
  obtain ⟨ht1, ht2⟩ := state_block_account_checks_progress t b ht
  cases hi : s.accounts b.hashables.account with
  | none =>
    obtain ⟨_, _, a1, a2⟩ := hs2 hi
    obtain ⟨_, _, b1, b2⟩ := ht2 (hrec.trans hi)
    exact ⟨b2.trans a2.symm, b1.trans a1.symm⟩
  | some info =>
    obtain ⟨_, _, _, a1, a2⟩ := hs1 info hi
    obtain ⟨_, _, _, b1, b2⟩ := ht1 info (hrec.trans hi)
    exact ⟨b2.trans a2.symm, b1.trans a1.symm⟩

theorem state_head_previous (s : block_store) (b : mol.state_block)
    (hs : (ledger_processor.state_block_account_checks s b).1 = process_result.progress) :
    ((s.accounts b.hashables.account).getD account_info.zero).head = b.hashables.previous := by
  obtain ⟨hs1, hs2⟩ := state_block_account_checks_progress s b hs
  cases hi : s.accounts b.hashables.account with
  | none => rw [(hs2 hi).1]; rfl
  | some info => rw [(hs1 info hi).2.2.1]; rfl

/-- The effect of an accepted block is the same in two stores that agree on the
frontier entry of its `previous`, on the record of its account, on the pending
entry it claims and on the balance a change block moves. -/
theorem effect_congr (env : ledger_env) (now1 now2 : Nat) (s t : block_store) (b : block)
    (hty : b.type ≤ block_type_state)
    (hs : (ledger.process env now1 s b).1.code = process_result.progress)
    (ht : (ledger.process env now2 t b).1.code = process_result.progress)
    (hfr : t.frontier_get b.previous = s.frontier_get b.previous)
    (hrec : t.accounts (spec_block_account s b) = s.accounts (spec_block_account s b))
    (hpend : t.pending ⟨spec_block_account s b, b.source⟩
      = s.pending ⟨spec_block_account s b, b.source⟩)
    (hw : spec_change_weight env t b = spec_change_weight env s b) :
    spec_effect_of env t b = spec_effect_of env s b := by
  cases b with
  | send x =>
    have hA : spec_block_account t (block.send x) = spec_block_account s (block.send x) := hfr
    simp only [spec_effect_of, hA, hrec, hpend]
  | receive x =>
    have hA : spec_block_account t (block.receive x) = spec_block_account s (block.receive x) :=
      hfr
    simp only [spec_effect_of, hA, hrec, hpend]
  | opening x =>
    have hA : spec_block_account t (block.opening x) = spec_block_account s (block.opening x) :=
      rfl
    simp only [spec_effect_of, hA, hrec, hpend]
  | change x =>
    have hA : spec_block_account t (block.change x) = spec_block_account s (block.change x) :=
      hfr
    simp only [spec_effect_of, hA, hrec, hpend, hw]
  | state x =>
    have hA : spec_block_account t (block.state x) = spec_block_account s (block.state x) := rfl
    obtain ⟨_, _, hcs, _, _⟩ := state_block_accepted env now1 s x hs
    obtain ⟨_, _, hct, _, _⟩ := state_block_accepted env now2 t x ht
    have hrec1 : t.accounts x.hashables.account = s.accounts x.hashables.account := hrec
    obtain ⟨hc1, hc2⟩ := state_checked_congr s t x hcs hct hrec1
    have hh := state_head_previous s x hcs
    have hfr1 : t.frontier_get x.hashables.previous = s.frontier_get x.hashables.previous := hfr
    simp only [spec_effect_of, spec_block_account, hrec1, hc1, hc2, hh, hfr1]
  | astate x => exact absurd hty (by simp [block.type, block_type_state])

/-! ## Two accepted blocks do not meet (C26) -/

theorem frontier_write_get (f : Nat → Option Nat) (del : Option Nat) (put : Bool)
    (hash account k : Nat) (hk : k ≠ hash) :
    spec_frontier_write f del put hash account k = if del = some k then none else f k := by
  unfold spec_frontier_write
  cases del with
  | none => cases put <;> simp [Function.update_noteq hk]
  | some d =>
    by_cases hd : d = k
    · subst hd
      cases put <;> simp [Function.update_noteq hk]
    · have hd2 : k ≠ d := fun h => hd h.symm
      cases put <;> simp [Function.update_noteq hk, Function.update_noteq hd2, hd]

theorem pending_write_get (p : pending_key → Option pending_info)
    (put : Option (pending_key × pending_info)) (del : Option pending_key) (k : pending_key)
    (h1 : ∀ kv, put = some kv → kv.1 ≠ k) (h2 : ∀ d, del = some d → d ≠ k) :
    spec_pending_write p put del k = p k := by
  unfold spec_pending_write
  cases put with
  | none =>
    cases del with
    | none => rfl
    | some d => exact Function.update_noteq (Ne.symm (h2 d rfl)) _ _
  | some kv =>
    cases del with
    | none => exact Function.update_noteq (Ne.symm (h1 kv rfl)) _ _
    | some d =>
      dsimp only
      rw [Function.update_noteq (Ne.symm (h2 d rfl)), Function.update_noteq (Ne.symm (h1 kv rfl))]

theorem effect_record_head (env : ledger_env) (s : block_store) (b : block)
    (ht : b.type ≤ block_type_state) : (spec_effect_of env s b).record.head = env.hash b := by
  cases b with
  | astate x => exact absurd ht (by simp [block.type, block_type_state])
  | _ => rfl

theorem block_account_explicit (s t : block_store) (b : block) (hb : b.builds_on = false) :
    spec_block_account t b = spec_block_account s b := by
  cases b with
  | send x => cases hb
  | receive x => cases hb
  | change x => cases hb
  | _ => rfl

theorem stored_ne_fresh (s : block_store) (p h : Nat)
    (hst : p ≠ 0 → (s.blocks p).isSome = true) (hn : s.blocks h = none) (hz : h ≠ 0) :
    p ≠ h := by
  intro hph
  subst hph
  have := hst hz
  rw [hn] at this
  cases this

theorem head_of_extends (s : block_store) (a p : Nat) (hp : p ≠ 0)
    (h : (s.accounts a).map account_info.head = if p = 0 then none else some p) :
    ∃ info, s.accounts a = some info ∧ info.head = p := by
  rw [if_neg hp] at h
  exact head_of_map s a p h

/-- What two blocks that are accepted one after the other, and the second also
on its own, have apart: their hashes and accounts differ, and the effect of the
second is the one it has on its own. -/
theorem second_block_facts (env : ledger_env) (t1 t2 t3 : Nat) (s : block_store)
    (b1 b2 : block)
    (hfh : spec_frontier_heads s) (hf0 : s.frontier_get 0 = 0) (h0 : s.block_get 0 = none)
    (hH2 : spec_heads_distinct s)
    (ht1 : b1.type ≤ block_type_state) (ht2 : b2.type ≤ block_type_state)
    (hz1 : env.hash b1 ≠ 0)
    (hw : spec_change_weight env (ledger.process env t1 s b1).2 b2 = spec_change_weight env s b2)
    (ha1 : (ledger.process env t1 s b1).1.code = process_result.progress)
    (ha2 : (ledger.process env t3 s b2).1.code = process_result.progress)
    (ha12 : (ledger.process env t2 (ledger.process env t1 s b1).2 b2).1.code
      = process_result.progress) :
    env.hash b1 ≠ env.hash b2 ∧ spec_block_account s b1 ≠ spec_block_account s b2 ∧
      spec_effect_of env (ledger.process env t1 s b1).2 b2 = spec_effect_of env s b2 := by
  obtain ⟨hn1, hst1⟩ := accepted_fresh env t1 s b1 ht1 ha1
  obtain ⟨hn2, hst2⟩ := accepted_fresh env t3 s b2 ht2 ha2
  obtain ⟨hn12, _⟩ := accepted_fresh env t2 _ b2 ht2 ha12
  have hD1 := accepted_extends env t1 s b1 hfh h0 ht1 ha1
  have hD2 := accepted_extends env t3 s b2 hfh h0 ht2 ha2
  obtain ⟨hfd1, hfd1b⟩ := effect_frontier_del env t1 s b1 ht1 ha1
  obtain ⟨hpp1, hpd1, _⟩ := effect_pending env t1 s b1 ht1 ha1
  obtain ⟨_, _, hsrc2⟩ := effect_pending env t3 s b2 ht2 ha2
  obtain ⟨heh, hec, hea⟩ := effect_fields env s b1
  have hE := process_effect env t1 s b1 hz1 ht1 ha1
  have hblocks : (ledger.process env t1 s b1).2.blocks
      = block_store.blocks_put s.blocks (env.hash b1) b1 := by
    rw [hE]
    show block_store.blocks_put s.blocks (spec_effect_of env s b1).hash
      (spec_effect_of env s b1).contents = _
    rw [heh, hec]
  have haccs : (ledger.process env t1 s b1).2.accounts
      = Function.update s.accounts (spec_block_account s b1)
          (some { (spec_effect_of env s b1).record with modified := t1 }) := by
    rw [hE]
    show Function.update s.accounts (spec_effect_of env s b1).account _ = _
    rw [hea]
  have hfrs : (ledger.process env t1 s b1).2.frontiers
      = spec_frontier_write s.frontiers (spec_effect_of env s b1).frontier_del
          (spec_effect_of env s b1).frontier_put (env.hash b1) (spec_block_account s b1) := by
    rw [hE]
    show spec_frontier_write s.frontiers _ _ (spec_effect_of env s b1).hash
      (spec_effect_of env s b1).account = _
    rw [heh, hea]
  have hpend : (ledger.process env t1 s b1).2.pending
      = spec_pending_write s.pending (spec_effect_of env s b1).pending_put
          (spec_effect_of env s b1).pending_del := by
    rw [hE]
    rfl
  -- the hashes differ
  have hh : env.hash b1 ≠ env.hash b2 := by
    intro he
    have hsome : ((ledger.process env t1 s b1).2.blocks (env.hash b2)).isSome = true := by
      rw [hblocks, blocks_put_isSome, he]
      simp
    rw [hn12] at hsome
    cases hsome
  have hp2h1 : b2.previous ≠ env.hash b1 := stored_ne_fresh s _ _ hst2 hn1 hz1
  -- the frontier entry of the second block's previous
  have hfr_at : (ledger.process env t1 s b1).2.frontiers b2.previous =
      if (spec_effect_of env s b1).frontier_del = some b2.previous then none
      else s.frontiers b2.previous := by
    rw [hfrs]
    exact frontier_write_get _ _ _ _ _ _ hp2h1
  -- the accounts differ
  have hA : spec_block_account s b1 ≠ spec_block_account s b2 := by
    intro hAe
    rw [hAe] at hD1
    have hite : (if b1.previous = 0 then none else some b1.previous : Option Nat) =
        if b2.previous = 0 then none else some b2.previous := hD1.symm.trans hD2
    cases hb : b2.builds_on with
    | true =>
      obtain ⟨hf2, _⟩ := accepted_frontier env t3 s b2 hb ha2
      obtain ⟨hf12, _⟩ := accepted_frontier env t2 _ b2 hb ha12
      have hp2 : b2.previous ≠ 0 := fun h => hf2 (by rw [h]; exact hf0)
      have hp1 : b1.previous = b2.previous := by
        rw [if_neg hp2] at hite
        by_cases hp10 : b1.previous = 0
        · rw [if_pos hp10] at hite
          cases hite
        · rw [if_neg hp10] at hite
          exact Option.some.inj hite
      have hdel := hfd1b (by rw [hp1]; exact hf2) (by rw [hp1]; exact hp2)
      rw [hp1] at hdel
      apply hf12
      simp only [block_store.frontier_get]
      rw [hfr_at, if_pos hdel]
      rfl
    | false =>
      have hhead := accepted_head env t2 _ b2 hb ht2 ha12
      rw [block_account_explicit s _ b2 hb, ← hAe, haccs, Function.update_same] at hhead
      have hrh := effect_record_head env s b1 ht1
      by_cases hp2 : b2.previous = 0
      · rw [if_pos hp2] at hhead
        cases hhead
      · rw [if_neg hp2] at hhead
        have : env.hash b1 = b2.previous := by
          have h3 := Option.some.inj hhead
          rw [← hrh]
          exact h3
        exact hp2h1 this.symm
  -- the second block reads what it reads on its own
  have hfr : (ledger.process env t1 s b1).2.frontier_get b2.previous
      = s.frontier_get b2.previous := by
    simp only [block_store.frontier_get]
    rw [hfr_at, if_neg]
    intro hdel
    obtain ⟨hd, hfd⟩ := hfd1 _ hdel
    have hp2 : b2.previous ≠ 0 := fun h => hfd (by rw [h]; exact hf0)
    have hp1 : b1.previous ≠ 0 := by rw [← hd]; exact hp2
    obtain ⟨i1, hi1, hih1⟩ := head_of_extends s _ _ hp1 hD1
    obtain ⟨i2, hi2, hih2⟩ := head_of_extends s _ _ hp2 hD2
    exact hA (hH2 _ _ i1 i2 hi1 hi2 (by rw [hih1, hih2, hd]))
  have hrec : (ledger.process env t1 s b1).2.accounts (spec_block_account s b2)
      = s.accounts (spec_block_account s b2) := by
    rw [haccs, Function.update_noteq (Ne.symm hA)]
  have hsrc : b2.source ≠ env.hash b1 := stored_ne_fresh s _ _ hsrc2 hn1 hz1
  have hpnd : (ledger.process env t1 s b1).2.pending ⟨spec_block_account s b2, b2.source⟩
      = s.pending ⟨spec_block_account s b2, b2.source⟩ := by
    rw [hpend]
    refine pending_write_get _ _ _ _ (fun kv hkv hk => ?_) (fun d hd hk => ?_)
    · have := hpp1 kv hkv
      rw [hk] at this
      exact hsrc this
    · have := (hpd1 d hd).1
      rw [hk] at this
      exact hA this.symm
  exact ⟨hh, hA, effect_congr env t3 t2 s _ b2 ht2 ha2 ha12 hfr hrec hpnd hw⟩

theorem frontier_invariant_heads (s : block_store) (hFI : frontier_invariant s) :
    spec_frontier_heads s := by
  intro h hne
  obtain ⟨a, ha⟩ := ((hFI h).1).mp hne
  have hfa := (hFI h).2 a ha
  obtain ⟨info, c, hi, hh, _, _⟩ := ha
  rw [hfa, hi, ← hh]
  rfl

theorem frontier_invariant_zero (s : block_store) (hFI : frontier_invariant s)
    (h0 : s.block_get 0 = none) : s.frontier_get 0 = 0 := by
  by_contra hne
  obtain ⟨a, info, c, _, _, hc, _⟩ := ((hFI 0).1).mp hne
  rw [h0] at hc
  cases hc

theorem timeless_update (f : Nat → Option account_info) (a1 a2 : Nat) (r1 r2 : account_info)
    (t1 t2 t3 t4 : Nat) (a : Nat) :
    (Function.update (Function.update f a1 (some { r1 with modified := t1 })) a2
        (some { r2 with modified := t2 }) a).map account_info.timeless =
      (Function.update (Function.update f a1 (some { r1 with modified := t4 })) a2
        (some { r2 with modified := t3 }) a).map account_info.timeless := by
  simp only [Function.update_apply]
  split_ifs <;> rfl

/-- C26, amended. In a store that satisfies the frontier invariant, in which no
two accounts have the same head and no block is stored under the zero hash: if
two send, receive, open, change or state blocks with non-zero hashes are
accepted in both orders (and the balance visitor gives a change block the same
balance with and without the other block), the two resulting stores hold the
same tables, and the same account records but for their `modified` times; they
are equal when each block is processed at the same time in both orders. -/
theorem process_order_independent (env : ledger_env) (t1 t2 t3 t4 : Nat) (s : block_store)
    (b1 b2 : block)
    (hFI : frontier_invariant s) (hH2 : spec_heads_distinct s) (h0 : s.block_get 0 = none)
    (ht1 : b1.type ≤ block_type_state) (ht2 : b2.type ≤ block_type_state)
    (hz1 : env.hash b1 ≠ 0) (hz2 : env.hash b2 ≠ 0)
    (hw1 : spec_change_weight env (ledger.process env t3 s b2).2 b1
      = spec_change_weight env s b1)
    (hw2 : spec_change_weight env (ledger.process env t1 s b1).2 b2
      = spec_change_weight env s b2)
    (ha1 : (ledger.process env t1 s b1).1.code = process_result.progress)
    (ha12 : (ledger.process env t2 (ledger.process env t1 s b1).2 b2).1.code
      = process_result.progress)
    (ha2 : (ledger.process env t3 s b2).1.code = process_result.progress)
    (ha21 : (ledger.process env t4 (ledger.process env t3 s b2).2 b1).1.code
      = process_result.progress) :
    spec_same_but_modified (ledger.process env t2 (ledger.process env t1 s b1).2 b2).2
        (ledger.process env t4 (ledger.process env t3 s b2).2 b1).2 ∧
      (t1 = t4 → t2 = t3 →
        (ledger.process env t2 (ledger.process env t1 s b1).2 b2).2 =
          (ledger.process env t4 (ledger.process env t3 s b2).2 b1).2) := by
  have hfh := frontier_invariant_heads s hFI
  have hf0 := frontier_invariant_zero s hFI h0
  obtain ⟨hh, hA, hS2⟩ := second_block_facts env t1 t2 t3 s b1 b2 hfh hf0 h0 hH2 ht1 ht2 hz1
    hw2 ha1 ha2 ha12
  obtain ⟨_, _, hS1⟩ := second_block_facts env t3 t4 t1 s b2 b1 hfh hf0 h0 hH2 ht2 ht1 hz2
    hw1 ha2 ha1 ha21
  obtain ⟨hn1, hst1⟩ := accepted_fresh env t1 s b1 ht1 ha1
  obtain ⟨hn2, hst2⟩ := accepted_fresh env t3 s b2 ht2 ha2
  have hD1 := accepted_extends env t1 s b1 hfh h0 ht1 ha1
  have hD2 := accepted_extends env t3 s b2 hfh h0 ht2 ha2
  obtain ⟨hfd1, _⟩ := effect_frontier_del env t1 s b1 ht1 ha1
  obtain ⟨hfd2, _⟩ := effect_frontier_del env t3 s b2 ht2 ha2
  obtain ⟨hpp1, hpd1, _⟩ := effect_pending env t1 s b1 ht1 ha1
  obtain ⟨hpp2, hpd2, _⟩ := effect_pending env t3 s b2 ht2 ha2
  obtain ⟨heh1, hec1, hea1⟩ := effect_fields env s b1
  obtain ⟨heh2, hec2, hea2⟩ := effect_fields env s b2
  have h11 : b1.previous ≠ env.hash b1 := stored_ne_fresh s _ _ hst1 hn1 hz1
  have h22 : b2.previous ≠ env.hash b2 := stored_ne_fresh s _ _ hst2 hn2 hz2
  have h12 : b1.previous ≠ env.hash b2 := stored_ne_fresh s _ _ hst1 hn2 hz2
  have h21 : b2.previous ≠ env.hash b1 := stored_ne_fresh s _ _ hst2 hn1 hz1
  have hpp : b1.previous = 0 ∨ b2.previous = 0 ∨ b1.previous ≠ b2.previous := by
    by_cases hp1 : b1.previous = 0
    · exact Or.inl hp1
    · by_cases hp2 : b2.previous = 0
      · exact Or.inr (Or.inl hp2)
      · refine Or.inr (Or.inr fun hp => ?_)
        obtain ⟨i1, hi1, hih1⟩ := head_of_extends s _ _ hp1 hD1
        obtain ⟨i2, hi2, hih2⟩ := head_of_extends s _ _ hp2 hD2
        exact hA (hH2 _ _ i1 i2 hi1 hi2 (by rw [hih1, hih2, hp]))
  have hcomm := effect_apply_comm s (spec_effect_of env s b1) (spec_effect_of env s b2)
    t1 t2 t3 t4 (by rw [heh1, heh2]; exact hh) (by rw [hea1, hea2]; exact hA)
    (by rw [heh1, hec1]; exact h11) (by rw [heh2, hec2]; exact h22)
    (by rw [heh2, hec1]; exact h12) (by rw [heh1, hec2]; exact h21)
    (by rw [hec1, hec2]; exact hpp)
    (fun kv k hkv hk he => by
      have h1 := hpp1 kv hkv
      have h2 := (hpd2 k hk).2
      rw [← he, h1, hn1] at h2
      cases h2)
    (fun kv k hkv hk he => by
      have h1 := hpp2 kv hkv
      have h2 := (hpd1 k hk).2
      rw [← he, h1, hn2] at h2
      cases h2)
    (fun kv kv1 hkv hkv1 he => by
      have h1 := hpp1 kv hkv
      have h2 := hpp2 kv1 hkv1
      rw [he, h2] at h1
      exact hh h1.symm)
    (fun d hd => by rw [heh2, (hfd1 d hd).1]; exact h12)
    (fun d hd => by rw [heh1, (hfd2 d hd).1]; exact h21)
  have hE12 : (ledger.process env t2 (ledger.process env t1 s b1).2 b2).2 =
      (spec_effect_of env s b2).apply t2 ((spec_effect_of env s b1).apply t1 s) := by
    rw [process_effect env t2 _ b2 hz2 ht2 ha12, hS2, process_effect env t1 s b1 hz1 ht1 ha1]
  have hE21 : (ledger.process env t4 (ledger.process env t3 s b2).2 b1).2 =
      (spec_effect_of env s b1).apply t4 ((spec_effect_of env s b2).apply t3 s) := by
    rw [process_effect env t4 _ b1 hz1 ht1 ha21, hS1, process_effect env t3 s b2 hz2 ht2 ha2]
  rw [hE12, hE21]
  obtain ⟨c1, c2, c3, c4, c5, c6, c7, c8, c9, c10⟩ := hcomm
  refine ⟨⟨c1, fun a => ?_, c2, c3, c4, c5, c6, c7, c8⟩, fun h14 h23 => ?_⟩
  · rw [c9, c10]
    exact timeless_update _ _ _ _ _ _ _ _ _ a
  · refine block_store_ext _ _ c1 ?_ c2 c3 c4 c5 c6 c7 c8
    rw [c9, c10, h14, h23]

theorem after_send1_accounts (a : Nat) (ha : after_send1.accounts a ≠ none) : a = 1 := by
  by_contra hne
  apply ha
  obtain ⟨_, _, _, _, he⟩ := send_block_accepted env 5 genesis send1 (by decide)
  show (ledger_processor.send_block env 5 genesis send1).2.accounts a = none
  rw [he, send_block_apply_accounts _ _ _ _ _ _ (by decide),
    Function.update_noteq (show a ≠ genesis.frontier_get send1.hashables.previous from hne)]
  show (if a = 1 then some (⟨34, 34, 34, 100, 1, 1⟩ : account_info) else none) = none
  rw [if_neg hne]

theorem after_send1_frontier_invariant : frontier_invariant after_send1 :=
  process_frontier_invariant env 5 genesis (block.send send1) genesis_frontier_invariant
    genesis_heads_stored rfl rfl (by decide)

theorem after_send1_heads_distinct : spec_heads_distinct after_send1 := by
  intro a a1 info info1 hi hi1 _
  rw [after_send1_accounts a (by rw [hi]; simp), after_send1_accounts a1 (by rw [hi1]; simp)]

/-- C26, amended, on the concrete ledger: after `send1`, the send `send3` of
account `1` (at time 7) and the open block `open2` of account `2` (at time 8)
give the same store in either order. -/
theorem process_order_independent_witness :
    (ledger.process env 8 (ledger.process env 7 after_send1 (block.send send3)).2
        (block.opening open2)).2 =
      (ledger.process env 7 (ledger.process env 8 after_send1 (block.opening open2)).2
        (block.send send3)).2 :=
  (process_order_independent env 7 8 8 7 after_send1 (block.send send3) (block.opening open2)
    after_send1_frontier_invariant after_send1_heads_distinct (by decide) (by decide)
    (by decide) (by decide) (by decide) rfl rfl (by decide) (by decide) (by decide)
    (by decide)).2 rfl rfl

/-- C26 fails as stated. After `send1`, the send `send3` of account `1` and the
open block `open2` of account `2` are accepted in both orders, the first call at
time 7 and the second at time 8; the record of account `1` is modified at 7 in
one store and at 8 in the other. In the store after `open2`, the astate blocks
`asset_mint` of account `1` and `asset_mint_other` of account `2`, which both
create asset `7`, are accepted in both orders, all at time 9; the block that
comes second is not stored, so `asset_mint_other` is stored in one store and
not in the other. -/
theorem process_order_changes_store :
    ((ledger.process env 7 after_send1 (block.send send3)).1.code = process_result.progress ∧
      (ledger.process env 8 (ledger.process env 7 after_send1 (block.send send3)).2
        (block.opening open2)).1.code = process_result.progress ∧
      (ledger.process env 7 after_send1 (block.opening open2)).1.code
        = process_result.progress ∧
      (ledger.process env 8 (ledger.process env 7 after_send1 (block.opening open2)).2
        (block.send send3)).1.code = process_result.progress ∧
      (ledger.process env 8 (ledger.process env 7 after_send1 (block.send send3)).2
        (block.opening open2)).2.accounts 1 = some ⟨13492, 34, 34, 85, 7, 3⟩ ∧
      (ledger.process env 8 (ledger.process env 7 after_send1 (block.opening open2)).2
        (block.send send3)).2.accounts 1 = some ⟨13492, 34, 34, 85, 8, 3⟩) ∧
    ((ledger.process env 9 after_open2 (block.astate asset_mint)).1.code
        = process_result.progress ∧
      (ledger.process env 9 (ledger.process env 9 after_open2 (block.astate asset_mint)).2
        (block.astate asset_mint_other)).1.code = process_result.progress ∧
      (ledger.process env 9 after_open2 (block.astate asset_mint_other)).1.code
        = process_result.progress ∧
      (ledger.process env 9 (ledger.process env 9 after_open2 (block.astate asset_mint_other)).2
        (block.astate asset_mint)).1.code = process_result.progress ∧
      (ledger.process env 9 (ledger.process env 9 after_open2 (block.astate asset_mint)).2
        (block.astate asset_mint_other)).2.block_get (env.hash (block.astate asset_mint_other))
        = none ∧
      (ledger.process env 9 (ledger.process env 9 after_open2 (block.astate asset_mint_other)).2
        (block.astate asset_mint)).2.block_get (env.hash (block.astate asset_mint_other))
        = some (block.astate asset_mint_other)) := by
  decide

/-- C32. After `change_latest` with a non-zero hash the record of the account
has `head`, `rep_block`, `balance` and `block_count` equal to the arguments (and
`modified` equal to the time of the call), and `open_block` equal to that of the
prior record if there was one and to `hash` otherwise; the records of all other
accounts are unchanged. -/
theorem change_latest_frame (env : ledger_env) (now : Nat) (s : block_store)
    (account hash rep_block balance block_count : Nat) (is_state : Bool) (hh : hash ≠ 0) :
    (ledger.change_latest env now s account hash rep_block balance block_count is_state).accounts
        account =
      some ⟨hash, rep_block, ((s.accounts account).map account_info.open_block).getD hash,
        balance, now, block_count⟩ ∧
    ∀ other, other ≠ account →
      (ledger.change_latest env now s account hash rep_block balance block_count
        is_state).accounts other = s.accounts other := by
  rw [change_latest_accounts _ _ _ _ _ _ _ _ _ hh]
  exact ⟨Function.update_same _ _ _, fun other ho => Function.update_noteq ho _ _⟩

/-- C32 on the concrete ledger: `change_latest` for account `1` of the genesis
store keeps its open block 34, and for the new account `2` takes the hash as
open block. -/
theorem change_latest_frame_witness :
    (ledger.change_latest env 5 genesis 1 1262 34 90 2 false).accounts 1
        = some ⟨1262, 34, 34, 90, 5, 2⟩ ∧
      (ledger.change_latest env 5 genesis 2 12664 12664 10 1 false).accounts 2
        = some ⟨12664, 12664, 12664, 10, 5, 1⟩ ∧
      (ledger.change_latest env 5 genesis 2 12664 12664 10 1 false).accounts 1
        = genesis.accounts 1 :=
  ⟨(change_latest_frame env 5 genesis 1 1262 34 90 2 false (by decide)).1,
    (change_latest_frame env 5 genesis 2 12664 12664 10 1 false (by decide)).1,
    (change_latest_frame env 5 genesis 2 12664 12664 10 1 false (by decide)).2 1 (by decide)⟩

/-! ## Asset records of reachable stores (C34) -/

/-- The property depends on the asset-account table only. -/
theorem asset_records_rooted_congr (s s1 : block_store)
    (h : s1.asset_accounts = s.asset_accounts) :
    asset_records_rooted s → asset_records_rooted s1 := by
  intro hs k info hk
  rw [h] at hk
  exact hs k info hk

/-- The asset-account table after `astate_block`: as before, or with the record
of the block's non-zero account and asset replaced by one whose head is the hash
of the block. -/
theorem astate_block_asset_accounts (env : ledger_env) (now : Nat) (s : block_store)
    (b : mol.astate_block) :
    (ledger_processor.astate_block env now s b).2.asset_accounts = s.asset_accounts ∨
      (b.hashables.account ≠ 0 ∧ ∃ rep_block open_block block_count : Nat,
        (ledger_processor.astate_block env now s b).2.asset_accounts
          = Function.update s.asset_accounts ⟨b.hashables.account, b.hashables.asset⟩
              (some ⟨env.hash (block.astate b), rep_block, open_block, b.hashables.balance,
                now, block_count⟩)) := by
  unfold ledger_processor.astate_block
  dsimp only
  by_cases h1 : s.block_exists (env.hash (block.astate b)) = true
  · rw [if_pos h1]; exact Or.inl rfl
  rw [if_neg h1]
  by_cases h2 : env.validate_message b.hashables.account (env.hash (block.astate b))
      b.signature = true
  · rw [if_pos h2]; exact Or.inl rfl
  rw [if_neg h2]
  by_cases h3 : b.hashables.account = 0
  · rw [if_pos h3]; exact Or.inl rfl
  rw [if_neg h3]
  by_cases h4 : s.account_exists b.hashables.account = false
  · rw [if_pos h4]; exact Or.inl rfl
  rw [if_neg h4]
  cases hg : s.account_get b.hashables.account with
  | none => exact Or.inl rfl
  | some info =>
    dsimp only
    by_cases h5 : s.asset_exists b.hashables.asset = true
    · rw [if_pos h5]
      by_cases h6 : s.asset_account_exists ⟨b.hashables.account, b.hashables.asset⟩ = true
      · rw [if_pos h6]
        by_cases h7 : b.hashables.previous = 0
        · rw [if_pos h7]; exact Or.inl rfl
        rw [if_neg h7]
        by_cases h8 : s.block_exists b.hashables.previous = false
        · rw [if_pos h8]; exact Or.inl rfl
        rw [if_neg h8]
        cases hag : s.asset_account_get ⟨b.hashables.account, b.hashables.asset⟩ with
        | none => exact Or.inl rfl
        | some ia =>
          dsimp only
          repeat' split
          all_goals first
            | exact Or.inl rfl
            | exact Or.inr ⟨h3, _, _, _, rfl⟩
      · rw [if_neg h6]
        repeat' split
        all_goals first
          | exact Or.inl rfl
          | exact Or.inr ⟨h3, _, _, _, rfl⟩
    · rw [if_neg h5]
      repeat' split
      all_goals first
        | exact Or.inl rfl
        | exact Or.inr ⟨h3, _, _, _, rfl⟩

/-- An astate block with a non-zero hash keeps the asset records rooted. -/
theorem astate_block_rooted (env : ledger_env) (now : Nat) (s : block_store)
    (b : mol.astate_block) (hnz : env.hash (block.astate b) ≠ 0) :
    asset_records_rooted s →
      asset_records_rooted (ledger_processor.astate_block env now s b).2 := by
  intro hs
  rcases astate_block_asset_accounts env now s b with h | ⟨h0, r, o, c, h⟩
  · exact asset_records_rooted_congr s _ h hs
  · intro k i hki
    rw [h] at hki
    by_cases e : k = ⟨b.hashables.account, b.hashables.asset⟩
    · rw [e, Function.update_same] at hki
      cases hki
      rw [e]
      exact ⟨h0, hnz⟩
    · rw [Function.update_noteq e] at hki
      exact hs k i hki

/-- A send, receive, open, change or state block leaves the asset-account table
as it is. -/
theorem process_native_asset_accounts (env : ledger_env) (now : Nat) (s : block_store)
    (b : block) (hkind : ∀ a, b ≠ block.astate a) :
    (ledger.process env now s b).2.asset_accounts = s.asset_accounts := by
  cases b with
  | send x =>
    show (ledger_processor.send_block env now s x).2.asset_accounts = _
    by_cases hc : (ledger_processor.send_block env now s x).1.code = process_result.progress
    · obtain ⟨_, _, _, _, he⟩ := send_block_accepted env now s x hc
      rw [he]
      simp [ledger_processor.send_block_apply]
    · rw [send_block_refused env now s x hc]
  | receive x =>
    show (ledger_processor.receive_block env now s x).2.asset_accounts = _
    by_cases hc : (ledger_processor.receive_block env now s x).1.code = process_result.progress
    · obtain ⟨_, _, _, _, p, _, he⟩ := receive_block_accepted env now s x hc
      rw [he]
      simp [ledger_processor.receive_block_apply]
    · rw [receive_block_refused env now s x hc]
  | opening x =>
    show (ledger_processor.open_block env now s x).2.asset_accounts = _
    by_cases hc : (ledger_processor.open_block env now s x).1.code = process_result.progress
    · obtain ⟨_, _, _, _, p, _, he⟩ := open_block_accepted env now s x hc
      rw [he]
      simp [ledger_processor.open_block_apply]
    · rw [open_block_refused env now s x hc]
  | change x =>
    show (ledger_processor.change_block env now s x).2.asset_accounts = _
    by_cases hc : (ledger_processor.change_block env now s x).1.code = process_result.progress
    · obtain ⟨_, _, _, he⟩ := change_block_accepted env now s x hc
      rw [he]
      simp [ledger_processor.change_block_apply]
    · rw [change_block_refused env now s x hc]
  | state x =>
    show (ledger_processor.state_block env now s x).2.asset_accounts = _
    by_cases hc : (ledger_processor.state_block env now s x).1.code = process_result.progress
    · obtain ⟨_, _, _, _, he⟩ := state_block_accepted env now s x hc
      rw [he]
      exact (state_block_apply_assets env now s x _ _ _).2
    · rw [state_block_refused env now s x hc]
  | astate x => exact absurd rfl (hkind x)

/-- Every undo of the rollback visitor leaves the asset-account table as it is,
so every returning run of `rollback` does. -/
theorem rollback_run_asset_accounts (env : ledger_env) (now : Nat) (t : block_store)
    (fuel : Nat) (s : block_store) (task : rollback_task) (s1 : block_store)
    (h : ledger.rollback_run env now fuel s task = some s1)
    (hs : s.asset_accounts = t.asset_accounts) : s1.asset_accounts = t.asset_accounts := by
  refine rollback_run_preserves env now (fun x => x.asset_accounts = t.asset_accounts)
    (fun s b p hs => ?_) (fun s b d a hs => ?_) (fun s b d a hs => ?_) (fun s b a hs => ?_)
    (fun s b r bal hs => ?_) (fun s k v hs => hs) (fun s k hs => hs) (fun s b r bal hs => ?_)
    fuel s task s1 h hs
  · rw [← hs]
    unfold rollback_visitor.send_block
    dsimp only
    split_ifs <;> simp
  · rw [← hs]
    unfold rollback_visitor.receive_block_undo
    dsimp only
    split_ifs <;> simp
  · rw [← hs]
    simp [rollback_visitor.open_block_undo]
  · rw [← hs]
    unfold rollback_visitor.change_block_undo
    dsimp only
    split_ifs <;> simp
  · rw [← hs]
    unfold rollback_visitor.state_block_weights
    dsimp only
    split_ifs <;> simp
  · rw [← hs]
    unfold rollback_visitor.state_block_rewind
    dsimp only
    split <;> [split_ifs; skip] <;> simp

/-- In every reachable store the records of the asset-account table belong to
non-zero accounts and have non-zero heads, the hash of an astate block never
being zero. -/
theorem reachable_asset_records_rooted (env : ledger_env)
    (hhash : ∀ x : mol.astate_block, env.hash (block.astate x) ≠ 0) (s : block_store)
    (h : reachable env s) : asset_records_rooted s := by
  induction h with
  | genesis g supply now =>
    intro k info hk
    simp [ledger.genesis_store] at hk
  | process s now b _ ih =>
    cases b with
    | astate x => exact astate_block_rooted env now s x (hhash x) ih
    | send x =>
      exact asset_records_rooted_congr s _
        (process_native_asset_accounts env now s _ (fun a h => by cases h)) ih
    | receive x =>
      exact asset_records_rooted_congr s _
        (process_native_asset_accounts env now s _ (fun a h => by cases h)) ih
    | opening x =>
      exact asset_records_rooted_congr s _
        (process_native_asset_accounts env now s _ (fun a h => by cases h)) ih
    | change x =>
      exact asset_records_rooted_congr s _
        (process_native_asset_accounts env now s _ (fun a h => by cases h)) ih
    | state x =>
      exact asset_records_rooted_congr s _
        (process_native_asset_accounts env now s _ (fun a h => by cases h)) ih
  | rollback s s1 now fuel target _ hr ih =>
    exact asset_records_rooted_congr s _
      (rollback_run_asset_accounts env now s fuel s _ s1 hr rfl) ih

/-- An astate block on the head of the asset record of its non-zero account,
with a balance not below that of the record and no link, is accepted and not
applied. -/
theorem astate_block_unapplied (env : ledger_env) (now : Nat) (s : block_store)
    (b : mol.astate_block) (info : account_info) (held : asset_account_info)
    (hnew : s.block_exists (env.hash (block.astate b)) = false)
    (hsig : env.validate_message b.hashables.account (env.hash (block.astate b)) b.signature
      = false)
    (hacc0 : b.hashables.account ≠ 0)
    (hacc : s.account_get b.hashables.account = some info)
    (hasset : s.asset_exists b.hashables.asset = true)
    (hheld : s.asset_account_get ⟨b.hashables.account, b.hashables.asset⟩ = some held)
    (hp0 : b.hashables.previous ≠ 0)
    (hstored : s.block_exists b.hashables.previous = true)
    (hhead : b.hashables.previous = held.head)
    (hbal : held.balance ≤ b.hashables.balance)
    (hlink : b.hashables.link = 0) :
    ledger.process env now s (block.astate b) =
      (⟨process_result.progress, 0, b.hashables.balance - held.balance, 0, false⟩, s) := by
  have hex : s.account_exists b.hashables.account = true := by
    simp only [block_store.account_exists, block_store.account_get] at hacc ⊢
    rw [hacc]; rfl
  have hax : s.asset_account_exists ⟨b.hashables.account, b.hashables.asset⟩ = true := by
    simp only [block_store.asset_account_exists, block_store.asset_account_get] at hheld ⊢
    rw [hheld]; rfl
  have hns : ¬ b.hashables.balance < held.balance := Nat.not_lt.mpr hbal
  show ledger_processor.astate_block env now s b = _
  unfold ledger_processor.astate_block
  simp only [hnew, hsig, hacc0, hex, hacc, hasset, hax, hp0, hstored, hheld, hhead, hns,
    hlink, process_return.init, if_true, if_false, Bool.false_eq_true, ne_eq,
    not_true_eq_false, not_false_eq_true, decide_False]
  have hst : ¬ s.blocks b.hashables.previous = none := by
    intro hn
    simp [block_store.block_exists, hn] at hstored
  simp [← hhead, hp0, hst]

/-- C34. In every reachable store (the hash of an astate block never being
zero) in which the account, the asset and the account's asset record exist,
`previous` is stored and equals the head of the asset record, the balance of the
block is not below that of the asset record and `link` is zero, `process` of the
astate block (valid signature, new hash) returns `progress` with the balance
difference as amount and leaves the store as it is, so the block is not
stored. -/
theorem astate_progress_without_apply (env : ledger_env) (now : Nat) (s : block_store)
    (b : mol.astate_block) (info : account_info) (held : asset_account_info)
    (hhash : ∀ x : mol.astate_block, env.hash (block.astate x) ≠ 0)
    (hreach : reachable env s)
    (hnew : s.block_exists (env.hash (block.astate b)) = false)
    (hsig : env.validate_message b.hashables.account (env.hash (block.astate b)) b.signature
      = false)
    (hacc : s.account_get b.hashables.account = some info)
    (hasset : s.asset_exists b.hashables.asset = true)
    (hheld : s.asset_account_get ⟨b.hashables.account, b.hashables.asset⟩ = some held)
    (hstored : s.block_exists b.hashables.previous = true)
    (hhead : b.hashables.previous = held.head)
    (hbal : held.balance ≤ b.hashables.balance)
    (hlink : b.hashables.link = 0) :
    (ledger.process env now s (block.astate b)).1 =
        ⟨process_result.progress, 0, b.hashables.balance - held.balance, 0, false⟩ ∧
      (ledger.process env now s (block.astate b)).2 = s ∧
      (ledger.process env now s (block.astate b)).2.block_exists (env.hash (block.astate b))
        = false := by
  obtain ⟨h0, hh⟩ := reachable_asset_records_rooted env hhash s hreach _ held hheld
  rw [astate_block_unapplied env now s b info held hnew hsig h0 hacc hasset hheld
    (by rw [hhead]; exact hh) hstored hhead hbal hlink]
  exact ⟨rfl, rfl, hnew⟩

/-- The store after the asset was created is reachable. -/
theorem after_asset_create_reachable : reachable env after_asset_create :=
  reachable.process _ 7 _ (reachable.process _ 6 _
    (reachable.process _ 5 _ (reachable.genesis genesis_block 100 1)))

/-- C34 on the concrete ledger: after account `1` created asset `7` with
`2 ^ 128 - 1` units, a second asset block of account `1` on the asset head with
the same balance and no link is accepted and not stored. -/
theorem astate_progress_without_apply_witness :
    (ledger.process env 9 after_asset_create
        (block.astate ⟨⟨1, hash (block.astate asset_create), 1, 2 ^ 128 - 1, 0, 7⟩, 1⟩)).1.code
        = process_result.progress ∧
      (ledger.process env 9 after_asset_create
        (block.astate ⟨⟨1, hash (block.astate asset_create), 1, 2 ^ 128 - 1, 0, 7⟩, 1⟩)).2
        = after_asset_create :=
  have h := astate_progress_without_apply env 9 after_asset_create
    ⟨⟨1, hash (block.astate asset_create), 1, 2 ^ 128 - 1, 0, 7⟩, 1⟩
    ⟨1262, 34, 34, 90, 5, 2⟩
    ⟨hash (block.astate asset_create), 34, hash (block.astate asset_create), 2 ^ 128 - 1, 7, 1⟩
    (fun x => by show 10 * _ + 7 ≠ 0; omega) after_asset_create_reachable
    (by decide) (by decide) (by decide) (by decide) (by decide) (by decide) (by decide)
    (by decide) (by decide)
  ⟨by rw [h.1], h.2.1⟩

/-- C35. Asset sends and native receives share one pending table. In the store
`after_asset_create` (account `1` holds asset `7`, account `2` holds 10 native
units with representation 10 on its open block 12664) `process` accepts the
astate send `asset_gift` of account `1` with link `2`: it creates the pending
entry `(2, hash) -> (1, 3)` and leaves every account record as it was. The
native state block `state_claim` of account `2`, with that hash as link and
balance `10 + 3`, is then accepted: the entry is deleted, the native balance of
account `2` is 13 and the representation of its representative block is 13. -/
theorem asset_send_claimed_by_state_block :
    (ledger.process env 8 after_asset_create (block.astate asset_gift)).1.code
        = process_result.progress ∧
      (ledger.process env 8 after_asset_create (block.astate asset_gift)).1.amount = 3 ∧
      asset_gift.hashables.link = 2 ∧
      after_asset_create.pending ⟨2, env.hash (block.astate asset_gift)⟩ = none ∧
      after_asset_gift.pending ⟨2, env.hash (block.astate asset_gift)⟩ = some ⟨1, 3⟩ ∧
      after_asset_gift.accounts = after_asset_create.accounts ∧
      after_asset_gift.accounts 2 = some ⟨12664, 12664, 12664, 10, 6, 1⟩ ∧
      after_asset_gift.representation 12664 = 10 ∧
      state_claim.hashables.link = env.hash (block.astate asset_gift) ∧
      state_claim.hashables.balance = 10 + 3 ∧
      (ledger.process env 9 after_asset_gift (block.state state_claim)).1.code
        = process_result.progress ∧
      after_state_claim.pending ⟨2, env.hash (block.astate asset_gift)⟩ = none ∧
      after_state_claim.accounts 2 =
        some ⟨env.hash (block.state state_claim), env.hash (block.state state_claim), 12664,
          10 + 3, 9, 2⟩ ∧
      after_state_claim.representation (env.hash (block.state state_claim)) = 10 + 3 ∧
      after_state_claim.representation 12664 = 0 := by
  refine ⟨by decide, by decide, rfl, by decide, by decide, ?_, by decide, by decide, rfl, rfl,
    by decide, by decide, by decide, by decide, by decide⟩
  exact (astate_block_tables env 8 after_asset_create asset_gift).2.1

/-! ## `account_pending` (C33) -/

theorem account_pending_loop_shift (x : pending_key × pending_info)
    (rows : List (pending_key × pending_info)) :
    ∀ fuel i n result,
      ledger.account_pending_loop (x :: rows) fuel (i + 1) (n + 1) result =
        ledger.account_pending_loop rows fuel i n result := by
  intro fuel
  induction fuel with
  | zero => intro i n result; rfl
  | succ fuel ih =>
    intro i n result
    rw [ledger.account_pending_loop, ledger.account_pending_loop]
    by_cases hin : i = n
    · rw [if_pos hin, if_pos (by omega)]
    · rw [if_neg hin, if_neg (by omega), List.getElem?_cons_succ]
      cases rows[i]? with
      | none => rfl
      | some row => exact ih _ _ _

theorem pending_begin_cons (x : pending_key × pending_info)
    (rows : List (pending_key × pending_info)) (key : pending_key) :
    pending_begin (x :: rows) key =
      if pending_key.below x.1 key = true then pending_begin rows key + 1 else 0 := by
  unfold pending_begin
  rw [List.takeWhile_cons]
  split_ifs <;> simp_all

theorem below_account_start (k : pending_key) (a : Nat) :
    pending_key.below k ⟨a, 0⟩ = decide (k.account < a) := by
  unfold pending_key.below
  simp

theorem pending_begin_none (rows : List (pending_key × pending_info)) (a : Nat)
    (h : ∀ y ∈ rows, a ≤ y.1.account) : pending_begin rows ⟨a, 0⟩ = 0 := by
  cases rows with
  | nil => rfl
  | cons y rows =>
    rw [pending_begin_cons, below_account_start, if_neg]
    have := h y (List.mem_cons_self _ _)
    simp only [decide_eq_true_eq]
    omega

theorem below_account_le (x y : pending_key) (h : pending_key.below x y = true) :
    x.account ≤ y.account := by
  unfold pending_key.below at h
  simp only [decide_eq_true_eq] at h
  omega

/-- The loop of `account_pending` between the two positions of an account adds
up the amounts of its rows. -/
theorem account_pending_loop_sum (a : Nat) :
    ∀ (rows : List (pending_key × pending_info)),
      rows.Pairwise (fun x y => pending_key.below x.1 y.1 = true) →
      ∀ fuel result, rows.length + 1 ≤ fuel → result < 2 ^ 128 →
        ledger.account_pending_loop rows fuel (pending_begin rows ⟨a, 0⟩)
            (pending_begin rows ⟨a + 1, 0⟩) result =
          some ((result + spec_pending_sum rows a) % 2 ^ 128) := by
  intro rows
  induction rows with
  | nil =>
    intro _ fuel result hf hr
    obtain ⟨f, rfl⟩ : ∃ f, fuel = f + 1 := ⟨fuel - 1, by simp at hf; omega⟩
    rw [ledger.account_pending_loop]
    simp only [pending_begin, spec_pending_sum, List.takeWhile_nil, List.length_nil, if_true,
      List.filter_nil, List.map_nil, List.sum_nil, Nat.add_zero, Nat.mod_eq_of_lt hr]
  | cons x rows ih =>
    intro hs fuel result hf hr
    obtain ⟨hx, hrest⟩ := List.pairwise_cons.mp hs
    have hge : ∀ y ∈ rows, x.1.account ≤ y.1.account :=
      fun y hy => below_account_le _ _ (hx y hy)
    rw [pending_begin_cons, pending_begin_cons, below_account_start, below_account_start]
    simp only [decide_eq_true_eq]
    by_cases h1 : x.1.account < a
    · rw [if_pos h1, if_pos (by omega), account_pending_loop_shift]
      rw [ih hrest fuel result (by simp at hf ⊢; omega) hr]
      have hne : ¬ x.1.account = a := by omega
      simp [spec_pending_sum, List.filter_cons, hne]
    · rw [if_neg h1]
      by_cases h2 : x.1.account = a
      · rw [if_pos (by omega)]
        obtain ⟨f, rfl⟩ : ∃ f, fuel = f + 1 := ⟨fuel - 1, by simp at hf; omega⟩
        rw [ledger.account_pending_loop, if_neg (by omega)]
        simp only [List.getElem?_cons_zero]
        rw [account_pending_loop_shift]
        have hb : pending_begin rows ⟨a, 0⟩ = 0 :=
          pending_begin_none rows a (fun y hy => by rw [← h2]; exact hge y hy)
        have := ih hrest f ((result + x.2.amount) % 2 ^ 128) (by simp at hf ⊢; omega)
          (Nat.mod_lt _ (by norm_num))
        rw [hb] at this
        rw [this]
        simp only [spec_pending_sum, List.filter_cons, h2, decide_True, if_true, List.map_cons,
          List.sum_cons]
        congr 1
        omega
      · rw [if_neg (by omega)]
        obtain ⟨f, rfl⟩ : ∃ f, fuel = f + 1 := ⟨fuel - 1, by simp at hf; omega⟩
        rw [ledger.account_pending_loop, if_pos rfl]
        have hnil : (rows.filter fun y => decide (y.1.account = a)) = [] := by
          rw [List.filter_eq_nil_iff]
          intro y hy
          have := hge y hy
          simp only [decide_eq_true_eq]
          omega
        simp only [spec_pending_sum, List.filter_cons, h2, decide_False, hnil, List.map_nil,
          List.sum_nil, Nat.add_zero, Nat.mod_eq_of_lt hr, Bool.false_eq_true, if_false]

/-- C33. For every account below the maximal 256-bit value, `account_pending`
returns the sum modulo `2 ^ 128` of the amounts of the rows of the pending table
whose destination is that account, and these rows are exactly the pending
entries of the store with that destination (none: the sum is zero). The
function reads the table and returns a number; it has no store to return. -/
theorem account_pending_sum (s : block_store) (rows : List (pending_key × pending_info))
    (account : Nat) (hrows : spec_pending_rows s rows) (hmax : account + 1 < 2 ^ 256) :
    ledger.account_pending rows account = some (spec_pending_sum rows account % 2 ^ 128) ∧
      (∀ k v, (k, v) ∈ (rows.filter fun x => decide (x.1.account = account)) ↔
        (s.pending k = some v ∧ k.account = account)) ∧
      ((∀ k, k.account = account → s.pending k = none) →
        ledger.account_pending rows account = some 0) := by
  have hsum : ledger.account_pending rows account
      = some (spec_pending_sum rows account % 2 ^ 128) := by
    unfold ledger.account_pending
    simp only [Nat.mod_eq_of_lt hmax]
    rw [account_pending_loop_sum account rows hrows.1 _ 0 (le_refl _) (by norm_num)]
    simp
  have hmem : ∀ k v, (k, v) ∈ (rows.filter fun x => decide (x.1.account = account)) ↔
      (s.pending k = some v ∧ k.account = account) := by
    intro k v
    rw [List.mem_filter, hrows.2 k v]
    simp
  refine ⟨hsum, hmem, fun hnone => ?_⟩
  rw [hsum]
  have hnil : (rows.filter fun x => decide (x.1.account = account)) = [] := by
    rw [List.eq_nil_iff_forall_not_mem]
    rintro ⟨k, v⟩ hkv
    obtain ⟨hp, ha⟩ := (hmem k v).mp hkv
    rw [hnone k ha] at hp
    cases hp
  simp [spec_pending_sum, hnil]

theorem pending_three_listing : spec_pending_rows pending_three pending_three_rows := by
  refine ⟨by decide, fun k v => ?_⟩
  have hp : pending_three.pending k =
      if k = ⟨2, 1262⟩ then some ⟨1, 10⟩
      else if k = ⟨2, 13492⟩ then some ⟨1, 5⟩
      else if k = ⟨3, 7⟩ then some ⟨1, 1⟩ else none := rfl
  rw [hp]
  simp only [pending_three_rows, List.mem_cons, List.mem_singleton, Prod.mk.injEq,
    List.mem_nil_iff, or_false]
  constructor
  · intro h
    split_ifs at h with h1 h2 h3
    · cases h; exact Or.inl ⟨h1, rfl⟩
    · cases h; exact Or.inr (Or.inl ⟨h2, rfl⟩)
    · cases h; exact Or.inr (Or.inr ⟨h3, rfl⟩)
  · rintro (⟨rfl, rfl⟩ | ⟨rfl, rfl⟩ | ⟨rfl, rfl⟩)
    · rfl
    · rfl
    · rfl

/-- C33 on a concrete pending table: with entries of 10 and 5 for account `2`
and of 1 for account `3`, `account_pending` is 15 for account `2` and 0 for
account `4`. -/
theorem account_pending_sum_witness :
    ledger.account_pending pending_three_rows 2 = some 15 ∧
      ledger.account_pending pending_three_rows 4 = some 0 :=
  ⟨(account_pending_sum pending_three pending_three_rows 2 pending_three_listing
      (by norm_num)).1,
    (account_pending_sum pending_three pending_three_rows 4 pending_three_listing
      (by norm_num)).2.2 (fun k hk => by
        have hp : pending_three.pending k =
            if k = ⟨2, 1262⟩ then some ⟨1, 10⟩
            else if k = ⟨2, 13492⟩ then some ⟨1, 5⟩
            else if k = ⟨3, 7⟩ then some ⟨1, 1⟩ else none := rfl
        rw [hp]
        split_ifs with h1 h2 h3
        · rw [h1] at hk; exact absurd hk (by decide)
        · rw [h2] at hk; exact absurd hk (by decide)
        · rw [h3] at hk; exact absurd hk (by decide)
        · rfl)⟩

/-! ## The sidecar under rollback (C31) -/

/-- Sidecar after the rewind of a state block: `change_latest` is called without
`is_state`, and writes an entry for `previous` when the lowered block count is a
multiple of the period. -/
theorem state_block_rewind_block_infos (env : ledger_env) (now : Nat) (s : block_store)
    (b : mol.state_block) (representative balance : Nat) :
    (rollback_visitor.state_block_rewind env now s b representative balance).block_infos =
      if b.hashables.previous ≠ 0 ∧
          (((s.account_get b.hashables.account).getD account_info.zero).block_count - 1)
            % env.block_info_max = 0 then
        Function.update s.block_infos b.hashables.previous
          (some ⟨b.hashables.account, balance⟩)
      else s.block_infos := by
  unfold rollback_visitor.state_block_rewind
  dsimp only
  split <;> [split_ifs; skip] <;> simp_all [change_latest_block_infos]

/-- C31 fails for `rollback`. With a sidecar period of two, account `1` of the
genesis ledger gets the state blocks `state1` (hash 1286, second block) and
`state_again` (hash 13786, third block); `process` accepts both and writes no
sidecar entry. `rollback (13786)` returns, and its store holds a sidecar entry
`(1, 90)` for the block 1286, which is a state block still stored. -/
theorem rollback_writes_sidecar_for_state_block :
    (ledger.process env_small 5 genesis (block.state state1)).1.code
        = process_result.progress ∧
      (ledger.process env_small 6 after_state1 (block.state state_again)).1.code
        = process_result.progress ∧
      after_state_again.block_get 1286 = some (block.state state1) ∧
      after_state_again.block_infos 1286 = none ∧
      ∃ s2, ledger.rollback env_small 9 4 after_state_again 13786 = some s2 ∧
        s2.block_get 1286 = some (block.state state1) ∧
        s2.block_infos 1286 = some ⟨1, 90⟩ := by
  refine ⟨by decide, by decide, by decide, by decide, ?_⟩
  · have hvisit := (rollback_visit_state env_small 9 0 after_state_again state_again).2.2
      (by decide) rfl
    refine ⟨_, rollback_single env_small 9 1 after_state_again _ 13786 1
      ⟨13786, 13786, 34, 90, 6, 3⟩ (block.state state_again)
      (account_state_block after_state_again 3 13786 0 state_again (by decide))
      (by decide) (by decide) rfl (by decide) hvisit
      (state_block_rewind_blocks_self _ _ _ _ _ _), ?_, ?_⟩
    · rw [state_block_rewind_block_get]
      simp only [block_store.block_get, state_block_weights_blocks]
      decide
    · rw [state_block_rewind_block_infos, if_pos]
      · rw [show state_again.hashables.previous = 1286 from rfl, Function.update_same]
        have hb : (rollback_visitor.state_block_locals env_small after_state_again
            state_again).2 = 90 := by decide
        rw [hb]
        rfl
      · refine ⟨by decide, ?_⟩
        simp only [block_store.account_get, state_block_weights_accounts]
        decide

theorem block_count_getD (o : Option account_info) :
    (o.map account_info.block_count).getD 0 = (o.getD account_info.zero).block_count := by
  cases o <;> rfl

/-- The sidecar under `process`: an entry changes only under the hash of the
processed block, and then the block is a send, receive, open or change block
and the block count written for its account is a multiple of the period. -/
theorem process_sidecar (env : ledger_env) (now : Nat) (s : block_store) (b : block) (k : Nat)
    (hk : (ledger.process env now s b).2.block_infos k ≠ s.block_infos k) :
    k = env.hash b ∧ b.type < block_type_state ∧
      spec_block_count (ledger.process env now s b).2 (ledger.process env now s b).1.account
        % env.block_info_max = 0 := by
  have hcode : (ledger.process env now s b).1.code = process_result.progress := by
    by_contra hc
    apply hk
    cases b with
    | send x => rw [show (ledger.process env now s (block.send x)).2 = s from
        send_block_refused env now s x hc]
    | receive x => rw [show (ledger.process env now s (block.receive x)).2 = s from
        receive_block_refused env now s x hc]
    | opening x => rw [show (ledger.process env now s (block.opening x)).2 = s from
        open_block_refused env now s x hc]
    | change x => rw [show (ledger.process env now s (block.change x)).2 = s from
        change_block_refused env now s x hc]
    | state x => rw [show (ledger.process env now s (block.state x)).2 = s from
        state_block_refused env now s x hc]
    | astate x =>
      exact congrFun (astate_block_tables env now s x).2.2.1 k
  by_cases hz : env.hash b = 0
  · exfalso
    apply hk
    cases b with
    | send x =>
      obtain ⟨_, _, _, _, he⟩ := send_block_accepted env now s x hcode
      show (ledger_processor.send_block env now s x).2.block_infos k = _
      rw [he]
      simp [ledger_processor.send_block_apply, change_latest_block_infos, hz]
    | receive x =>
      obtain ⟨_, _, _, _, p, _, he⟩ := receive_block_accepted env now s x hcode
      show (ledger_processor.receive_block env now s x).2.block_infos k = _
      rw [he]
      simp [ledger_processor.receive_block_apply, change_latest_block_infos, hz]
    | opening x =>
      obtain ⟨_, _, _, _, p, _, he⟩ := open_block_accepted env now s x hcode
      show (ledger_processor.open_block env now s x).2.block_infos k = _
      rw [he]
      simp [ledger_processor.open_block_apply, change_latest_block_infos, hz]
    | change x =>
      obtain ⟨_, _, _, he⟩ := change_block_accepted env now s x hcode
      show (ledger_processor.change_block env now s x).2.block_infos k = _
      rw [he]
      simp [ledger_processor.change_block_apply, change_latest_block_infos, hz]
    | state x =>
      obtain ⟨_, _, _, _, he⟩ := state_block_accepted env now s x hcode
      show (ledger_processor.state_block env now s x).2.block_infos k = _
      rw [he, state_block_apply_block_infos]
    | astate x => exact congrFun (astate_block_tables env now s x).2.2.1 k
  · by_cases ht : b.type ≤ block_type_state
    · have hE := process_effect env now s b hz ht hcode
      have hcount := process_block_count env now s b hz ht hcode
      obtain ⟨heh, _, hea⟩ := effect_fields env s b
      rw [hE] at hk
      have hside : (spec_effect_of env s b).sidecar = true := by
        by_contra hs
        apply hk
        show (if (spec_effect_of env s b).sidecar = true then _ else s.block_infos) k = _
        rw [if_neg hs]
      have hkh : k = env.hash b := by
        by_contra hne
        apply hk
        show (if (spec_effect_of env s b).sidecar = true then
          Function.update s.block_infos (spec_effect_of env s b).hash _ else s.block_infos) k = _
        rw [if_pos hside, heh, Function.update_noteq hne]
      refine ⟨hkh, ?_, ?_⟩
      · cases b with
        | state x => cases hside
        | astate x => exact absurd ht (by simp [block.type, block_type_state])
        | _ => simp [block.type, block_type_state]
      · rw [hcount, process_account_of_progress env now s b hcode]
        unfold spec_block_count
        rw [block_count_getD]
        cases b with
        | send x => simpa [spec_effect_of, spec_block_count, spec_block_account,
            account_info.zero] using hside
        | receive x => simpa [spec_effect_of, spec_block_count, spec_block_account,
            account_info.zero] using hside
        | opening x =>
          obtain ⟨_, _, hnone, _⟩ := open_block_accepted env now s x hcode
          simpa [spec_effect_of, spec_block_count, spec_block_account,
            account_info.zero, hnone] using hside
        | change x => simpa [spec_effect_of, spec_block_count, spec_block_account,
            account_info.zero] using hside
        | state x => cases hside
        | astate x => exact absurd ht (by simp [block.type, block_type_state])
    · exfalso
      apply hk
      cases b with
      | astate x => exact congrFun (astate_block_tables env now s x).2.2.1 k
      | _ => exact absurd (by simp [block.type, block_type_state]) ht

/-! ## Blocks on a record without representative (C7, C22) -/

namespace example_ledger

end example_ledger
end mol
